import Mathlib

/-!
# MyOnDiskFS: a shallow embedding of the on-disk file system core

The definitions below transcribe `src/src/blockdevice.cpp`, `src/includes/myfs-structs.h`
and `src/src/myondiskfs.cpp`.

Conventions of the embedding.

* Byte buffers (`char *`) are functions `Nat → Nat` from a byte offset to a byte value.
* `unsigned short` is a `Nat` reduced modulo `2^16`, `size_t` a `Nat` modulo `2^64`,
  `int` an `Int` wrapped to 32 bits and `off_t` an `Int` wrapped to 64 bits
  (the FUSE headers refuse to compile with a narrower `off_t`).
* Object representations are little-endian (x86).
* A C string (`const char *path`) is the list of its characters before the terminating NUL.
* A read outside an array, a read of an uninitialised scalar, and a loop that cannot
  terminate have no defined result in C++; the operations return `Except Fault _` and
  report such executions as a `Fault`.
-/

namespace MyOnDiskFS

/-! ## Constants (`myfs-structs.h`, `errno.h`) -/

def BLOCK_SIZE : Nat := 512
def TOTAL_BLT_ENTRIES : Nat := 0x10000
def BLT_BLOCKS : Nat := 256
def BLT_ENTRIES_PER_BLOCK : Nat := 256
def BLT_FREE : Nat := 0x0000
def BLT_EOF : Nat := 0x0001
def BLT_RSV : Nat := 0x0002
def TOTAL_FAT_ENTRIES : Nat := 64
def FAT_BLOCKS : Nat := 8
def FAT_ENTRIES_PER_BLOCK : Nat := 8
def MAX_NAME_LENGTH : Nat := 32

def ENOENT : Int := 2
def EEXIST : Int := 17
def ENOSPC : Int := 28
def ENAMETOOLONG : Int := 36
def ENOTDIR : Int := 20

/-! ## Machine integers -/

/-- Conversion to `unsigned short`. -/
def toU16 (x : Int) : Nat := (x % 65536).toNat

/-- Conversion to a 32-bit unsigned integer (`uid_t`, `gid_t`, `mode_t`). -/
def toU32 (x : Int) : Nat := (x % 4294967296).toNat

/-- Conversion to `size_t` / `unsigned long`. -/
def toU64 (x : Int) : Nat := (x % 18446744073709551616).toNat

/-- Conversion to `int` (two's complement wrap). -/
def toI32 (x : Int) : Int := (x + 2147483648) % 4294967296 - 2147483648

/-- Conversion to `off_t` / `long` (two's complement wrap). -/
def toI64 (x : Int) : Int :=
  (x + 9223372036854775808) % 18446744073709551616 - 9223372036854775808

/-! ## Memory -/

/-- A byte buffer: offset to byte value. -/
abbrev Bytes := Nat → Nat

/-- The effect of `memcpy(dst + d, src + s, n)` on the destination buffer. -/
def memcpy (dst : Bytes) (d : Nat) (src : Bytes) (s : Nat) (n : Nat) : Bytes :=
  fun i => if d ≤ i ∧ i < d + n then src (s + (i - d)) else dst i

/-- Little-endian object representation of an unsigned value: byte `k`. -/
def leBytes (v : Nat) : Bytes := fun k => (v / 256 ^ k) % 256

/-- The unsigned value held by the `n` bytes at `p` (little-endian). -/
def leValue (buf : Bytes) (p : Nat) : Nat → Nat
  | 0 => 0
  | n + 1 => buf p % 256 + 256 * leValue buf (p + 1) n

/-- The bytes of a `char[]` field as a buffer. -/
def arrBytes (a : List Nat) : Bytes := fun k => a.getD k 0

/-- The `n` bytes at `p` as a `char[n]` value. -/
def readArr (buf : Bytes) (p n : Nat) : List Nat := (List.range n).map (fun k => buf (p + k))

/-- What the C library reads from a `char[]` as a string: the bytes before the first NUL.
This is the string for an array that holds a zero byte.  A name field holding none is
read on into the members behind it (`fatEntry.bytesFromName`, `strcmpFrom`,
`readdirFrom`); `getFileIndex`, which compares through `cstr` of the field, is the lookup
on tables whose name fields each hold a zero byte (`getFileIndexBytewise_eq`). -/
def cstr (a : List Nat) : List Nat := a.takeWhile (fun c => c ≠ 0)

/-! ## Block device (`blockdevice.cpp`) -/

/-- The container file: its length in whole blocks and the content of each block.
`log` records the `BlockDevice::write` calls made on the container so far, block number
and content, in the order they were issued; no operation reads it. -/
structure BlockDevice where
  size : Nat
  data : Nat → Bytes
  log : List (Nat × Bytes) := []

namespace BlockDevice

/-- Result of `BlockDevice::create` on a path: an empty container. -/
def create : BlockDevice := { size := 0, data := fun _ _ => 0 }

/-- `BlockDevice::read`: seek to the block and read `blockSize` bytes.  Past the end of
the container the `::read` is short, the call fails and `buffer` keeps its content.
Returns the success flag and the buffer. -/
def read (d : BlockDevice) (blockNo : Nat) (buffer : Bytes) : Bool × Bytes :=
  if blockNo < d.size then (true, fun j => if j < BLOCK_SIZE then d.data blockNo j else buffer j)
  else (false, buffer)

/-- `BlockDevice::write`: seek to the block and write `blockSize` bytes; a write beyond
the end extends the container, the gap reading as zero bytes. -/
def write (d : BlockDevice) (blockNo : Nat) (buffer : Bytes) : BlockDevice :=
  { size := max d.size (blockNo + 1)
    data := fun b j => if b = blockNo then buffer j else if b < d.size then d.data b j else 0
    log := d.log ++ [(blockNo, buffer)] }

end BlockDevice

/-! ## File allocation table entry (`myfs-structs.h`) -/

/-- The in-memory `struct fatEntry`. -/
structure fatEntry where
  filename : List Nat
  uid : Nat
  groupId : Nat
  mode : Nat
  accessTime : Int
  modTime : Int
  changeTime : Int
  startBlock : Nat
  nrBlocks : Nat
  size : Int
  deriving DecidableEq, Repr

/-- The values a `fatEntry` can hold given the C types of its fields. -/
structure fatEntry.Typed (e : fatEntry) : Prop where
  name_len : e.filename.length = MAX_NAME_LENGTH
  name_byte : ∀ c ∈ e.filename, c < 256
  uid_lt : e.uid < 4294967296
  gid_lt : e.groupId < 4294967296
  mode_lt : e.mode < 4294967296
  atime : -2147483648 ≤ e.accessTime ∧ e.accessTime < 2147483648
  mtime : -2147483648 ≤ e.modTime ∧ e.modTime < 2147483648
  ctime : -2147483648 ≤ e.changeTime ∧ e.changeTime < 2147483648
  start_lt : e.startBlock < 65536
  nr_lt : e.nrBlocks < 65536
  size_rng : -9223372036854775808 ≤ e.size ∧ e.size < 9223372036854775808

/-- The file system object: `fat[64]`, `blt[0x10000]` and the block device. -/
structure FS where
  fat : Nat → fatEntry
  blt : Nat → Nat
  blockDevice : BlockDevice

/-- What the process sees of its environment during one call: `getuid()`, `getgid()`,
`time(0)` and the content of a buffer freshly obtained from `new char[BLOCK_SIZE]`. -/
structure Env where
  uid : Nat
  gid : Nat
  now : Int
  heap : Bytes

/-- The value of `int systemTime = time(0)`. -/
def Env.systemTime (env : Env) : Int := toI32 env.now

/-- Executions without a defined result. -/
inductive Fault where
  | outOfBounds
  | uninitialised
  | overflow
  | diverges
  deriving DecidableEq, Repr

/-! ## Persisting and loading the tables -/

/-- Body of the inner loop of `writeFat`: the ten `memcpy` calls that lay entry `e`
down at `ptr`. -/
def putFatEntry (buffer : Bytes) (ptr : Nat) (e : fatEntry) : Bytes :=
  let b := memcpy buffer ptr (arrBytes e.filename) 0 MAX_NAME_LENGTH
  let b := memcpy b (ptr + 32) (leBytes e.uid) 0 4
  let b := memcpy b (ptr + 36) (leBytes e.groupId) 0 4
  let b := memcpy b (ptr + 40) (leBytes e.mode) 0 4
  let b := memcpy b (ptr + 44) (leBytes (toU32 e.accessTime)) 0 4
  let b := memcpy b (ptr + 48) (leBytes (toU32 e.modTime)) 0 4
  let b := memcpy b (ptr + 52) (leBytes (toU32 e.changeTime)) 0 4
  let b := memcpy b (ptr + 56) (leBytes e.startBlock) 0 2
  let b := memcpy b (ptr + 58) (leBytes e.nrBlocks) 0 2
  memcpy b (ptr + 60) (leBytes (toU64 e.size)) 0 4

/-- Body of the inner loop of `readFat`: the entry decoded from the 64 bytes at `ptr`.
The local `e` is value-initialised and only the low four bytes of `e.size` are
ever overwritten, so the upper bytes stay zero. -/
def getFatEntry (buffer : Bytes) (ptr : Nat) : fatEntry :=
  { filename := readArr buffer ptr MAX_NAME_LENGTH
    uid := leValue buffer (ptr + 32) 4
    groupId := leValue buffer (ptr + 36) 4
    mode := leValue buffer (ptr + 40) 4
    accessTime := toI32 (leValue buffer (ptr + 44) 4)
    modTime := toI32 (leValue buffer (ptr + 48) 4)
    changeTime := toI32 (leValue buffer (ptr + 52) 4)
    startBlock := leValue buffer (ptr + 56) 2
    nrBlocks := leValue buffer (ptr + 58) 2
    size := leValue buffer (ptr + 60) 4 }

/-- The buffer of `writeFat` after the inner loop has laid down the entries of block
`blockNumber`. -/
def fatBlock (fat : Nat → fatEntry) (blockNumber : Nat) (buffer : Bytes) : Bytes :=
  (List.range FAT_ENTRIES_PER_BLOCK).foldl
    (fun b i => putFatEntry b (64 * i) (fat (blockNumber * FAT_ENTRIES_PER_BLOCK + i))) buffer

/-- `MyOnDiskFS::writeFat`: the container after the eight FAT blocks are written.
`buffer` is the initial content of the `new char[BLOCK_SIZE]`. -/
def writeFat (fat : Nat → fatEntry) (dev : BlockDevice) (buffer : Bytes) : BlockDevice :=
  ((List.range FAT_BLOCKS).foldl
    (fun (st : BlockDevice × Bytes) blockNumber =>
      let b := fatBlock fat blockNumber st.2
      (st.1.write blockNumber b, b)) (dev, buffer)).1

/-- `MyOnDiskFS::readFat`: the table after the eight FAT blocks are decoded.  A failed
block read leaves the previous content in `buffer`. -/
def readFat (fat : Nat → fatEntry) (dev : BlockDevice) (buffer : Bytes) : Nat → fatEntry :=
  ((List.range FAT_BLOCKS).foldl
    (fun (st : (Nat → fatEntry) × Bytes) blockNo =>
      let b := (dev.read blockNo st.2).2
      ((List.range FAT_ENTRIES_PER_BLOCK).foldl
        (fun (f : Nat → fatEntry) i =>
          fun k => if k = blockNo * FAT_ENTRIES_PER_BLOCK + i then getFatEntry b (64 * i) else f k)
        st.1, b)) (fat, buffer)).1

/-- The buffer of `writeBlt` after the inner loop has laid down the entries of block
`blockNo`. -/
def bltBlock (blt : Nat → Nat) (blockNo : Nat) (buffer : Bytes) : Bytes :=
  (List.range BLT_ENTRIES_PER_BLOCK).foldl
    (fun b i => memcpy b (2 * i) (leBytes (blt (blockNo * BLT_ENTRIES_PER_BLOCK + i))) 0 2) buffer

/-- `MyOnDiskFS::writeBlt`: the container after the 256 BLT blocks are written behind
the FAT blocks. -/
def writeBlt (blt : Nat → Nat) (dev : BlockDevice) (buffer : Bytes) : BlockDevice :=
  ((List.range BLT_BLOCKS).foldl
    (fun (st : BlockDevice × Bytes) blockNo =>
      let b := bltBlock blt blockNo st.2
      (st.1.write (blockNo + FAT_BLOCKS) b, b)) (dev, buffer)).1

/-- `MyOnDiskFS::readBlt`: the table after the 256 BLT blocks are decoded. -/
def readBlt (blt : Nat → Nat) (dev : BlockDevice) (buffer : Bytes) : Nat → Nat :=
  ((List.range BLT_BLOCKS).foldl
    (fun (st : (Nat → Nat) × Bytes) blockNr =>
      let b := (dev.read (blockNr + FAT_BLOCKS) st.2).2
      ((List.range BLT_ENTRIES_PER_BLOCK).foldl
        (fun (t : Nat → Nat) i =>
          fun k => if k = blockNr * BLT_ENTRIES_PER_BLOCK + i then leValue b (2 * i) 2 else t k)
        st.1, b)) (blt, buffer)).1

/-! ## Lookup helpers -/

/-- Array store `a[i] = v`. -/
def store {α : Type} (a : Nat → α) (i : Nat) (v : α) : Nat → α :=
  fun k => if k = i then v else a k

/-- The loop of `getFileIndex` from slot `i` on, `n` slots left: the first slot whose
name compares equal (`strcmp`) to `name`.  The name of a slot is taken as `cstr` of its
field; for a field without a zero byte, where `strcmp` reads on behind the field, see
`getFileIndexBytewiseFrom`. -/
def getFileIndexFrom (fat : Nat → fatEntry) (name : List Nat) : Nat → Nat → Int
  | 0, _ => -ENOENT
  | n + 1, i =>
    if cstr (fat i).filename = name then (i : Int) else getFileIndexFrom fat name n (i + 1)

/-- `MyOnDiskFS::getFileIndex`: the slot of `path + 1`, or `-ENOENT`. -/
def getFileIndex (fat : Nat → fatEntry) (path : List Nat) : Int :=
  getFileIndexFrom fat (path.drop 1) 64 0

/-- The loop of `findFreeBlock` from entry `i` on, `n` entries left. -/
def findFreeFrom (blt : Nat → Nat) : Nat → Nat → Option Nat
  | 0, _ => none
  | n + 1, i => if blt i = BLT_FREE then some i else findFreeFrom blt n (i + 1)

/-- `MyOnDiskFS::findFreeBlock`: the return value and the content of the reference
argument afterwards (`none` while it has never been assigned). -/
def findFreeBlock (blt : Nat → Nat) (freeBlock : Option Nat) : Int × Option Nat :=
  match findFreeFrom blt TOTAL_BLT_ENTRIES 0 with
  | some i => (0, some i)
  | none => (-ENOSPC, freeBlock)

/-- The `memcmp(fat[i].filename, emptyFatEntry, 32) == 0` test. -/
def isEmptyName (filename : List Nat) : Bool := filename.all (fun c => c == 0)

/-- The slot search of `fuseMknod` from slot `i` on, `n` slots left. -/
def findEmptySlotFrom (fat : Nat → fatEntry) : Nat → Nat → Option Nat
  | 0, _ => none
  | n + 1, i => if isEmptyName (fat i).filename then some i else findEmptySlotFrom fat n (i + 1)

/-- The local array `blockList` of `n` elements: `blockList[0] = start` and
`blockList[i] = blt[blockList[i - 1]]`.  With `n = 0` the array has no element and the
store to `blockList[0]` falls outside it: `fuseUnlink` and the shrink branch of
`fuseTruncate` build the array only for `n > 0`, `fuseRead` and `fuseWrite` fault. -/
def chainFrom (blt : Nat → Nat) (start : Nat) : Nat → List Nat
  | 0 => []
  | n + 1 => start :: chainFrom blt (blt start) n

/-- Read of `blockList[i]` with a signed index. -/
def blockAt (blockList : List Nat) (i : Int) : Except Fault Nat :=
  if i < 0 then .error .outOfBounds
  else match blockList.get? i.toNat with
    | some b => .ok b
    | none => .error .outOfBounds

/-- The `filename` field after `memcpy(filename, path + 1, strlen(path))`: the
characters after the first one, the terminating NUL, then the old bytes. -/
def nameCopy (old : List Nat) (path : List Nat) : List Nat :=
  readArr (memcpy (arrBytes old) 0 (arrBytes (path ++ [0])) 1 path.length) 0 MAX_NAME_LENGTH

/-- The value-initialised `fatEntry` with `uid` and `groupId` of the caller that
`fuseUnlink` and `fuseInit` store into a slot. -/
def emptyEntry (env : Env) : fatEntry :=
  { filename := List.replicate MAX_NAME_LENGTH 0
    uid := env.uid, groupId := env.gid, mode := 0
    accessTime := 0, modTime := 0, changeTime := 0
    startBlock := 0, nrBlocks := 0, size := 0 }

/-! ## Host operations -/

/-- The entry `newFile` that `fuseMknod` builds. -/
def newFileEntry (env : Env) (path : List Nat) (mode : Nat) : fatEntry :=
  { filename := nameCopy (List.replicate MAX_NAME_LENGTH 0) path
    uid := env.uid, groupId := env.gid, mode := mode
    accessTime := env.systemTime, modTime := env.systemTime, changeTime := env.systemTime
    startBlock := 0, nrBlocks := 0, size := 0 }

/-- `MyOnDiskFS::fuseMknod`. -/
def fuseMknod (fs : FS) (env : Env) (path : List Nat) (mode : Nat) : Int × FS :=
  if getFileIndex fs.fat path ≥ 0 then (-EEXIST, fs)
  else match findEmptySlotFrom fs.fat 64 0 with
    | none => (-ENOSPC, fs)
    | some index =>
      if toI32 path.length > MAX_NAME_LENGTH then (-ENAMETOOLONG, fs)
      else
        let fat := store fs.fat index (newFileEntry env path mode)
        (0, { fs with fat := fat, blockDevice := writeFat fat fs.blockDevice env.heap })

/-- `MyOnDiskFS::fuseUnlink`. -/
def fuseUnlink (fs : FS) (env : Env) (path : List Nat) : Int × FS :=
  let index := getFileIndex fs.fat path
  if index < 0 then (index, fs)
  else
    let e := fs.fat index.toNat
    let fs1 : FS :=
      if e.nrBlocks > 0 then
        let blockList := chainFrom fs.blt e.startBlock e.nrBlocks
        let blt := blockList.foldl (fun t b => store t b BLT_FREE) fs.blt
        { fs with blt := blt, blockDevice := writeBlt blt fs.blockDevice env.heap }
      else fs
    let fat := store fs1.fat index.toNat (emptyEntry env)
    (0, { fs1 with fat := fat, blockDevice := writeFat fat fs1.blockDevice env.heap })

/-- `MyOnDiskFS::fuseRename`. -/
def fuseRename (fs : FS) (env : Env) (path newpath : List Nat) : Int × FS :=
  let index := getFileIndex fs.fat path
  if index < 0 then (index, fs)
  else
    let fs1 := if getFileIndex fs.fat newpath ≥ 0 then (fuseUnlink fs env newpath).2 else fs
    if toI32 newpath.length > MAX_NAME_LENGTH then (-ENAMETOOLONG, fs1)
    else
      let e := fs1.fat index.toNat
      let fat := store fs1.fat index.toNat
        { e with filename := nameCopy e.filename newpath, modTime := env.systemTime, changeTime := env.systemTime }
      (0, { fs1 with fat := fat, blockDevice := writeFat fat fs1.blockDevice env.heap })

/-- The fields of `struct stat` the file system fills. -/
structure Stat where
  st_uid : Nat
  st_gid : Nat
  st_atime : Int
  st_mtime : Int
  st_mode : Nat
  st_nlink : Nat
  st_size : Int
  deriving DecidableEq, Repr

def S_IFDIR : Nat := 0o040000

/-- `MyOnDiskFS::fuseGetattr`. -/
def fuseGetattr (fs : FS) (env : Env) (path : List Nat) (statbuf : Stat) : Int × Stat × FS :=
  if path = [47] then (0, { statbuf with st_mode := S_IFDIR ||| 0o755, st_nlink := 2 }, fs)
  else
    let index := getFileIndex fs.fat path
    if index < 0 then (index, statbuf, fs)
    else
      let e := fs.fat index.toNat
      let st : Stat :=
        { st_uid := e.uid, st_gid := e.groupId, st_atime := e.accessTime, st_mtime := e.modTime
          st_mode := e.mode, st_nlink := 1, st_size := e.size }
      let fat := store fs.fat index.toNat { e with accessTime := env.systemTime, changeTime := env.systemTime }
      (0, st, { fs with fat := fat, blockDevice := writeFat fat fs.blockDevice env.heap })

/-- `MyOnDiskFS::fuseChmod`. -/
def fuseChmod (fs : FS) (env : Env) (path : List Nat) (mode : Nat) : Int × FS :=
  let index := getFileIndex fs.fat path
  if index < 0 then (index, fs)
  else
    let e := fs.fat index.toNat
    let fat := store fs.fat index.toNat
      { e with mode := mode, modTime := env.systemTime, changeTime := env.systemTime }
    (0, { fs with fat := fat, blockDevice := writeFat fat fs.blockDevice env.heap })

/-- `MyOnDiskFS::fuseChown`. -/
def fuseChown (fs : FS) (env : Env) (path : List Nat) (uid gid : Nat) : Int × FS :=
  let index := getFileIndex fs.fat path
  if index < 0 then (index, fs)
  else
    let e := fs.fat index.toNat
    let fat := store fs.fat index.toNat
      { e with uid := uid, groupId := gid, modTime := env.systemTime, changeTime := env.systemTime }
    (0, { fs with fat := fat, blockDevice := writeFat fat fs.blockDevice env.heap })

/-- `MyOnDiskFS::fuseOpen`; the middle component is `fileInfo->fh` afterwards. -/
def fuseOpen (fs : FS) (env : Env) (path : List Nat) (fh : Nat) : Int × Nat × FS :=
  let index := getFileIndex fs.fat path
  if index < 0 then (index, fh, fs)
  else
    let e := fs.fat index.toNat
    if ¬ (e.uid = env.uid ∨ e.groupId = env.gid) then (-ENOENT, fh, fs)
    else
      let fat := store fs.fat index.toNat { e with accessTime := env.systemTime }
      (0, index.toNat, { fs with fat := fat, blockDevice := writeFat fat fs.blockDevice env.heap })

/-- `MyOnDiskFS::fuseRelease`. -/
def fuseRelease (fs : FS) : Int × FS := (0, fs)

/-- The loop `while (blt[currentAddress] != BLT_EOF) currentAddress = blt[currentAddress]`
of `fuseTruncate`, with `n` steps left.  The walk moves inside the 65,536 entries of
the table, so a walk of 65,536 steps that has not met `BLT_EOF` has entered a cycle and
never ends. -/
def walkToEnd (blt : Nat → Nat) : Nat → Nat → Except Fault Nat
  | 0, _ => .error .diverges
  | n + 1, currentAddress =>
    if blt currentAddress = BLT_EOF then .ok currentAddress
    else walkToEnd blt n (blt currentAddress)

/-- The allocation loop of `fuseTruncate` with `n` iterations left; the state is the
table, `currentAddress` and the local `freeBlock` (`none` while uninitialised). -/
def growLoop : Nat → (Nat → Nat) → Nat → Option Nat → Except Fault ((Nat → Nat) × Nat × Option Nat)
  | 0, blt, currentAddress, freeBlock => .ok (blt, currentAddress, freeBlock)
  | n + 1, blt, currentAddress, freeBlock =>
    match (findFreeBlock blt freeBlock).2 with
    | none => .error .uninitialised
    | some fb =>
      let blt1 := store blt currentAddress fb
      let currentAddress1 := blt1 currentAddress
      let blt2 := store blt1 currentAddress1 BLT_EOF
      growLoop n blt2 currentAddress1 (some fb)

/-- The shrink branch of `fuseTruncate` (`newSize < fat[index].size`): the table, the
entry and the container afterwards. -/
def truncateShrink (fs : FS) (env : Env) (e : fatEntry) (nrBlocks : Int) :
    Except Fault ((Nat → Nat) × fatEntry × BlockDevice) :=
  if (e.nrBlocks : Int) > nrBlocks then
    let blockList := chainFrom fs.blt e.startBlock e.nrBlocks
    match blockAt blockList (nrBlocks - 1) with
    | .error f => .error f
    | .ok last =>
      let blt1 := store fs.blt last BLT_EOF
      let blt2 := (blockList.drop (toI32 nrBlocks).toNat).foldl (fun t b => store t b BLT_FREE) blt1
      .ok (blt2, { e with nrBlocks := toU16 nrBlocks }, writeBlt blt2 fs.blockDevice env.heap)
  else .ok (fs.blt, e, fs.blockDevice)

/-- The grow branch of `fuseTruncate` (`newSize > fat[index].size`). -/
def truncateGrow (fs : FS) (env : Env) (e : fatEntry) (nrBlocks : Int) :
    Except Fault ((Nat → Nat) × fatEntry × BlockDevice) :=
  if nrBlocks > (e.nrBlocks : Int) then
    let first : (Nat → Nat) × fatEntry :=
      if e.nrBlocks = 0 then
        let startBlock := ((findFreeBlock fs.blt (some e.startBlock)).2).getD e.startBlock
        (store fs.blt startBlock BLT_EOF, { e with startBlock := startBlock, nrBlocks := 1 })
      else (fs.blt, e)
    match walkToEnd first.1 TOTAL_BLT_ENTRIES first.2.startBlock with
    | .error f => .error f
    | .ok currentAddress =>
      let count := nrBlocks - (first.2.nrBlocks : Int)
      if count > 2147483647 then .error .overflow
      else match growLoop count.toNat first.1 currentAddress none with
        | .error f => .error f
        | .ok (blt, _, _) =>
          .ok (blt, { first.2 with nrBlocks := toU16 nrBlocks }, writeBlt blt fs.blockDevice env.heap)
  else .ok (fs.blt, e, fs.blockDevice)

/-- `MyOnDiskFS::fuseTruncate(path, newSize)`. -/
def fuseTruncate (fs : FS) (env : Env) (path : List Nat) (newSize : Int) : Except Fault (Int × FS) :=
  let index := getFileIndex fs.fat path
  if index < 0 then .ok (index, fs)
  else
    let e := fs.fat index.toNat
    if newSize = e.size then .ok (0, fs)
    else
      let nrBlocks := (toI64 (newSize + 512 - 1)).tdiv 512
      let branch :=
        if newSize < e.size then truncateShrink fs env e nrBlocks
        else truncateGrow fs env e nrBlocks
      match branch with
      | .error f => .error f
      | .ok (blt, e1, dev) =>
        let fat := store fs.fat index.toNat
          { e1 with size := newSize, modTime := env.systemTime, changeTime := env.systemTime }
        .ok (0, { fat := fat, blt := blt, blockDevice := writeFat fat dev env.heap })

/-- The head of the loop body of `fuseRead`: the value of `bytesToRead` when the block
is read, or `none` when the `RETURN` inside the loop is taken. -/
def readChunk (fileSize : Int) (size : Nat) (offset currentPos : Int) : Option Int :=
  let currentBlockOffset := currentPos.tmod 512
  let bytesToRead := 512 - currentBlockOffset
  let clipped := toI32 (fileSize - currentPos)
  if toI32 (currentPos + bytesToRead) > fileSize ∧ clipped = 0 then none
  else
    let bytesToRead := if toI32 (currentPos + bytesToRead) > fileSize then clipped else bytesToRead
    some (if toU64 (toI32 (currentPos + bytesToRead)) > toU64 (offset + size) then
        toI32 (toU64 (offset + size - currentPos))
      else bytesToRead)

/-- The `while (currentBufPos < size)` loop of `fuseRead` with `n` iterations left.  The
result is `currentBufPos`, the caller's buffer, and whether the loop ran to its end
(`false`: the `RETURN` inside the loop was taken).  An iteration that copies no byte
leaves every variable as it was, so the loop then never ends. -/
def readLoop (fileSize : Int) (blockList : List Nat) (dev : BlockDevice) (size : Nat) (offset : Int) :
    Nat → Int → Int → Bytes → Bytes → Except Fault (Int × Bytes × Bool)
  | 0, _, _, _, _ => .error .diverges
  | n + 1, currentPos, currentBufPos, buf, buffer =>
    if ¬ (toU64 currentBufPos < size) then .ok (currentBufPos, buf, true)
    else
      match readChunk fileSize size offset currentPos with
      | none => .ok (currentBufPos, buf, false)
      | some bytesToRead =>
        match blockAt blockList (currentPos.tdiv 512) with
        | .error f => .error f
        | .ok b =>
          let buffer := (dev.read b buffer).2
          let len := toU64 bytesToRead
          if currentBufPos < 0 ∨ len > BLOCK_SIZE ∨ currentBufPos + len > size then
            .error .outOfBounds
          else if len = 0 then .error .diverges
          else
            readLoop fileSize blockList dev size offset n
              (toI32 (currentPos + bytesToRead)) (toI32 (currentBufPos + bytesToRead))
              (memcpy buf currentBufPos.toNat buffer 0 len) buffer

/-- `MyOnDiskFS::fuseRead`: return value, the caller's buffer and the file system.  The
array `blockList` has `nrBlocks` elements and `blockList[0] = startBlock` is stored
without a test: for a file without blocks the store falls outside the array. -/
def fuseRead (fs : FS) (env : Env) (path : List Nat) (buf : Bytes) (size : Nat) (offset : Int) :
    Except Fault (Int × Bytes × FS) :=
  let index := getFileIndex fs.fat path
  if index < 0 then .ok (index, buf, fs)
  else
    let e := fs.fat index.toNat
    if e.nrBlocks = 0 then .error .outOfBounds
    else
      let blockList := chainFrom fs.blt e.startBlock e.nrBlocks
      match readLoop e.size blockList fs.blockDevice size offset (size + 1) (toI32 offset) 0 buf env.heap with
      | .error f => .error f
      | .ok (currentBufPos, out, false) => .ok (currentBufPos, out, fs)
      | .ok (currentBufPos, out, true) =>
        let fat := store fs.fat index.toNat { e with accessTime := env.systemTime }
        .ok (currentBufPos, out, { fs with fat := fat, blockDevice := writeFat fat fs.blockDevice env.heap })

/-- The head of the loop body of `fuseWrite`: the value of `bytesToWrite`. -/
def writeChunk (size : Nat) (offset currentPos : Int) : Int :=
  let currentBlockOffset := currentPos.tmod 512
  let bytesToWrite := 512 - currentBlockOffset
  if toU64 (toI32 (currentPos + bytesToWrite)) > toU64 (offset + size) then
    toI32 (toU64 (offset + size - currentPos))
  else bytesToWrite

/-- The `while (currentBufPos < size)` loop of `fuseWrite` with `n` iterations left: the
container afterwards. -/
def writeLoop (blockList : List Nat) (buf : Bytes) (size : Nat) (offset : Int) :
    Nat → Int → Int → BlockDevice → Bytes → Except Fault BlockDevice
  | 0, _, _, _, _ => .error .diverges
  | n + 1, currentPos, currentBufPos, dev, buffer =>
    if ¬ (toU64 currentBufPos < size) then .ok dev
    else
      let currentBlockOffset := currentPos.tmod 512
      let bytesToWrite := writeChunk size offset currentPos
      match blockAt blockList (currentPos.tdiv 512) with
      | .error f => .error f
      | .ok b =>
        let buffer := (dev.read b buffer).2
        let len := toU64 bytesToWrite
        if currentBufPos < 0 ∨ currentBlockOffset < 0 ∨ currentBlockOffset + len > BLOCK_SIZE
            ∨ currentBufPos + len > size then .error .outOfBounds
        else if len = 0 then .error .diverges
        else
          let buffer := memcpy buffer currentBlockOffset.toNat buf currentBufPos.toNat len
          writeLoop blockList buf size offset n
            (toI32 (currentPos + bytesToWrite)) (toI32 (currentBufPos + bytesToWrite))
            (dev.write b buffer) buffer

/-- `MyOnDiskFS::fuseWrite`.  As in `fuseRead`, `blockList[0] = startBlock` is stored
without a test: when the file has no block after the truncate step the store falls
outside the array. -/
def fuseWrite (fs : FS) (env : Env) (path : List Nat) (buf : Bytes) (size : Nat) (offset : Int) :
    Except Fault (Int × FS) :=
  let index := getFileIndex fs.fat path
  if index < 0 then .ok (index, fs)
  else
    let grown : Except Fault FS :=
      if toU64 (size + offset) > toU64 (fs.fat index.toNat).size then
        match fuseTruncate fs env path (toI64 (toU64 (size + offset))) with
        | .error f => .error f
        | .ok r => .ok r.2
      else .ok fs
    match grown with
    | .error f => .error f
    | .ok fs1 =>
      let e := fs1.fat index.toNat
      if e.nrBlocks = 0 then .error .outOfBounds
      else
        let blockList := chainFrom fs1.blt e.startBlock e.nrBlocks
        match writeLoop blockList buf size offset (size + 1) (toI32 offset) 0 fs1.blockDevice env.heap with
        | .error f => .error f
        | .ok dev =>
          let newSize := if toU64 e.size < toU64 (offset + size) then toI64 (toU64 (offset + size)) else e.size
          let fat := store fs1.fat index.toNat
            { e with size := newSize, modTime := env.systemTime, changeTime := env.systemTime }
          .ok (toI32 size, { fs1 with fat := fat, blockDevice := writeFat fat dev env.heap })

/-! ## Mount and unmount -/

/-- The tables `fuseInit` builds for a new container. -/
def formatFat (fat : Nat → fatEntry) (env : Env) : Nat → fatEntry :=
  fun i => if i < TOTAL_FAT_ENTRIES then emptyEntry env else fat i

def formatBlt (blt : Nat → Nat) : Nat → Nat :=
  fun i => if i < TOTAL_BLT_ENTRIES then (if i < FAT_BLOCKS + BLT_BLOCKS then BLT_RSV else BLT_FREE)
    else blt i

/-- `MyOnDiskFS::fuseInit`.  `container` is the container file found at the configured
path, if there is one; `fs` holds the (indeterminate) arrays of the new object. -/
def fuseInit (fs : FS) (env : Env) (container : Option BlockDevice) : FS :=
  match container with
  | some dev =>
    { fat := readFat fs.fat dev env.heap, blt := readBlt fs.blt dev env.heap, blockDevice := dev }
  | none =>
    let fat := formatFat fs.fat env
    let dev := writeFat fat BlockDevice.create env.heap
    let blt := formatBlt fs.blt
    { fat := fat, blt := blt, blockDevice := writeBlt blt dev env.heap }

/-- `MyOnDiskFS::fuseDestroy`. -/
def fuseDestroy (fs : FS) (env : Env) : FS :=
  { fs with blockDevice := writeBlt fs.blt (writeFat fs.fat fs.blockDevice env.heap) env.heap }

/-! ## The invariants of the volume (spec §3.3) -/

/-- The block chain of FAT slot `i`, as the operations build it. -/
def chainOf (fs : FS) (i : Nat) : List Nat :=
  chainFrom fs.blt (fs.fat i).startBlock (fs.fat i).nrBlocks

/-- A volume state whose tables hold values of their C types and satisfy the six
invariants of the specification. -/
structure Invariants (fs : FS) : Prop where
  fat_typed : ∀ i, i < 64 → (fs.fat i).Typed
  blt_typed : ∀ b, b < 65536 → fs.blt b < 65536
  name_unique : ∀ i j, i < 64 → j < 64 → isEmptyName (fs.fat i).filename = false →
    isEmptyName (fs.fat j).filename = false →
    cstr (fs.fat i).filename = cstr (fs.fat j).filename → i = j
  chain_nodup : ∀ i, i < 64 → (chainOf fs i).Nodup
  chain_end : ∀ i, i < 64 → ∀ b, (chainOf fs i).getLast? = some b → fs.blt b = BLT_EOF
  chain_used : ∀ i, i < 64 → ∀ b ∈ chainOf fs i,
    b < 65536 ∧ fs.blt b ≠ BLT_FREE ∧ fs.blt b ≠ BLT_RSV
  chain_excl : ∀ i j, i < 64 → j < 64 → i ≠ j → ∀ b ∈ chainOf fs i, b ∉ chainOf fs j
  unchained_free : ∀ b, 264 ≤ b → b < 65536 → (∀ i, i < 64 → b ∉ chainOf fs i) →
    fs.blt b = BLT_FREE
  reserved : ∀ b, b < 264 → fs.blt b = BLT_RSV
  size_nonneg : ∀ i, i < 64 → 0 ≤ (fs.fat i).size
  size_blocks : ∀ i, i < 64 → ((fs.fat i).nrBlocks : Int) = ((fs.fat i).size + 511) / 512
  unused_zero : ∀ i, i < 64 → isEmptyName (fs.fat i).filename = true →
    (fs.fat i).mode = 0 ∧ (fs.fat i).accessTime = 0 ∧ (fs.fat i).modTime = 0 ∧
    (fs.fat i).changeTime = 0 ∧ (fs.fat i).startBlock = 0 ∧ (fs.fat i).nrBlocks = 0 ∧
    (fs.fat i).size = 0

/-! ## A sample volume -/

/-- An environment used in the examples. -/
def sampleEnv : Env := { uid := 1000, gid := 1000, now := 1700000000, heap := fun _ => 0xEE }

/-- The entry of a five-byte file `a` held in block 264. -/
def sampleFile : fatEntry :=
  { filename := nameCopy (List.replicate MAX_NAME_LENGTH 0) [47, 97]
    uid := 1000, groupId := 1000, mode := 0o100644
    accessTime := 0, modTime := 0, changeTime := 0
    startBlock := 264, nrBlocks := 1, size := 5 }

/-- A volume holding the single file `/a` of `sampleFile`. -/
def sampleVolume : FS :=
  { fat := store (fun _ => emptyEntry sampleEnv) 0 sampleFile
    blt := store (formatBlt (fun _ => 0)) 264 BLT_EOF
    blockDevice := BlockDevice.create }

/-- At least `k` entries of the table are FREE. -/
def HasFree (blt : Nat → Nat) (k : Nat) : Prop :=
  ∃ l : List Nat, l.Nodup ∧ k ≤ l.length ∧ ∀ b ∈ l, b < 65536 ∧ blt b = BLT_FREE

/-- A path the host hands over for a file: a slash followed by a non-empty name, at
most `MAX_NAME_LENGTH` characters in all, none of them NUL. -/
def ValidPath (path : List Nat) : Prop :=
  path.head? = some 47 ∧ 2 ≤ path.length ∧ path.length ≤ 32 ∧ ∀ c ∈ path, 0 < c ∧ c < 256

/-- The table `blt` with the blocks `a, a + 1, ..., a + m - 1` linked into one chain
that ends in `BLT_EOF`. -/
def linearChain (blt : Nat → Nat) (a m : Nat) : Nat → Nat :=
  fun b => if a ≤ b ∧ b < a + m then (if b + 1 = a + m then BLT_EOF else b + 1) else blt b

/-- The in-memory arrays of a file system object before `fuseInit` has run. -/
def blankFS : FS :=
  { fat := fun _ => emptyEntry sampleEnv, blt := fun _ => 0, blockDevice := BlockDevice.create }

/-! ## Observing results -/

/-- The value a call returned, if it returned. -/
def returned {α : Type} (r : Except Fault (Int × α)) : Option Int :=
  match r with
  | .ok x => some x.1
  | .error _ => none

/-- The fault a call ran into, if it did. -/
def fault {α : Type} (r : Except Fault α) : Option Fault :=
  match r with
  | .ok _ => none
  | .error f => some f

/-- The file system after a call (`fs` itself when the call has no defined result). -/
def stateAfter (fs : FS) (r : Except Fault (Int × FS)) : FS :=
  match r with
  | .ok x => x.2
  | .error _ => fs

/-- The first `k` bytes of the caller's buffer after a `fuseRead`. -/
def bytesRead (r : Except Fault (Int × Bytes × FS)) (k : Nat) : List Nat :=
  match r with
  | .ok x => (List.range k).map x.2.1
  | .error _ => []

/-- The five bytes `hello`. -/
def hello : Bytes := arrBytes [104, 101, 108, 108, 111]

/-! ## The on-disk images of the tables -/

/-- Byte `t` (0 ≤ t < 64) of the 64-byte image of a FAT entry. -/
def fatEntryByte (e : fatEntry) (t : Nat) : Nat :=
  if t < 32 then arrBytes e.filename t
  else if t < 36 then leBytes e.uid (t - 32)
  else if t < 40 then leBytes e.groupId (t - 36)
  else if t < 44 then leBytes e.mode (t - 40)
  else if t < 48 then leBytes (toU32 e.accessTime) (t - 44)
  else if t < 52 then leBytes (toU32 e.modTime) (t - 48)
  else if t < 56 then leBytes (toU32 e.changeTime) (t - 52)
  else if t < 58 then leBytes e.startBlock (t - 56)
  else if t < 60 then leBytes e.nrBlocks (t - 58)
  else leBytes (toU64 e.size) (t - 60)

/-- Byte `j` of FAT block `k` (0 ≤ k < 8) as `writeFat` lays it down. -/
def fatImage (fat : Nat → fatEntry) (k j : Nat) : Nat :=
  fatEntryByte (fat (k * 8 + j / 64)) (j % 64)

/-- Byte `j` of BLT block `k` (0 ≤ k < 256, container block `k + 8`) as `writeBlt` lays
it down. -/
def bltImage (blt : Nat → Nat) (k j : Nat) : Nat :=
  leBytes (blt (k * 256 + j / 2)) (j % 2)

/-- A volume whose file `/a` has been given a size beyond `2^32` (as
`fuseTruncate("/a", 4294967301)` leaves it). -/
def oversizeVolume : FS :=
  { sampleVolume with fat := store sampleVolume.fat 0 { sampleFile with size := 4294967301 } }

/-! ## Sequences of host operations -/

/-- One call the host makes on the mounted volume.  `remount` is `fuseDestroy` followed
by `fuseInit` on the container left behind; `write` hands over `data.length` bytes. -/
inductive Op where
  | mknod (path : List Nat) (mode : Nat)
  | unlink (path : List Nat)
  | rename (path newpath : List Nat)
  | getattr (path : List Nat)
  | chmod (path : List Nat) (mode : Nat)
  | chown (path : List Nat) (uid gid : Nat)
  | fopen (path : List Nat)
  | read (path : List Nat) (size : Nat) (offset : Int)
  | write (path : List Nat) (data : List Nat) (offset : Int)
  | truncate (path : List Nat) (newSize : Int)
  | remount

/-- The return value of one call and the file system afterwards. -/
def step (fs : FS) (env : Env) : Op → Except Fault (Int × FS)
  | .mknod path mode => .ok (fuseMknod fs env path mode)
  | .unlink path => .ok (fuseUnlink fs env path)
  | .rename path newpath => .ok (fuseRename fs env path newpath)
  | .getattr path =>
    let r := fuseGetattr fs env path ⟨0, 0, 0, 0, 0, 0, 0⟩
    .ok (r.1, r.2.2)
  | .chmod path mode => .ok (fuseChmod fs env path mode)
  | .chown path uid gid => .ok (fuseChown fs env path uid gid)
  | .fopen path =>
    let r := fuseOpen fs env path 0
    .ok (r.1, r.2.2)
  | .read path size offset =>
    match fuseRead fs env path (fun _ => 0) size offset with
    | .error f => .error f
    | .ok r => .ok (r.1, r.2.2)
  | .write path data offset => fuseWrite fs env path (arrBytes data) data.length offset
  | .truncate path newSize => fuseTruncate fs env path newSize
  | .remount => .ok (0, fuseInit fs env (some (fuseDestroy fs env).blockDevice))

/-- A sequence of calls, each made in its own environment: the return values and the
file system after the last call. -/
def run (fs : FS) : List (Env × Op) → Except Fault (List Int × FS)
  | [] => .ok ([], fs)
  | (env, op) :: rest =>
    match step fs env op with
    | .error f => .error f
    | .ok (r, fs1) =>
      match run fs1 rest with
      | .error f => .error f
      | .ok (rs, fs2) => .ok (r :: rs, fs2)

/-- The container holds the images of the in-memory tables: blocks 0..7 encode the FAT
and blocks 8..263 encode the BLT. -/
structure TablesCurrent (fs : FS) : Prop where
  dev_size : 264 ≤ fs.blockDevice.size
  fat_current : ∀ k j, k < 8 → j < 512 → fs.blockDevice.data k j = fatImage fs.fat k j
  blt_current : ∀ k j, k < 256 → j < 512 → fs.blockDevice.data (k + 8) j = bltImage fs.blt k j

/-- A block number that is not one of the BLT blocks 8..263 of the container. -/
def OffBlt (b : Nat) : Prop := b < 8 ∨ (264 ≤ b ∧ b < 65536)

/-- No chain can lead into the BLT blocks: start blocks and successors of blocks off
the BLT are off the BLT, and the entries of the BLT blocks themselves are RESERVED. -/
structure ChainsOffBlt (fs : FS) : Prop where
  start_off : ∀ i, i < 64 → OffBlt (fs.fat i).startBlock
  next_off : ∀ b, OffBlt b → OffBlt (fs.blt b)
  blt_rsv : ∀ b, 8 ≤ b → b < 264 → fs.blt b = BLT_RSV

/-- The BLT part of `ChainsOffBlt`. -/
def BltOff (blt : Nat → Nat) : Prop :=
  (∀ b, OffBlt b → OffBlt (blt b)) ∧ (∀ b, 8 ≤ b → b < 264 → blt b = BLT_RSV)

/-- The invariant the host operations maintain from `fuseInit` on. -/
def Sound (fs : FS) : Prop := TablesCurrent fs ∧ ChainsOffBlt fs

/-- Name uniqueness: no two FAT slots hold the same non-empty name (the name being what
`strcmp` reads from the field). -/
def NamesUnique (fat : Nat → fatEntry) : Prop :=
  ∀ i j, i < 64 → j < 64 → cstr (fat i).filename ≠ [] →
    cstr (fat i).filename = cstr (fat j).filename → i = j

/-- A path as the host passes it: a C string (no NUL character, length below `2^31`)
that begins with a slash. -/
def CPath (path : List Nat) : Prop :=
  path.head? = some 47 ∧ (∀ c ∈ path, c ≠ 0) ∧ path.length < 2147483648

/-- The calls create, unlink and rename, with paths the host can pass. -/
def NameOp : Op → Prop
  | .mknod path _ => CPath path
  | .unlink path => CPath path
  | .rename path newpath => CPath path ∧ CPath newpath
  | _ => False

/-- The entry of a 600-byte file `a` held in the blocks 264 and 265. -/
def twoBlockFile : fatEntry := { sampleFile with nrBlocks := 2, size := 600 }

/-- A volume holding the single file `/a` of `twoBlockFile`. -/
def twoBlockVolume : FS :=
  { fat := store (fun _ => emptyEntry sampleEnv) 0 twoBlockFile
    blt := store (store (formatBlt (fun _ => 0)) 264 265) 265 BLT_EOF
    blockDevice := BlockDevice.create }

/-- The list `L` holds, in increasing order, the lowest-numbered FREE blocks of the
table: its elements are FREE, and every FREE block outside it is greater than each of
them. -/
def LowestFree (blt : Nat → Nat) (L : List Nat) : Prop :=
  L.Pairwise (fun a b => a < b) ∧ (∀ x ∈ L, x < 65536 ∧ blt x = BLT_FREE) ∧
  (∀ b, b < 65536 → blt b = BLT_FREE → b ∉ L → ∀ x ∈ L, x < b)

/-- The table after the blocks of the list are appended one after the other behind the
tail `cur` of a chain, as the allocation loop of `fuseTruncate` does with each block it
has found. -/
def linkChain (blt : Nat → Nat) : Nat → List Nat → (Nat → Nat)
  | _, [] => blt
  | cur, a :: L => linkChain (store (store blt cur a) a BLT_EOF) a L

/-! ## Name fields without a terminating NUL -/

/-- The bytes `strcmp` and `filler` reach from `fat[i].filename`: the 32 bytes of the
field, then the object representations of the members `uid`, `groupId`, `mode`,
`accessTime`, `modTime`, `changeTime`, `startBlock` and `nrBlocks`, which follow the field
in `struct fatEntry` without padding (little-endian; `uid_t`, `gid_t`, `mode_t` and `int`
of four bytes, `unsigned short` of two).  Behind `nrBlocks` come the padding bytes before
`off_t size`, whose content is indeterminate. -/
def fatEntry.bytesFromName (e : fatEntry) : List Nat :=
  e.filename ++ readArr (leBytes e.uid) 0 4 ++ readArr (leBytes e.groupId) 0 4 ++
    readArr (leBytes e.mode) 0 4 ++ readArr (leBytes (toU32 e.accessTime)) 0 4 ++
    readArr (leBytes (toU32 e.modTime)) 0 4 ++ readArr (leBytes (toU32 e.changeTime)) 0 4 ++
    readArr (leBytes e.startBlock) 0 2 ++ readArr (leBytes e.nrBlocks) 0 2

/-- `strcmp(s, name)` on the bytes `s` in memory and the C string `name` (the list is the
string before its NUL): whether the two compare equal.  The comparison ends at the first
difference or at the NUL of both; when `s` holds no zero byte and all its bytes agree
with `name`, the next read is behind `s`. -/
def strcmpFrom : List Nat → List Nat → Except Fault Bool
  | [], _ => .error .uninitialised
  | c :: _, [] => .ok (c == 0)
  | c :: cs, d :: ds =>
    if c = d then (if c = 0 then .ok true else strcmpFrom cs ds) else .ok false

/-- The loop of `getFileIndex` with its `strcmp` calls spelled out byte by byte, from
slot `i` on, `n` slots left.  A comparison that is not decided within the name field
reads on into the members behind it. -/
def getFileIndexBytewiseFrom (fat : Nat → fatEntry) (name : List Nat) :
    Nat → Nat → Except Fault Int
  | 0, _ => .ok (-ENOENT)
  | n + 1, i =>
    match strcmpFrom (fat i).bytesFromName name with
    | .error f => .error f
    | .ok true => .ok (i : Int)
    | .ok false => getFileIndexBytewiseFrom fat name n (i + 1)

/-- `MyOnDiskFS::getFileIndex` with its `strcmp` calls spelled out byte by byte.  On a
table whose name fields each hold a zero byte this is `getFileIndex`
(`getFileIndexBytewise_eq`). -/
def getFileIndexBytewise (fat : Nat → fatEntry) (path : List Nat) : Except Fault Int :=
  getFileIndexBytewiseFrom fat (path.drop 1) 64 0

/-- `MyOnDiskFS::fuseMknod` with the lookup spelled out byte by byte. -/
def fuseMknodBytewise (fs : FS) (env : Env) (path : List Nat) (mode : Nat) :
    Except Fault (Int × FS) :=
  match getFileIndexBytewise fs.fat path with
  | .error f => .error f
  | .ok index =>
    if index ≥ 0 then .ok (-EEXIST, fs)
    else match findEmptySlotFrom fs.fat 64 0 with
      | none => .ok (-ENOSPC, fs)
      | some index =>
        if toI32 path.length > MAX_NAME_LENGTH then .ok (-ENAMETOOLONG, fs)
        else
          let fat := store fs.fat index (newFileEntry env path mode)
          .ok (0, { fs with fat := fat, blockDevice := writeFat fat fs.blockDevice env.heap })

/-- `MyOnDiskFS::fuseUnlink` with the lookup spelled out byte by byte. -/
def fuseUnlinkBytewise (fs : FS) (env : Env) (path : List Nat) : Except Fault (Int × FS) :=
  match getFileIndexBytewise fs.fat path with
  | .error f => .error f
  | .ok index =>
    if index < 0 then .ok (index, fs)
    else
      let e := fs.fat index.toNat
      let fs1 : FS :=
        if e.nrBlocks > 0 then
          let blockList := chainFrom fs.blt e.startBlock e.nrBlocks
          let blt := blockList.foldl (fun t b => store t b BLT_FREE) fs.blt
          { fs with blt := blt, blockDevice := writeBlt blt fs.blockDevice env.heap }
        else fs
      let fat := store fs1.fat index.toNat (emptyEntry env)
      .ok (0, { fs1 with fat := fat, blockDevice := writeFat fat fs1.blockDevice env.heap })

/-- Every name field of the table holds a zero byte, as every field written by
`fuseInit`, `fuseMknod`, `fuseRename` and `fuseUnlink` does (`names_terminated`). -/
def NulTerminated (fat : Nat → fatEntry) : Prop :=
  ∀ i, i < 64 → 0 ∈ (fat i).filename

/-- A table whose slot 0 holds 32 bytes `a` and no zero byte, as a crafted container can
load it, with `uid = 1000` (bytes `E8 03 00 00`) behind the field; the other slots are
empty. -/
def unterminatedTable : Nat → fatEntry :=
  store (fun _ => emptyEntry sampleEnv) 0
    { emptyEntry sampleEnv with filename := List.replicate MAX_NAME_LENGTH 97 }

/-! ## Directory listing -/

/-- The loop of `fuseReaddir` over the slots from `i` on, `n` slots left: the names
handed to `filler`, in the order of the calls.  A slot is skipped when
`memcmp(fat[i].filename, emptyFileName, 32) == 0`; `filler` takes the name as a C
string, so a field without a zero byte is read on into the members behind it. -/
def readdirFrom (fat : Nat → fatEntry) : Nat → Nat → Except Fault (List (List Nat))
  | 0, _ => .ok []
  | n + 1, i =>
    if isEmptyName (fat i).filename then readdirFrom fat n (i + 1)
    else if 0 ∈ (fat i).bytesFromName then
      match readdirFrom fat n (i + 1) with
      | .error f => .error f
      | .ok rest => .ok (cstr (fat i).bytesFromName :: rest)
    else .error .uninitialised

/-- `MyOnDiskFS::fuseReaddir`: the return value and the names handed to `filler`, in the
order of the calls.  The entries `.` and `..` are emitted before the path is tested. -/
def fuseReaddir (fs : FS) (path : List Nat) : Except Fault (Int × List (List Nat)) :=
  let dots : List (List Nat) := [[46], [46, 46]]
  if path = [47] then
    match readdirFrom fs.fat TOTAL_FAT_ENTRIES 0 with
    | .error f => .error f
    | .ok names => .ok (0, dots ++ names)
  else .ok (-ENOTDIR, dots)

/-! ## The block writes of a call -/

/-- A sequence of `BlockDevice::write` calls (block number and content) applied to a
container in order. -/
def writeSeq (trace : List (Nat × Bytes)) (dev : BlockDevice) : BlockDevice :=
  trace.foldl (fun d w => d.write w.1 w.2) dev

/-- The `BlockDevice::write` calls issued on the container between the state `before`
and the later state `after`, in the order they were issued. -/
def writesBetween (before after : BlockDevice) : List (Nat × Bytes) :=
  after.log.drop before.log.length

/-! ## The volatile variant (`myinmemoryfs.cpp`) -/

/-- The in-memory `struct myFsFile`.  `data` is the content of the allocation the
pointer refers to; its first `512 * nrBlocks` bytes are the allocated ones. -/
structure myFsFile where
  name : List Nat
  userId : Nat
  groupId : Nat
  mode : Nat
  accessTime : Int
  modTime : Int
  changeTime : Int
  data : Bytes
  size : Int
  nrBlocks : Int

def EBADF : Int := 9
def EINVAL : Int := 22

/-- `MyInMemoryFS::findFile`: the position in `files` of the first file whose name is
`path + 1`; `none` stands for the return value `-ENOENT`. -/
def MyInMemoryFS.findFile (files : List myFsFile) (path : List Nat) : Option Nat :=
  let i := files.findIdx (fun f => decide (f.name = path.drop 1))
  if i < files.length then some i else none

/-- `MyInMemoryFS::resizeFile`; `realloc` keeps the allocated bytes, the new ones are
indeterminate (`env.heap`), and the allocation succeeds. -/
def MyInMemoryFS.resizeFile (env : Env) (file : myFsFile) (newsize : Int) : Int × myFsFile :=
  let newblkcnt := (toI64 (newsize + 512 - 1)).tdiv 512
  if newblkcnt = file.nrBlocks then (0, { file with size := newsize })
  else
    (0, { file with
      data := fun j => if (j : Int) < 512 * file.nrBlocks then file.data j else env.heap j
      size := newsize
      nrBlocks := newblkcnt })

/-- `MyInMemoryFS::fuseMknod`: the new file is appended to the list; no test whether the
name exists. -/
def MyInMemoryFS.fuseMknod (files : List myFsFile) (path : List Nat) (mode : Nat) :
    Int × List myFsFile :=
  (0, files ++ [{ name := path.drop 1, userId := 0, groupId := 0, mode := mode
                  accessTime := 0, modTime := 0, changeTime := 0
                  data := fun _ => 0, size := 0, nrBlocks := 0 }])

/-- `MyInMemoryFS::fuseRename`: the file is looked up under `newpath`. -/
def MyInMemoryFS.fuseRename (files : List myFsFile) (_path newpath : List Nat) :
    Int × List myFsFile :=
  match MyInMemoryFS.findFile files newpath with
  | none => (-ENOENT, files)
  | some i =>
    match files.get? i with
    | none => (-ENOENT, files)
    | some file => (0, files.set i { file with name := newpath.drop 1 })

/-- `MyInMemoryFS::fuseWrite`. -/
def MyInMemoryFS.fuseWrite (files : List myFsFile) (env : Env) (path : List Nat) (buf : Bytes)
    (size : Nat) (offset : Int) : Except Fault (Int × List myFsFile) :=
  match MyInMemoryFS.findFile files path with
  | none => .ok (-EBADF, files)
  | some i =>
    match files.get? i with
    | none => .error .outOfBounds
    | some file =>
      let r := MyInMemoryFS.resizeFile env file (max (toI64 (offset + size)) file.size)
      if r.1 ≠ 0 then .ok (-ENOSPC, files)
      else if offset < 0 ∨ offset + size > 512 * r.2.nrBlocks then .error .outOfBounds
      else
        let file1 := { r.2 with data := memcpy r.2.data offset.toNat buf 0 size }
        .ok (toI32 size, files.set i file1)

/-- `MyInMemoryFS::fuseRead`: return value and the caller's buffer. -/
def MyInMemoryFS.fuseRead (files : List myFsFile) (path : List Nat) (buf : Bytes) (size : Nat)
    (offset : Int) : Except Fault (Int × Bytes) :=
  match MyInMemoryFS.findFile files path with
  | none => .ok (-ENOENT, buf)
  | some i =>
    match files.get? i with
    | none => .error .outOfBounds
    | some file =>
      if offset > file.size then .ok (-EINVAL, buf)
      else
        let size2read := min (file.size - offset) (toI64 size)
        if offset < 0 ∨ size2read < 0 ∨ offset + size2read > 512 * file.nrBlocks then
          .error .outOfBounds
        else .ok (toI32 size2read, memcpy buf 0 file.data offset.toNat size2read.toNat)

/-- The rename scenario on the volatile variant: the return values of the six calls (in
call order), the first four bytes of the buffer after the read, and whether a file named
`x` is still found afterwards. -/
def MyInMemoryFS.renameScenario (env : Env) : Option (List Int × List Nat × Bool) :=
  let s1 := MyInMemoryFS.fuseMknod [] [47, 120] 0o100644
  match MyInMemoryFS.fuseWrite s1.2 env [47, 120] (arrBytes [88, 88]) 2 0 with
  | .error _ => none
  | .ok s2 =>
    let s3 := MyInMemoryFS.fuseMknod s2.2 [47, 121] 0o100644
    match MyInMemoryFS.fuseWrite s3.2 env [47, 121] (arrBytes [89, 89, 89, 89]) 4 0 with
    | .error _ => none
    | .ok s4 =>
      let s5 := MyInMemoryFS.fuseRename s4.2 [47, 120] [47, 121]
      match MyInMemoryFS.fuseRead s5.2 [47, 121] (fun _ => 0) 4 0 with
      | .error _ => none
      | .ok r =>
        some ([s1.1, s2.1, s3.1, s4.1, s5.1, r.1], readArr r.2 0 4,
          (MyInMemoryFS.findFile s5.2 [47, 120]).isSome)

/-- The rename scenario on the persistent variant, from a newly formatted volume: the
same observations as `MyInMemoryFS.renameScenario`. -/
def renameScenario (env : Env) : Option (List Int × List Nat × Bool) :=
  match run (fuseInit blankFS env none)
      [(env, .mknod [47, 120] 0o100644), (env, .write [47, 120] [88, 88] 0),
       (env, .mknod [47, 121] 0o100644), (env, .write [47, 121] [89, 89, 89, 89] 0),
       (env, .rename [47, 120] [47, 121])] with
  | .error _ => none
  | .ok s =>
    match fuseRead s.2 env [47, 121] (fun _ => 0) 4 0 with
    | .error _ => none
    | .ok r => some (s.1 ++ [r.1], readArr r.2.1 0 4, decide (0 ≤ getFileIndex s.2.fat [47, 120]))

/-- The sample volume in a container of 265 blocks, so that block 264 of the file `/a`
is stored; byte `j` of block `b` is `(b + j) % 256`. -/
def storedVolume : FS :=
  { sampleVolume with blockDevice := { size := 265, data := fun b j => (b + j) % 256 } }

/-- The volume after `mknod /a` and `truncate /a 5` on a newly formatted container: the
file has block 264, which the container of 264 blocks does not hold yet. -/
def unwrittenVolume : FS :=
  match run (fuseInit blankFS sampleEnv none)
      [(sampleEnv, .mknod [47, 97] 0o100644), (sampleEnv, .truncate [47, 97] 5)] with
  | .ok r => r.2
  | .error _ => blankFS

/-! ## Further sample states -/

/-- The entry of the file `a` as `fuseMknod` leaves it: no block, size 0. -/
def emptyFile : fatEntry := { sampleFile with startBlock := 0, nrBlocks := 0, size := 0 }

/-- A volume holding the single, empty file `/a` of `emptyFile`. -/
def emptyFileVolume : FS :=
  { fat := store (fun _ => emptyEntry sampleEnv) 0 emptyFile
    blt := formatBlt (fun _ => 0)
    blockDevice := BlockDevice.create }

/-- The file system `fuseInit` sets up on an existing container whose FAT blocks hold
`unterminatedTable`: the mount loads the table as it is. -/
def unterminatedVolume : FS :=
  fuseInit blankFS sampleEnv (some (writeFat unterminatedTable BlockDevice.create sampleEnv.heap))

/-- The block writes between two states of the container put the BLT before the FAT:
the later state is the earlier one with the logged writes applied in order, every write
to a BLT block (8..263) comes before every write to a FAT block (0..7), and from the
first FAT write on the BLT region of the container holds what it holds at the end. -/
def BltBeforeFat (before after : BlockDevice) : Prop :=
  after = writeSeq (writesBetween before after) before ∧
  (∀ i j b f, ((writesBetween before after).map Prod.fst).get? i = some b →
    ((writesBetween before after).map Prod.fst).get? j = some f → 8 ≤ b → f < 8 → i < j) ∧
  (∀ k, (∃ w ∈ (writesBetween before after).take k, w.1 < 8) → ∀ b, 8 ≤ b → b < 264 →
    (writeSeq ((writesBetween before after).take k) before).data b = after.data b)

/-! ## Observing runs -/

deriving instance DecidableEq for Except

/-- The values a sequence of calls returned, if every call returned. -/
def runReturns (fs : FS) (ops : List (Env × Op)) : Option (List Int) :=
  match run fs ops with
  | .ok r => some r.1
  | .error _ => none

/-- The file system after a sequence of calls (`fs` itself when a call has no defined
result). -/
def runState (fs : FS) (ops : List (Env × Op)) : FS :=
  match run fs ops with
  | .ok r => r.2
  | .error _ => fs

/-! ## Basic facts -/

theorem toI32_of_range {x : Int} (h1 : -2147483648 ≤ x) (h2 : x < 2147483648) : toI32 x = x := by
  unfold toI32; omega

theorem toI64_of_range {x : Int} (h1 : -9223372036854775808 ≤ x) (h2 : x < 9223372036854775808) :
    toI64 x = x := by
  unfold toI64; omega

theorem toU64_of_range {x : Int} (h1 : 0 ≤ x) (h2 : x < 18446744073709551616) :
    ((toU64 x : Nat) : Int) = x := by
  unfold toU64; omega

theorem toU64_natCast {n : Nat} (h : n < 18446744073709551616) : toU64 (n : Int) = n := by
  unfold toU64; omega

theorem toU16_of_range {x : Int} (h1 : 0 ≤ x) (h2 : x < 65536) : ((toU16 x : Nat) : Int) = x := by
  unfold toU16; omega

theorem chainFrom_length (blt : Nat → Nat) (n : Nat) : ∀ s, (chainFrom blt s n).length = n := by
  induction n with
  | zero => intro s; rfl
  | succ n ih => intro s; simp [chainFrom, ih]

theorem blockAt_ok {l : List Nat} {i : Int} (h0 : 0 ≤ i) (h1 : i < l.length) :
    ∃ b, blockAt l i = .ok b ∧ l.get? i.toNat = some b := by
  have hlt : i.toNat < l.length := by omega
  refine ⟨l.get ⟨i.toNat, hlt⟩, ?_, List.get?_eq_get hlt⟩
  unfold blockAt
  rw [if_neg (by omega), List.get?_eq_get hlt]

theorem getFileIndexFrom_range (fat : Nat → fatEntry) (name : List Nat) :
    ∀ n i, getFileIndexFrom fat name n i = -ENOENT ∨
      ((i : Int) ≤ getFileIndexFrom fat name n i ∧ getFileIndexFrom fat name n i < i + n ∧
        cstr (fat (getFileIndexFrom fat name n i).toNat).filename = name) := by
  intro n
  induction n with
  | zero => intro i; left; rfl
  | succ n ih =>
    intro i
    unfold getFileIndexFrom
    split
    · right
      refine ⟨le_refl _, by omega, ?_⟩
      simpa using ‹cstr (fat i).filename = name›
    · rcases ih (i + 1) with h | ⟨h1, h2, h3⟩
      · left; exact h
      · right
        refine ⟨by push_cast at h1; omega, by push_cast at h2 ⊢; omega, h3⟩

theorem getFileIndex_range (fat : Nat → fatEntry) (path : List Nat) :
    getFileIndex fat path = -ENOENT ∨
      (0 ≤ getFileIndex fat path ∧ getFileIndex fat path < 64 ∧
        cstr (fat (getFileIndex fat path).toNat).filename = path.drop 1) := by
  unfold getFileIndex
  rcases getFileIndexFrom_range fat (path.drop 1) 64 0 with h | ⟨h1, h2, h3⟩
  · left; exact h
  · right
    exact ⟨by omega, by omega, h3⟩

theorem getFileIndex_lt {fat : Nat → fatEntry} {path : List Nat} (h : 0 ≤ getFileIndex fat path) :
    (getFileIndex fat path).toNat < 64 := by
  rcases getFileIndex_range fat path with h1 | ⟨_, h2, _⟩
  · rw [h1] at h; simp [ENOENT] at h
  · omega

theorem readChunk_eq {fileSize : Int} {size : Nat} {offset cp : Int}
    (h0 : 0 ≤ offset) (hcp : offset ≤ cp) (hle : cp ≤ fileSize) (hfs : fileSize < 1073741824)
    (hsz : size < 9223372036854775808) (hrem : cp < offset + size) :
    readChunk fileSize size offset cp =
      if cp = fileSize then none
      else some (min (512 - cp % 512) (min (fileSize - cp) (offset + size - cp))) := by
  have e2 : cp.tmod 512 = cp % 512 := Int.tmod_eq_emod (by omega) (by norm_num)
  have e4 : toI32 (cp + (512 - cp % 512)) = cp + (512 - cp % 512) :=
    toI32_of_range (by omega) (by omega)
  have e5 : toI32 (fileSize - cp) = fileSize - cp := toI32_of_range (by omega) (by omega)
  have e6 : toU64 (offset + size) = (offset + size).toNat := by unfold toU64; omega
  unfold readChunk
  simp only [e2, e4, e5, e6]
  by_cases hc : cp = fileSize
  · rw [if_pos hc, if_pos]
    constructor <;> omega
  · rw [if_neg hc, if_neg (by omega)]
    congr 1
    by_cases h1 : cp + (512 - cp % 512) > fileSize
    · rw [if_pos h1]
      have e7 : toI32 (cp + (fileSize - cp)) = fileSize := by
        rw [toI32_of_range (by omega) (by omega)]; omega
      rw [e7]
      by_cases h2 : toU64 fileSize > (offset + size).toNat
      · rw [if_pos h2]
        have : fileSize > offset + size := by unfold toU64 at h2; omega
        unfold toI32 toU64; omega
      · rw [if_neg h2]
        have : fileSize ≤ offset + size := by unfold toU64 at h2; omega
        omega
    · rw [if_neg h1, e4]
      by_cases h2 : toU64 (cp + (512 - cp % 512)) > (offset + size).toNat
      · rw [if_pos h2]
        have : cp + (512 - cp % 512) > offset + size := by unfold toU64 at h2; omega
        unfold toI32 toU64; omega
      · rw [if_neg h2]
        have : cp + (512 - cp % 512) ≤ offset + size := by unfold toU64 at h2; omega
        omega

theorem writeChunk_eq {size : Nat} {offset cp : Int}
    (h0 : 0 ≤ offset) (hcp : offset ≤ cp) (hle : cp < 1073741824)
    (hsz : size < 9223372036854775808) (hrem : cp < offset + size) :
    writeChunk size offset cp = min (512 - cp % 512) (offset + size - cp) := by
  have e2 : cp.tmod 512 = cp % 512 := Int.tmod_eq_emod (by omega) (by norm_num)
  have e4 : toI32 (cp + (512 - cp % 512)) = cp + (512 - cp % 512) :=
    toI32_of_range (by omega) (by omega)
  have e6 : toU64 (offset + size) = (offset + size).toNat := by unfold toU64; omega
  unfold writeChunk
  simp only [e2, e4, e6]
  by_cases h2 : toU64 (cp + (512 - cp % 512)) > (offset + size).toNat
  · rw [if_pos h2]
    have : cp + (512 - cp % 512) > offset + size := by unfold toU64 at h2; omega
    unfold toI32 toU64; omega
  · rw [if_neg h2]
    have : cp + (512 - cp % 512) ≤ offset + size := by unfold toU64 at h2; omega
    omega

theorem readLoop_length (fileSize : Int) (blockList : List Nat) (dev : BlockDevice) (size : Nat)
    (offset : Int) (h0 : 0 ≤ offset)
    (hfs : fileSize ≤ 512 * blockList.length) (hbl : blockList.length < 65536)
    (hsz : size < 9223372036854775808) :
    ∀ (n : Nat) (cbp : Int) (buf buffer : Bytes), 0 ≤ cbp → cbp ≤ size → cbp ≤ fileSize - offset →
      min (size : Int) (fileSize - offset) - cbp < n →
      ∃ out flag, readLoop fileSize blockList dev size offset n (offset + cbp) cbp buf buffer
        = .ok (min (size : Int) (fileSize - offset), out, flag) := by
  intro n
  induction n with
  | zero => intro cbp buf buffer hc0 hc1 hc2 hn; omega
  | succ n ih =>
    intro cbp buf buffer hc0 hc1 hc2 hn
    rw [readLoop]
    have hcp0 : 0 ≤ offset + cbp := by omega
    have e1 : (offset + cbp).tdiv 512 = (offset + cbp) / 512 := Int.tdiv_eq_ediv hcp0 (by norm_num)
    have e3 : ((toU64 cbp : Nat) : Int) = cbp := toU64_of_range hc0 (by omega)
    by_cases hlt : toU64 cbp < size
    · rw [if_neg (not_not.mpr hlt)]
      have hlt' : cbp < size := by omega
      rw [readChunk_eq h0 (by omega) (by omega) (by omega) hsz (by omega)]
      by_cases hc : offset + cbp = fileSize
      · rw [if_pos hc]
        refine ⟨buf, false, ?_⟩
        have : cbp = min (size : Int) (fileSize - offset) := by omega
        simp only [← this]
      · rw [if_neg hc]
        obtain ⟨b, hb, -⟩ := blockAt_ok (l := blockList) (i := (offset + cbp) / 512)
          (by omega) (by omega)
        simp only [e1, hb]
        generalize hlen : min (512 - (offset + cbp) % 512)
          (min (fileSize - (offset + cbp)) (offset + ↑size - (offset + cbp))) = len
        have hl1 : 0 < len := by omega
        have hl2 : len ≤ 512 := by omega
        have hl3 : cbp + len ≤ size := by omega
        have hl4 : cbp + len ≤ fileSize - offset := by omega
        have e7 : ((toU64 len : Nat) : Int) = len := toU64_of_range (by omega) (by omega)
        rw [if_neg (by simp only [BLOCK_SIZE]; omega), if_neg (by omega)]
        rw [toI32_of_range (by omega) (by omega), toI32_of_range (by omega) (by omega)]
        rw [add_assoc]
        exact ih _ _ _ (by omega) hl3 hl4 (by omega)
    · rw [if_pos hlt]
      refine ⟨buf, true, ?_⟩
      have : cbp = min (size : Int) (fileSize - offset) := by omega
      simp only [← this]

theorem emptyEntry_typed (env : Env) (hu : env.uid < 4294967296) (hg : env.gid < 4294967296) :
    (emptyEntry env).Typed := by
  constructor <;> simp [emptyEntry, MAX_NAME_LENGTH, hu, hg]

theorem sampleFile_typed : sampleFile.Typed := by
  constructor <;> simp [sampleFile, MAX_NAME_LENGTH] <;> decide

theorem sampleVolume_fat (i : Nat) :
    sampleVolume.fat i = if i = 0 then sampleFile else emptyEntry sampleEnv := rfl

theorem sampleVolume_blt (b : Nat) :
    sampleVolume.blt b = if b = 264 then BLT_EOF else
      if b < 65536 then (if b < 264 then BLT_RSV else BLT_FREE) else 0 := rfl

theorem sampleVolume_chain (i : Nat) : chainOf sampleVolume i = if i = 0 then [264] else [] := by
  unfold chainOf
  rw [sampleVolume_fat]
  split <;> rfl

theorem sampleVolume_invariants : Invariants sampleVolume := by
  constructor
  · intro i _
    rw [sampleVolume_fat]
    split
    · exact sampleFile_typed
    · exact emptyEntry_typed _ (by decide) (by decide)
  · intro b hb
    rw [sampleVolume_blt]
    simp only [BLT_EOF, BLT_RSV, BLT_FREE]
    split_ifs <;> omega
  · intro i j _ _ hi hj _
    rw [sampleVolume_fat] at hi hj
    split at hi
    · split at hj
      · omega
      · exact absurd hj (by decide)
    · exact absurd hi (by decide)
  · intro i _
    rw [sampleVolume_chain]
    split <;> simp
  · intro i _ b hb
    rw [sampleVolume_chain] at hb
    split at hb
    · simp at hb
      subst hb
      rfl
    · simp at hb
  · intro i _ b hb
    rw [sampleVolume_chain] at hb
    split at hb
    · simp at hb
      subst hb
      decide
    · simp at hb
  · intro i j _ _ hij b hb
    rw [sampleVolume_chain] at hb ⊢
    split at hb
    · rw [if_neg (by omega)]; simp
    · simp at hb
  · intro b h1 h2 h
    have h0 := h 0 (by omega)
    rw [sampleVolume_chain] at h0
    simp at h0
    rw [sampleVolume_blt, if_neg h0, if_pos h2, if_neg (by omega)]
  · intro b hb
    rw [sampleVolume_blt, if_neg (by omega), if_pos (by omega), if_pos hb]
  · intro i _
    rw [sampleVolume_fat]
    split <;> decide
  · intro i _
    rw [sampleVolume_fat]
    split <;> decide
  · intro i _ hi
    rw [sampleVolume_fat] at hi ⊢
    split at hi
    · exact absurd hi (by decide)
    · rw [if_neg (by assumption)]
      simp [emptyEntry]

/-- Read length for a file that has blocks: on a volume satisfying the invariants, for an
existing file with at least one block, a caller buffer of `size` bytes and an offset
with `0 ≤ offset ≤ file.size`, `fuseRead` returns exactly `min(size, file.size - offset)`. -/
theorem fuseRead_length (fs : FS) (env : Env) (path : List Nat) (buf : Bytes) (size : Nat)
    (offset : Int) (hinv : Invariants fs) (hex : 0 ≤ getFileIndex fs.fat path)
    (hne : (fs.fat (getFileIndex fs.fat path).toNat).nrBlocks ≠ 0)
    (hbuf : size < 9223372036854775808) (h0 : 0 ≤ offset)
    (h1 : offset ≤ (fs.fat (getFileIndex fs.fat path).toNat).size) :
    ∃ out fs', fuseRead fs env path buf size offset =
      .ok (min (size : Int) ((fs.fat (getFileIndex fs.fat path).toNat).size - offset), out, fs') := by
  have hi := getFileIndex_lt hex
  have ht := hinv.fat_typed _ hi
  have hsb := hinv.size_blocks _ hi
  have hnr := ht.nr_lt
  unfold fuseRead
  simp only []
  rw [if_neg (by omega), if_neg hne]
  obtain ⟨out, flag, h⟩ := readLoop_length (fs.fat (getFileIndex fs.fat path).toNat).size
    (chainFrom fs.blt (fs.fat (getFileIndex fs.fat path).toNat).startBlock
      (fs.fat (getFileIndex fs.fat path).toNat).nrBlocks) fs.blockDevice size offset h0
    (by rw [chainFrom_length]; omega) (by rw [chainFrom_length]; exact hnr) hbuf
    (size + 1) 0 buf env.heap (le_refl _) (by omega) (by omega) (by omega)
  rw [add_zero] at h
  rw [toI32_of_range (by omega) (by omega), h]
  cases flag
  · exact ⟨out, _, rfl⟩
  · exact ⟨out, _, rfl⟩

theorem fuseRead_length_witness :
    Invariants sampleVolume ∧ 0 ≤ getFileIndex sampleVolume.fat [47, 97] ∧
    ∃ out fs', fuseRead sampleVolume sampleEnv [47, 97] (fun _ => 0) 3 4 =
      .ok (min ((3 : Nat) : Int)
        ((sampleVolume.fat (getFileIndex sampleVolume.fat [47, 97]).toNat).size - 4), out, fs') :=
  ⟨sampleVolume_invariants, by decide,
    fuseRead_length sampleVolume sampleEnv [47, 97] (fun _ => 0) 3 4 sampleVolume_invariants
      (by decide) (by decide) (by decide) (by decide) (by decide)⟩

theorem findFreeFrom_some (blt : Nat → Nat) :
    ∀ n i b, findFreeFrom blt n i = some b →
      i ≤ b ∧ b < i + n ∧ blt b = BLT_FREE ∧ ∀ j, i ≤ j → j < b → blt j ≠ BLT_FREE := by
  intro n
  induction n with
  | zero => intro i b h; simp [findFreeFrom] at h
  | succ n ih =>
    intro i b h
    unfold findFreeFrom at h
    split at h
    · simp only [Option.some.injEq] at h
      subst h
      exact ⟨le_refl _, by omega, by assumption, fun j h1 h2 => by omega⟩
    · obtain ⟨h1, h2, h3, h4⟩ := ih _ _ h
      refine ⟨by omega, by omega, h3, fun j hj1 hj2 => ?_⟩
      by_cases hj : j = i
      · subst hj; assumption
      · exact h4 j (by omega) hj2

theorem findFreeFrom_none (blt : Nat → Nat) :
    ∀ n i, findFreeFrom blt n i = none → ∀ j, i ≤ j → j < i + n → blt j ≠ BLT_FREE := by
  intro n
  induction n with
  | zero => intro i _ j h1 h2; omega
  | succ n ih =>
    intro i h j h1 h2
    unfold findFreeFrom at h
    split at h
    · simp at h
    · by_cases hj : j = i
      · subst hj; assumption
      · exact ih _ h j (by omega) (by omega)

theorem findFreeFrom_exists {blt : Nat → Nat} {b : Nat} (hb : b < 65536) (hf : blt b = BLT_FREE) :
    ∃ a, findFreeFrom blt TOTAL_BLT_ENTRIES 0 = some a ∧ a < 65536 ∧ blt a = BLT_FREE ∧
      ∀ j, j < a → blt j ≠ BLT_FREE := by
  cases h : findFreeFrom blt TOTAL_BLT_ENTRIES 0 with
  | none =>
    exact absurd hf (findFreeFrom_none blt _ _ h b (Nat.zero_le _) (by simpa [TOTAL_BLT_ENTRIES] using hb))
  | some a =>
    obtain ⟨_, h2, h3, h4⟩ := findFreeFrom_some blt _ _ _ h
    exact ⟨a, rfl, by simpa [TOTAL_BLT_ENTRIES] using h2, h3, fun j hj => h4 j (Nat.zero_le _) hj⟩

theorem findFreeFrom_first {blt : Nat → Nat} {a : Nat} (ha : a < 65536) (hf : blt a = BLT_FREE)
    (hmin : ∀ j, j < a → blt j ≠ BLT_FREE) : findFreeFrom blt TOTAL_BLT_ENTRIES 0 = some a := by
  obtain ⟨a', h1, h2, h3, h4⟩ := findFreeFrom_exists ha hf
  rw [h1]
  congr 1
  by_contra hne
  rcases Nat.lt_or_gt_of_ne hne with h | h
  · exact hmin a' h h3
  · exact h4 a h hf

theorem chainFrom_getLast?_succ (blt : Nat → Nat) (s n : Nat) :
    (chainFrom blt s (n + 2)).getLast? = (chainFrom blt (blt s) (n + 1)).getLast? := by
  show (s :: (blt s :: chainFrom blt (blt (blt s)) n)).getLast? = _
  rw [List.getLast?_cons_cons]
  rfl

theorem walkToEnd_ok (blt : Nat → Nat) :
    ∀ n s fuel, n < fuel → (∀ b, (chainFrom blt s (n + 1)).getLast? = some b → blt b = BLT_EOF) →
      ∃ c, walkToEnd blt fuel s = .ok c ∧ blt c = BLT_EOF := by
  intro n
  induction n with
  | zero =>
    intro s fuel hf h
    obtain ⟨k, rfl⟩ : ∃ k, fuel = k + 1 := ⟨fuel - 1, by omega⟩
    have : blt s = BLT_EOF := h s (by simp [chainFrom])
    exact ⟨s, by simp [walkToEnd, this], this⟩
  | succ n ih =>
    intro s fuel hf h
    obtain ⟨k, rfl⟩ : ∃ k, fuel = k + 1 := ⟨fuel - 1, by omega⟩
    unfold walkToEnd
    split
    · exact ⟨s, rfl, by assumption⟩
    · apply ih (blt s) k (by omega)
      intro b hb
      apply h b
      rw [chainFrom_getLast?_succ]
      exact hb

theorem findFreeBlock_of_free {blt : Nat → Nat} {b : Nat} (hb : b < 65536) (hf : blt b = BLT_FREE)
    (fb : Option Nat) :
    ∃ a, findFreeBlock blt fb = (0, some a) ∧ a < 65536 ∧ blt a = BLT_FREE ∧
      ∀ j, j < a → blt j ≠ BLT_FREE := by
  obtain ⟨a, h1, h2, h3, h4⟩ := findFreeFrom_exists hb hf
  exact ⟨a, by simp [findFreeBlock, h1], h2, h3, h4⟩

theorem store_same {α : Type} (a : Nat → α) (i : Nat) (v : α) : store a i v i = v := by
  simp [store]

theorem store_other {α : Type} (a : Nat → α) {i k : Nat} (v : α) (h : k ≠ i) :
    store a i v k = a k := by
  simp [store, h]

theorem HasFree_mono {blt : Nat → Nat} {k m : Nat} (h : HasFree blt k) (hm : m ≤ k) :
    HasFree blt m := by
  obtain ⟨l, h1, h2, h3⟩ := h
  exact ⟨l, h1, by omega, h3⟩

theorem HasFree_alloc {blt : Nat → Nat} {n cur a : Nat} (h : HasFree blt (n + 1))
    (hcur : blt cur ≠ BLT_FREE) :
    HasFree (store (store blt cur a) a BLT_EOF) n := by
  obtain ⟨l, h1, h2, h3⟩ := h
  refine ⟨l.erase a, h1.erase a, ?_, ?_⟩
  · have := List.length_erase_of_mem (a := a) (l := l)
    by_cases ha : a ∈ l
    · rw [List.length_erase_of_mem ha]; omega
    · rw [List.erase_of_not_mem ha]; omega
  · intro b hb
    have hb' := (List.Nodup.mem_erase_iff h1).mp hb
    obtain ⟨hb1, hb2⟩ := h3 b hb'.2
    refine ⟨hb1, ?_⟩
    rw [store_other _ _ hb'.1, store_other _ _ (by rintro rfl; exact hcur hb2)]
    exact hb2

theorem growLoop_ok : ∀ (n : Nat) (blt : Nat → Nat) (cur : Nat) (fb : Option Nat),
    HasFree blt n → blt cur ≠ BLT_FREE → ∃ r, growLoop n blt cur fb = .ok r := by
  intro n
  induction n with
  | zero => intro blt cur fb _ _; exact ⟨_, rfl⟩
  | succ n ih =>
    intro blt cur fb h hcur
    obtain ⟨l, h1, h2, h3⟩ := h
    obtain ⟨x, hx⟩ : ∃ x, x ∈ l := List.exists_mem_of_length_pos (by omega)
    obtain ⟨a, ha, -, -, -⟩ := findFreeBlock_of_free (h3 x hx).1 (h3 x hx).2 fb
    rw [growLoop, ha]
    simp only [store_same]
    apply ih
    · exact HasFree_alloc ⟨l, h1, h2, h3⟩ hcur
    · rw [store_same]; decide

theorem HasFree_store {blt : Nat → Nat} {n : Nat} (h : HasFree blt (n + 1)) (a v : Nat) :
    HasFree (store blt a v) n := by
  obtain ⟨l, h1, h2, h3⟩ := h
  refine ⟨l.erase a, h1.erase a, ?_, ?_⟩
  · by_cases ha : a ∈ l
    · rw [List.length_erase_of_mem ha]; omega
    · rw [List.erase_of_not_mem ha]; omega
  · intro b hb
    have hb' := (List.Nodup.mem_erase_iff h1).mp hb
    obtain ⟨hb1, hb2⟩ := h3 b hb'.2
    exact ⟨hb1, by rw [store_other _ _ hb'.1]; exact hb2⟩

theorem nodup_length_le {l : List Nat} {p q : Nat} (hn : l.Nodup)
    (h : ∀ b ∈ l, p ≤ b ∧ b < q) : l.length ≤ q - p := by
  have hsub : l ⊆ List.range' p (q - p) := by
    intro b hb
    rw [List.mem_range'_1]
    have := h b hb
    omega
  have := (List.subperm_of_subset hn hsub).length_le
  simpa using this

theorem HasFree_le {blt : Nat → Nat} {k : Nat} (h : HasFree blt k) : k ≤ 65536 := by
  obtain ⟨l, h1, h2, h3⟩ := h
  have := nodup_length_le (p := 0) (q := 65536) h1 (fun b hb => ⟨Nat.zero_le _, (h3 b hb).1⟩)
  omega

theorem truncateGrow_ok (fs : FS) (env : Env) (e : fatEntry) (nrBlocks : Int)
    (hnr : e.nrBlocks < 65536)
    (hend : ∀ b, (chainFrom fs.blt e.startBlock e.nrBlocks).getLast? = some b → fs.blt b = BLT_EOF)
    (hfree : HasFree fs.blt (nrBlocks - e.nrBlocks).toNat) :
    ∃ blt1 e1 dev1, truncateGrow fs env e nrBlocks = .ok (blt1, e1, dev1) ∧
      e1 = { e with startBlock := e1.startBlock,
                    nrBlocks := if nrBlocks > (e.nrBlocks : Int) then toU16 nrBlocks else e.nrBlocks } := by
  unfold truncateGrow
  by_cases hgt : nrBlocks > (e.nrBlocks : Int)
  · rw [if_pos hgt]
    have hk := HasFree_le hfree
    by_cases h0 : e.nrBlocks = 0
    · simp only [h0, if_true]
      obtain ⟨l, h1, h2, h3⟩ := hfree
      obtain ⟨x, hx⟩ : ∃ x, x ∈ l := List.exists_mem_of_length_pos (by omega)
      obtain ⟨a, ha, -, -, -⟩ := findFreeBlock_of_free (h3 x hx).1 (h3 x hx).2 (some e.startBlock)
      simp only [ha, Option.getD_some]
      have hw : walkToEnd (store fs.blt a BLT_EOF) TOTAL_BLT_ENTRIES a = .ok a := by
        simp [walkToEnd, TOTAL_BLT_ENTRIES, store_same]
      simp only [hw]
      rw [if_neg (by push_cast; omega)]
      obtain ⟨r, hr⟩ := growLoop_ok (nrBlocks - ((1 : Nat) : Int)).toNat (store fs.blt a BLT_EOF) a none
        (HasFree_store (HasFree_mono ⟨l, h1, h2, h3⟩ (by omega)) a BLT_EOF)
        (by rw [store_same]; decide)
      obtain ⟨blt1, c1, f1⟩ := r
      simp only [hr]
      refine ⟨_, _, _, rfl, ?_⟩
      have hpos : (0 : Int) < nrBlocks := by rw [h0] at hgt; simpa using hgt
      simp [h0, hpos]
    · simp only [h0, if_false]
      obtain ⟨c, hc, hce⟩ := walkToEnd_ok fs.blt (e.nrBlocks - 1) e.startBlock TOTAL_BLT_ENTRIES
        (by simp only [TOTAL_BLT_ENTRIES]; omega)
        (by rw [Nat.sub_add_cancel (by omega)]; exact hend)
      simp only [hc]
      rw [if_neg (by omega)]
      obtain ⟨r, hr⟩ := growLoop_ok (nrBlocks - (e.nrBlocks : Int)).toNat fs.blt c none hfree
        (by rw [hce]; decide)
      obtain ⟨blt1, c1, f1⟩ := r
      simp only [hr]
      refine ⟨_, _, _, rfl, ?_⟩
      simp [hgt]
  · rw [if_neg hgt]
    refine ⟨_, _, _, rfl, ?_⟩
    simp [hgt]

theorem fuseTruncate_grow (fs : FS) (env : Env) (path : List Nat) (newSize : Int)
    (hex : 0 ≤ getFileIndex fs.fat path)
    (h0 : 0 ≤ (fs.fat (getFileIndex fs.fat path).toNat).size)
    (hgt : (fs.fat (getFileIndex fs.fat path).toNat).size < newSize)
    (hns : newSize < 4611686018427387904)
    (hnr : (fs.fat (getFileIndex fs.fat path).toNat).nrBlocks < 65536)
    (hend : ∀ b, (chainFrom fs.blt (fs.fat (getFileIndex fs.fat path).toNat).startBlock
      (fs.fat (getFileIndex fs.fat path).toNat).nrBlocks).getLast? = some b → fs.blt b = BLT_EOF)
    (hfree : HasFree fs.blt
      ((newSize + 511) / 512 - (fs.fat (getFileIndex fs.fat path).toNat).nrBlocks).toNat) :
    ∃ blt1 e1 dev1, fuseTruncate fs env path newSize =
        .ok (0, { fat := store fs.fat (getFileIndex fs.fat path).toNat
                    { e1 with size := newSize, modTime := env.systemTime,
                              changeTime := env.systemTime }
                  blt := blt1, blockDevice := dev1 }) ∧
      e1 = { fs.fat (getFileIndex fs.fat path).toNat with
        startBlock := e1.startBlock
        nrBlocks := if (newSize + 511) / 512 > ((fs.fat (getFileIndex fs.fat path).toNat).nrBlocks : Int)
          then toU16 ((newSize + 511) / 512)
          else (fs.fat (getFileIndex fs.fat path).toNat).nrBlocks } := by
  have e1 : (toI64 (newSize + 512 - 1)).tdiv 512 = (newSize + 511) / 512 := by
    rw [toI64_of_range (by omega) (by omega), Int.tdiv_eq_ediv (by omega) (by norm_num)]
    congr 1; omega
  obtain ⟨blt1, en, dev1, hg, hen⟩ := truncateGrow_ok fs env _ ((newSize + 511) / 512) hnr hend hfree
  unfold fuseTruncate
  simp only [e1]
  rw [if_neg (by omega), if_neg (by omega), if_neg (by omega), hg]
  exact ⟨blt1, en, _, rfl, hen⟩

theorem writeLoop_ok (blockList : List Nat) (buf : Bytes) (size : Nat) (offset : Int)
    (h0 : 0 ≤ offset) (hfs : offset + size ≤ 512 * blockList.length)
    (hbl : blockList.length < 65536) :
    ∀ (n : Nat) (cbp : Int) (dev : BlockDevice) (buffer : Bytes), 0 ≤ cbp → cbp ≤ size →
      size - cbp < n →
      ∃ dev1, writeLoop blockList buf size offset n (offset + cbp) cbp dev buffer = .ok dev1 := by
  intro n
  induction n with
  | zero => intro cbp dev buffer hc0 hc1 hn; omega
  | succ n ih =>
    intro cbp dev buffer hc0 hc1 hn
    rw [writeLoop]
    have hcp0 : 0 ≤ offset + cbp := by omega
    have e1 : (offset + cbp).tdiv 512 = (offset + cbp) / 512 := Int.tdiv_eq_ediv hcp0 (by norm_num)
    have e2 : (offset + cbp).tmod 512 = (offset + cbp) % 512 := Int.tmod_eq_emod hcp0 (by norm_num)
    have e3 : ((toU64 cbp : Nat) : Int) = cbp := toU64_of_range hc0 (by omega)
    by_cases hlt : toU64 cbp < size
    · rw [if_neg (not_not.mpr hlt)]
      have hlt' : cbp < size := by omega
      simp only []
      rw [writeChunk_eq h0 (by omega) (by omega) (by omega) (by omega)]
      obtain ⟨b, hb, -⟩ := blockAt_ok (l := blockList) (i := (offset + cbp) / 512)
        (by omega) (by omega)
      simp only [e1, e2, hb]
      generalize hlen : min (512 - (offset + cbp) % 512) (offset + ↑size - (offset + cbp)) = len
      have hl1 : 0 < len := by omega
      have hl2 : (offset + cbp) % 512 + len ≤ 512 := by omega
      have hl3 : cbp + len ≤ size := by omega
      have e7 : ((toU64 len : Nat) : Int) = len := toU64_of_range (by omega) (by omega)
      rw [if_neg (by simp only [BLOCK_SIZE]; omega), if_neg (by omega)]
      rw [toI32_of_range (by omega) (by omega), toI32_of_range (by omega) (by omega)]
      rw [add_assoc]
      exact ih _ _ _ (by omega) hl3 (by omega)
    · rw [if_pos hlt]
      exact ⟨dev, rfl⟩

theorem toU64_toNat {x : Int} (h0 : 0 ≤ x) (h : x < 18446744073709551616) :
    toU64 x = x.toNat := by
  unfold toU64; omega

theorem toU64_lt_iff {a b : Int} (ha : 0 ≤ a) (ha2 : a < 18446744073709551616) (hb : 0 ≤ b)
    (hb2 : b < 18446744073709551616) : toU64 a < toU64 b ↔ a < b := by
  unfold toU64; omega

theorem toI64_toU64 {x : Int} (h0 : 0 ≤ x) (h : x < 9223372036854775808) :
    toI64 (toU64 x : Nat) = x := by
  unfold toI64 toU64; omega

theorem Invariants.blocks_le {fs : FS} (hinv : Invariants fs) {i k : Nat} (hi : i < 64)
    (hfree : HasFree fs.blt k) : (fs.fat i).nrBlocks + k ≤ 65272 := by
  obtain ⟨l, h1, h2, h3⟩ := hfree
  have hc := hinv.chain_used i hi
  have hlen : (chainOf fs i).length = (fs.fat i).nrBlocks := chainFrom_length _ _ _
  have hnd : (chainOf fs i ++ l).Nodup := by
    rw [List.nodup_append]
    refine ⟨hinv.chain_nodup i hi, h1, ?_⟩
    intro b hb1 hb2
    exact (hc b hb1).2.1 (h3 b hb2).2
  have := nodup_length_le (p := 264) (q := 65536) hnd (by
    intro b hb
    rw [List.mem_append] at hb
    rcases hb with hb | hb
    · refine ⟨?_, (hc b hb).1⟩
      by_contra hlt
      exact (hc b hb).2.2 (hinv.reserved b (by omega))
    · refine ⟨?_, (h3 b hb).1⟩
      by_contra hlt
      have h := hinv.reserved b (by omega)
      rw [(h3 b hb).2] at h
      exact absurd h (by decide))
  rw [List.length_append, hlen] at this
  omega

theorem write_bounds {s x : Int} {nr : Nat}
    (hsb : (nr : Int) = (s + 511) / 512) (hcnt : nr + ((x + 511) / 512 - nr).toNat ≤ 65272) :
    (x + 511) / 512 ≤ 65272 ∧ x < 67108864 ∧ s < 67108864 ∧ s ≤ 512 * nr := by
  omega

theorem grown_blocks {s x : Int} {nr : Nat} (hs0 : 0 ≤ s) (hgt : s < x)
    (hsb : (nr : Int) = (s + 511) / 512) (hk : (x + 511) / 512 ≤ 65272) :
    ((if (x + 511) / 512 > (nr : Int) then toU16 ((x + 511) / 512) else nr : Nat) : Int)
      = (x + 511) / 512 := by
  split
  · exact toU16_of_range (by omega) (by omega)
  · omega

theorem blocks_pos {x : Int} (h : 0 < x) : 0 < (x + 511) / 512 := by omega

/-- Write postcondition for a write that leaves the file with a block: on a volume
satisfying the invariants, a write of `n` bytes at `offset` to an existing file that has
a block or with `offset + n > 0`, with enough FREE blocks for the blocks it adds,
returns `n`; afterwards the size of the file is `max(old size, offset + n)` and its
block-count is `ceil(new size / 512)`. -/
theorem fuseWrite_post (fs : FS) (env : Env) (path : List Nat) (buf : Bytes) (n : Nat)
    (offset : Int) (hinv : Invariants fs) (hex : 0 ≤ getFileIndex fs.fat path) (h0 : 0 ≤ offset)
    (hpos : (fs.fat (getFileIndex fs.fat path).toNat).nrBlocks ≠ 0 ∨ 0 < offset + n)
    (hfree : HasFree fs.blt
      ((offset + n + 511) / 512 - (fs.fat (getFileIndex fs.fat path).toNat).nrBlocks).toNat) :
    ∃ fs', fuseWrite fs env path buf n offset = .ok ((n : Int), fs') ∧
      (fs'.fat (getFileIndex fs.fat path).toNat).size =
        max (fs.fat (getFileIndex fs.fat path).toNat).size (offset + n) ∧
      ((fs'.fat (getFileIndex fs.fat path).toNat).nrBlocks : Int) =
        (max (fs.fat (getFileIndex fs.fat path).toNat).size (offset + n) + 511) / 512 := by
  have hi := getFileIndex_lt hex
  have hsb := hinv.size_blocks _ hi
  have hs0 := hinv.size_nonneg _ hi
  have hnr := (hinv.fat_typed _ hi).nr_lt
  have hcnt := hinv.blocks_le hi hfree
  have hend : ∀ b, (chainFrom fs.blt (fs.fat (getFileIndex fs.fat path).toNat).startBlock
      (fs.fat (getFileIndex fs.fat path).toNat).nrBlocks).getLast? = some b → fs.blt b = BLT_EOF :=
    hinv.chain_end _ hi
  have hneg : ¬ getFileIndex fs.fat path < 0 := not_lt.mpr hex
  have hn0 : (0 : Int) ≤ n := Int.ofNat_nonneg n
  have hx0 : 0 ≤ offset + n := add_nonneg h0 hn0
  obtain ⟨hk, hb1, hb2, hb3⟩ := write_bounds hsb hcnt
  have er : toI32 (n : Int) = n := toI32_of_range (by linarith) (by linarith)
  have eo : toI32 offset = offset := toI32_of_range (by linarith) (by linarith)
  have ecomm : (n : Int) + offset = offset + n := add_comm _ _
  have eu3 : toI64 (toU64 (offset + n) : Nat) = offset + n := toI64_toU64 hx0 (by linarith)
  have hcmp : toU64 (fs.fat (getFileIndex fs.fat path).toNat).size < toU64 (offset + n) ↔
      (fs.fat (getFileIndex fs.fat path).toNat).size < offset + n :=
    toU64_lt_iff hs0 (by linarith) hx0 (by linarith)
  unfold fuseWrite
  simp only [ecomm, eu3, er, eo, gt_iff_lt, hcmp]
  rw [if_neg hneg]
  by_cases hgrow : (fs.fat (getFileIndex fs.fat path).toNat).size < offset + n
  · obtain ⟨blt1, e1, dev1, htr, he1⟩ := fuseTruncate_grow fs env path (offset + n) hex
      hs0 hgrow (by linarith) hnr hend hfree
    have hnb : (e1.nrBlocks : Int) = (offset + n + 511) / 512 := by
      rw [he1]
      exact grown_blocks hs0 hgrow hsb hk
    have hlen := chainFrom_length blt1 e1.nrBlocks e1.startBlock
    have hfit : offset + n ≤ 512 * (e1.nrBlocks : Int) := by rw [hnb]; clear hcnt hsb; omega
    obtain ⟨dev2, hw⟩ := writeLoop_ok (chainFrom blt1 e1.startBlock e1.nrBlocks) buf n offset h0
      (by rw [hlen]; exact hfit) (by rw [hlen]; clear hcnt hsb; omega) (n + 1) 0 dev1 env.heap
      (le_refl _) hn0 (by push_cast; linarith)
    rw [add_zero] at hw
    rw [if_pos hgrow]
    have hne1 : ¬ e1.nrBlocks = 0 := by
      intro h
      have h1 := blocks_pos (lt_of_le_of_lt hs0 hgrow)
      rw [← hnb, h] at h1
      exact absurd h1 (by decide)
    simp only [htr, store_same, hw, if_neg (lt_irrefl _), hne1, if_false]
    refine ⟨_, rfl, ?_, ?_⟩
    · simp only [store_same]
      exact (max_eq_right (le_of_lt hgrow)).symm
    · simp only [store_same]
      rw [hnb, max_eq_right (le_of_lt hgrow)]
  · rw [if_neg hgrow]
    have hle : offset + n ≤ (fs.fat (getFileIndex fs.fat path).toNat).size := not_lt.mp hgrow
    have hlen := chainFrom_length fs.blt (fs.fat (getFileIndex fs.fat path).toNat).nrBlocks
      (fs.fat (getFileIndex fs.fat path).toNat).startBlock
    obtain ⟨dev2, hw⟩ := writeLoop_ok (chainFrom fs.blt
      (fs.fat (getFileIndex fs.fat path).toNat).startBlock
      (fs.fat (getFileIndex fs.fat path).toNat).nrBlocks)
      buf n offset h0 (by rw [hlen]; linarith) (by rw [hlen]; exact hnr) (n + 1) 0
      fs.blockDevice env.heap (le_refl _) hn0 (by push_cast; linarith)
    rw [add_zero] at hw
    have hne1 : ¬ (fs.fat (getFileIndex fs.fat path).toNat).nrBlocks = 0 := by
      rcases hpos with h | h
      · exact h
      · intro hz
        have h1 := blocks_pos (lt_of_lt_of_le h hle)
        rw [← hsb, hz] at h1
        exact absurd h1 (by decide)
    simp only [hw, if_neg hgrow, hne1, if_false]
    refine ⟨_, rfl, ?_, ?_⟩
    · simp only [store_same]
      rw [if_neg (mt hcmp.mp hgrow)]
      exact (max_eq_left hle).symm
    · simp only [store_same]
      rw [max_eq_left hle]
      exact hsb

theorem fuseWrite_post_witness :
    Invariants sampleVolume ∧ 0 ≤ getFileIndex sampleVolume.fat [47, 97] ∧
    HasFree sampleVolume.blt 1 ∧
    ∃ fs', fuseWrite sampleVolume sampleEnv [47, 97] (fun _ => 7) 1 512 = .ok (1, fs') ∧
      (fs'.fat 0).size = 513 ∧ ((fs'.fat 0).nrBlocks : Int) = 2 :=
  have hfree : HasFree sampleVolume.blt 1 :=
    ⟨[265], by simp, by simp, by intro b hb; simp at hb; subst hb; exact ⟨by decide, rfl⟩⟩
  ⟨sampleVolume_invariants, by decide, hfree,
    fuseWrite_post sampleVolume sampleEnv [47, 97] (fun _ => 7) 1 512 sampleVolume_invariants
      (by decide) (by decide) (Or.inr (by decide)) hfree⟩

theorem writeAll_frame (img : Nat → Bytes → Bytes) (g : Nat → Nat) :
    ∀ (L : List Nat) (st : BlockDevice × Bytes) (b : Nat), (∀ k ∈ L, g k ≠ b) → b < st.1.size →
      (L.foldl (fun (st : BlockDevice × Bytes) k =>
          (st.1.write (g k) (img k st.2), img k st.2)) st).1.data b = st.1.data b := by
  intro L
  induction L with
  | nil => intro st b _ _; rfl
  | cons k L ih =>
    intro st b hne hlt
    rw [List.foldl_cons, ih _ b (fun k' hk' => hne k' (List.mem_cons_of_mem _ hk'))]
    · have h := hne k (List.mem_cons_self _ _)
      funext j
      simp [BlockDevice.write, Ne.symm h, hlt]
    · simp only [BlockDevice.write]
      exact lt_of_lt_of_le hlt (le_max_left _ _)

theorem writeAll_size (img : Nat → Bytes → Bytes) (g : Nat → Nat) :
    ∀ (L : List Nat) (st : BlockDevice × Bytes),
      st.1.size ≤ (L.foldl (fun (st : BlockDevice × Bytes) k =>
          (st.1.write (g k) (img k st.2), img k st.2)) st).1.size ∧
      ∀ k ∈ L, g k < (L.foldl (fun (st : BlockDevice × Bytes) k =>
          (st.1.write (g k) (img k st.2), img k st.2)) st).1.size := by
  intro L
  induction L with
  | nil => intro st; exact ⟨le_refl _, fun k hk => absurd hk (List.not_mem_nil _)⟩
  | cons k L ih =>
    intro st
    rw [List.foldl_cons]
    obtain ⟨h1, h2⟩ := ih (st.1.write (g k) (img k st.2), img k st.2)
    have hs : (st.1.write (g k) (img k st.2)).size = max st.1.size (g k + 1) := rfl
    refine ⟨le_trans (by rw [hs]; exact le_max_left _ _) h1, ?_⟩
    intro k' hk'
    rcases List.mem_cons.mp hk' with rfl | hk'
    · exact lt_of_lt_of_le (by rw [hs]; exact lt_of_lt_of_le (Nat.lt_succ_self _) (le_max_right _ _)) h1
    · exact h2 k' hk'

theorem writeAll_data (img : Nat → Bytes → Bytes) (g : Nat → Nat)
    (himg : ∀ k b1 b2 j, j < 512 → img k b1 j = img k b2 j) :
    ∀ (L : List Nat) (st : BlockDevice × Bytes), (L.map g).Nodup → ∀ k ∈ L, ∀ j, j < 512 →
      (L.foldl (fun (st : BlockDevice × Bytes) k =>
          (st.1.write (g k) (img k st.2), img k st.2)) st).1.data (g k) j = img k st.2 j := by
  intro L
  induction L with
  | nil => intro st _ k hk; exact absurd hk (List.not_mem_nil _)
  | cons k0 L ih =>
    intro st hnd k hk j hj
    rw [List.map_cons, List.nodup_cons] at hnd
    rw [List.foldl_cons]
    rcases List.mem_cons.mp hk with rfl | hk'
    · rw [writeAll_frame img g L _ (g k)]
      · simp [BlockDevice.write]
      · intro k' hk' heq
        exact hnd.1 (heq ▸ List.mem_map_of_mem g hk')
      · simp only [BlockDevice.write]
        exact lt_of_lt_of_le (Nat.lt_succ_self _) (le_max_right _ _)
    · rw [ih _ hnd.2 k hk' j hj]
      exact himg _ _ _ _ hj

theorem writeFat_eq (fat : Nat → fatEntry) (dev : BlockDevice) (buffer : Bytes) :
    writeFat fat dev buffer = ((List.range FAT_BLOCKS).foldl (fun (st : BlockDevice × Bytes) k =>
      (st.1.write ((fun k => k) k) (fatBlock fat k st.2), fatBlock fat k st.2)) (dev, buffer)).1 := rfl

theorem writeBlt_eq (blt : Nat → Nat) (dev : BlockDevice) (buffer : Bytes) :
    writeBlt blt dev buffer = ((List.range BLT_BLOCKS).foldl (fun (st : BlockDevice × Bytes) k =>
      (st.1.write ((fun k => k + FAT_BLOCKS) k) (bltBlock blt k st.2), bltBlock blt k st.2))
      (dev, buffer)).1 := rfl

theorem writeFat_frame (fat : Nat → fatEntry) (dev : BlockDevice) (buffer : Bytes) {b : Nat}
    (h8 : 8 ≤ b) (hb : b < dev.size) : (writeFat fat dev buffer).data b = dev.data b := by
  rw [writeFat_eq]
  apply writeAll_frame (fatBlock fat) (fun k => k) _ (dev, buffer) b _ hb
  intro k hk
  show k ≠ b
  simp only [FAT_BLOCKS, List.mem_range] at hk
  omega

theorem writeFat_size (fat : Nat → fatEntry) (dev : BlockDevice) (buffer : Bytes) :
    dev.size ≤ (writeFat fat dev buffer).size ∧ 8 ≤ (writeFat fat dev buffer).size := by
  obtain ⟨h1, h2⟩ := writeAll_size (fatBlock fat) (fun k => k) (List.range FAT_BLOCKS) (dev, buffer)
  have h3 := h2 7 (List.mem_range.mpr (by decide))
  rw [writeFat_eq]
  beta_reduce at h1 h3 ⊢
  exact ⟨h1, by omega⟩

theorem writeBlt_frame (blt : Nat → Nat) (dev : BlockDevice) (buffer : Bytes) {b : Nat}
    (h8 : b < 8 ∨ 264 ≤ b) (hb : b < dev.size) : (writeBlt blt dev buffer).data b = dev.data b := by
  rw [writeBlt_eq]
  apply writeAll_frame (bltBlock blt) (fun k => k + FAT_BLOCKS) _ (dev, buffer) b _ hb
  intro k hk
  show k + FAT_BLOCKS ≠ b
  simp only [BLT_BLOCKS, FAT_BLOCKS, List.mem_range] at hk ⊢
  omega

theorem writeBlt_size (blt : Nat → Nat) (dev : BlockDevice) (buffer : Bytes) :
    dev.size ≤ (writeBlt blt dev buffer).size ∧ 264 ≤ (writeBlt blt dev buffer).size := by
  obtain ⟨h1, h2⟩ := writeAll_size (bltBlock blt) (fun k => k + FAT_BLOCKS) (List.range BLT_BLOCKS)
    (dev, buffer)
  have h3 := h2 255 (List.mem_range.mpr (by simp only [BLT_BLOCKS]; omega))
  rw [writeBlt_eq]
  beta_reduce at h1 h3 ⊢
  simp only [FAT_BLOCKS] at h1 h3 ⊢
  exact ⟨h1, by omega⟩

theorem BlockDevice.write_data_other (dev : BlockDevice) (x : Bytes) {b c : Nat} (hne : c ≠ b)
    (hlt : c < dev.size) : (dev.write b x).data c = dev.data c := by
  funext j
  simp only [BlockDevice.write, if_neg hne, if_pos hlt]

theorem nodup_get?_inj {l : List Nat} (hn : l.Nodup) {i j b : Nat} (hi : l.get? i = some b)
    (hj : l.get? j = some b) : i = j := by
  have hil : i < l.length := by
    by_contra h; rw [List.get?_eq_none.mpr (by omega)] at hi; simp at hi
  have hjl : j < l.length := by
    by_contra h; rw [List.get?_eq_none.mpr (by omega)] at hj; simp at hj
  by_contra hne
  rcases Nat.lt_or_gt_of_ne hne with h | h
  · exact List.nodup_iff_get?_ne_get?.mp hn i j h hjl (hi.trans hj.symm)
  · exact List.nodup_iff_get?_ne_get?.mp hn j i h hil (hj.trans hi.symm)

theorem writeStep_content (bl : List Nat) (hnd : bl.Nodup) (buf : Bytes) (off c L b : Nat)
    (dev : BlockDevice) (buffer : Bytes)
    (hL2 : (off + c) % 512 + L ≤ 512)
    (hget : bl.get? ((off + c) / 512) = some b)
    (hinv : ∀ q, q < c → ∀ b, bl.get? ((off + q) / 512) = some b →
        b < dev.size ∧ dev.data b ((off + q) % 512) = buf q) :
    ∀ q, q < c + L → ∀ b', bl.get? ((off + q) / 512) = some b' →
      b' < (dev.write b (memcpy (dev.read b buffer).2 ((off + c) % 512) buf c L)).size ∧
      (dev.write b (memcpy (dev.read b buffer).2 ((off + c) % 512) buf c L)).data b'
        ((off + q) % 512) = buf q := by
  have hsize : (dev.write b (memcpy (dev.read b buffer).2 ((off + c) % 512) buf c L)).size
      = max dev.size (b + 1) := rfl
  intro q hq b' hb'
  by_cases hqc : q < c
  · obtain ⟨h1, h2⟩ := hinv q hqc b' hb'
    refine ⟨by rw [hsize]; exact lt_of_lt_of_le h1 (le_max_left _ _), ?_⟩
    by_cases hbb : b' = b
    · subst hbb
      have hidx := nodup_get?_inj hnd hb' hget
      have hx : (off + q) % 512 < (off + c) % 512 := by
        clear hinv hb' hget hsize h1 h2
        omega
      simp only [BlockDevice.write, if_true, memcpy, BlockDevice.read, if_pos h1, BLOCK_SIZE]
      rw [if_neg (by omega), if_pos (by omega)]
      exact h2
    · simp only [BlockDevice.write, if_neg hbb, if_pos h1]
      exact h2
  · have hidx : (off + q) / 512 = (off + c) / 512 := by
      clear hinv hb' hget hsize
      omega
    rw [hidx, hget] at hb'
    simp only [Option.some.injEq] at hb'
    subst hb'
    refine ⟨by rw [hsize]; exact lt_of_lt_of_le (Nat.lt_succ_self _) (le_max_right _ _), ?_⟩
    have hx : (off + q) % 512 = (off + c) % 512 + (q - c) := by
      clear hinv hget hsize
      omega
    simp only [BlockDevice.write, if_true, memcpy]
    rw [if_pos (by omega)]
    congr 1
    omega

theorem pos_facts {off c size len : Nat} (hfit : off + size ≤ 512 * len) (hbl : len < 65536)
    (hlt : c < size) :
    ((off : Int) + c).tdiv 512 = ((off + c) / 512 : Nat) ∧
    ((off : Int) + c).tmod 512 = ((off + c) % 512 : Nat) ∧
    (0 : Int) ≤ ((off + c) / 512 : Nat) ∧ (((off + c) / 512 : Nat) : Int) < len ∧
    toU64 (c : Int) = c := by
  have hcp0 : (0 : Int) ≤ (off : Int) + c := by omega
  refine ⟨?_, ?_, by omega, by omega, toU64_natCast (by omega)⟩
  · rw [Int.tdiv_eq_ediv hcp0 (by norm_num)]; omega
  · rw [Int.tmod_eq_emod hcp0 (by norm_num)]; omega

theorem chunk_facts {off c size len : Nat} (hfit : off + size ≤ 512 * len) (hbl : len < 65536)
    (hlt : c < size) :
    0 < min (512 - (off + c) % 512) (size - c) ∧
    (off + c) % 512 + min (512 - (off + c) % 512) (size - c) ≤ 512 ∧
    c + min (512 - (off + c) % 512) (size - c) ≤ size ∧
    size - (c + min (512 - (off + c) % 512) (size - c)) < size - c ∧
    toU64 ((min (512 - (off + c) % 512) (size - c) : Nat) : Int)
      = min (512 - (off + c) % 512) (size - c) ∧
    toI32 ((off : Int) + c + (min (512 - (off + c) % 512) (size - c) : Nat))
      = (off : Int) + ((c + min (512 - (off + c) % 512) (size - c) : Nat) : Int) ∧
    toI32 ((c : Int) + (min (512 - (off + c) % 512) (size - c) : Nat))
      = ((c + min (512 - (off + c) % 512) (size - c) : Nat) : Int) := by
  refine ⟨by omega, by omega, by omega, by omega, toU64_natCast (by omega), ?_, ?_⟩
  · rw [toI32_of_range (by omega) (by omega)]; omega
  · rw [toI32_of_range (by omega) (by omega)]; omega

theorem writeChunk_nat {off c size len : Nat} (hfit : off + size ≤ 512 * len) (hbl : len < 65536)
    (hlt : c < size) :
    writeChunk size (off : Int) ((off : Int) + c)
      = ((min (512 - (off + c) % 512) (size - c) : Nat) : Int) := by
  rw [writeChunk_eq (by omega) (by omega) (by omega) (by omega) (by omega)]; omega

/-- What `writeLoop` leaves in the container: every byte position of the written range
holds the byte of `buf`, the container only grows, and blocks outside the chain keep
their content. -/
theorem writeLoop_content (bl : List Nat) (hnd : bl.Nodup) (buf : Bytes) (size off : Nat)
    (hfit : off + size ≤ 512 * bl.length) (hbl : bl.length < 65536) :
    ∀ (n c : Nat) (dev : BlockDevice) (buffer : Bytes), c ≤ size → size - c < n →
      (∀ q, q < c → ∀ b, bl.get? ((off + q) / 512) = some b →
        b < dev.size ∧ dev.data b ((off + q) % 512) = buf q) →
      ∃ dev1, writeLoop bl buf size (off : Int) n ((off : Int) + (c : Int)) (c : Int) dev buffer
          = .ok dev1 ∧
        (∀ q, q < size → ∀ b, bl.get? ((off + q) / 512) = some b →
          b < dev1.size ∧ dev1.data b ((off + q) % 512) = buf q) ∧
        dev.size ≤ dev1.size ∧
        (∀ b, b ∉ bl → b < dev.size → dev1.data b = dev.data b) := by
  intro n
  induction n with
  | zero => intro c dev buffer hc hn; exact absurd hn (Nat.not_lt_zero _)
  | succ n ih =>
    intro c dev buffer hc hn hinv
    rw [writeLoop]
    by_cases hlt : c < size
    · obtain ⟨e1, e2, hi0, hi1, e3⟩ := pos_facts hfit hbl hlt
      obtain ⟨hL1, hL2, hL3, hL4, e5, e6, e7⟩ := chunk_facts hfit hbl hlt
      have e4 := writeChunk_nat hfit hbl hlt
      obtain ⟨b, hb, hget⟩ := blockAt_ok hi0 hi1
      rw [Int.toNat_ofNat] at hget
      have hbmem : b ∈ bl := List.get?_mem hget
      have hstep := writeStep_content bl hnd buf off c
        (min (512 - (off + c) % 512) (size - c)) b dev buffer hL2 hget hinv
      rw [e3, if_neg (not_not.mpr hlt)]
      simp only [e1, e2, e4, hb, e5, e6, e7, Int.toNat_ofNat]
      rw [if_neg, if_neg (Nat.pos_iff_ne_zero.mp hL1)]
      · obtain ⟨dev1, hr, hcont, hsz, hframe⟩ := ih (c + min (512 - (off + c) % 512) (size - c))
          (dev.write b (memcpy (dev.read b buffer).2 ((off + c) % 512) buf c
            (min (512 - (off + c) % 512) (size - c))))
          (memcpy (dev.read b buffer).2 ((off + c) % 512) buf c
            (min (512 - (off + c) % 512) (size - c))) hL3
          (lt_of_lt_of_le hL4 (Nat.le_of_lt_succ hn)) hstep
        refine ⟨dev1, hr, hcont, le_trans (le_max_left _ _) hsz, ?_⟩
        intro b' hb' hlt'
        have hne : b' ≠ b := by
          intro h
          rw [h] at hb'
          exact hb' hbmem
        rw [hframe b' hb' (lt_of_lt_of_le hlt' (le_max_left _ _))]
        exact BlockDevice.write_data_other _ _ hne hlt'
      · simp only [BLOCK_SIZE]
        push_cast
        intro h
        rcases h with h | h | h | h
        · exact absurd h (not_lt.mpr (Int.ofNat_nonneg c))
        · exact absurd h (not_lt.mpr (Int.ofNat_nonneg _))
        · have : ((off + c) % 512 + min (512 - (off + c) % 512) (size - c) : Int) ≤ 512 := by
            exact_mod_cast hL2
          push_cast at this
          exact absurd h (not_lt.mpr this)
        · have : ((c + min (512 - (off + c) % 512) (size - c) : Nat) : Int) ≤ size := by
            exact_mod_cast hL3
          push_cast at this
          exact absurd h (not_lt.mpr this)
    · have e3 : toU64 (c : Int) = c := toU64_natCast (by omega)
      rw [e3, if_pos hlt]
      refine ⟨dev, rfl, ?_, le_refl _, fun _ _ _ => rfl⟩
      intro q hq
      exact hinv q (lt_of_lt_of_le hq (by omega))

theorem readChunk_nat {off c size fileSize len : Nat} (hfs : fileSize ≤ 512 * len)
    (hbl : len < 65536) (hsz : size < 9223372036854775808) (hlt : c < size)
    (hle : off + c ≤ fileSize) :
    readChunk (fileSize : Int) size (off : Int) ((off : Int) + c) =
      if off + c = fileSize then none
      else some ((min (512 - (off + c) % 512) (min (fileSize - (off + c)) (size - c)) : Nat) : Int) := by
  rw [readChunk_eq (by omega) (by omega) (by omega) (by omega) hsz (by omega)]
  by_cases h : off + c = fileSize
  · rw [if_pos h, if_pos (by omega)]
  · rw [if_neg h, if_neg (by omega)]
    congr 1
    omega

theorem read_facts {off c size fileSize len : Nat} (hfs : fileSize ≤ 512 * len)
    (hbl : len < 65536) (hsz : size < 9223372036854775808) (hlt : c < size)
    (hle : off + c < fileSize) (hal : (off + c) % 512 = 0) :
    ((off : Int) + c).tdiv 512 = ((off + c) / 512 : Nat) ∧
    (0 : Int) ≤ ((off + c) / 512 : Nat) ∧ (((off + c) / 512 : Nat) : Int) < len ∧
    min (512 - (off + c) % 512) (min (fileSize - (off + c)) (size - c))
      = min 512 (min size (fileSize - off) - c) ∧
    0 < min 512 (min size (fileSize - off) - c) ∧
    c + min 512 (min size (fileSize - off) - c) ≤ min size (fileSize - off) ∧
    min size (fileSize - off) - (c + min 512 (min size (fileSize - off) - c))
      < min size (fileSize - off) - c ∧
    ((off + (c + min 512 (min size (fileSize - off) - c))) % 512 = 0 ∨
      c + min 512 (min size (fileSize - off) - c) = min size (fileSize - off)) ∧
    toU64 ((min 512 (min size (fileSize - off) - c) : Nat) : Int)
      = min 512 (min size (fileSize - off) - c) ∧
    toI32 ((off : Int) + c + (min 512 (min size (fileSize - off) - c) : Nat))
      = (off : Int) + ((c + min 512 (min size (fileSize - off) - c) : Nat) : Int) ∧
    toI32 ((c : Int) + (min 512 (min size (fileSize - off) - c) : Nat))
      = ((c + min 512 (min size (fileSize - off) - c) : Nat) : Int) := by
  have hcp0 : (0 : Int) ≤ (off : Int) + c := by omega
  refine ⟨?_, by omega, by omega, by omega, by omega, by omega, by omega, by omega,
    toU64_natCast (by omega), ?_, ?_⟩
  · rw [Int.tdiv_eq_ediv hcp0 (by norm_num)]; omega
  · rw [toI32_of_range (by omega) (by omega)]; omega
  · rw [toI32_of_range (by omega) (by omega)]; omega

theorem readStep_content (bl : List Nat) (dev : BlockDevice) (off c L b : Nat) (out buffer : Bytes)
    (hal : (off + c) % 512 = 0) (hL : L ≤ 512)
    (hget : bl.get? ((off + c) / 512) = some b) (hb : b < dev.size)
    (hinv : ∀ q, q < c → ∀ b, bl.get? ((off + q) / 512) = some b →
      out q = dev.data b ((off + q) % 512)) :
    ∀ q, q < c + L → ∀ b', bl.get? ((off + q) / 512) = some b' →
      memcpy out c (dev.read b buffer).2 0 L q = dev.data b' ((off + q) % 512) := by
  intro q hq b' hb'
  by_cases hqc : q < c
  · simp only [memcpy]
    rw [if_neg (by omega)]
    exact hinv q hqc b' hb'
  · have hidx : (off + q) / 512 = (off + c) / 512 := by
      clear hinv hb' hget
      omega
    have hx : (off + q) % 512 = q - c := by
      clear hinv hb' hget
      omega
    rw [hidx, hget] at hb'
    simp only [Option.some.injEq] at hb'
    subst hb'
    simp only [memcpy, BlockDevice.read, if_pos hb, BLOCK_SIZE]
    rw [if_pos (by omega), if_pos (by omega), hx, Nat.zero_add]

/-- What `fuseRead` copies when the read starts on a block boundary. -/
theorem readLoop_content (fileSize : Nat) (bl : List Nat) (dev : BlockDevice) (size off : Nat)
    (hal : off % 512 = 0) (hfs : fileSize ≤ 512 * bl.length) (hbl : bl.length < 65536)
    (hsz : size < 9223372036854775808) (hread : ∀ b ∈ bl, b < dev.size) :
    ∀ (n c : Nat) (out buffer : Bytes), c ≤ min size (fileSize - off) → off ≤ fileSize →
      min size (fileSize - off) - c < n →
      ((off + c) % 512 = 0 ∨ c = min size (fileSize - off)) →
      (∀ q, q < c → ∀ b, bl.get? ((off + q) / 512) = some b →
        out q = dev.data b ((off + q) % 512)) →
      ∃ out1 flag, readLoop (fileSize : Int) bl dev size (off : Int) n ((off : Int) + (c : Int))
          (c : Int) out buffer = .ok (((min size (fileSize - off) : Nat) : Int), out1, flag) ∧
        (∀ q, q < min size (fileSize - off) → ∀ b, bl.get? ((off + q) / 512) = some b →
          out1 q = dev.data b ((off + q) % 512)) := by
  intro n
  induction n with
  | zero => intro c out buffer hc hle hn; exact absurd hn (Nat.not_lt_zero _)
  | succ n ih =>
    intro c out buffer hc hle hn halc hinv
    rw [readLoop]
    have e3 : toU64 (c : Int) = c := toU64_natCast (by omega)
    rw [e3]
    by_cases hlt : c < size
    · rw [if_neg (not_not.mpr hlt)]
      have hle2 : off + c ≤ fileSize := by omega
      rw [readChunk_nat hfs hbl hsz hlt hle2]
      by_cases heof : off + c = fileSize
      · rw [if_pos heof]
        have hcm : c = min size (fileSize - off) := by omega
        refine ⟨out, false, by rw [← hcm], ?_⟩
        intro q hq
        exact hinv q (by omega)
      · rw [if_neg heof]
        have hal2 : (off + c) % 512 = 0 := by omega
        obtain ⟨e1, hi0, hi1, eL, hL1, hL3, hL4, hal3, e5, e6, e7⟩ :=
          read_facts hfs hbl hsz hlt (by omega) hal2
        obtain ⟨b, hb, hget⟩ := blockAt_ok hi0 hi1
        rw [Int.toNat_ofNat] at hget
        have hstep := readStep_content bl dev off c (min 512 (min size (fileSize - off) - c)) b
          out buffer hal2 (min_le_left _ _) hget (hread b (List.get?_mem hget)) hinv
        simp only [eL, e1, hb, e5, e6, e7, Int.toNat_ofNat]
        rw [if_neg, if_neg (Nat.pos_iff_ne_zero.mp hL1)]
        · exact ih _ _ _ hL3 hle (lt_of_lt_of_le hL4 (Nat.le_of_lt_succ hn)) hal3 hstep
        · simp only [BLOCK_SIZE]
          intro h
          rcases h with h | h | h
          · exact absurd h (not_lt.mpr (Int.ofNat_nonneg c))
          · exact absurd h (not_lt.mpr (min_le_left _ _))
          · have h2 : c + min 512 (min size (fileSize - off) - c) ≤ size :=
              le_trans hL3 (min_le_left _ _)
            have : ((c + min 512 (min size (fileSize - off) - c) : Nat) : Int) ≤ size := by
              exact_mod_cast h2
            push_cast at this h
            exact absurd h (not_lt.mpr this)
    · rw [if_pos hlt]
      have hcm : c = min size (fileSize - off) := by omega
      refine ⟨out, true, by rw [← hcm], ?_⟩
      intro q hq
      exact hinv q (by omega)

theorem findFreeBlock_first {blt : Nat → Nat} {a : Nat} (ha : a < 65536) (hf : blt a = BLT_FREE)
    (hmin : ∀ j, j < a → blt j ≠ BLT_FREE) (fb : Option Nat) :
    findFreeBlock blt fb = (0, some a) := by
  simp [findFreeBlock, findFreeFrom_first ha hf hmin]

theorem findFreeBlock_full {blt : Nat → Nat} (hfull : ∀ j, j < 65536 → blt j ≠ BLT_FREE)
    (fb : Option Nat) : findFreeBlock blt fb = (-ENOSPC, fb) := by
  cases h : findFreeFrom blt TOTAL_BLT_ENTRIES 0 with
  | none => simp [findFreeBlock, h]
  | some a =>
    obtain ⟨_, h2, h3, _⟩ := findFreeFrom_some blt _ _ _ h
    exact absurd h3 (hfull a (by simpa [TOTAL_BLT_ENTRIES] using h2))

/-- The table after `t` blocks have been appended behind the tail `a - 1` of a chain,
on a table whose FREE entries are exactly those from `a` on. -/
theorem growLoop_linear : ∀ (t a : Nat) (blt : Nat → Nat) (fb : Option Nat), 1 ≤ a →
    a + t ≤ 65536 → (∀ j, j < a → blt j ≠ BLT_FREE) →
    (∀ j, a ≤ j → j < 65536 → blt j = BLT_FREE) → blt (a - 1) = BLT_EOF →
    ∃ fb1, growLoop t blt (a - 1) fb = .ok
      (fun b => if a - 1 ≤ b ∧ b < a + t then (if b + 1 = a + t then BLT_EOF else b + 1) else blt b,
        a + t - 1, fb1) := by
  intro t
  induction t with
  | zero =>
    intro a blt fb ha _ _ _ heof
    refine ⟨fb, ?_⟩
    rw [growLoop]
    congr 2
    funext b
    by_cases hb : b = a - 1
    · subst hb
      rw [if_pos (by omega), if_pos (by omega), heof]
    · rw [if_neg (by omega)]
  | succ t ih =>
    intro a blt fb ha hcap hused hfree heof
    rw [growLoop, findFreeBlock_first (by omega) (hfree a (le_refl _) (by omega)) hused fb]
    simp only [store_same]
    obtain ⟨fb1, h⟩ := ih (a + 1) (store (store blt (a - 1) a) a BLT_EOF) (some a) (by omega)
      (by omega)
      (by
        intro j hj
        by_cases h1 : j = a
        · subst h1; rw [store_same]; decide
        · rw [store_other _ _ h1]
          by_cases h2 : j = a - 1
          · subst h2; rw [store_same]; simp only [BLT_FREE]; omega
          · rw [store_other _ _ h2]; exact hused j (by omega))
      (by
        intro j hj1 hj2
        rw [store_other _ _ (by omega), store_other _ _ (by omega)]
        exact hfree j (by omega) hj2)
      (by rw [Nat.add_sub_cancel, store_same])
    rw [Nat.add_sub_cancel] at h
    rw [h]
    refine ⟨fb1, ?_⟩
    congr 2
    · funext b
      simp only [store]
      split_ifs <;> first | rfl | omega
    · congr 1
      omega

theorem chainFrom_linear (f : Nat → Nat) : ∀ (m s : Nat),
    (∀ b, s ≤ b → b + 1 < s + m → f b = b + 1) → chainFrom f s m = List.range' s m := by
  intro m
  induction m with
  | zero => intro s _; rfl
  | succ m ih =>
    intro s h
    rw [chainFrom, List.range'_succ]
    congr 1
    by_cases hm : m = 0
    · subst hm; rfl
    · rw [h s (le_refl _) (by omega)]
      exact ih (s + 1) (fun b hb1 hb2 => h b (by omega) (by omega))

theorem readArr_get? (buf : Bytes) (p n k : Nat) :
    (readArr buf p n).get? k = if k < n then some (buf (p + k)) else none := by
  unfold readArr
  rw [List.get?_eq_getElem?, List.getElem?_map]
  by_cases h : k < n
  · rw [if_pos h, List.getElem?_range h]; rfl
  · rw [if_neg h, List.getElem?_eq_none (by simpa using h)]; rfl

theorem readArr_length (buf : Bytes) (p n : Nat) : (readArr buf p n).length = n := by
  simp [readArr]

theorem arrBytes_get? {a : List Nat} {k v : Nat} (h : a.get? k = some v) : arrBytes a k = v := by
  unfold arrBytes
  rw [List.getD_eq_getElem?_getD, ← List.get?_eq_getElem?, h]
  rfl

theorem cstr_eq_of_prefix : ∀ (name l : List Nat),
    (∀ k, k < name.length → l.get? k = name.get? k) → l.get? name.length = some 0 →
    (∀ c ∈ name, c ≠ 0) → cstr l = name := by
  intro name
  induction name with
  | nil =>
    intro l _ h0 _
    cases l with
    | nil => rfl
    | cons x xs =>
      simp only [List.length_nil, List.get?_cons_zero, Option.some.injEq] at h0
      subst h0
      simp [cstr]
  | cons c cs ih =>
    intro l hpre h0 hnz
    cases l with
    | nil => simp at h0
    | cons x xs =>
      have hx := hpre 0 (by simp)
      simp only [List.get?_cons_zero, Option.some.injEq] at hx
      subst hx
      have hc : x ≠ 0 := hnz x (List.mem_cons_self _ _)
      have := ih xs (fun k hk => by
          have := hpre (k + 1) (by simp; omega)
          simpa using this)
        (by simpa using h0) (fun c hc => hnz c (List.mem_cons_of_mem _ hc))
      unfold cstr at this ⊢
      rw [List.takeWhile_cons_of_pos (by simpa using hc), this]

theorem nameCopy_cstr (old path : List Nat) (h2 : 1 ≤ path.length) (h32 : path.length ≤ 32)
    (hnz : ∀ c ∈ path, c ≠ 0) : cstr (nameCopy old path) = path.drop 1 := by
  apply cstr_eq_of_prefix
  · intro k hk
    rw [List.length_drop] at hk
    unfold nameCopy
    rw [readArr_get?, if_pos (by simp only [MAX_NAME_LENGTH]; omega)]
    simp only [memcpy, Nat.zero_add, Nat.sub_zero]
    rw [if_pos (by omega)]
    have h1 : (path ++ [0]).get? (1 + k) = path.get? (1 + k) := by
      rw [List.get?_eq_getElem?, List.get?_eq_getElem?, List.getElem?_append_left (by omega)]
    rw [List.get?_eq_getElem?, List.getElem?_drop, ← List.get?_eq_getElem?, ← h1]
    have hlt : 1 + k < (path ++ [0]).length := by simp; omega
    rw [List.get?_eq_get hlt]
    congr 1
    exact arrBytes_get? (List.get?_eq_get hlt)
  · rw [List.length_drop]
    unfold nameCopy
    rw [readArr_get?, if_pos (by simp only [MAX_NAME_LENGTH]; omega)]
    simp only [memcpy, Nat.zero_add, Nat.sub_zero]
    rw [if_pos (by omega)]
    congr 1
    apply arrBytes_get?
    rw [Nat.add_sub_cancel' h2, List.get?_eq_getElem?, List.getElem?_append_right (le_refl _)]
    simp
  · intro c hc
    exact hnz c (List.mem_of_mem_drop hc)

theorem getFileIndexFrom_none (fat : Nat → fatEntry) (name : List Nat) :
    ∀ n i, (∀ j, i ≤ j → j < i + n → cstr (fat j).filename ≠ name) →
      getFileIndexFrom fat name n i = -ENOENT := by
  intro n
  induction n with
  | zero => intro i _; rfl
  | succ n ih =>
    intro i h
    rw [getFileIndexFrom, if_neg (h i (le_refl _) (by omega))]
    exact ih (i + 1) (fun j h1 h2 => h j (by omega) (by omega))

theorem getFileIndex_zero (fat : Nat → fatEntry) (path : List Nat)
    (h : cstr (fat 0).filename = path.drop 1) : getFileIndex fat path = 0 := by
  unfold getFileIndex
  rw [getFileIndexFrom, if_pos h]
  rfl

theorem ValidPath.nonzero {path : List Nat} (hp : ValidPath path) : ∀ c ∈ path, c ≠ 0 :=
  fun c hc => Nat.pos_iff_ne_zero.mp (hp.2.2.2 c hc).1

theorem ValidPath.name_ne_nil {path : List Nat} (hp : ValidPath path) : path.drop 1 ≠ [] := by
  intro h
  have := congrArg List.length h
  rw [List.length_drop] at this
  have := hp.2.1
  simp at *
  omega

theorem fuseMknod_empty (fs : FS) (env : Env) (path : List Nat) (mode : Nat)
    (hfat : ∀ i, i < 64 → (fs.fat i).filename = List.replicate 32 0) (hp : ValidPath path) :
    fuseMknod fs env path mode =
      (0, { fs with fat := store fs.fat 0 (newFileEntry env path mode)
                    blockDevice := writeFat (store fs.fat 0 (newFileEntry env path mode))
                      fs.blockDevice env.heap }) := by
  have hnone : getFileIndex fs.fat path = -ENOENT := by
    unfold getFileIndex
    apply getFileIndexFrom_none
    intro j _ hj
    rw [hfat j (by omega)]
    intro h
    exact hp.name_ne_nil h.symm
  have hslot : findEmptySlotFrom fs.fat 64 0 = some 0 := by
    rw [findEmptySlotFrom, hfat 0 (by omega), if_pos (by decide)]
  have hlen : ¬ toI32 (path.length : Int) > (MAX_NAME_LENGTH : Int) := by
    have h32 := hp.2.2.1
    rw [toI32_of_range (by omega) (by omega)]
    simp only [MAX_NAME_LENGTH]
    omega
  unfold fuseMknod
  rw [hnone, if_neg (by decide), hslot]
  simp only [if_neg hlen]

theorem ceil_facts {n : Nat} (hn : 1 ≤ n) (hfit : n ≤ 65272 * 512) :
    (toI64 ((n : Int) + 512 - 1)).tdiv 512 = (((n + 511) / 512 : Nat) : Int) ∧
    1 ≤ (n + 511) / 512 ∧ (n + 511) / 512 ≤ 65272 ∧
    toU16 (((n + 511) / 512 : Nat) : Int) = (n + 511) / 512 ∧
    ((((n + 511) / 512 : Nat) : Int) - ((1 : Nat) : Int)).toNat = (n + 511) / 512 - 1 ∧
    ¬ ((((n + 511) / 512 : Nat) : Int) - ((1 : Nat) : Int) > 2147483647) ∧
    n ≤ 512 * ((n + 511) / 512) := by
  refine ⟨?_, by omega, by omega, ?_, by omega, by omega, by omega⟩
  · rw [toI64_of_range (by omega) (by omega), Int.tdiv_eq_ediv (by omega) (by norm_num)]
    omega
  · unfold toU16; omega

/-- The first truncate of an empty file on a table of which exactly the blocks from
264 on are FREE: the file gets the blocks 264, 265, ... in order. -/
theorem fuseTruncate_first (fs : FS) (env : Env) (path : List Nat) (n : Nat)
    (hidx : getFileIndex fs.fat path = 0) (hnr : (fs.fat 0).nrBlocks = 0)
    (hsz : (fs.fat 0).size = 0)
    (hblt : ∀ j, j < 65536 → fs.blt j = if j < 264 then BLT_RSV else BLT_FREE)
    (hn : 1 ≤ n) (hfit : n ≤ 65272 * 512) :
    fuseTruncate fs env path (n : Int) = .ok (0,
      { fat := store fs.fat 0 { fs.fat 0 with
            startBlock := 264, nrBlocks := (n + 511) / 512, size := n
            modTime := env.systemTime, changeTime := env.systemTime }
        blt := linearChain fs.blt 264 ((n + 511) / 512)
        blockDevice := writeFat (store fs.fat 0 { fs.fat 0 with
            startBlock := 264, nrBlocks := (n + 511) / 512, size := n
            modTime := env.systemTime, changeTime := env.systemTime })
          (writeBlt (linearChain fs.blt 264 ((n + 511) / 512)) fs.blockDevice env.heap)
          env.heap }) := by
  obtain ⟨e1, hm1, hm2, e2, e3, e4, _⟩ := ceil_facts hn hfit
  have hfirst : findFreeBlock fs.blt (some (fs.fat 0).startBlock) = (0, some 264) :=
    findFreeBlock_first (by omega) (by rw [hblt 264 (by omega)]; rfl)
      (fun j hj => by rw [hblt j (by omega), if_pos hj]; decide) _
  have hwalk : walkToEnd (store fs.blt 264 BLT_EOF) TOTAL_BLT_ENTRIES 264 = .ok 264 := by
    simp [walkToEnd, TOTAL_BLT_ENTRIES, store_same]
  obtain ⟨fb1, hgrow⟩ := growLoop_linear ((n + 511) / 512 - 1) 265 (store fs.blt 264 BLT_EOF) none
    (by omega) (by omega)
    (by
      intro j hj
      by_cases h : j = 264
      · subst h; rw [store_same]; decide
      · rw [store_other _ _ h, hblt j (by omega), if_pos (by omega)]; decide)
    (by
      intro j hj1 hj2
      rw [store_other _ _ (by omega), hblt j hj2, if_neg (by omega)])
    (by rw [store_same])
  have hlin : (fun b => if 265 - 1 ≤ b ∧ b < 265 + ((n + 511) / 512 - 1) then
        (if b + 1 = 265 + ((n + 511) / 512 - 1) then BLT_EOF else b + 1)
        else store fs.blt 264 BLT_EOF b) = linearChain fs.blt 264 ((n + 511) / 512) := by
    funext b
    simp only [linearChain, store]
    split_ifs <;> first | rfl | omega
  rw [hlin] at hgrow
  have hne : ¬ ((n : Int) = 0) := by omega
  have hnlt : ¬ ((n : Int) < 0) := by omega
  have hgt : (((n + 511) / 512 : Nat) : Int) > ((0 : Nat) : Int) := by omega
  unfold fuseTruncate truncateGrow
  simp only [hidx, Int.toNat_zero, hsz, hnr, e1, if_neg hne, if_neg hnlt, if_pos hgt, if_true,
    lt_irrefl, if_false, hfirst, Option.getD_some, hwalk, e3, if_neg e4, hgrow, e2]

/-- A read that starts on a block boundary returns the bytes of the file: byte `q` of
the result is byte `(off + q) mod 512` of block `(off + q) div 512` of the chain. -/
theorem fuseRead_content (fs : FS) (env : Env) (path : List Nat) (out : Bytes) (size off : Nat)
    (fileSize : Nat) (hex : 0 ≤ getFileIndex fs.fat path)
    (hsize : (fs.fat (getFileIndex fs.fat path).toNat).size = fileSize)
    (hnr : (fs.fat (getFileIndex fs.fat path).toNat).nrBlocks < 65536)
    (hne : (fs.fat (getFileIndex fs.fat path).toNat).nrBlocks ≠ 0)
    (hfs : fileSize ≤ 512 * (fs.fat (getFileIndex fs.fat path).toNat).nrBlocks)
    (hbuf : size < 9223372036854775808)
    (hread : ∀ b ∈ chainOf fs (getFileIndex fs.fat path).toNat, b < fs.blockDevice.size)
    (hal : off % 512 = 0) (hle : off ≤ fileSize) :
    ∃ out1 fs1, fuseRead fs env path out size (off : Int) =
        .ok (((min size (fileSize - off) : Nat) : Int), out1, fs1) ∧
      ∀ q, q < min size (fileSize - off) →
        ∀ b, (chainOf fs (getFileIndex fs.fat path).toNat).get? ((off + q) / 512) = some b →
          out1 q = fs.blockDevice.data b ((off + q) % 512) := by
  have hlen := chainFrom_length fs.blt (fs.fat (getFileIndex fs.fat path).toNat).nrBlocks
    (fs.fat (getFileIndex fs.fat path).toNat).startBlock
  obtain ⟨out1, flag, hr, hc⟩ := readLoop_content fileSize
    (chainOf fs (getFileIndex fs.fat path).toNat) fs.blockDevice size off hal
    (by unfold chainOf; rw [hlen]; exact hfs) (by unfold chainOf; rw [hlen]; exact hnr) hbuf hread
    (size + 1) 0 out env.heap (Nat.zero_le _) hle
    (lt_of_le_of_lt (Nat.sub_le _ _) (Nat.lt_succ_of_le (min_le_left _ _)))
    (Or.inl (by rw [Nat.add_zero]; exact hal)) (fun q hq => absurd hq (Nat.not_lt_zero _))
  have hoff : toI32 (off : Int) = off := by
    have : fileSize < 2147483648 := by omega
    exact toI32_of_range (by omega) (by omega)
  have hneg : ¬ getFileIndex fs.fat path < 0 := not_lt.mpr hex
  unfold fuseRead
  simp only [if_neg hneg, if_neg hne, hsize, hoff]
  unfold chainOf at hr
  simp only [Nat.cast_zero, add_zero] at hr
  rw [hr]
  cases flag
  · exact ⟨out1, _, rfl, hc⟩
  · exact ⟨out1, _, rfl, hc⟩

theorem range'_get? (a m j : Nat) (h : j < m) : (List.range' a m).get? j = some (a + j) := by
  rw [List.get?_eq_getElem?, List.getElem?_range' a 1 h]
  simp

theorem chainFrom_linearChain (blt : Nat → Nat) (a m : Nat) :
    chainFrom (linearChain blt a m) a m = List.range' a m := by
  apply chainFrom_linear
  intro b h1 h2
  simp only [linearChain]
  rw [if_pos (by omega), if_neg (by omega)]

theorem write_first_facts {n : Nat} (hn : 1 ≤ n) (hfit : n ≤ 65272 * 512) :
    toU64 ((n : Int) + 0) > toU64 (0 : Int) ∧ toI64 (toU64 ((n : Int) + 0) : Nat) = n ∧
    toI32 (0 : Int) = 0 ∧ toI32 (n : Int) = n ∧
    ¬ (toU64 (n : Int) < toU64 ((0 : Int) + n)) := by
  have h1 : toU64 ((n : Int) + 0) = n := by rw [add_zero]; exact toU64_natCast (by omega)
  have h2 : toU64 ((0 : Int) + n) = n := by rw [zero_add]; exact toU64_natCast (by omega)
  have h3 : toU64 (n : Int) = n := toU64_natCast (by omega)
  have h4 : toU64 (0 : Int) = 0 := toU64_natCast (n := 0) (by omega)
  refine ⟨by rw [h1, h4]; omega, by rw [h1]; exact toI64_of_range (by omega) (by omega),
    toI32_of_range (by omega) (by omega), toI32_of_range (by omega) (by omega),
    by rw [h2, h3]; exact lt_irrefl _⟩

theorem div_facts {q n : Nat} (hq : q < n) : q / 512 < (n + 511) / 512 ∧ 8 ≤ 264 + q / 512 := by
  omega

/-- The first write to an empty file on a table of which exactly the blocks from 264 on
are FREE. -/
theorem fuseWrite_first (fs : FS) (env : Env) (path : List Nat) (buf : Bytes) (n : Nat)
    (hidx : getFileIndex fs.fat path = 0) (hnr : (fs.fat 0).nrBlocks = 0)
    (hsz : (fs.fat 0).size = 0)
    (hblt : ∀ j, j < 65536 → fs.blt j = if j < 264 then BLT_RSV else BLT_FREE)
    (hn : 1 ≤ n) (hfit : n ≤ 65272 * 512) :
    ∃ s2, fuseWrite fs env path buf n 0 = .ok ((n : Int), s2) ∧
      s2.fat 0 = { fs.fat 0 with startBlock := 264, nrBlocks := (n + 511) / 512, size := n
                                 modTime := env.systemTime, changeTime := env.systemTime } ∧
      s2.blt = linearChain fs.blt 264 ((n + 511) / 512) ∧
      ∀ q, q < n → 264 + q / 512 < s2.blockDevice.size ∧
        s2.blockDevice.data (264 + q / 512) (q % 512) = buf q := by
  obtain ⟨_, hm1, hm2, _, _, _, hm3⟩ := ceil_facts hn hfit
  obtain ⟨f1, f2, f3, f4, f5⟩ := write_first_facts hn hfit
  have htr := fuseTruncate_first fs env path n hidx hnr hsz hblt hn hfit
  have hneg : ¬ ((0 : Int) < 0) := lt_irrefl _
  have hlen : (List.range' 264 ((n + 511) / 512)).length = (n + 511) / 512 := List.length_range' _ _ _
  obtain ⟨dev1, hw, hcont, hsize, _⟩ := writeLoop_content (List.range' 264 ((n + 511) / 512))
    (List.nodup_range' _ _) buf n 0 (by rw [hlen, Nat.zero_add]; exact hm3)
    (by rw [hlen]; exact lt_of_le_of_lt hm2 (by norm_num)) (n + 1) 0
    (writeFat (store fs.fat 0 { fs.fat 0 with
            startBlock := 264, nrBlocks := (n + 511) / 512, size := n
            modTime := env.systemTime, changeTime := env.systemTime })
          (writeBlt (linearChain fs.blt 264 ((n + 511) / 512)) fs.blockDevice env.heap)
          env.heap) env.heap (Nat.zero_le _) (Nat.lt_succ_of_le (Nat.sub_le _ _))
    (fun q hq => absurd hq (Nat.not_lt_zero _))
  have hnb : ¬ (n + 511) / 512 = 0 := by omega
  unfold fuseWrite
  simp only [hidx, Int.toNat_zero, hsz, if_neg hneg, if_pos f1, f2, htr, store_same,
    chainFrom_linearChain, f3, f4, hnb, if_false]
  simp only [Nat.cast_zero, add_zero] at hw
  rw [hw]
  refine ⟨_, rfl, ?_, rfl, ?_⟩
  · simp only [store_same, if_neg f5]
  · intro q hq
    obtain ⟨hj, h8⟩ := div_facts hq
    obtain ⟨h1, h2⟩ := hcont q hq (264 + q / 512) (by
      rw [Nat.zero_add]
      exact range'_get? _ _ _ hj)
    rw [Nat.zero_add] at h2
    simp only []
    rw [writeFat_frame _ _ _ h8 h1]
    exact ⟨lt_of_lt_of_le h1 (writeFat_size _ _ _).1, h2⟩

theorem formatBlt_apply (blt : Nat → Nat) {j : Nat} (hj : j < 65536) :
    formatBlt blt j = if j < 264 then BLT_RSV else BLT_FREE := by
  simp only [formatBlt, TOTAL_BLT_ENTRIES, FAT_BLOCKS, BLT_BLOCKS]
  rw [if_pos hj]

theorem formatFat_name (fat : Nat → fatEntry) (env : Env) {i : Nat} (hi : i < 64) :
    (formatFat fat env i).filename = List.replicate 32 0 := by
  simp only [formatFat, TOTAL_FAT_ENTRIES]
  rw [if_pos hi]
  rfl

theorem size_facts {n : Nat} (hfit : n ≤ 65272 * 512) :
    (n + 511) / 512 < 65536 ∧ n ≤ 512 * ((n + 511) / 512) ∧ n < 9223372036854775808 ∧
    n % 512 = n % 512 ∧ min n (n - 0) = n ∧ (0 : Nat) % 512 = 0 := by
  omega

/-- C2. On a freshly formatted volume, for every valid path and every buffer of
`n ≥ 1` bytes that fits in the free data blocks: `fuseMknod` returns 0, `fuseWrite` of
the buffer at offset 0 returns `n`, and the following `fuseRead` of `n` bytes at offset
0 returns `n` and delivers the buffer byte for byte, however many blocks it spans. -/
theorem fresh_write_read (fs0 : FS) (env0 env1 env2 env3 : Env) (path : List Nat) (mode : Nat)
    (buf out : Bytes) (n : Nat) (hp : ValidPath path) (hn : 1 ≤ n) (hfit : n ≤ 65272 * 512) :
    (fuseMknod (fuseInit fs0 env0 none) env1 path mode).1 = 0 ∧
    ∃ s2, fuseWrite (fuseMknod (fuseInit fs0 env0 none) env1 path mode).2 env2 path buf n 0
        = .ok ((n : Int), s2) ∧
      ∃ out1 s3, fuseRead s2 env3 path out n 0 = .ok ((n : Int), out1, s3) ∧
        ∀ i, i < n → out1 i = buf i := by
  have hmk := fuseMknod_empty (fuseInit fs0 env0 none) env1 path mode
    (fun i hi => formatFat_name fs0.fat env0 hi) hp
  have hname : cstr (newFileEntry env1 path mode).filename = path.drop 1 :=
    nameCopy_cstr _ path (le_trans (by norm_num) hp.2.1) hp.2.2.1 hp.nonzero
  rw [hmk]
  refine ⟨rfl, ?_⟩
  obtain ⟨s2, hw, hfat, hblt, hdata⟩ := fuseWrite_first
    { fuseInit fs0 env0 none with
      fat := store (fuseInit fs0 env0 none).fat 0 (newFileEntry env1 path mode)
      blockDevice := writeFat (store (fuseInit fs0 env0 none).fat 0 (newFileEntry env1 path mode))
        (fuseInit fs0 env0 none).blockDevice env1.heap }
    env2 path buf n
    (getFileIndex_zero _ _ (by simp only [store_same]; exact hname))
    (by simp only [store_same]; rfl) (by simp only [store_same]; rfl)
    (fun j hj => formatBlt_apply fs0.blt hj) hn hfit
  refine ⟨s2, hw, ?_⟩
  obtain ⟨g1, g2, g3, -, g5, g6⟩ := size_facts hfit
  have hidx : getFileIndex s2.fat path = 0 :=
    getFileIndex_zero _ _ (by rw [hfat]; simp only [store_same]; exact hname)
  have hchain : chainOf s2 0 = List.range' 264 ((n + 511) / 512) := by
    unfold chainOf
    rw [hfat, hblt]
    exact chainFrom_linearChain _ _ _
  obtain ⟨out1, s3, hr, hc⟩ := fuseRead_content s2 env3 path out n 0 n
    (by rw [hidx]) (by rw [hidx, Int.toNat_zero, hfat])
    (by rw [hidx, Int.toNat_zero, hfat]; exact g1)
    (by
      rw [hidx, Int.toNat_zero, hfat]
      show (n + 511) / 512 ≠ 0
      clear hdata hw hmk
      omega)
    (by rw [hidx, Int.toNat_zero, hfat]; exact g2) g3
    (by
      rw [hidx, Int.toNat_zero, hchain]
      intro b hb
      rw [List.mem_range'_1] at hb
      have hq : 512 * (b - 264) < n := by
        clear hdata hw hmk
        omega
      have := (hdata (512 * (b - 264)) hq).1
      rw [Nat.mul_div_cancel_left _ (by norm_num : 0 < 512), Nat.add_sub_cancel' hb.1] at this
      exact this)
    g6 (Nat.zero_le _)
  rw [g5] at hr hc
  refine ⟨out1, s3, hr, ?_⟩
  intro i hi
  obtain ⟨hj, -⟩ := div_facts hi
  have := hc i hi (264 + i / 512) (by
    rw [hidx, Int.toNat_zero, hchain, Nat.zero_add]
    exact range'_get? _ _ _ hj)
  rw [this, Nat.zero_add]
  exact (hdata i hi).2

theorem fresh_write_read_witness :
    ValidPath [47, 98] ∧ 1 ≤ 600 ∧ 600 ≤ 65272 * 512 ∧
    (fuseMknod (fuseInit blankFS sampleEnv none) sampleEnv [47, 98] 0o100644).1 = 0 ∧
    ∃ s2, fuseWrite (fuseMknod (fuseInit blankFS sampleEnv none) sampleEnv [47, 98] 0o100644).2
        sampleEnv [47, 98] (fun _ => 0xAB) 600 0 = .ok (((600 : Nat) : Int), s2) ∧
      ∃ out1 s3, fuseRead s2 sampleEnv [47, 98] (fun _ => 0) 600 0
          = .ok (((600 : Nat) : Int), out1, s3) ∧
        ∀ i, i < 600 → out1 i = (fun _ => 0xAB) i :=
  have hp : ValidPath [47, 98] := ⟨rfl, by decide, by decide, by decide⟩
  ⟨hp, by decide, by decide,
    fresh_write_read blankFS sampleEnv sampleEnv sampleEnv sampleEnv [47, 98] 0o100644
      (fun _ => 0xAB) (fun _ => 0) 600 hp (by decide) (by decide)⟩

/-- C1. Read-after-write fails off a block boundary: on the sample volume (which
satisfies the invariants) `fuseWrite` of `hello` at offset 1 returns 5 and the following
`fuseRead` of 5 bytes at offset 1 returns 5, but delivers byte 0 of the block followed
by `hell`, because `fuseRead` copies from the start of the block buffer. -/
theorem read_after_unaligned_write :
    returned (fuseWrite sampleVolume sampleEnv [47, 97] hello 5 1) = some 5 ∧
    returned (fuseRead (stateAfter sampleVolume (fuseWrite sampleVolume sampleEnv [47, 97] hello 5 1))
      sampleEnv [47, 97] (fun _ => 0) 5 1) = some 5 ∧
    bytesRead (fuseRead (stateAfter sampleVolume (fuseWrite sampleVolume sampleEnv [47, 97] hello 5 1))
      sampleEnv [47, 97] (fun _ => 0) 5 1) 5 = [0xEE, 104, 101, 108, 108] ∧
    (List.range 5).map hello = [104, 101, 108, 108, 111] := by
  decide!

/-- C5. A read past the end of the file has no defined result: on the five-byte sample
file, `fuseRead` of 4 bytes at offset 10 computes `bytesToRead = 5 - 10 = -5`, which is
not the 0 the loop tests for, and hands it to `memcpy` as a length. -/
theorem read_past_end :
    (sampleVolume.fat 0).size = 5 ∧ getFileIndex sampleVolume.fat [47, 97] = 0 ∧
    fault (fuseRead sampleVolume sampleEnv [47, 97] (fun _ => 0) 4 10) = some Fault.outOfBounds ∧
    readChunk 5 4 10 10 = some (-5) := by
  decide!

theorem putFatEntry_apply (buffer : Bytes) (ptr : Nat) (e : fatEntry) (i : Nat) :
    putFatEntry buffer ptr e i =
      if ptr ≤ i ∧ i < ptr + 64 then fatEntryByte e (i - ptr) else buffer i := by
  by_cases h : ptr ≤ i ∧ i < ptr + 64
  · rw [if_pos h]
    obtain ⟨t, rfl⟩ : ∃ t, i = ptr + t := ⟨i - ptr, by omega⟩
    have ht : t < 64 := by omega
    rw [Nat.add_sub_cancel_left]
    simp only [putFatEntry, memcpy, fatEntryByte, MAX_NAME_LENGTH, Nat.zero_add]
    have hcases : t < 32 ∨ (32 ≤ t ∧ t < 36) ∨ (36 ≤ t ∧ t < 40) ∨ (40 ≤ t ∧ t < 44) ∨
        (44 ≤ t ∧ t < 48) ∨ (48 ≤ t ∧ t < 52) ∨ (52 ≤ t ∧ t < 56) ∨ (56 ≤ t ∧ t < 58) ∨
        (58 ≤ t ∧ t < 60) ∨ 60 ≤ t := by omega
    rcases hcases with c | c | c | c | c | c | c | c | c | c <;>
      simp (disch := omega) only [if_pos, if_neg] <;> congr 1 <;> omega
  · rw [if_neg h]
    simp only [putFatEntry, memcpy, MAX_NAME_LENGTH]
    simp (disch := omega) only [if_neg]

theorem fatBlock_fold (fat : Nat → fatEntry) (k : Nat) (buffer : Bytes) : ∀ (n i : Nat),
    (List.range n).foldl (fun b i => putFatEntry b (64 * i) (fat (k * FAT_ENTRIES_PER_BLOCK + i)))
        buffer i =
      if i < 64 * n then fatEntryByte (fat (k * 8 + i / 64)) (i % 64) else buffer i := by
  intro n
  induction n with
  | zero => intro i; simp
  | succ n ih =>
    intro i
    rw [List.range_succ, List.foldl_append, List.foldl_cons, List.foldl_nil, putFatEntry_apply, ih]
    simp only [FAT_ENTRIES_PER_BLOCK]
    by_cases h : 64 * n ≤ i ∧ i < 64 * n + 64
    · rw [if_pos h, if_pos (by omega)]
      have h1 : i / 64 = n := by omega
      have h2 : i - 64 * n = i % 64 := by omega
      rw [h1, h2]
    · rw [if_neg h]
      by_cases h3 : i < 64 * n
      · rw [if_pos h3, if_pos (by omega)]
      · rw [if_neg h3, if_neg (by omega)]

theorem fatBlock_apply (fat : Nat → fatEntry) (k : Nat) (buffer : Bytes) (i : Nat) :
    fatBlock fat k buffer i = if i < 512 then fatImage fat k i else buffer i := by
  unfold fatBlock fatImage
  rw [fatBlock_fold]
  rfl

theorem bltBlock_fold (blt : Nat → Nat) (k : Nat) (buffer : Bytes) : ∀ (n i : Nat),
    (List.range n).foldl
        (fun b i => memcpy b (2 * i) (leBytes (blt (k * BLT_ENTRIES_PER_BLOCK + i))) 0 2)
        buffer i =
      if i < 2 * n then leBytes (blt (k * 256 + i / 2)) (i % 2) else buffer i := by
  intro n
  induction n with
  | zero => intro i; simp
  | succ n ih =>
    intro i
    rw [List.range_succ, List.foldl_append, List.foldl_cons, List.foldl_nil]
    simp only [memcpy, Nat.zero_add]
    rw [ih]
    simp only [BLT_ENTRIES_PER_BLOCK]
    by_cases h : 2 * n ≤ i ∧ i < 2 * n + 2
    · rw [if_pos h, if_pos (by omega)]
      have h1 : i / 2 = n := by omega
      have h2 : i - 2 * n = i % 2 := by omega
      rw [h1, h2]
    · rw [if_neg h]
      by_cases h3 : i < 2 * n
      · rw [if_pos h3, if_pos (by omega)]
      · rw [if_neg h3, if_neg (by omega)]

theorem bltBlock_apply (blt : Nat → Nat) (k : Nat) (buffer : Bytes) (i : Nat) :
    bltBlock blt k buffer i = if i < 512 then bltImage blt k i else buffer i := by
  unfold bltBlock bltImage
  rw [bltBlock_fold]
  rfl

/-- After `writeFat` the eight FAT blocks hold the image of the table. -/
theorem writeFat_data (fat : Nat → fatEntry) (dev : BlockDevice) (buffer : Bytes) {k j : Nat}
    (hk : k < 8) (hj : j < 512) : (writeFat fat dev buffer).data k j = fatImage fat k j := by
  rw [writeFat_eq]
  have h := writeAll_data (fatBlock fat) (fun k => k)
    (fun k b1 b2 j hj => by rw [fatBlock_apply, fatBlock_apply, if_pos hj, if_pos hj])
    (List.range FAT_BLOCKS) (dev, buffer) (by rw [List.map_id']; exact List.nodup_range _) k
    (List.mem_range.mpr hk) j hj
  beta_reduce at h ⊢
  rw [h, fatBlock_apply, if_pos hj]

set_option maxRecDepth 4000 in
/-- After `writeBlt` the blocks 8..263 hold the image of the table. -/
theorem writeBlt_data (blt : Nat → Nat) (dev : BlockDevice) (buffer : Bytes) {k j : Nat}
    (hk : k < 256) (hj : j < 512) :
    (writeBlt blt dev buffer).data (k + 8) j = bltImage blt k j := by
  rw [writeBlt_eq]
  have hk1 : k < BLT_BLOCKS := by simp only [BLT_BLOCKS]; exact hk
  have hmem : k ∈ List.range BLT_BLOCKS := List.mem_range.mpr hk1
  have hnd : ((List.range BLT_BLOCKS).map (fun k => k + FAT_BLOCKS)).Nodup := by
    apply List.Nodup.map _ (List.nodup_range _)
    intro a b hab
    exact Nat.add_right_cancel hab
  have himg : ∀ k b1 b2 j, j < 512 → bltBlock blt k b1 j = bltBlock blt k b2 j := by
    intro k b1 b2 j hj
    rw [bltBlock_apply, bltBlock_apply, if_pos hj, if_pos hj]
  have h := writeAll_data (bltBlock blt) (fun k => k + FAT_BLOCKS) himg
    (List.range BLT_BLOCKS) (dev, buffer) hnd k hmem j hj
  beta_reduce at h ⊢
  have e8 : k + 8 = k + FAT_BLOCKS := rfl
  rw [e8, h, bltBlock_apply, if_pos hj]

theorem decodeRow_apply {α : Type} (B : Nat) (d : Nat → α) : ∀ (m : Nat) (f : Nat → α) (k : Nat),
    ((List.range m).foldl (fun (f : Nat → α) i => fun k => if k = B + i then d i else f k) f) k =
      if B ≤ k ∧ k < B + m then d (k - B) else f k := by
  intro m
  induction m with
  | zero =>
    intro f k
    rw [if_neg (by omega)]
    rfl
  | succ m ih =>
    intro f k
    rw [List.range_succ, List.foldl_append, List.foldl_cons, List.foldl_nil]
    by_cases h : k = B + m
    · subst h
      rw [if_pos rfl, if_pos (by omega), Nat.add_sub_cancel_left]
    · rw [if_neg h, ih]
      by_cases h2 : B ≤ k ∧ k < B + m
      · rw [if_pos h2, if_pos (by omega)]
      · rw [if_neg h2, if_neg (by omega)]

/-- The loop shape shared by `readFat` and `readBlt`: `N` blocks of `M` entries each. -/
theorem readAll_apply {α : Type} (dec : Bytes → Nat → α) (M : Nat) (hM : 0 < M) (g : Nat → Nat)
    (dev : BlockDevice)
    (hdec : ∀ b1 b2 i, i < M → (∀ x, x < 512 → b1 x = b2 x) → dec b1 i = dec b2 i) :
    ∀ (N : Nat) (tbl : Nat → α) (buffer : Bytes), (∀ j, j < N → g j < dev.size) → ∀ k,
      ((List.range N).foldl (fun (st : (Nat → α) × Bytes) blockNo =>
          ((List.range M).foldl
            (fun (f : Nat → α) i => fun k =>
              if k = blockNo * M + i then dec (dev.read (g blockNo) st.2).2 i else f k) st.1,
            (dev.read (g blockNo) st.2).2)) (tbl, buffer)).1 k =
        if k < N * M then dec (dev.data (g (k / M))) (k % M) else tbl k := by
  intro N
  induction N with
  | zero =>
    intro tbl buffer _ k
    rw [if_neg (by omega)]
    rfl
  | succ N ih =>
    intro tbl buffer hread k
    rw [List.range_succ, List.foldl_append, List.foldl_cons, List.foldl_nil]
    dsimp only
    rw [decodeRow_apply, ih tbl buffer (fun j hj => hread j (by omega))]
    by_cases h : N * M ≤ k ∧ k < N * M + M
    · rw [if_pos h, if_pos (by rw [Nat.succ_mul]; omega)]
      have h1 : k / M = N := by
        apply Nat.div_eq_of_lt_le
        · exact h.1
        · rw [Nat.succ_mul]; exact h.2
      have h2 : k - N * M = k % M := by
        have := Nat.div_add_mod k M
        rw [h1, Nat.mul_comm] at this
        omega
      rw [h1, h2]
      apply hdec _ _ _ (Nat.mod_lt _ hM)
      intro x hx
      simp only [BlockDevice.read, if_pos (hread N (by omega)), BLOCK_SIZE, if_pos hx]
    · rw [if_neg h]
      by_cases h3 : k < N * M
      · rw [if_pos h3, if_pos (by rw [Nat.succ_mul]; omega)]
      · rw [if_neg h3, if_neg (by rw [Nat.succ_mul]; omega)]

theorem leValue_congr (b1 b2 : Bytes) : ∀ (n p : Nat), (∀ t, t < n → b1 (p + t) = b2 (p + t)) →
    leValue b1 p n = leValue b2 p n := by
  intro n
  induction n with
  | zero => intro p _; rfl
  | succ n ih =>
    intro p h
    rw [leValue, leValue, ih (p + 1) (fun t ht => by
      have := h (t + 1) (by omega)
      rw [Nat.add_assoc, Nat.add_comm 1 t]
      exact this)]
    have := h 0 (by omega)
    rw [Nat.add_zero] at this
    rw [this]

theorem readArr_congr (b1 b2 : Bytes) (p n : Nat) (h : ∀ t, t < n → b1 (p + t) = b2 (p + t)) :
    readArr b1 p n = readArr b2 p n := by
  unfold readArr
  apply List.map_congr_left
  intro t ht
  exact h t (List.mem_range.mp ht)

theorem getFatEntry_congr (b1 b2 : Bytes) (ptr : Nat)
    (h : ∀ t, t < 64 → b1 (ptr + t) = b2 (ptr + t)) : getFatEntry b1 ptr = getFatEntry b2 ptr := by
  have hf : ∀ (off n : Nat), off + n ≤ 64 → leValue b1 (ptr + off) n = leValue b2 (ptr + off) n := by
    intro off n hle
    apply leValue_congr
    intro t ht
    rw [Nat.add_assoc]
    exact h (off + t) (by omega)
  unfold getFatEntry
  rw [readArr_congr b1 b2 ptr MAX_NAME_LENGTH (fun t ht => h t (by simp only [MAX_NAME_LENGTH] at ht; omega)),
    hf 32 4 (by omega), hf 36 4 (by omega), hf 40 4 (by omega), hf 44 4 (by omega),
    hf 48 4 (by omega), hf 52 4 (by omega), hf 56 2 (by omega), hf 58 2 (by omega),
    hf 60 4 (by omega)]

theorem readFat_apply (fat : Nat → fatEntry) (dev : BlockDevice) (buffer : Bytes)
    (hdev : 8 ≤ dev.size) (i : Nat) :
    readFat fat dev buffer i =
      if i < 64 then getFatEntry (dev.data (i / 8)) (64 * (i % 8)) else fat i := by
  have h := readAll_apply (fun b i => getFatEntry b (64 * i)) FAT_ENTRIES_PER_BLOCK (by decide)
    (fun k => k) dev
    (by
      intro b1 b2 i hi hx
      apply getFatEntry_congr
      intro t ht
      simp only [FAT_ENTRIES_PER_BLOCK] at hi
      exact hx _ (by omega))
    FAT_BLOCKS fat buffer (fun j hj => by simp only [FAT_BLOCKS] at hj; show j < dev.size; omega) i
  exact h

set_option maxRecDepth 4000 in
theorem readBlt_apply (blt : Nat → Nat) (dev : BlockDevice) (buffer : Bytes)
    (hdev : 264 ≤ dev.size) (b : Nat) :
    readBlt blt dev buffer b =
      if b < 65536 then leValue (dev.data (b / 256 + 8)) (2 * (b % 256)) 2 else blt b := by
  have h := readAll_apply (fun b i => leValue b (2 * i) 2) BLT_ENTRIES_PER_BLOCK
    (by simp only [BLT_ENTRIES_PER_BLOCK]; omega)
    (fun k => k + FAT_BLOCKS) dev
    (by
      intro b1 b2 i hi hx
      apply leValue_congr
      intro t ht
      simp only [BLT_ENTRIES_PER_BLOCK] at hi
      exact hx _ (by omega))
    BLT_BLOCKS blt buffer (fun j hj => by
      show j + FAT_BLOCKS < dev.size
      simp only [BLT_BLOCKS, FAT_BLOCKS] at hj ⊢; omega) b
  exact h

theorem leValue_leBytes4 (buf : Bytes) (p v : Nat) (h : ∀ t, t < 4 → buf (p + t) = leBytes v t) :
    leValue buf p 4 = v % 4294967296 := by
  have h0 := h 0 (by omega)
  have h1 := h 1 (by omega)
  have h2 := h 2 (by omega)
  have h3 := h 3 (by omega)
  simp only [leBytes, Nat.add_zero] at h0 h1 h2 h3
  norm_num at h0 h1 h2 h3
  simp only [leValue, Nat.add_assoc, Nat.reduceAdd]
  rw [h0, h1, h2, h3]
  omega

theorem leValue_leBytes2 (buf : Bytes) (p v : Nat) (h : ∀ t, t < 2 → buf (p + t) = leBytes v t) :
    leValue buf p 2 = v % 65536 := by
  have h0 := h 0 (by omega)
  have h1 := h 1 (by omega)
  simp only [leBytes, Nat.add_zero] at h0 h1
  norm_num at h0 h1
  simp only [leValue, Nat.add_assoc, Nat.reduceAdd]
  rw [h0, h1]
  omega

theorem fatEntryByte_name (e : fatEntry) {t : Nat} (ht : t < 32) :
    fatEntryByte e t = arrBytes e.filename t := by
  simp only [fatEntryByte, if_pos ht]

theorem fatEntryByte_field (e : fatEntry) {t : Nat} :
    (t < 4 → fatEntryByte e (32 + t) = leBytes e.uid t) ∧
    (t < 4 → fatEntryByte e (36 + t) = leBytes e.groupId t) ∧
    (t < 4 → fatEntryByte e (40 + t) = leBytes e.mode t) ∧
    (t < 4 → fatEntryByte e (44 + t) = leBytes (toU32 e.accessTime) t) ∧
    (t < 4 → fatEntryByte e (48 + t) = leBytes (toU32 e.modTime) t) ∧
    (t < 4 → fatEntryByte e (52 + t) = leBytes (toU32 e.changeTime) t) ∧
    (t < 2 → fatEntryByte e (56 + t) = leBytes e.startBlock t) ∧
    (t < 2 → fatEntryByte e (58 + t) = leBytes e.nrBlocks t) ∧
    (t < 4 → fatEntryByte e (60 + t) = leBytes (toU64 e.size) t) := by
  refine ⟨?_, ?_, ?_, ?_, ?_, ?_, ?_, ?_, ?_⟩ <;> intro ht <;>
    simp (disch := omega) only [fatEntryByte, if_pos, if_neg, Nat.add_sub_cancel_left]

theorem time_roundtrip {x : Int} (h : -2147483648 ≤ x ∧ x < 2147483648) :
    toI32 ((toU32 x % 4294967296 : Nat) : Int) = x := by
  unfold toI32 toU32; omega

theorem size_roundtrip (x : Int) :
    ((toU64 x % 4294967296 : Nat) : Int) = x % 4294967296 := by
  unfold toU64; omega

theorem readArr_arrBytes (buf : Bytes) (p : Nat) (a : List Nat)
    (h : ∀ t, t < a.length → buf (p + t) = arrBytes a t) : readArr buf p a.length = a := by
  apply List.ext_get?
  intro k
  rw [readArr_get?]
  by_cases hk : k < a.length
  · rw [if_pos hk, h k hk, List.get?_eq_get hk]
    congr 1
    exact arrBytes_get? (List.get?_eq_get hk)
  · rw [if_neg hk, List.get?_eq_none.mpr (by omega)]

/-- Decoding the 64-byte image of an entry gives the entry back, its size reduced
modulo `2^32`. -/
theorem getFatEntry_of_bytes (buf : Bytes) (ptr : Nat) (e : fatEntry) (ht : e.Typed)
    (h : ∀ t, t < 64 → buf (ptr + t) = fatEntryByte e t) :
    getFatEntry buf ptr = { e with size := e.size % 4294967296 } := by
  have hf4 : ∀ off v, off + 4 ≤ 64 → (∀ t, t < 4 → fatEntryByte e (off + t) = leBytes v t) →
      leValue buf (ptr + off) 4 = v % 4294967296 := by
    intro off v hle hv
    apply leValue_leBytes4
    intro t ht
    rw [Nat.add_assoc, h (off + t) (by omega)]
    exact hv t ht
  have hf2 : ∀ off v, off + 2 ≤ 64 → (∀ t, t < 2 → fatEntryByte e (off + t) = leBytes v t) →
      leValue buf (ptr + off) 2 = v % 65536 := by
    intro off v hle hv
    apply leValue_leBytes2
    intro t ht
    rw [Nat.add_assoc, h (off + t) (by omega)]
    exact hv t ht
  have hname : readArr buf ptr MAX_NAME_LENGTH = e.filename := by
    rw [← ht.name_len]
    apply readArr_arrBytes
    intro t htl
    rw [ht.name_len] at htl
    simp only [MAX_NAME_LENGTH] at htl
    rw [h t (by omega), fatEntryByte_name e htl]
  unfold getFatEntry
  rw [hname, hf4 32 e.uid (by omega) (fun t => (fatEntryByte_field e).1),
    hf4 36 e.groupId (by omega) (fun t => (fatEntryByte_field e).2.1),
    hf4 40 e.mode (by omega) (fun t => (fatEntryByte_field e).2.2.1),
    hf4 44 _ (by omega) (fun t => (fatEntryByte_field e).2.2.2.1),
    hf4 48 _ (by omega) (fun t => (fatEntryByte_field e).2.2.2.2.1),
    hf4 52 _ (by omega) (fun t => (fatEntryByte_field e).2.2.2.2.2.1),
    hf2 56 e.startBlock (by omega) (fun t => (fatEntryByte_field e).2.2.2.2.2.2.1),
    hf2 58 e.nrBlocks (by omega) (fun t => (fatEntryByte_field e).2.2.2.2.2.2.2.1),
    hf4 60 _ (by omega) (fun t => (fatEntryByte_field e).2.2.2.2.2.2.2.2),
    time_roundtrip ht.atime, time_roundtrip ht.mtime, time_roundtrip ht.ctime, size_roundtrip,
    Nat.mod_eq_of_lt ht.uid_lt, Nat.mod_eq_of_lt ht.gid_lt, Nat.mod_eq_of_lt ht.mode_lt,
    Nat.mod_eq_of_lt ht.start_lt, Nat.mod_eq_of_lt ht.nr_lt]

theorem image_index (i t : Nat) (ht : t < 64) :
    i / 8 * 8 + (64 * (i % 8) + t) / 64 = i ∧ (64 * (i % 8) + t) % 64 = t ∧
    64 * (i % 8) + t < 512 := by
  omega

theorem blt_index (b t : Nat) (ht : t < 2) :
    b / 256 * 256 + (2 * (b % 256) + t) / 2 = b ∧ (2 * (b % 256) + t) % 2 = t ∧
    2 * (b % 256) + t < 512 := by
  omega

/-- Loading a FAT block region that holds the image of `fat` gives `fat` back, each
size reduced modulo `2^32`. -/
theorem readFat_of_image (fat0 fat : Nat → fatEntry) (dev : BlockDevice) (buffer : Bytes)
    (hdev : 8 ≤ dev.size) (himg : ∀ k j, k < 8 → j < 512 → dev.data k j = fatImage fat k j)
    {i : Nat} (hi : i < 64) (ht : (fat i).Typed) :
    readFat fat0 dev buffer i = { fat i with size := (fat i).size % 4294967296 } := by
  rw [readFat_apply _ _ _ hdev, if_pos hi]
  apply getFatEntry_of_bytes _ _ _ ht
  intro t htl
  obtain ⟨h1, h2, h3⟩ := image_index i t htl
  rw [himg (i / 8) _ (by omega) h3]
  unfold fatImage
  rw [h1, h2]

/-- Loading a BLT block region that holds the image of `blt` gives `blt` back. -/
theorem readBlt_of_image (blt0 blt : Nat → Nat) (dev : BlockDevice) (buffer : Bytes)
    (hdev : 264 ≤ dev.size)
    (himg : ∀ k j, k < 256 → j < 512 → dev.data (k + 8) j = bltImage blt k j)
    {b : Nat} (hb : b < 65536) (ht : blt b < 65536) :
    readBlt blt0 dev buffer b = blt b := by
  rw [readBlt_apply _ _ _ hdev, if_pos hb, leValue_leBytes2 _ _ (blt b), Nat.mod_eq_of_lt ht]
  intro t htl
  obtain ⟨h1, h2, h3⟩ := blt_index b t htl
  rw [himg (b / 256) _ (by omega) h3]
  unfold bltImage
  rw [h1, h2]

theorem fuseInit_some (fs0 : FS) (env : Env) (dev : BlockDevice) :
    (fuseInit fs0 env (some dev)).fat = readFat fs0.fat dev env.heap ∧
    (fuseInit fs0 env (some dev)).blt = readBlt fs0.blt dev env.heap ∧
    (fuseInit fs0 env (some dev)).blockDevice = dev := by
  simp only [fuseInit, and_self]

theorem fuseDestroy_eq (fs : FS) (env : Env) :
    (fuseDestroy fs env).blockDevice =
      writeBlt fs.blt (writeFat fs.fat fs.blockDevice env.heap) env.heap ∧
    (fuseDestroy fs env).fat = fs.fat ∧ (fuseDestroy fs env).blt = fs.blt := by
  simp only [fuseDestroy, and_self]

/-- C6 (amended). Persist/load round trip: for every FAT and BLT holding values of
their C types, writing both tables (`fuseDestroy`) and loading them again (`fuseInit` on
the existing container) restores every BLT entry and every field of every FAT entry
except that the size comes back reduced modulo `2^32` (the entry image stores four
bytes of it); an entry with `0 ≤ size < 2^32` is restored in full, and the data blocks
are untouched. -/
theorem persist_load (fs fs0 : FS) (envD envI : Env)
    (hfat : ∀ i, i < 64 → (fs.fat i).Typed) (hblt : ∀ b, b < 65536 → fs.blt b < 65536) :
    (∀ i, i < 64 →
      (fuseInit fs0 envI (some (fuseDestroy fs envD).blockDevice)).fat i =
        { fs.fat i with size := (fs.fat i).size % 4294967296 }) ∧
    (∀ i, i < 64 → 0 ≤ (fs.fat i).size → (fs.fat i).size < 4294967296 →
      (fuseInit fs0 envI (some (fuseDestroy fs envD).blockDevice)).fat i = fs.fat i) ∧
    (∀ b, b < 65536 →
      (fuseInit fs0 envI (some (fuseDestroy fs envD).blockDevice)).blt b = fs.blt b) ∧
    (∀ b, 264 ≤ b → b < fs.blockDevice.size →
      (fuseInit fs0 envI (some (fuseDestroy fs envD).blockDevice)).blockDevice.data b =
        fs.blockDevice.data b) := by
  have hs1 := writeFat_size fs.fat fs.blockDevice envD.heap
  have hs2 := writeBlt_size fs.blt (writeFat fs.fat fs.blockDevice envD.heap) envD.heap
  have hfatimg : ∀ k j, k < 8 → j < 512 →
      (writeBlt fs.blt (writeFat fs.fat fs.blockDevice envD.heap) envD.heap).data k j
        = fatImage fs.fat k j := by
    intro k j hk hj
    rw [writeBlt_frame _ _ _ (Or.inl hk) (lt_of_lt_of_le hk hs1.2)]
    exact writeFat_data _ _ _ hk hj
  rw [(fuseInit_some _ _ _).1, (fuseInit_some _ _ _).2.1, (fuseInit_some _ _ _).2.2,
    (fuseDestroy_eq _ _).1]
  have hmain : ∀ i, i < 64 →
      readFat fs0.fat (writeBlt fs.blt (writeFat fs.fat fs.blockDevice envD.heap) envD.heap)
        envI.heap i = { fs.fat i with size := (fs.fat i).size % 4294967296 } := by
    intro i hi
    exact readFat_of_image _ _ _ _ (le_trans (by norm_num) hs2.2) hfatimg hi (hfat i hi)
  refine ⟨hmain, ?_, ?_, ?_⟩
  · intro i hi h0 h1
    rw [hmain i hi, Int.emod_eq_of_lt h0 h1]
  · intro b hb
    exact readBlt_of_image _ _ _ _ hs2.2 (fun k j hk hj => writeBlt_data _ _ _ hk hj) hb (hblt b hb)
  · intro b h1 h2
    rw [writeBlt_frame _ _ _ (Or.inr h1) (lt_of_lt_of_le h2 hs1.1),
      writeFat_frame _ _ _ (le_trans (by norm_num) h1) h2]

/-- C6 as stated fails: the FAT entry of `oversizeVolume` holds values of its C types
(its size, an `off_t`, is `2^32 + 5`), and after `fuseDestroy` and `fuseInit` the size
of the entry is 5. -/
theorem persist_load_oversize :
    (∀ i, i < 64 → (oversizeVolume.fat i).Typed) ∧
    (∀ b, b < 65536 → oversizeVolume.blt b < 65536) ∧
    (oversizeVolume.fat 0).size = 4294967301 ∧
    ((fuseInit blankFS sampleEnv (some (fuseDestroy oversizeVolume sampleEnv).blockDevice)).fat 0).size
      = 5 := by
  refine ⟨?_, sampleVolume_invariants.blt_typed, by decide, by decide!⟩
  intro i hi
  by_cases h : i = 0
  · subst h
    have := sampleFile_typed
    exact ⟨this.name_len, this.name_byte, this.uid_lt, this.gid_lt, this.mode_lt, this.atime,
      this.mtime, this.ctime, this.start_lt, this.nr_lt, by decide⟩
  · have := sampleVolume_invariants.fat_typed i hi
    have e : oversizeVolume.fat i = sampleVolume.fat i := by
      simp only [oversizeVolume, store, if_neg h]
    rw [e]
    exact this

theorem persist_load_witness :
    (∀ i, i < 64 → (sampleVolume.fat i).Typed) ∧ (∀ b, b < 65536 → sampleVolume.blt b < 65536) ∧
    ((∀ i, i < 64 →
      (fuseInit blankFS sampleEnv (some (fuseDestroy sampleVolume sampleEnv).blockDevice)).fat i =
        { sampleVolume.fat i with size := (sampleVolume.fat i).size % 4294967296 }) ∧
    (∀ i, i < 64 → 0 ≤ (sampleVolume.fat i).size → (sampleVolume.fat i).size < 4294967296 →
      (fuseInit blankFS sampleEnv (some (fuseDestroy sampleVolume sampleEnv).blockDevice)).fat i =
        sampleVolume.fat i) ∧
    (∀ b, b < 65536 →
      (fuseInit blankFS sampleEnv (some (fuseDestroy sampleVolume sampleEnv).blockDevice)).blt b =
        sampleVolume.blt b) ∧
    (∀ b, 264 ≤ b → b < sampleVolume.blockDevice.size →
      (fuseInit blankFS sampleEnv
        (some (fuseDestroy sampleVolume sampleEnv).blockDevice)).blockDevice.data b =
        sampleVolume.blockDevice.data b)) :=
  ⟨sampleVolume_invariants.fat_typed, sampleVolume_invariants.blt_typed,
    persist_load sampleVolume blankFS sampleEnv sampleEnv sampleVolume_invariants.fat_typed
      sampleVolume_invariants.blt_typed⟩

theorem OffBlt.lt {b : Nat} (h : OffBlt b) : b < 65536 := by unfold OffBlt at h; omega

theorem offBlt_small {b : Nat} (h : b < 8) : OffBlt b := Or.inl h

theorem bltOff_store {blt : Nat → Nat} (h : BltOff blt) {i v : Nat} (hi : OffBlt i)
    (hv : OffBlt v) : BltOff (store blt i v) := by
  refine ⟨fun b hb => ?_, fun b h8 h264 => ?_⟩
  · by_cases hbi : b = i
    · rw [hbi, store_same]; exact hv
    · rw [store_other _ _ hbi]; exact h.1 b hb
  · have hbi : b ≠ i := by unfold OffBlt at hi; omega
    rw [store_other _ _ hbi]; exact h.2 b h8 h264

theorem bltOff_foldl (v : Nat) (hv : OffBlt v) : ∀ (l : List Nat) (blt : Nat → Nat),
    BltOff blt → (∀ b ∈ l, OffBlt b) → BltOff (l.foldl (fun t b => store t b v) blt) := by
  intro l
  induction l with
  | nil => intro blt h _; exact h
  | cons a l ih =>
    intro blt h hl
    rw [List.foldl_cons]
    exact ih _ (bltOff_store h (hl a (List.mem_cons_self _ _)) hv)
      (fun b hb => hl b (List.mem_cons_of_mem _ hb))

theorem bltOff_chain {blt : Nat → Nat} (h : BltOff blt) : ∀ (n s : Nat), OffBlt s →
    ∀ b ∈ chainFrom blt s n, OffBlt b := by
  intro n
  induction n with
  | zero => intro s _ b hb; simp [chainFrom] at hb
  | succ n ih =>
    intro s hs b hb
    rw [chainFrom, List.mem_cons] at hb
    rcases hb with rfl | hb
    · exact hs
    · exact ih _ (h.1 s hs) b hb

theorem bltOff_walk {blt : Nat → Nat} (h : BltOff blt) : ∀ (n s c : Nat), OffBlt s →
    walkToEnd blt n s = .ok c → OffBlt c := by
  intro n
  induction n with
  | zero => intro s c _ hw; simp [walkToEnd] at hw
  | succ n ih =>
    intro s c hs hw
    rw [walkToEnd] at hw
    split at hw
    · injection hw with hw; rw [← hw]; exact hs
    · exact ih _ c (h.1 s hs) hw

theorem bltOff_findFree {blt : Nat → Nat} (h : BltOff blt) (fb : Option Nat)
    (hfb : ∀ c, fb = some c → OffBlt c) :
    ∀ c, (findFreeBlock blt fb).2 = some c → OffBlt c := by
  intro c hc
  unfold findFreeBlock at hc
  split at hc
  · rename_i i hi
    have := findFreeFrom_some blt _ _ _ hi
    simp only [TOTAL_BLT_ENTRIES] at this
    have hci : i = c := by simpa using hc
    subst hci
    by_cases h8 : i < 8
    · exact Or.inl h8
    · by_cases h264 : i < 264
      · have := h.2 i (by omega) h264
        simp only [BLT_RSV, BLT_FREE] at *
        omega
      · exact Or.inr ⟨by omega, by omega⟩
  · exact hfb c hc

theorem bltOff_grow : ∀ (n : Nat) (blt : Nat → Nat) (cur : Nat) (fb : Option Nat),
    BltOff blt → OffBlt cur → (∀ c, fb = some c → OffBlt c) →
    ∀ r, growLoop n blt cur fb = .ok r → BltOff r.1 := by
  intro n
  induction n with
  | zero =>
    intro blt cur fb h _ _ r hr
    simp only [growLoop] at hr
    injection hr with hr
    rw [← hr]; exact h
  | succ n ih =>
    intro blt cur fb h hcur hfb r hr
    rw [growLoop] at hr
    split at hr
    · simp at hr
    · rename_i c hc
      have hoc : OffBlt c := bltOff_findFree h fb hfb c hc
      have h1 : BltOff (store blt cur c) := bltOff_store h hcur hoc
      have hc1 : store blt cur c cur = c := store_same _ _ _
      simp only [hc1] at hr
      exact ih _ _ _ (bltOff_store h1 hoc (offBlt_small (by decide))) hoc
        (fun c1 hc1 => by injection hc1 with hc1; rw [← hc1]; exact hoc) r hr


theorem blockAt_mem {l : List Nat} {i : Int} {b : Nat} (h : blockAt l i = .ok b) : b ∈ l := by
  unfold blockAt at h
  split at h
  · simp at h
  · split at h
    · rename_i c hc
      injection h with h
      subst h
      exact List.get?_mem hc
    · simp at h

theorem truncateShrink_off (fs : FS) (env : Env) (e : fatEntry) (nr : Int)
    (h : BltOff fs.blt) (hs : OffBlt e.startBlock)
    (r : (Nat → Nat) × fatEntry × BlockDevice) (hr : truncateShrink fs env e nr = .ok r) :
    BltOff r.1 ∧ OffBlt r.2.1.startBlock ∧
      ((r.1 = fs.blt ∧ r.2.2 = fs.blockDevice) ∨
        r.2.2 = writeBlt r.1 fs.blockDevice env.heap) := by
  unfold truncateShrink at hr
  split at hr
  · dsimp only at hr
    split at hr
    · simp at hr
    · rename_i last hlast
      injection hr with hr
      subst hr
      have hch := bltOff_chain h e.nrBlocks e.startBlock hs
      refine ⟨?_, hs, Or.inr (by dsimp only)⟩
      apply bltOff_foldl _ (offBlt_small (by decide))
      · exact bltOff_store h (hch _ (blockAt_mem hlast)) (offBlt_small (by decide))
      · intro b hb
        exact hch b (List.mem_of_mem_drop hb)
  · injection hr with hr
    subst hr
    exact ⟨h, hs, Or.inl ⟨rfl, rfl⟩⟩

theorem truncateGrow_off (fs : FS) (env : Env) (e : fatEntry) (nr : Int)
    (h : BltOff fs.blt) (hs : OffBlt e.startBlock)
    (r : (Nat → Nat) × fatEntry × BlockDevice) (hr : truncateGrow fs env e nr = .ok r) :
    BltOff r.1 ∧ OffBlt r.2.1.startBlock ∧
      ((r.1 = fs.blt ∧ r.2.2 = fs.blockDevice) ∨
        r.2.2 = writeBlt r.1 fs.blockDevice env.heap) := by
  unfold truncateGrow at hr
  split at hr
  · dsimp only at hr
    have hfirst : BltOff (if e.nrBlocks = 0 then
          (store fs.blt ((findFreeBlock fs.blt (some e.startBlock)).2.getD e.startBlock) BLT_EOF,
            ({ e with startBlock := (findFreeBlock fs.blt (some e.startBlock)).2.getD e.startBlock,
                      nrBlocks := 1 } : fatEntry))
        else (fs.blt, e)).1 ∧
        OffBlt (if e.nrBlocks = 0 then
          (store fs.blt ((findFreeBlock fs.blt (some e.startBlock)).2.getD e.startBlock) BLT_EOF,
            ({ e with startBlock := (findFreeBlock fs.blt (some e.startBlock)).2.getD e.startBlock,
                      nrBlocks := 1 } : fatEntry))
        else (fs.blt, e)).2.startBlock := by
      have hsb : OffBlt ((findFreeBlock fs.blt (some e.startBlock)).2.getD e.startBlock) := by
        cases hq : (findFreeBlock fs.blt (some e.startBlock)).2 with
        | none => exact hs
        | some c =>
          exact bltOff_findFree h (some e.startBlock)
            (fun c1 hc1 => by injection hc1 with hc1; rw [← hc1]; exact hs) c hq
      split
      · exact ⟨bltOff_store h hsb (offBlt_small (by decide)), hsb⟩
      · exact ⟨h, hs⟩
    generalize (if e.nrBlocks = 0 then
          (store fs.blt ((findFreeBlock fs.blt (some e.startBlock)).2.getD e.startBlock) BLT_EOF,
            ({ e with startBlock := (findFreeBlock fs.blt (some e.startBlock)).2.getD e.startBlock,
                      nrBlocks := 1 } : fatEntry))
        else (fs.blt, e)) = first at hr hfirst
    split at hr
    · simp at hr
    · rename_i cur hcur
      split at hr
      · simp at hr
      · split at hr
        · simp at hr
        · rename_i blt1 c1 f1 hg
          injection hr with hr
          subst hr
          have hoc := bltOff_walk hfirst.1 _ _ _ hfirst.2 hcur
          have := bltOff_grow _ _ _ none hfirst.1 hoc (fun c hc => by simp at hc) _ hg
          exact ⟨this, hfirst.2, Or.inr (by dsimp only)⟩
  · injection hr with hr
    subst hr
    exact ⟨h, hs, Or.inl ⟨rfl, rfl⟩⟩

theorem blt_current_writeBlt (blt : Nat → Nat) (dev : BlockDevice) (heap : Bytes) :
    264 ≤ (writeBlt blt dev heap).size ∧
      ∀ k j, k < 256 → j < 512 → (writeBlt blt dev heap).data (k + 8) j = bltImage blt k j :=
  ⟨(writeBlt_size blt dev heap).2, fun _ _ hk hj => writeBlt_data blt dev heap hk hj⟩

theorem sound_mk (fat : Nat → fatEntry) (blt : Nat → Nat) (dev : BlockDevice) (heap : Bytes)
    (hstart : ∀ i, i < 64 → OffBlt (fat i).startBlock) (hblt : BltOff blt)
    (hsize : 264 ≤ dev.size)
    (hcur : ∀ k j, k < 256 → j < 512 → dev.data (k + 8) j = bltImage blt k j) :
    Sound { fat := fat, blt := blt, blockDevice := writeFat fat dev heap } := by
  refine ⟨⟨?_, ?_, ?_⟩, ⟨hstart, hblt.1, hblt.2⟩⟩
  · exact le_trans hsize (writeFat_size fat dev heap).1
  · intro k j hk hj
    exact writeFat_data fat dev heap hk hj
  · intro k j hk hj
    have h1 : (writeFat fat dev heap).data (k + 8) = dev.data (k + 8) :=
      writeFat_frame fat dev heap (by omega) (by omega)
    show (writeFat fat dev heap).data (k + 8) j = bltImage blt k j
    rw [h1]; exact hcur k j hk hj

theorem sound_mk_blt (fat : Nat → fatEntry) (blt : Nat → Nat) (dev : BlockDevice)
    (heap heap1 : Bytes) (hstart : ∀ i, i < 64 → OffBlt (fat i).startBlock) (hblt : BltOff blt) :
    Sound { fat := fat, blt := blt, blockDevice := writeFat fat (writeBlt blt dev heap) heap1 } :=
  sound_mk fat blt (writeBlt blt dev heap) heap1 hstart hblt (blt_current_writeBlt blt dev heap).1
    (blt_current_writeBlt blt dev heap).2

theorem newFileEntry_start (env : Env) (path : List Nat) (mode : Nat) :
    OffBlt (newFileEntry env path mode).startBlock := Or.inl (by simp [newFileEntry])

theorem emptyEntry_start (env : Env) : OffBlt (emptyEntry env).startBlock :=
  Or.inl (by simp [emptyEntry])

theorem Sound.bltOff {fs : FS} (h : Sound fs) : BltOff fs.blt := ⟨h.2.next_off, h.2.blt_rsv⟩

theorem start_off_store {fat : Nat → fatEntry} (h : ∀ i, i < 64 → OffBlt (fat i).startBlock)
    (k : Nat) {e : fatEntry} (he : OffBlt e.startBlock) :
    ∀ i, i < 64 → OffBlt (store fat k e i).startBlock := by
  intro i hi
  by_cases hik : i = k
  · rw [hik, store_same]; exact he
  · rw [store_other _ _ hik]; exact h i hi

/-- Storing an entry whose start block is off the BLT and persisting the FAT keeps the
volume sound. -/
theorem sound_store {fs : FS} (h : Sound fs) (k : Nat) (e : fatEntry) (heap : Bytes)
    (he : OffBlt e.startBlock) :
    Sound { fs with fat := store fs.fat k e,
                    blockDevice := writeFat (store fs.fat k e) fs.blockDevice heap } :=
  sound_mk _ _ _ _ (start_off_store h.2.start_off k he) h.bltOff h.1.dev_size h.1.blt_current

theorem fuseMknod_sound {fs : FS} (h : Sound fs) (env : Env) (path : List Nat) (mode : Nat) :
    Sound (fuseMknod fs env path mode).2 := by
  unfold fuseMknod
  split
  · exact h
  · split
    · exact h
    · split
      · exact h
      · exact sound_store h _ _ _ (newFileEntry_start _ _ _)

theorem fuseUnlink_sound {fs : FS} (h : Sound fs) (env : Env) (path : List Nat) :
    Sound (fuseUnlink fs env path).2 := by
  unfold fuseUnlink
  dsimp only
  split
  · exact h
  · split
    · dsimp only
      refine sound_mk_blt _ _ _ _ _ ?_ ?_
      · exact start_off_store h.2.start_off _ (emptyEntry_start env)
      · exact bltOff_foldl _ (offBlt_small (by decide)) _ _ h.bltOff
          (bltOff_chain h.bltOff _ _
            (h.2.start_off _ (@getFileIndex_lt fs.fat path (by omega))))
    · exact sound_store h _ _ _ (emptyEntry_start env)

theorem fuseRename_sound {fs : FS} (h : Sound fs) (env : Env) (path newpath : List Nat) :
    Sound (fuseRename fs env path newpath).2 := by
  unfold fuseRename
  dsimp only
  split
  · exact h
  · rename_i hidx
    have h1 : Sound (if getFileIndex fs.fat newpath ≥ 0 then (fuseUnlink fs env newpath).2
        else fs) := by
      split
      · exact fuseUnlink_sound h env newpath
      · exact h
    generalize (if getFileIndex fs.fat newpath ≥ 0 then (fuseUnlink fs env newpath).2
        else fs) = fs1 at h1
    split
    · exact h1
    · exact sound_store h1 _ _ _ (h1.2.start_off _ (@getFileIndex_lt fs.fat path (by omega)))

theorem fuseGetattr_sound {fs : FS} (h : Sound fs) (env : Env) (path : List Nat) (st : Stat) :
    Sound (fuseGetattr fs env path st).2.2 := by
  unfold fuseGetattr
  dsimp only
  split
  · exact h
  · split
    · exact h
    · exact sound_store h _ _ _ (h.2.start_off _ (@getFileIndex_lt fs.fat path (by omega)))

theorem fuseChmod_sound {fs : FS} (h : Sound fs) (env : Env) (path : List Nat) (mode : Nat) :
    Sound (fuseChmod fs env path mode).2 := by
  unfold fuseChmod
  dsimp only
  split
  · exact h
  · exact sound_store h _ _ _ (h.2.start_off _ (@getFileIndex_lt fs.fat path (by omega)))

theorem fuseChown_sound {fs : FS} (h : Sound fs) (env : Env) (path : List Nat) (uid gid : Nat) :
    Sound (fuseChown fs env path uid gid).2 := by
  unfold fuseChown
  dsimp only
  split
  · exact h
  · exact sound_store h _ _ _ (h.2.start_off _ (@getFileIndex_lt fs.fat path (by omega)))

theorem fuseOpen_sound {fs : FS} (h : Sound fs) (env : Env) (path : List Nat) (fh : Nat) :
    Sound (fuseOpen fs env path fh).2.2 := by
  unfold fuseOpen
  dsimp only
  split
  · exact h
  · split
    · exact h
    · exact sound_store h _ _ _ (h.2.start_off _ (@getFileIndex_lt fs.fat path (by omega)))

theorem leBytes_mod2 (v : Nat) {t : Nat} (ht : t < 2) : leBytes (v % 65536) t = leBytes v t := by
  unfold leBytes
  interval_cases t
  · simp only [pow_zero, Nat.div_one]; omega
  · simp only [pow_one]; omega

theorem leBytes_mod4 (v : Nat) {t : Nat} (ht : t < 4) :
    leBytes (v % 4294967296) t = leBytes v t := by
  unfold leBytes
  interval_cases t
  · simp only [pow_zero, Nat.div_one]; omega
  · simp only [pow_one]; omega
  · norm_num; omega
  · norm_num; omega

theorem toU32_toI32_nat (y : Nat) : toU32 (toI32 (y : Int)) = y % 4294967296 := by
  unfold toU32 toI32; omega

theorem toU64_small (y : Nat) : toU64 ((y % 4294967296 : Nat) : Int) = y % 4294967296 := by
  unfold toU64; omega

theorem arrBytes_readArr (buf : Bytes) (p n : Nat) {t : Nat} (ht : t < n) :
    arrBytes (readArr buf p n) t = buf (p + t) := by
  unfold arrBytes readArr
  simp [List.getD, ht]

/-- The entry decoded from the image of `e` has the same image as `e`. -/
theorem fatEntryByte_getFatEntry (buf : Bytes) (ptr : Nat) (e : fatEntry)
    (h : ∀ t, t < 64 → buf (ptr + t) = fatEntryByte e t) {t : Nat} (ht : t < 64) :
    fatEntryByte (getFatEntry buf ptr) t = fatEntryByte e t := by
  have hf4 : ∀ off v, off + 4 ≤ 64 → (∀ t, t < 4 → fatEntryByte e (off + t) = leBytes v t) →
      leValue buf (ptr + off) 4 = v % 4294967296 := by
    intro off v hle hv
    apply leValue_leBytes4
    intro t ht
    rw [Nat.add_assoc, h (off + t) (by omega)]
    exact hv t ht
  have hf2 : ∀ off v, off + 2 ≤ 64 → (∀ t, t < 2 → fatEntryByte e (off + t) = leBytes v t) →
      leValue buf (ptr + off) 2 = v % 65536 := by
    intro off v hle hv
    apply leValue_leBytes2
    intro t ht
    rw [Nat.add_assoc, h (off + t) (by omega)]
    exact hv t ht
  have hg : getFatEntry buf ptr =
      { filename := readArr buf ptr MAX_NAME_LENGTH
        uid := e.uid % 4294967296, groupId := e.groupId % 4294967296
        mode := e.mode % 4294967296
        accessTime := toI32 ((toU32 e.accessTime % 4294967296 : Nat) : Int)
        modTime := toI32 ((toU32 e.modTime % 4294967296 : Nat) : Int)
        changeTime := toI32 ((toU32 e.changeTime % 4294967296 : Nat) : Int)
        startBlock := e.startBlock % 65536, nrBlocks := e.nrBlocks % 65536
        size := ((toU64 e.size % 4294967296 : Nat) : Int) } := by
    unfold getFatEntry
    rw [hf4 32 e.uid (by omega) (fun t => (fatEntryByte_field e).1),
      hf4 36 e.groupId (by omega) (fun t => (fatEntryByte_field e).2.1),
      hf4 40 e.mode (by omega) (fun t => (fatEntryByte_field e).2.2.1),
      hf4 44 _ (by omega) (fun t => (fatEntryByte_field e).2.2.2.1),
      hf4 48 _ (by omega) (fun t => (fatEntryByte_field e).2.2.2.2.1),
      hf4 52 _ (by omega) (fun t => (fatEntryByte_field e).2.2.2.2.2.1),
      hf2 56 e.startBlock (by omega) (fun t => (fatEntryByte_field e).2.2.2.2.2.2.1),
      hf2 58 e.nrBlocks (by omega) (fun t => (fatEntryByte_field e).2.2.2.2.2.2.2.1),
      hf4 60 _ (by omega) (fun t => (fatEntryByte_field e).2.2.2.2.2.2.2.2)]
  rw [hg]
  unfold fatEntryByte
  dsimp only
  by_cases h32 : t < 32
  · rw [if_pos h32, if_pos h32, arrBytes_readArr _ _ _ (by simpa [MAX_NAME_LENGTH] using h32),
      h t ht, fatEntryByte_name e h32]
  rw [if_neg h32, if_neg h32]
  by_cases h36 : t < 36
  · rw [if_pos h36, if_pos h36]; exact leBytes_mod4 _ (by omega)
  rw [if_neg h36, if_neg h36]
  by_cases h40 : t < 40
  · rw [if_pos h40, if_pos h40]; exact leBytes_mod4 _ (by omega)
  rw [if_neg h40, if_neg h40]
  by_cases h44 : t < 44
  · rw [if_pos h44, if_pos h44]; exact leBytes_mod4 _ (by omega)
  rw [if_neg h44, if_neg h44]
  by_cases h48 : t < 48
  · rw [if_pos h48, if_pos h48, toU32_toI32_nat, Nat.mod_mod]; exact leBytes_mod4 _ (by omega)
  rw [if_neg h48, if_neg h48]
  by_cases h52 : t < 52
  · rw [if_pos h52, if_pos h52, toU32_toI32_nat, Nat.mod_mod]; exact leBytes_mod4 _ (by omega)
  rw [if_neg h52, if_neg h52]
  by_cases h56 : t < 56
  · rw [if_pos h56, if_pos h56, toU32_toI32_nat, Nat.mod_mod]; exact leBytes_mod4 _ (by omega)
  rw [if_neg h56, if_neg h56]
  by_cases h58 : t < 58
  · rw [if_pos h58, if_pos h58]; exact leBytes_mod2 _ (by omega)
  rw [if_neg h58, if_neg h58]
  by_cases h60 : t < 60
  · rw [if_pos h60, if_pos h60]; exact leBytes_mod2 _ (by omega)
  rw [if_neg h60, if_neg h60, toU64_small]
  exact leBytes_mod4 _ (by omega)

theorem image_index2 (k j : Nat) (hk : k < 8) (hj : j < 512) :
    k * 8 + j / 64 < 64 ∧ (k * 8 + j / 64) / 8 = k ∧ (k * 8 + j / 64) % 8 = j / 64 ∧
    j % 64 < 64 ∧ 64 * (j / 64) + j % 64 = j := by
  omega

theorem blt_index2 (k j : Nat) (hk : k < 256) (hj : j < 512) :
    k * 256 + j / 2 < 65536 ∧ (k * 256 + j / 2) / 256 = k ∧ (k * 256 + j / 2) % 256 = j / 2 ∧
    j % 2 < 2 ∧ 2 * (j / 2) + j % 2 = j := by
  omega

/-- The table loaded from a FAT region holding the image of `fat` has the same image. -/
theorem fatImage_readFat (fat0 fat : Nat → fatEntry) (dev : BlockDevice) (buffer : Bytes)
    (hdev : 8 ≤ dev.size) (himg : ∀ k j, k < 8 → j < 512 → dev.data k j = fatImage fat k j)
    {k j : Nat} (hk : k < 8) (hj : j < 512) :
    fatImage (readFat fat0 dev buffer) k j = fatImage fat k j := by
  obtain ⟨h1, h2, h3, h4, h5⟩ := image_index2 k j hk hj
  unfold fatImage
  rw [readFat_apply _ _ _ hdev, if_pos h1, h2, h3]
  apply fatEntryByte_getFatEntry _ _ _ _ h4
  intro t ht
  rw [himg k _ hk (by omega)]
  unfold fatImage
  have e1 : k * 8 + (64 * (j / 64) + t) / 64 = k * 8 + j / 64 := by omega
  have e2 : (64 * (j / 64) + t) % 64 = t := by omega
  rw [e1, e2]

theorem readBlt_mod (blt0 blt : Nat → Nat) (dev : BlockDevice) (buffer : Bytes)
    (hdev : 264 ≤ dev.size)
    (himg : ∀ k j, k < 256 → j < 512 → dev.data (k + 8) j = bltImage blt k j)
    {b : Nat} (hb : b < 65536) : readBlt blt0 dev buffer b = blt b % 65536 := by
  rw [readBlt_apply _ _ _ hdev, if_pos hb, leValue_leBytes2 _ _ (blt b)]
  intro t htl
  obtain ⟨h1, h2, h3⟩ := blt_index b t htl
  rw [himg (b / 256) _ (by omega) h3]
  unfold bltImage
  rw [h1, h2]

theorem bltImage_readBlt (blt0 blt : Nat → Nat) (dev : BlockDevice) (buffer : Bytes)
    (hdev : 264 ≤ dev.size)
    (himg : ∀ k j, k < 256 → j < 512 → dev.data (k + 8) j = bltImage blt k j)
    {k j : Nat} (hk : k < 256) (hj : j < 512) :
    bltImage (readBlt blt0 dev buffer) k j = bltImage blt k j := by
  obtain ⟨h1, h2, h3, h4, h5⟩ := blt_index2 k j hk hj
  unfold bltImage
  rw [readBlt_mod blt0 blt dev buffer hdev himg h1]
  exact leBytes_mod2 _ h4

theorem readFat_start (fat0 fat : Nat → fatEntry) (dev : BlockDevice) (buffer : Bytes)
    (hdev : 8 ≤ dev.size) (himg : ∀ k j, k < 8 → j < 512 → dev.data k j = fatImage fat k j)
    {i : Nat} (hi : i < 64) :
    (readFat fat0 dev buffer i).startBlock = (fat i).startBlock % 65536 := by
  rw [readFat_apply _ _ _ hdev, if_pos hi]
  unfold getFatEntry
  dsimp only
  apply leValue_leBytes2
  intro t ht
  obtain ⟨h1, h2, h3⟩ := image_index i (56 + t) (by omega)
  have e : 64 * (i % 8) + 56 + t = 64 * (i % 8) + (56 + t) := by omega
  rw [e, himg (i / 8) _ (by omega) h3]
  unfold fatImage
  rw [h1, h2]
  exact (fatEntryByte_field (fat i)).2.2.2.2.2.2.1 ht

theorem fuseInit_none (fs0 : FS) (env : Env) :
    (fuseInit fs0 env none).fat = formatFat fs0.fat env ∧
    (fuseInit fs0 env none).blt = formatBlt fs0.blt ∧
    (fuseInit fs0 env none).blockDevice =
      writeBlt (formatBlt fs0.blt) (writeFat (formatFat fs0.fat env) BlockDevice.create env.heap)
        env.heap := by
  simp only [fuseInit, and_self]

/-- After both tables are written the container holds both images. -/
theorem tables_written (fat : Nat → fatEntry) (blt : Nat → Nat) (dev : BlockDevice)
    (h1 h2 : Bytes) :
    264 ≤ (writeBlt blt (writeFat fat dev h1) h2).size ∧
    (∀ k j, k < 8 → j < 512 → (writeBlt blt (writeFat fat dev h1) h2).data k j = fatImage fat k j) ∧
    (∀ k j, k < 256 → j < 512 →
      (writeBlt blt (writeFat fat dev h1) h2).data (k + 8) j = bltImage blt k j) := by
  refine ⟨(writeBlt_size _ _ _).2, fun k j hk hj => ?_, fun k j hk hj => writeBlt_data _ _ _ hk hj⟩
  have h8 := (writeFat_size fat dev h1).2
  rw [writeBlt_frame blt (writeFat fat dev h1) h2 (Or.inl hk) (by omega)]
  exact writeFat_data fat dev h1 hk hj

theorem fuseInit_fresh_sound (fs0 : FS) (env : Env) : Sound (fuseInit fs0 env none) := by
  obtain ⟨hs, hf, hb⟩ := tables_written (formatFat fs0.fat env) (formatBlt fs0.blt)
    BlockDevice.create env.heap env.heap
  obtain ⟨e1, e2, e3⟩ := fuseInit_none fs0 env
  refine ⟨⟨?_, ?_, ?_⟩, ⟨?_, ?_, ?_⟩⟩
  · rw [e3]; exact hs
  · rw [e3, e1]; exact hf
  · rw [e3, e2]; exact hb
  · intro i hi
    rw [e1]
    have : formatFat fs0.fat env i = emptyEntry env := by
      unfold formatFat; rw [if_pos (by simpa [TOTAL_FAT_ENTRIES] using hi)]
    rw [this]; exact emptyEntry_start env
  · intro b hb1
    rw [e2, formatBlt_apply _ hb1.lt]
    split
    · exact offBlt_small (by decide)
    · exact offBlt_small (by decide)
  · intro b h8 h264
    rw [e2, formatBlt_apply _ (by omega), if_pos h264]

theorem remount_sound {fs : FS} (h : Sound fs) (env : Env) :
    Sound (fuseInit fs env (some (fuseDestroy fs env).blockDevice)) := by
  obtain ⟨hs, hf, hb⟩ := tables_written fs.fat fs.blt fs.blockDevice env.heap env.heap
  obtain ⟨e1, e2, e3⟩ := fuseInit_some fs env (fuseDestroy fs env).blockDevice
  have e4 := (fuseDestroy_eq fs env).1
  refine ⟨⟨?_, ?_, ?_⟩, ⟨?_, ?_, ?_⟩⟩
  · rw [e3, e4]; exact hs
  · intro k j hk hj
    rw [e3, e1, e4, fatImage_readFat _ fs.fat _ _ (by omega) hf hk hj]
    exact hf k j hk hj
  · intro k j hk hj
    rw [e3, e2, e4, bltImage_readBlt _ fs.blt _ _ hs hb hk hj]
    exact hb k j hk hj
  · intro i hi
    rw [e1, e4, readFat_start _ fs.fat _ _ (by omega) hf hi,
      Nat.mod_eq_of_lt (h.2.start_off i hi).lt]
    exact h.2.start_off i hi
  · intro b hb1
    rw [e2, e4, readBlt_mod _ fs.blt _ _ hs hb hb1.lt,
      Nat.mod_eq_of_lt (h.2.next_off b hb1).lt]
    exact h.2.next_off b hb1
  · intro b h8 h264
    rw [e2, e4, readBlt_mod _ fs.blt _ _ hs hb (by omega), h.2.blt_rsv b h8 h264]
    decide

theorem writeLoop_frame (bl : List Nat) (buf : Bytes) (size : Nat) (offset : Int) :
    ∀ (n : Nat) (cp cbp : Int) (dev : BlockDevice) (buffer : Bytes) (dev1 : BlockDevice),
      writeLoop bl buf size offset n cp cbp dev buffer = .ok dev1 →
      dev.size ≤ dev1.size ∧ ∀ b, b ∉ bl → b < dev.size → dev1.data b = dev.data b := by
  intro n
  induction n with
  | zero => intro cp cbp dev buffer dev1 h; simp [writeLoop] at h
  | succ n ih =>
    intro cp cbp dev buffer dev1 h
    rw [writeLoop] at h
    split at h
    · injection h with h; subst h; exact ⟨le_refl _, fun _ _ _ => rfl⟩
    · dsimp only at h
      split at h
      · simp at h
      · rename_i b hb
        split at h
        · simp at h
        · split at h
          · simp at h
          · have := ih _ _ _ _ _ h
            have hsz : dev.size ≤ (dev.write b
                (memcpy (dev.read b buffer).2 (cp.tmod 512).toNat buf cbp.toNat
                  (toU64 (writeChunk size offset cp)))).size := le_max_left _ _
            refine ⟨le_trans hsz this.1, fun c hc hlt => ?_⟩
            have hcb : c ≠ b := fun hcb => hc (hcb ▸ blockAt_mem hb)
            rw [this.2 c hc (lt_of_lt_of_le hlt hsz)]
            exact BlockDevice.write_data_other dev _ hcb hlt

theorem fuseTruncate_sound {fs : FS} (h : Sound fs) (env : Env) (path : List Nat) (newSize : Int)
    (r : Int × FS) (hr : fuseTruncate fs env path newSize = .ok r) : Sound r.2 := by
  unfold fuseTruncate at hr
  dsimp only at hr
  split at hr
  · injection hr with hr; subst hr; exact h
  · rename_i hidx
    have hlt : (getFileIndex fs.fat path).toNat < 64 := getFileIndex_lt (by omega)
    split at hr
    · injection hr with hr; subst hr; exact h
    · have hb : ∀ x, (if newSize < (fs.fat (getFileIndex fs.fat path).toNat).size then
            truncateShrink fs env (fs.fat (getFileIndex fs.fat path).toNat)
              ((toI64 (newSize + 512 - 1)).tdiv 512)
          else truncateGrow fs env (fs.fat (getFileIndex fs.fat path).toNat)
              ((toI64 (newSize + 512 - 1)).tdiv 512)) = .ok x →
          BltOff x.1 ∧ OffBlt x.2.1.startBlock ∧
            ((x.1 = fs.blt ∧ x.2.2 = fs.blockDevice) ∨
              x.2.2 = writeBlt x.1 fs.blockDevice env.heap) := by
        intro x hx
        split at hx
        · exact truncateShrink_off fs env _ _ h.bltOff (h.2.start_off _ hlt) x hx
        · exact truncateGrow_off fs env _ _ h.bltOff (h.2.start_off _ hlt) x hx
      generalize (if newSize < (fs.fat (getFileIndex fs.fat path).toNat).size then
            truncateShrink fs env (fs.fat (getFileIndex fs.fat path).toNat)
              ((toI64 (newSize + 512 - 1)).tdiv 512)
          else truncateGrow fs env (fs.fat (getFileIndex fs.fat path).toNat)
              ((toI64 (newSize + 512 - 1)).tdiv 512)) = branch at hr hb
      split at hr
      · simp at hr
      · rename_i blt e1 dev
        injection hr with hr
        subst hr
        obtain ⟨hb1, hb2, hb3⟩ := hb _ rfl
        dsimp only at hb1 hb2 hb3 ⊢
        rcases hb3 with ⟨hb3, hb4⟩ | hb3
        · subst hb3 hb4
          exact sound_mk _ _ _ _ (start_off_store h.2.start_off _ hb2) hb1 h.1.dev_size
            h.1.blt_current
        · subst hb3
          exact sound_mk_blt _ _ _ _ _ (start_off_store h.2.start_off _ hb2) hb1

theorem fuseRead_sound {fs : FS} (h : Sound fs) (env : Env) (path : List Nat) (buf : Bytes)
    (size : Nat) (offset : Int) (r : Int × Bytes × FS)
    (hr : fuseRead fs env path buf size offset = .ok r) : Sound r.2.2 := by
  unfold fuseRead at hr
  dsimp only at hr
  split at hr
  · injection hr with hr; subst hr; exact h
  · rename_i hidx
    have hlt : (getFileIndex fs.fat path).toNat < 64 := getFileIndex_lt (by omega)
    split at hr
    · simp at hr
    · split at hr
      · simp at hr
      · injection hr with hr; subst hr; exact h
      · injection hr with hr; subst hr
        exact sound_store h _ _ _ (h.2.start_off _ hlt)

theorem fuseWrite_sound {fs : FS} (h : Sound fs) (env : Env) (path : List Nat) (buf : Bytes)
    (size : Nat) (offset : Int) (r : Int × FS)
    (hr : fuseWrite fs env path buf size offset = .ok r) : Sound r.2 := by
  unfold fuseWrite at hr
  dsimp only at hr
  split at hr
  · injection hr with hr; subst hr; exact h
  · rename_i hidx
    have hlt : (getFileIndex fs.fat path).toNat < 64 := getFileIndex_lt (by omega)
    have hg : ∀ fs1, (if toU64 (size + offset) >
            toU64 (fs.fat (getFileIndex fs.fat path).toNat).size then
          match fuseTruncate fs env path (toI64 (toU64 (size + offset))) with
          | .error f => Except.error f
          | .ok r => Except.ok r.2
        else Except.ok fs) = .ok fs1 → Sound fs1 := by
      intro fs1 hx
      split at hx
      · split at hx
        · simp at hx
        · rename_i r1 hr1
          injection hx with hx
          subst hx
          exact fuseTruncate_sound h env path _ r1 hr1
      · injection hx with hx; subst hx; exact h
    generalize (if toU64 (size + offset) >
            toU64 (fs.fat (getFileIndex fs.fat path).toNat).size then
          match fuseTruncate fs env path (toI64 (toU64 (size + offset))) with
          | .error f => Except.error f
          | .ok r => Except.ok r.2
        else Except.ok fs) = grown at hr hg
    split at hr
    · simp at hr
    · rename_i fs1
      have h1 := hg fs1 rfl
      split at hr
      · simp at hr
      · split at hr
        · simp at hr
        · rename_i dev hdev
          injection hr with hr
          subst hr
          obtain ⟨hsz, hfr⟩ := writeLoop_frame _ _ _ _ _ _ _ _ _ _ hdev
          have hch := bltOff_chain h1.bltOff (fs1.fat (getFileIndex fs.fat path).toNat).nrBlocks
            _ (h1.2.start_off _ hlt)
          refine sound_mk _ _ _ _ (start_off_store h1.2.start_off _ (h1.2.start_off _ hlt))
            h1.bltOff (le_trans h1.1.dev_size hsz) ?_
          intro k j hk hj
          have hnot : k + 8 ∉ chainFrom fs1.blt
              (fs1.fat (getFileIndex fs.fat path).toNat).startBlock
              (fs1.fat (getFileIndex fs.fat path).toNat).nrBlocks := by
            intro hmem
            have := hch _ hmem
            unfold OffBlt at this
            omega
          have hd := h1.1.dev_size
          rw [hfr (k + 8) hnot (by omega)]
          exact h1.1.blt_current k j hk hj

theorem step_sound {fs : FS} (h : Sound fs) (env : Env) (op : Op) (r : Int × FS)
    (hr : step fs env op = .ok r) : Sound r.2 := by
  cases op with
  | mknod path mode =>
    simp only [step] at hr; injection hr with hr; subst hr; exact fuseMknod_sound h env path mode
  | unlink path =>
    simp only [step] at hr; injection hr with hr; subst hr; exact fuseUnlink_sound h env path
  | rename path newpath =>
    simp only [step] at hr; injection hr with hr; subst hr
    exact fuseRename_sound h env path newpath
  | getattr path =>
    simp only [step] at hr; injection hr with hr; subst hr
    exact fuseGetattr_sound h env path _
  | chmod path mode =>
    simp only [step] at hr; injection hr with hr; subst hr; exact fuseChmod_sound h env path mode
  | chown path uid gid =>
    simp only [step] at hr; injection hr with hr; subst hr
    exact fuseChown_sound h env path uid gid
  | fopen path =>
    simp only [step] at hr; injection hr with hr; subst hr; exact fuseOpen_sound h env path 0
  | read path size offset =>
    simp only [step] at hr
    split at hr
    · simp at hr
    · rename_i r1 hr1
      injection hr with hr; subst hr
      exact fuseRead_sound h env path _ size offset r1 hr1
  | write path data offset =>
    simp only [step] at hr
    exact fuseWrite_sound h env path _ _ offset r hr
  | truncate path newSize =>
    simp only [step] at hr
    exact fuseTruncate_sound h env path newSize r hr
  | remount =>
    simp only [step] at hr; injection hr with hr; subst hr; exact remount_sound h env

theorem run_sound : ∀ (ops : List (Env × Op)) (fs : FS), Sound fs →
    ∀ r, run fs ops = .ok r → Sound r.2 := by
  intro ops
  induction ops with
  | nil =>
    intro fs h r hr
    simp only [run] at hr
    injection hr with hr; subst hr; exact h
  | cons x rest ih =>
    intro fs h r hr
    obtain ⟨env, op⟩ := x
    simp only [run] at hr
    split at hr
    · simp at hr
    · rename_i r1 fs1 hs
      have h1 : Sound fs1 := step_sound h env op _ hs
      split at hr
      · simp at hr
      · rename_i rs fs2 hrun
        injection hr with hr; subst hr
        exact ih fs1 h1 (rs, fs2) hrun

/-- C7. On-disk tables are always current: after every sequence of host operations
(create, unlink, rename, getattr, chmod, chown, open, read, write, truncate, and
unmounting and loading the volume again) that starts on a freshly formatted volume and in
which every call returns, with a success or an error result, blocks 0..7 of the container
hold the image of the in-memory FAT and blocks 8..263 the image of the in-memory BLT. -/
theorem tables_current (fs0 : FS) (env0 : Env) (ops : List (Env × Op)) (rs : List Int) (s : FS)
    (h : run (fuseInit fs0 env0 none) ops = .ok (rs, s)) : TablesCurrent s :=
  (run_sound ops _ (fuseInit_fresh_sound fs0 env0) _ h).1

theorem tables_current_witness :
    run (fuseInit blankFS sampleEnv none)
        [(sampleEnv, Op.mknod [47, 97] 420), (sampleEnv, Op.unlink [47, 98]),
          (sampleEnv, Op.remount)] =
      .ok ([0, -2, 0],
        fuseInit (fuseMknod (fuseInit blankFS sampleEnv none) sampleEnv [47, 97] 420).2 sampleEnv
          (some (fuseDestroy (fuseMknod (fuseInit blankFS sampleEnv none) sampleEnv [47, 97] 420).2
            sampleEnv).blockDevice)) ∧
    TablesCurrent
      (fuseInit (fuseMknod (fuseInit blankFS sampleEnv none) sampleEnv [47, 97] 420).2 sampleEnv
        (some (fuseDestroy (fuseMknod (fuseInit blankFS sampleEnv none) sampleEnv [47, 97] 420).2
          sampleEnv).blockDevice)) :=
  ⟨by rfl, tables_current blankFS sampleEnv
    [(sampleEnv, Op.mknod [47, 97] 420), (sampleEnv, Op.unlink [47, 98]), (sampleEnv, Op.remount)]
    [0, -2, 0] _ (by rfl)⟩

/-- On a full table the allocation loop, with `freeBlock` still holding the tail of
the chain, changes nothing. -/
theorem growLoop_stale (blt : Nat → Nat) (c : Nat) (hfull : ∀ j, j < 65536 → blt j ≠ BLT_FREE)
    (heof : blt c = BLT_EOF) : ∀ n, growLoop n blt c (some c) = .ok (blt, c, some c) := by
  intro n
  induction n with
  | zero => rfl
  | succ n ih =>
    rw [growLoop, findFreeBlock_full hfull]
    simp only [store_same]
    have : store (store blt c c) c BLT_EOF = blt := by
      funext k
      simp only [store]
      split_ifs with h
      · rw [h, heof]
      · rfl
    rw [this]
    exact ih

theorem growLoop_add : ∀ (m n : Nat) (blt : Nat → Nat) (cur : Nat) (fb : Option Nat)
    (r : (Nat → Nat) × Nat × Option Nat), growLoop m blt cur fb = .ok r →
    growLoop (m + n) blt cur fb = growLoop n r.1 r.2.1 r.2.2 := by
  intro m
  induction m with
  | zero =>
    intro n blt cur fb r h
    rw [growLoop] at h
    injection h with h
    subst h
    rw [Nat.zero_add]
  | succ m ih =>
    intro n blt cur fb r h
    rw [Nat.succ_add, growLoop]
    rw [growLoop] at h
    split at h
    · simp at h
    · rename_i c hc
      simp only [hc]
      exact ih n _ _ _ r h

theorem growLoop_fb : ∀ (n : Nat) (blt : Nat → Nat) (cur : Nat) (fb : Option Nat)
    (r : (Nat → Nat) × Nat × Option Nat), growLoop (n + 1) blt cur fb = .ok r →
    r.2.2 = some r.2.1 := by
  intro n
  induction n with
  | zero =>
    intro blt cur fb r h
    rw [growLoop] at h
    split at h
    · simp at h
    · rw [growLoop] at h
      injection h with h
      subst h
      simp only [store_same]
  | succ n ih =>
    intro blt cur fb r h
    rw [growLoop] at h
    split at h
    · simp at h
    · exact ih _ _ _ r h

theorem ceil_facts_big {n : Nat} (h1 : 65272 * 512 < n) (h2 : n ≤ 1099511627776) :
    (toI64 ((n : Int) + 512 - 1)).tdiv 512 = (((n + 511) / 512 : Nat) : Int) ∧
    65273 ≤ (n + 511) / 512 ∧
    ((((n + 511) / 512 : Nat) : Int) - ((1 : Nat) : Int)).toNat =
      65270 + 1 + ((n + 511) / 512 - 65272) ∧
    ¬ ((((n + 511) / 512 : Nat) : Int) - ((1 : Nat) : Int) > 2147483647) := by
  refine ⟨?_, by omega, by omega, by omega⟩
  rw [toI64_of_range (by omega) (by omega), Int.tdiv_eq_ediv (by omega) (by norm_num)]
  omega

/-- The first truncate of an empty file, on a table of which exactly the blocks from 264
on are FREE, to a size that needs more blocks than the volume has: the call returns 0,
the file gets all 65,272 data blocks, its size is the size asked for and its block count
is the number of blocks asked for, cut to 16 bits. -/
theorem fuseTruncate_overfull (fs : FS) (env : Env) (path : List Nat) (n : Nat)
    (hidx : getFileIndex fs.fat path = 0) (hnr : (fs.fat 0).nrBlocks = 0)
    (hsz : (fs.fat 0).size = 0)
    (hblt : ∀ j, j < 65536 → fs.blt j = if j < 264 then BLT_RSV else BLT_FREE)
    (h1 : 65272 * 512 < n) (h2 : n ≤ 1099511627776) :
    fuseTruncate fs env path (n : Int) = .ok (0,
      { fat := store fs.fat 0 { fs.fat 0 with
            startBlock := 264, nrBlocks := toU16 (((n + 511) / 512 : Nat) : Int), size := n
            modTime := env.systemTime, changeTime := env.systemTime }
        blt := linearChain fs.blt 264 65272
        blockDevice := writeFat (store fs.fat 0 { fs.fat 0 with
            startBlock := 264, nrBlocks := toU16 (((n + 511) / 512 : Nat) : Int), size := n
            modTime := env.systemTime, changeTime := env.systemTime })
          (writeBlt (linearChain fs.blt 264 65272) fs.blockDevice env.heap)
          env.heap }) := by
  obtain ⟨e1, hm1, e3, e4⟩ := ceil_facts_big h1 h2
  have hfirst : findFreeBlock fs.blt (some (fs.fat 0).startBlock) = (0, some 264) :=
    findFreeBlock_first (by omega) (by rw [hblt 264 (by omega)]; rfl)
      (fun j hj => by rw [hblt j (by omega), if_pos hj]; decide) _
  have hwalk : walkToEnd (store fs.blt 264 BLT_EOF) TOTAL_BLT_ENTRIES 264 = .ok 264 := by
    simp [walkToEnd, TOTAL_BLT_ENTRIES, store_same]
  obtain ⟨fb1, hgrow⟩ := growLoop_linear (65270 + 1) 265 (store fs.blt 264 BLT_EOF) none
    (by omega) (by omega)
    (by
      intro j hj
      by_cases h : j = 264
      · subst h; rw [store_same]; decide
      · rw [store_other _ _ h, hblt j (by omega), if_pos (by omega)]; decide)
    (by
      intro j hj1 hj2
      rw [store_other _ _ (by omega), hblt j hj2, if_neg (by omega)])
    (by rw [store_same])
  have hlin : (fun b => if 265 - 1 ≤ b ∧ b < 265 + (65270 + 1) then
        (if b + 1 = 265 + (65270 + 1) then BLT_EOF else b + 1)
        else store fs.blt 264 BLT_EOF b) = linearChain fs.blt 264 65272 := by
    funext b
    simp only [linearChain, store]
    split_ifs <;> first | rfl | omega
  rw [hlin] at hgrow
  have hfb := growLoop_fb _ _ _ _ _ hgrow
  dsimp only at hfb
  rw [hfb] at hgrow
  have hfull : ∀ j, j < 65536 → linearChain fs.blt 264 65272 j ≠ BLT_FREE := by
    intro j hj
    unfold linearChain
    by_cases hj2 : j < 264
    · rw [if_neg (by omega), hblt j hj, if_pos hj2]; decide
    · rw [if_pos (by omega)]
      split
      · decide
      · simp only [BLT_FREE]; omega
  have heof : linearChain fs.blt 264 65272 (265 + (65270 + 1) - 1) = BLT_EOF := by
    unfold linearChain
    rw [if_pos (by omega), if_pos (by omega)]
  have hall := growLoop_add _ ((n + 511) / 512 - 65272) _ _ _ _ hgrow
  dsimp only at hall
  rw [growLoop_stale _ _ hfull heof] at hall
  have hne : ¬ ((n : Int) = 0) := by omega
  have hnlt : ¬ ((n : Int) < 0) := by omega
  have hgt : (((n + 511) / 512 : Nat) : Int) > ((0 : Nat) : Int) := by omega
  unfold fuseTruncate truncateGrow
  simp only [hidx, Int.toNat_zero, hsz, hnr, e1, if_neg hne, if_neg hnlt, if_pos hgt, if_true,
    lt_irrefl, if_false, hfirst, Option.getD_some, hwalk, e3, if_neg e4, hall]

theorem run_cons {fs fs1 s : FS} {env : Env} {op : Op} {r : Int} {rs : List Int}
    {rest : List (Env × Op)} (h1 : step fs env op = .ok (r, fs1))
    (h2 : run fs1 rest = .ok (rs, s)) : run fs ((env, op) :: rest) = .ok (r :: rs, s) := by
  simp only [run, h1, h2]

theorem step_mknod {fs fs1 : FS} {env : Env} {path : List Nat} {mode : Nat} {r : Int}
    (h : fuseMknod fs env path mode = (r, fs1)) : step fs env (Op.mknod path mode) = .ok (r, fs1) := by
  simp only [step, h]

theorem step_truncate {fs : FS} {env : Env} {path : List Nat} {n : Int} {x : Int × FS}
    (h : fuseTruncate fs env path n = .ok x) : step fs env (Op.truncate path n) = .ok x := by
  simp only [step, h]

/-- Creating a file on the freshly formatted volume and truncating it to a size beyond
the capacity of the volume: both calls return 0, and the file owns the linear chain of
all data blocks with the size asked for and the block count cut to 16 bits. -/
theorem create_truncate_overfull (fs0 : FS) (env0 env1 env2 : Env) (path : List Nat) (mode : Nat)
    (n : Nat) (hp : ValidPath path) (h1 : 65272 * 512 < n) (h2 : n ≤ 1099511627776) :
    ∃ s, run (fuseInit fs0 env0 none)
        [(env1, Op.mknod path mode), (env2, Op.truncate path (n : Int))] = .ok ([0, 0], s) ∧
      (∀ i, i < 64 → i ≠ 0 → s.fat i = emptyEntry env0) ∧
      s.fat 0 = { newFileEntry env1 path mode with
        startBlock := 264, nrBlocks := toU16 (((n + 511) / 512 : Nat) : Int), size := n
        modTime := env2.systemTime, changeTime := env2.systemTime } ∧
      (∀ b, b < 65536 → s.blt b = linearChain (fun _ => BLT_RSV) 264 65272 b) := by
  have hmk := fuseMknod_empty (fuseInit fs0 env0 none) env1 path mode
    (fun i hi => formatFat_name fs0.fat env0 hi) hp
  have hname : cstr (newFileEntry env1 path mode).filename = path.drop 1 :=
    nameCopy_cstr _ path (le_trans (by norm_num) hp.2.1) hp.2.2.1 hp.nonzero
  have htr := fuseTruncate_overfull
    { fuseInit fs0 env0 none with
      fat := store (fuseInit fs0 env0 none).fat 0 (newFileEntry env1 path mode)
      blockDevice := writeFat (store (fuseInit fs0 env0 none).fat 0 (newFileEntry env1 path mode))
        (fuseInit fs0 env0 none).blockDevice env1.heap }
    env2 path n
    (getFileIndex_zero _ _ (by simp only [store_same]; exact hname))
    (by simp only [store_same]; rfl) (by simp only [store_same]; rfl)
    (fun j hj => formatBlt_apply fs0.blt hj) h1 h2
  refine ⟨_, run_cons (step_mknod hmk) (run_cons (step_truncate htr) rfl), ?_, ?_, ?_⟩
  · intro i hi hi0
    dsimp only
    rw [store_other _ _ hi0, store_other _ _ hi0, (fuseInit_none fs0 env0).1]
    unfold formatFat
    rw [if_pos (by simpa [TOTAL_FAT_ENTRIES] using hi)]
  · dsimp only
    rw [store_same, store_same]
  · intro b hb
    dsimp only
    unfold linearChain
    split
    · rfl
    · rw [(fuseInit_none fs0 env0).2.1, formatBlt_apply _ hb, if_pos (by omega)]

/-- C8. Chain well-formedness is lost when the volume runs full: on the freshly formatted
volume, creating `/a` and truncating it to 65,273 blocks (one more than the 65,272 data
blocks) returns 0 twice and leaves the file with block count 65,273, although its chain
cannot consist of 65,273 distinct blocks that are neither FREE nor RESERVED. -/
theorem chain_overrun :
    ∃ s, run (fuseInit blankFS sampleEnv none)
        [(sampleEnv, Op.mknod [47, 97] 420), (sampleEnv, Op.truncate [47, 97] 33419776)]
          = .ok ([0, 0], s) ∧
      (s.fat 0).nrBlocks = 65273 ∧
      ¬ ((chainOf s 0).Nodup ∧
          ∀ b ∈ chainOf s 0, b < 65536 ∧ s.blt b ≠ BLT_FREE ∧ s.blt b ≠ BLT_RSV) := by
  obtain ⟨s, hrun, -, h0, hblt⟩ := create_truncate_overfull blankFS sampleEnv sampleEnv sampleEnv
    [47, 97] 420 33419776 ⟨rfl, by decide, by decide, by decide⟩ (by norm_num) (by norm_num)
  have hnr : (s.fat 0).nrBlocks = 65273 := by rw [h0]; decide
  refine ⟨s, hrun, hnr, ?_⟩
  rintro ⟨hnd, hused⟩
  have hlen : (chainOf s 0).length = 65273 := by
    unfold chainOf; rw [chainFrom_length, hnr]
  have := @nodup_length_le (chainOf s 0) 264 65536 hnd (fun b hb => by
    obtain ⟨hlt, -, hrsv⟩ := hused b hb
    refine ⟨?_, hlt⟩
    by_contra hge
    apply hrsv
    rw [hblt b hlt]
    unfold linearChain
    rw [if_neg (by omega)])
  omega

/-- C9. Blocks leak when the block count overflows: on the freshly formatted volume,
creating `/a` and truncating it to 65,536 blocks returns 0 twice; afterwards block 264
belongs to the chain of no FAT slot (the block count of `/a` is 0), yet its BLT value is
265, not FREE. -/
theorem blocks_leak :
    ∃ s, run (fuseInit blankFS sampleEnv none)
        [(sampleEnv, Op.mknod [47, 97] 420), (sampleEnv, Op.truncate [47, 97] 33554432)]
          = .ok ([0, 0], s) ∧
      (∀ i, i < 64 → 264 ∉ chainOf s i) ∧ s.blt 264 = 265 ∧ s.blt 264 ≠ BLT_FREE := by
  obtain ⟨s, hrun, hrest, h0, hblt⟩ := create_truncate_overfull blankFS sampleEnv sampleEnv
    sampleEnv [47, 97] 420 33554432 ⟨rfl, by decide, by decide, by decide⟩ (by norm_num)
    (by norm_num)
  have h264 : s.blt 264 = 265 := by
    rw [hblt 264 (by norm_num)]; decide
  refine ⟨s, hrun, ?_, h264, by rw [h264]; decide⟩
  intro i hi
  have hnr : (s.fat i).nrBlocks = 0 := by
    by_cases hi0 : i = 0
    · subst hi0; rw [h0]; decide
    · rw [hrest i hi hi0]; rfl
  unfold chainOf
  rw [hnr]
  simp [chainFrom]

/-- C11. Size and block count disagree after a truncate beyond 65,535 blocks: on the
freshly formatted volume, creating `/a` and truncating it to 33,554,432 bytes (65,536
blocks) returns 0 twice and leaves the file with that size and block count 0. -/
theorem block_count_wraps :
    ∃ s, run (fuseInit blankFS sampleEnv none)
        [(sampleEnv, Op.mknod [47, 97] 420), (sampleEnv, Op.truncate [47, 97] 33554432)]
          = .ok ([0, 0], s) ∧
      (s.fat 0).size = 33554432 ∧ (s.fat 0).nrBlocks = 0 ∧
      ((s.fat 0).nrBlocks : Int) ≠ ((s.fat 0).size + 511) / 512 := by
  obtain ⟨s, hrun, -, h0, -⟩ := create_truncate_overfull blankFS sampleEnv sampleEnv
    sampleEnv [47, 97] 420 33554432 ⟨rfl, by decide, by decide, by decide⟩ (by norm_num)
    (by norm_num)
  have hsz : (s.fat 0).size = 33554432 := by rw [h0]; rfl
  have hnr : (s.fat 0).nrBlocks = 0 := by rw [h0]; decide
  refine ⟨s, hrun, hsz, hnr, ?_⟩
  rw [hsz, hnr]
  decide

theorem findEmptySlotFrom_some (fat : Nat → fatEntry) :
    ∀ n i k, findEmptySlotFrom fat n i = some k →
      i ≤ k ∧ k < i + n ∧ isEmptyName (fat k).filename = true ∧
        ∀ j, i ≤ j → j < k → isEmptyName (fat j).filename = false := by
  intro n
  induction n with
  | zero => intro i k h; simp [findEmptySlotFrom] at h
  | succ n ih =>
    intro i k h
    rw [findEmptySlotFrom] at h
    split at h
    · rename_i he
      injection h with h
      subst h
      exact ⟨le_refl _, by omega, he, fun j h1 h2 => by omega⟩
    · rename_i he
      obtain ⟨h1, h2, h3, h4⟩ := ih (i + 1) k h
      refine ⟨by omega, by omega, h3, fun j hj1 hj2 => ?_⟩
      by_cases hji : j = i
      · subst hji; simpa using he
      · exact h4 j (by omega) hj2

theorem findEmptySlotFrom_none (fat : Nat → fatEntry) :
    ∀ n i, findEmptySlotFrom fat n i = none →
      ∀ j, i ≤ j → j < i + n → isEmptyName (fat j).filename = false := by
  intro n
  induction n with
  | zero => intro i _ j h1 h2; omega
  | succ n ih =>
    intro i h j h1 h2
    rw [findEmptySlotFrom] at h
    split at h
    · simp at h
    · rename_i he
      by_cases hji : j = i
      · subst hji; simpa using he
      · exact ih (i + 1) h j (by omega) (by omega)

theorem findEmptySlotFrom_full (fat : Nat → fatEntry) :
    ∀ n i, (∀ j, i ≤ j → j < i + n → isEmptyName (fat j).filename = false) →
      findEmptySlotFrom fat n i = none := by
  intro n
  induction n with
  | zero => intro i _; rfl
  | succ n ih =>
    intro i h
    rw [findEmptySlotFrom, if_neg (by rw [h i (le_refl _) (by omega)]; decide)]
    exact ih (i + 1) (fun j h1 h2 => h j (by omega) (by omega))

/-- The slot search finds the lowest slot with an all-zero name. -/
theorem findEmptySlot_lowest (fat : Nat → fatEntry) {k : Nat} (hk : k < 64)
    (he : isEmptyName (fat k).filename = true)
    (hlow : ∀ j, j < k → isEmptyName (fat j).filename = false) :
    findEmptySlotFrom fat 64 0 = some k := by
  cases h : findEmptySlotFrom fat 64 0 with
  | none =>
    have := findEmptySlotFrom_none fat 64 0 h k (Nat.zero_le _) (by omega)
    rw [he] at this
    exact absurd this (by decide)
  | some m =>
    obtain ⟨_, h2, h3, h4⟩ := findEmptySlotFrom_some fat 64 0 m h
    congr 1
    by_contra hne
    rcases Nat.lt_or_gt_of_ne hne with hlt | hgt
    · have := hlow m hlt
      rw [h3] at this
      exact absurd this (by decide)
    · have := h4 k (Nat.zero_le _) hgt
      rw [he] at this
      exact absurd this (by decide)

theorem getFileIndexFrom_first (fat : Nat → fatEntry) (name : List Nat) :
    ∀ n i k, i ≤ k → k < i + n → cstr (fat k).filename = name →
      (∀ j, i ≤ j → j < k → cstr (fat j).filename ≠ name) →
      getFileIndexFrom fat name n i = (k : Int) := by
  intro n
  induction n with
  | zero => intro i k h1 h2; omega
  | succ n ih =>
    intro i k h1 h2 hk hlow
    rw [getFileIndexFrom]
    by_cases hik : i = k
    · subst hik; rw [if_pos hk]
    · rw [if_neg (hlow i (le_refl _) (by omega))]
      exact ih (i + 1) k (by omega) (by omega) hk (fun j hj1 hj2 => hlow j (by omega) hj2)

theorem getFileIndex_first (fat : Nat → fatEntry) (path : List Nat) {k : Nat} (hk : k < 64)
    (hname : cstr (fat k).filename = path.drop 1)
    (hlow : ∀ j, j < k → cstr (fat j).filename ≠ path.drop 1) :
    getFileIndex fat path = (k : Int) := by
  unfold getFileIndex
  exact getFileIndexFrom_first fat _ 64 0 k (Nat.zero_le _) (by omega) hname
    (fun j _ hj => hlow j hj)

/-- A failed lookup means that no slot holds the name. -/
theorem getFileIndex_neg (fat : Nat → fatEntry) (path : List Nat)
    (h : getFileIndex fat path < 0) : ∀ j, j < 64 → cstr (fat j).filename ≠ path.drop 1 := by
  intro j hj hname
  have hex : ∃ k, k ≤ j ∧ cstr (fat k).filename = path.drop 1 ∧
      ∀ m, m < k → cstr (fat m).filename ≠ path.drop 1 := by
    classical
    have hP : ∃ k, cstr (fat k).filename = path.drop 1 := ⟨j, hname⟩
    refine ⟨Nat.find hP, Nat.find_min' hP hname, Nat.find_spec hP, fun m hm => Nat.find_min hP hm⟩
  obtain ⟨k, hkj, hk, hlow⟩ := hex
  have := getFileIndex_first fat path (lt_of_le_of_lt hkj hj) hk hlow
  omega

theorem getFileIndex_found (fat : Nat → fatEntry) (path : List Nat) {j : Nat} (hj : j < 64)
    (hname : cstr (fat j).filename = path.drop 1) : 0 ≤ getFileIndex fat path := by
  by_contra h
  exact getFileIndex_neg fat path (by omega) j hj hname

theorem getFileIndex_missing (fat : Nat → fatEntry) (path : List Nat)
    (h : ∀ j, j < 64 → cstr (fat j).filename ≠ path.drop 1) :
    getFileIndex fat path = -ENOENT := by
  unfold getFileIndex
  exact getFileIndexFrom_none fat _ 64 0 (fun j _ hj => h j (by omega))

theorem cstr_of_empty {a : List Nat} (h : isEmptyName a = true) : cstr a = [] := by
  unfold isEmptyName at h
  unfold cstr
  cases a with
  | nil => rfl
  | cons x xs =>
    simp only [List.all_cons, Bool.and_eq_true, beq_iff_eq] at h
    rw [List.takeWhile_cons_of_neg (by simp [h.1])]

theorem not_empty_of_cstr {a : List Nat} (h : cstr a ≠ []) : isEmptyName a = false := by
  cases he : isEmptyName a with
  | false => rfl
  | true => exact absurd (cstr_of_empty he) h

/-- The name field `fuseMknod` builds: the characters after the slash, then zero bytes. -/
theorem nameCopy_zeros (path : List Nat) (h1 : 1 ≤ path.length) (h32 : path.length ≤ 32) :
    nameCopy (List.replicate MAX_NAME_LENGTH 0) path =
      path.drop 1 ++ List.replicate (33 - path.length) 0 := by
  apply List.ext_get?
  intro k
  unfold nameCopy
  rw [readArr_get?]
  simp only [memcpy, Nat.zero_add, Nat.sub_zero, Nat.zero_le, true_and, MAX_NAME_LENGTH]
  rw [List.get?_eq_getElem?]
  by_cases hk : k < 32
  · rw [if_pos hk]
    by_cases hk1 : k + 1 < path.length
    · rw [if_pos (by omega), List.getElem?_append_left (by rw [List.length_drop]; omega),
        List.getElem?_drop]
      have hlt : 1 + k < (path ++ [0]).length := by simp; omega
      rw [arrBytes_get? (List.get?_eq_get hlt), List.getElem?_eq_getElem (by omega)]
      congr 1
      simp only [List.get_eq_getElem]
      rw [List.getElem_append_left]
    · have hr : (List.drop 1 path ++ List.replicate (33 - path.length) 0)[k]? = some 0 := by
        rw [List.getElem?_append_right (by rw [List.length_drop]; omega),
          List.getElem?_replicate, if_pos (by rw [List.length_drop]; omega)]
      rw [hr]
      congr 1
      by_cases hk2 : k < path.length
      · rw [if_pos hk2]
        apply arrBytes_get?
        have e : 1 + k = path.length := by omega
        rw [e, List.get?_eq_getElem?, List.getElem?_append_right (le_refl _)]
        simp
      · rw [if_neg hk2]
        unfold arrBytes
        rw [List.getD_eq_getElem?_getD, List.getElem?_replicate, if_pos hk]
        rfl
  · rw [if_neg hk, List.getElem?_eq_none]
    rw [List.length_append, List.length_drop, List.length_replicate]
    omega

theorem lowest_empty (fat : Nat → fatEntry)
    (h : ∃ i, i < 64 ∧ isEmptyName (fat i).filename = true) :
    ∃ k, k < 64 ∧ isEmptyName (fat k).filename = true ∧
      (∀ j, j < k → isEmptyName (fat j).filename = false) ∧
      findEmptySlotFrom fat 64 0 = some k := by
  obtain ⟨i, hi, he⟩ := h
  cases hf : findEmptySlotFrom fat 64 0 with
  | none =>
    have := findEmptySlotFrom_none fat 64 0 hf i (Nat.zero_le _) (by omega)
    rw [he] at this
    exact absurd this (by decide)
  | some k =>
    obtain ⟨_, h2, h3, h4⟩ := findEmptySlotFrom_some fat 64 0 k hf
    exact ⟨k, by omega, h3, fun j hj => h4 j (Nat.zero_le _) hj, rfl⟩

/-- `fuseMknod` when the lookup fails, slot `k` is the lowest empty one and the path is
short enough. -/
theorem fuseMknod_at (fs : FS) (env : Env) (path : List Nat) (mode : Nat) {k : Nat}
    (hnone : getFileIndex fs.fat path < 0)
    (hslot : findEmptySlotFrom fs.fat 64 0 = some k) (hlen : path.length ≤ 32) :
    fuseMknod fs env path mode =
      (0, { fs with fat := store fs.fat k (newFileEntry env path mode)
                    blockDevice := writeFat (store fs.fat k (newFileEntry env path mode))
                      fs.blockDevice env.heap }) := by
  have hl : ¬ toI32 (path.length : Int) > (MAX_NAME_LENGTH : Int) := by
    rw [toI32_of_range (by omega) (by omega)]
    simp only [MAX_NAME_LENGTH]
    omega
  unfold fuseMknod
  rw [if_neg (by omega), hslot]
  simp only [if_neg hl]

theorem fuseMknod_nospace (fs : FS) (env : Env) (path : List Nat) (mode : Nat)
    (hnone : getFileIndex fs.fat path < 0)
    (hfull : ∀ i, i < 64 → isEmptyName (fs.fat i).filename = false) :
    fuseMknod fs env path mode = (-ENOSPC, fs) := by
  have hslot := findEmptySlotFrom_full fs.fat 64 0 (fun j _ hj => hfull j (by omega))
  unfold fuseMknod
  rw [if_neg (by omega), hslot]

/-- The path of a failed lookup on a table with an empty slot has a non-empty name. -/
theorem name_ne_nil_of_missing {fat : Nat → fatEntry} {path : List Nat}
    (hnone : getFileIndex fat path < 0)
    (h : ∃ i, i < 64 ∧ isEmptyName (fat i).filename = true) : 2 ≤ path.length := by
  obtain ⟨i, hi, he⟩ := h
  have := getFileIndex_neg fat path hnone i hi
  rw [cstr_of_empty he] at this
  by_contra hlt
  apply this
  rw [eq_comm, List.drop_eq_nil_iff]
  omega

/-- The state `fuseMknod` leaves when it succeeds in slot `k`. -/
theorem fuseMknod_post (fs : FS) (env : Env) (path : List Nat) (mode : Nat) {k : Nat}
    (hnone : getFileIndex fs.fat path < 0) (hk : k < 64)
    (hslot : findEmptySlotFrom fs.fat 64 0 = some k) (h2 : 2 ≤ path.length)
    (hlen : path.length ≤ 32) (hnz : ∀ c ∈ path, c ≠ 0) :
    (fuseMknod fs env path mode).1 = 0 ∧
    (fuseMknod fs env path mode).2.fat k = newFileEntry env path mode ∧
    (∀ j, j ≠ k → (fuseMknod fs env path mode).2.fat j = fs.fat j) ∧
    (fuseMknod fs env path mode).2.blt = fs.blt ∧
    getFileIndex (fuseMknod fs env path mode).2.fat path = k ∧
    cstr ((fuseMknod fs env path mode).2.fat k).filename = path.drop 1 := by
  have hname : cstr (newFileEntry env path mode).filename = path.drop 1 :=
    nameCopy_cstr _ path (by omega) hlen hnz
  rw [fuseMknod_at fs env path mode hnone hslot hlen]
  dsimp only
  refine ⟨rfl, store_same _ _ _, fun j hj => store_other _ _ hj, rfl, ?_, ?_⟩
  · apply getFileIndex_first _ _ hk
    · rw [store_same]; exact hname
    · intro j hj
      rw [store_other _ _ (by omega)]
      exact getFileIndex_neg fs.fat path hnone j (by omega)
  · rw [store_same]; exact hname

theorem newFileEntry_eq (env : Env) (path : List Nat) (mode : Nat) (h1 : 1 ≤ path.length)
    (h32 : path.length ≤ 32) :
    newFileEntry env path mode =
      { filename := path.drop 1 ++ List.replicate (33 - path.length) 0
        uid := env.uid, groupId := env.gid, mode := mode
        accessTime := env.systemTime, modTime := env.systemTime, changeTime := env.systemTime
        startBlock := 0, nrBlocks := 0, size := 0 } := by
  unfold newFileEntry
  rw [nameCopy_zeros path h1 h32]

/-- C13. Create success: in every state in which the lookup of the path fails, the path
is at most `MAX_NAME_LENGTH` characters long and some FAT slot has an all-zero name,
`fuseMknod` returns 0 and fills the lowest empty slot `k` with the name (the characters
after the slash, padded with zero bytes), the caller's uid and gid, the mode, the three
timestamps of the call, start block, block count and size 0; every other FAT slot and
the BLT are unchanged, and `getFileIndex` of the path is then `k`. -/
theorem fuseMknod_create (fs : FS) (env : Env) (path : List Nat) (mode : Nat)
    (hnone : getFileIndex fs.fat path < 0) (hlen : path.length ≤ MAX_NAME_LENGTH)
    (hnz : ∀ c ∈ path, c ≠ 0)
    (hslot : ∃ i, i < 64 ∧ isEmptyName (fs.fat i).filename = true) :
    ∃ k, k < 64 ∧ isEmptyName (fs.fat k).filename = true ∧
      (∀ j, j < k → isEmptyName (fs.fat j).filename = false) ∧
      (fuseMknod fs env path mode).1 = 0 ∧
      (fuseMknod fs env path mode).2.fat k =
        { filename := path.drop 1 ++ List.replicate (33 - path.length) 0
          uid := env.uid, groupId := env.gid, mode := mode
          accessTime := env.systemTime, modTime := env.systemTime, changeTime := env.systemTime
          startBlock := 0, nrBlocks := 0, size := 0 } ∧
      (∀ j, j ≠ k → (fuseMknod fs env path mode).2.fat j = fs.fat j) ∧
      (fuseMknod fs env path mode).2.blt = fs.blt ∧
      getFileIndex (fuseMknod fs env path mode).2.fat path = k := by
  have h2 := name_ne_nil_of_missing hnone hslot
  obtain ⟨k, hk, he, hlow, hfind⟩ := lowest_empty fs.fat hslot
  obtain ⟨p1, p2, p3, p4, p5, -⟩ := fuseMknod_post fs env path mode hnone hk hfind h2 hlen hnz
  refine ⟨k, hk, he, hlow, p1, ?_, p3, p4, p5⟩
  rw [p2]
  exact newFileEntry_eq env path mode (by omega) hlen

theorem fuseMknod_create_witness :
    getFileIndex sampleVolume.fat [47, 98] < 0 ∧ [47, 98].length ≤ MAX_NAME_LENGTH ∧
    (∀ c ∈ [47, 98], c ≠ 0) ∧ (∃ i, i < 64 ∧ isEmptyName (sampleVolume.fat i).filename = true) ∧
    ∃ k, k < 64 ∧ isEmptyName (sampleVolume.fat k).filename = true ∧
      (∀ j, j < k → isEmptyName (sampleVolume.fat j).filename = false) ∧
      (fuseMknod sampleVolume sampleEnv [47, 98] 420).1 = 0 ∧
      (fuseMknod sampleVolume sampleEnv [47, 98] 420).2.fat k =
        { filename := [47, 98].drop 1 ++ List.replicate (33 - [47, 98].length) 0
          uid := sampleEnv.uid, groupId := sampleEnv.gid, mode := 420
          accessTime := sampleEnv.systemTime, modTime := sampleEnv.systemTime
          changeTime := sampleEnv.systemTime
          startBlock := 0, nrBlocks := 0, size := 0 } ∧
      (∀ j, j ≠ k → (fuseMknod sampleVolume sampleEnv [47, 98] 420).2.fat j = sampleVolume.fat j) ∧
      (fuseMknod sampleVolume sampleEnv [47, 98] 420).2.blt = sampleVolume.blt ∧
      getFileIndex (fuseMknod sampleVolume sampleEnv [47, 98] 420).2.fat [47, 98] = k :=
  have h1 : getFileIndex sampleVolume.fat [47, 98] < 0 := by decide!
  have h2 : ∀ c ∈ [47, 98], c ≠ 0 := by decide
  have h3 : ∃ i, i < 64 ∧ isEmptyName (sampleVolume.fat i).filename = true :=
    ⟨1, by decide, by decide!⟩
  ⟨h1, by decide, h2, h3, fuseMknod_create sampleVolume sampleEnv [47, 98] 420 h1 (by decide) h2 h3⟩

theorem run_append : ∀ (a b : List (Env × Op)) (fs s s2 : FS) (rs rs2 : List Int),
    run fs a = .ok (rs, s) → run s b = .ok (rs2, s2) → run fs (a ++ b) = .ok (rs ++ rs2, s2) := by
  intro a
  induction a with
  | nil =>
    intro b fs s s2 rs rs2 h1 h2
    simp only [run] at h1
    injection h1 with h1
    injection h1 with h3 h4
    subst h3 h4
    simpa using h2
  | cons x rest ih =>
    intro b fs s s2 rs rs2 h1 h2
    obtain ⟨env, op⟩ := x
    simp only [run] at h1
    split at h1
    · simp at h1
    · rename_i r fs1 hstep
      split at h1
      · simp at h1
      · rename_i rs1 fs2 hrun
        injection h1 with h1
        injection h1 with h3 h4
        subst h3 h4
        rw [List.cons_append, List.cons_append]
        exact run_cons hstep (ih b fs1 fs2 s2 rs1 rs2 hrun h2)

theorem ValidPath.eq_cons {p : List Nat} (hp : ValidPath p) : p = 47 :: p.drop 1 := by
  obtain ⟨h1, _, _, _⟩ := hp
  cases p with
  | nil => simp at h1
  | cons x xs =>
    simp only [List.head?_cons, Option.some.injEq] at h1
    subst h1
    rfl

/-- Creating files with fresh, pairwise distinct names fills the empty slots from the
lowest one up. -/
theorem mknod_fill : ∀ (calls : List (Env × List Nat × Nat)) (k : Nat) (fs : FS),
    k + calls.length ≤ 64 →
    (∀ i, k ≤ i → i < 64 → isEmptyName (fs.fat i).filename = true) →
    (∀ i, i < k → isEmptyName (fs.fat i).filename = false) →
    (∀ c ∈ calls, ValidPath c.2.1 ∧ ∀ i, i < k → cstr (fs.fat i).filename ≠ c.2.1.drop 1) →
    (calls.map (fun c => c.2.1.drop 1)).Nodup →
    ∃ s, run fs (calls.map (fun c => (c.1, Op.mknod c.2.1 c.2.2)))
        = .ok (List.replicate calls.length 0, s) ∧
      (∀ i, i < k → s.fat i = fs.fat i) ∧
      (∀ i, k + calls.length ≤ i → s.fat i = fs.fat i) ∧
      (∀ j c, calls.get? j = some c →
        cstr (s.fat (k + j)).filename = c.2.1.drop 1 ∧
        ∀ i, i < k + j → cstr (s.fat i).filename ≠ c.2.1.drop 1) := by
  intro calls
  induction calls with
  | nil =>
    intro k fs _ _ _ _ _
    exact ⟨fs, rfl, fun _ _ => rfl, fun _ _ => rfl, fun j c h => by simp at h⟩
  | cons c rest ih =>
    intro k fs hk hempty hused hcalls hnd
    obtain ⟨hp, hother⟩ := hcalls c (List.mem_cons_self _ _)
    have hlen : (c :: rest).length = rest.length + 1 := List.length_cons _ _
    have hk64 : k < 64 := by omega
    have hnone : getFileIndex fs.fat c.2.1 < 0 := by
      rw [getFileIndex_missing]
      · decide
      · intro j hj
        by_cases hjk : j < k
        · exact hother j hjk
        · rw [cstr_of_empty (hempty j (by omega) hj)]
          exact fun h => hp.name_ne_nil h.symm
    have hfind := findEmptySlot_lowest fs.fat hk64 (hempty k (le_refl _) hk64) hused
    have hmk := fuseMknod_at fs c.1 c.2.1 c.2.2 hnone hfind hp.2.2.1
    have hname : cstr (newFileEntry c.1 c.2.1 c.2.2).filename = c.2.1.drop 1 :=
      nameCopy_cstr _ _ (le_trans (by norm_num) hp.2.1) hp.2.2.1 hp.nonzero
    rw [List.map_cons, List.nodup_cons] at hnd
    obtain ⟨s, hrun, hlow, hhigh, hnames⟩ := ih (k + 1)
      { fs with fat := store fs.fat k (newFileEntry c.1 c.2.1 c.2.2)
                blockDevice := writeFat (store fs.fat k (newFileEntry c.1 c.2.1 c.2.2))
                  fs.blockDevice c.1.heap }
      (by omega)
      (by
        intro i hi1 hi2
        dsimp only
        rw [store_other _ _ (by omega)]
        exact hempty i (by omega) hi2)
      (by
        intro i hi
        dsimp only
        by_cases hik : i = k
        · subst hik
          rw [store_same]
          exact not_empty_of_cstr (by rw [hname]; exact hp.name_ne_nil)
        · rw [store_other _ _ hik]
          exact hused i (by omega))
      (by
        intro c1 hc1
        refine ⟨(hcalls c1 (List.mem_cons_of_mem _ hc1)).1, ?_⟩
        intro i hi
        dsimp only
        by_cases hik : i = k
        · subst hik
          rw [store_same, hname]
          intro heq
          exact hnd.1 (heq ▸ List.mem_map_of_mem (fun c => c.2.1.drop 1) hc1)
        · rw [store_other _ _ hik]
          exact (hcalls c1 (List.mem_cons_of_mem _ hc1)).2 i (by omega))
      hnd.2
    refine ⟨s, ?_, ?_, ?_, ?_⟩
    · rw [List.map_cons, hlen, List.replicate_succ]
      exact run_cons (step_mknod hmk) hrun
    · intro i hi
      rw [hlow i (by omega)]
      dsimp only
      rw [store_other _ _ (by omega)]
    · intro i hi
      rw [hhigh i (by omega)]
      dsimp only
      rw [store_other _ _ (by omega)]
    · intro j c1 hj
      cases j with
      | zero =>
        simp only [List.get?_cons_zero, Option.some.injEq] at hj
        subst hj
        rw [Nat.add_zero, hlow k (by omega)]
        dsimp only
        rw [store_same]
        refine ⟨hname, ?_⟩
        intro i hi
        rw [hlow i (by omega)]
        dsimp only
        rw [store_other _ _ (by omega)]
        exact hother i hi
      | succ j =>
        simp only [List.get?_cons_succ] at hj
        have := hnames j c1 hj
        have e : k + (j + 1) = k + 1 + j := by omega
        rw [e]
        exact this

/-- C17. Capacity: on the freshly formatted volume, for every list of 65 creates with
pairwise distinct valid paths (names of 1 to 31 bytes), the first 64 `fuseMknod` calls
each return 0, the file of the `i`-th call (counted from 0) sitting in slot `i`, and the
65th returns `-ENOSPC` and leaves the volume as the 64th left it. -/
theorem capacity (fs0 : FS) (env0 : Env) (calls : List (Env × List Nat × Nat))
    (hlen : calls.length = 65) (hvalid : ∀ c ∈ calls, ValidPath c.2.1)
    (hdist : (calls.map (fun c => c.2.1)).Nodup) :
    ∃ s, run (fuseInit fs0 env0 none)
          ((calls.take 64).map (fun c => (c.1, Op.mknod c.2.1 c.2.2)))
        = .ok (List.replicate 64 0, s) ∧
      run (fuseInit fs0 env0 none) (calls.map (fun c => (c.1, Op.mknod c.2.1 c.2.2)))
        = .ok (List.replicate 64 0 ++ [-ENOSPC], s) ∧
      ∀ i c, i < 64 → calls.get? i = some c → getFileIndex s.fat c.2.1 = (i : Int) := by
  have hnames : (calls.map (fun c => c.2.1.drop 1)).Nodup := by
    have : calls.map (fun c => c.2.1.drop 1) = (calls.map (fun c => c.2.1)).map (List.drop 1) := by
      rw [List.map_map]; rfl
    rw [this]
    apply List.Nodup.map_on _ hdist
    intro p hp q hq hpq
    obtain ⟨c1, hc1, rfl⟩ := List.mem_map.mp hp
    obtain ⟨c2, hc2, rfl⟩ := List.mem_map.mp hq
    rw [(hvalid c1 hc1).eq_cons, (hvalid c2 hc2).eq_cons, hpq]
  have htd : calls.take 64 ++ calls.drop 64 = calls := List.take_append_drop 64 calls
  have hlt : (calls.take 64).length = 64 := by rw [List.length_take, hlen]; rfl
  have hld : (calls.drop 64).length = 1 := by rw [List.length_drop, hlen]
  obtain ⟨last, hlast⟩ : ∃ last, calls.drop 64 = [last] := by
    match h : calls.drop 64, hld with
    | [x], _ => exact ⟨x, rfl⟩
  rw [hlast] at htd
  rw [← htd, List.map_append, List.nodup_append] at hnames
  obtain ⟨hn1, -, hdisj⟩ := hnames
  obtain ⟨s, hrun, -, -, hslots⟩ := mknod_fill (calls.take 64) 0 (fuseInit fs0 env0 none)
    (by omega)
    (by
      intro i _ hi
      rw [(fuseInit_none fs0 env0).1, formatFat_name fs0.fat env0 hi]
      decide)
    (fun i hi => absurd hi (Nat.not_lt_zero _))
    (fun c hc => ⟨hvalid c (List.mem_of_mem_take hc), fun i hi => absurd hi (Nat.not_lt_zero _)⟩)
    hn1
  rw [hlt] at hrun
  have hslot : ∀ j, j < 64 → ∃ c, (calls.take 64).get? j = some c ∧
      cstr (s.fat j).filename = c.2.1.drop 1 ∧
      ∀ i, i < j → cstr (s.fat i).filename ≠ c.2.1.drop 1 := by
    intro j hj
    have hjl : j < (calls.take 64).length := by omega
    have h := hslots j _ (List.get?_eq_get hjl)
    rw [Nat.zero_add] at h
    exact ⟨_, List.get?_eq_get hjl, h⟩
  have hlv : ValidPath last.2.1 := hvalid last (by rw [← htd]; simp)
  have hnone : getFileIndex s.fat last.2.1 < 0 := by
    rw [getFileIndex_missing]
    · decide
    · intro j hj
      obtain ⟨c, hc, hname, -⟩ := hslot j hj
      rw [hname]
      intro heq
      exact hdisj (List.mem_map_of_mem (fun c => c.2.1.drop 1) (List.get?_mem hc))
        (by simp [heq])
  have hfull : ∀ i, i < 64 → isEmptyName (s.fat i).filename = false := by
    intro i hi
    obtain ⟨c, hc, hname, -⟩ := hslot i hi
    apply not_empty_of_cstr
    rw [hname]
    exact (hvalid c (List.mem_of_mem_take (List.get?_mem hc))).name_ne_nil
  have hmk := fuseMknod_nospace s last.1 last.2.1 last.2.2 hnone hfull
  refine ⟨s, hrun, ?_, ?_⟩
  · rw [← htd, List.map_append]
    exact run_append _ _ _ _ _ _ _ hrun (run_cons (step_mknod hmk) rfl)
  · intro i c hi hc
    obtain ⟨c1, hc1, hname, hlow⟩ := hslot i hi
    have : (calls.take 64).get? i = some c := by
      rw [List.get?_eq_getElem?, List.getElem?_take_of_lt hi, ← List.get?_eq_getElem?]; exact hc
    rw [this] at hc1
    injection hc1 with hc1
    subst hc1
    exact getFileIndex_first s.fat _ hi hname hlow

theorem capacity_witness :
    ((List.range 65).map (fun i => (sampleEnv, [47, 48 + i], 420))).length = 65 ∧
    (∀ c ∈ (List.range 65).map (fun i => (sampleEnv, [47, 48 + i], 420)), ValidPath c.2.1) ∧
    (((List.range 65).map (fun i => (sampleEnv, [47, 48 + i], 420))).map
      (fun c => c.2.1)).Nodup ∧
    ∃ s, run (fuseInit blankFS sampleEnv none)
          ((((List.range 65).map (fun i => (sampleEnv, [47, 48 + i], 420))).take 64).map
            (fun c => (c.1, Op.mknod c.2.1 c.2.2)))
        = .ok (List.replicate 64 0, s) ∧
      run (fuseInit blankFS sampleEnv none)
          (((List.range 65).map (fun i => (sampleEnv, [47, 48 + i], 420))).map
            (fun c => (c.1, Op.mknod c.2.1 c.2.2)))
        = .ok (List.replicate 64 0 ++ [-ENOSPC], s) ∧
      ∀ i c, i < 64 →
        ((List.range 65).map (fun i => (sampleEnv, [47, 48 + i], 420))).get? i = some c →
        getFileIndex s.fat c.2.1 = (i : Int) :=
  have h1 : ((List.range 65).map (fun i => (sampleEnv, [47, 48 + i], 420))).length = 65 := by
    simp
  have h2 : ∀ c ∈ (List.range 65).map (fun i => (sampleEnv, [47, 48 + i], 420)),
      ValidPath c.2.1 := by
    intro c hc
    obtain ⟨i, hi, rfl⟩ := List.mem_map.mp hc
    rw [List.mem_range] at hi
    refine ⟨rfl, by simp, by simp, ?_⟩
    intro x hx
    simp only [List.mem_cons, List.mem_singleton, List.not_mem_nil, or_false] at hx
    rcases hx with rfl | rfl <;> omega
  have h3 : (((List.range 65).map (fun i => (sampleEnv, [47, 48 + i], 420))).map
      (fun c => c.2.1)).Nodup := by
    rw [List.map_map]
    apply List.Nodup.map_on _ (List.nodup_range 65)
    intro a _ b _ hab
    simp only [Function.comp, List.cons.injEq, and_true, true_and] at hab
    omega
  ⟨h1, h2, h3, capacity blankFS sampleEnv _ h1 h2 h3⟩

/-- The first truncate of an empty file to one byte on a table with no FREE entry:
`findFreeBlock` fails, the start block keeps its value 0 and entry 0 of the table is
marked as the end of the chain. -/
theorem fuseTruncate_full (fs : FS) (env : Env) (path : List Nat) (i : Nat)
    (hidx : getFileIndex fs.fat path = (i : Int)) (hnr : (fs.fat i).nrBlocks = 0)
    (hsz : (fs.fat i).size = 0) (hst : (fs.fat i).startBlock = 0)
    (hfull : ∀ j, j < 65536 → fs.blt j ≠ BLT_FREE) :
    fuseTruncate fs env path 1 = .ok (0,
      { fat := store fs.fat i { fs.fat i with
            startBlock := 0, nrBlocks := 1, size := 1
            modTime := env.systemTime, changeTime := env.systemTime }
        blt := store fs.blt 0 BLT_EOF
        blockDevice := writeFat (store fs.fat i { fs.fat i with
            startBlock := 0, nrBlocks := 1, size := 1
            modTime := env.systemTime, changeTime := env.systemTime })
          (writeBlt (store fs.blt 0 BLT_EOF) fs.blockDevice env.heap) env.heap }) := by
  have hfirst : findFreeBlock fs.blt (some 0) = (-ENOSPC, some 0) := findFreeBlock_full hfull _
  have hwalk : walkToEnd (store fs.blt 0 BLT_EOF) TOTAL_BLT_ENTRIES 0 = .ok 0 := by
    simp [walkToEnd, TOTAL_BLT_ENTRIES, store_same]
  have e1 : (toI64 ((1 : Int) + 512 - 1)).tdiv 512 = 1 := by decide
  have e2 : toU16 1 = 1 := by decide
  have hneg : ¬ ((i : Int) < 0) := by omega
  unfold fuseTruncate truncateGrow
  simp only [hidx, Int.toNat_ofNat, hsz, hnr, hst, e1, e2, if_neg hneg, hfirst, Option.getD_some,
    hwalk, growLoop]
  rfl

theorem fuseMknod_at_ex (fs : FS) (env : Env) (path : List Nat) (mode : Nat) {k : Nat}
    (hnone : getFileIndex fs.fat path < 0)
    (hslot : findEmptySlotFrom fs.fat 64 0 = some k) (hlen : path.length ≤ 32) :
    ∃ s, fuseMknod fs env path mode = (0, s) ∧
      s.fat = store fs.fat k (newFileEntry env path mode) ∧ s.blt = fs.blt :=
  ⟨_, fuseMknod_at fs env path mode hnone hslot hlen, rfl, rfl⟩

theorem fuseTruncate_first_ex (fs : FS) (env : Env) (path : List Nat) (n : Nat)
    (hidx : getFileIndex fs.fat path = 0) (hnr : (fs.fat 0).nrBlocks = 0)
    (hsz : (fs.fat 0).size = 0)
    (hblt : ∀ j, j < 65536 → fs.blt j = if j < 264 then BLT_RSV else BLT_FREE)
    (hn : 1 ≤ n) (hfit : n ≤ 65272 * 512) :
    ∃ s, fuseTruncate fs env path (n : Int) = .ok (0, s) ∧
      s.fat = store fs.fat 0 { fs.fat 0 with
            startBlock := 264, nrBlocks := (n + 511) / 512, size := n
            modTime := env.systemTime, changeTime := env.systemTime } ∧
      s.blt = linearChain fs.blt 264 ((n + 511) / 512) :=
  ⟨_, fuseTruncate_first fs env path n hidx hnr hsz hblt hn hfit, rfl, rfl⟩

theorem fuseTruncate_full_ex (fs : FS) (env : Env) (path : List Nat) (i : Nat)
    (hidx : getFileIndex fs.fat path = (i : Int)) (hnr : (fs.fat i).nrBlocks = 0)
    (hsz : (fs.fat i).size = 0) (hst : (fs.fat i).startBlock = 0)
    (hfull : ∀ j, j < 65536 → fs.blt j ≠ BLT_FREE) :
    ∃ s, fuseTruncate fs env path 1 = .ok (0, s) ∧
      s.fat = store fs.fat i { fs.fat i with
            startBlock := 0, nrBlocks := 1, size := 1
            modTime := env.systemTime, changeTime := env.systemTime } ∧
      s.blt = store fs.blt 0 BLT_EOF :=
  ⟨_, fuseTruncate_full fs env path i hidx hnr hsz hst hfull, rfl, rfl⟩

/-- C10. The reserved region is not preserved when the volume is full: on the freshly
formatted volume, creating `/a` and `/b`, truncating `/a` to all 65,272 data blocks and
then truncating `/b` to one byte returns 0 four times; `/b` gets start block 0 and
`BLT[0]` is `BLT_EOF`, no longer RESERVED. -/
theorem reserved_overwritten :
    ∃ s, run (fuseInit blankFS sampleEnv none)
        [(sampleEnv, Op.mknod [47, 97] 420), (sampleEnv, Op.mknod [47, 98] 420),
          (sampleEnv, Op.truncate [47, 97] 33419264), (sampleEnv, Op.truncate [47, 98] 1)]
          = .ok ([0, 0, 0, 0], s) ∧
      s.blt 0 = BLT_EOF ∧ s.blt 0 ≠ BLT_RSV ∧ (s.fat 1).startBlock = 0 ∧
      (s.fat 1).nrBlocks = 1 := by
  have hna : cstr (newFileEntry sampleEnv [47, 97] 420).filename = [97] := by decide
  have hnb : cstr (newFileEntry sampleEnv [47, 98] 420).filename = [98] := by decide
  have hfat0 : ∀ j, j < 64 →
      ((fuseInit blankFS sampleEnv none).fat j).filename = List.replicate 32 0 :=
    fun j hj => formatFat_name blankFS.fat sampleEnv hj
  have hblt0 : ∀ j, j < 65536 → (fuseInit blankFS sampleEnv none).blt j =
      if j < 264 then BLT_RSV else BLT_FREE := fun j hj => formatBlt_apply blankFS.blt hj
  obtain ⟨s1, h1, f1, b1⟩ := fuseMknod_at_ex (fuseInit blankFS sampleEnv none) sampleEnv
    [47, 97] 420 (k := 0)
    (by
      rw [getFileIndex_missing]
      · decide
      · intro j hj
        rw [hfat0 j hj]
        decide)
    (by
      apply findEmptySlot_lowest _ (by decide)
      · rw [hfat0 0 (by decide)]; decide
      · intro j hj; omega)
    (by decide)
  obtain ⟨s2, h2, f2, b2⟩ := fuseMknod_at_ex s1 sampleEnv [47, 98] 420 (k := 1)
    (by
      rw [getFileIndex_missing]
      · decide
      · intro j hj
        rw [f1]
        by_cases hj0 : j = 0
        · subst hj0; rw [store_same, hna]; decide
        · rw [store_other _ _ hj0, hfat0 j hj]
          decide)
    (by
      apply findEmptySlot_lowest _ (by decide)
      · rw [f1, store_other _ _ (by decide), hfat0 1 (by decide)]
        decide
      · intro j hj
        have hj0 : j = 0 := by omega
        subst hj0
        rw [f1, store_same]
        decide)
    (by decide)
  obtain ⟨s3, h3, f3, b3⟩ := fuseTruncate_first_ex s2 sampleEnv [47, 97] 33419264
    (getFileIndex_zero _ _ (by rw [f2, store_other _ _ (by decide), f1, store_same]; exact hna))
    (by rw [f2, store_other _ _ (by decide), f1, store_same]; rfl)
    (by rw [f2, store_other _ _ (by decide), f1, store_same]; rfl)
    (fun j hj => by rw [b2, b1]; exact hblt0 j hj) (by norm_num)
    (by norm_num)
  obtain ⟨s4, h4, f4, b4⟩ := fuseTruncate_full_ex s3 sampleEnv [47, 98] 1
    (by
      apply getFileIndex_first _ _ (by decide)
      · rw [f3, store_other _ _ (by decide), f2, store_same]; exact hnb
      · intro j hj
        have hj0 : j = 0 := by omega
        subst hj0
        rw [f3, store_same]
        dsimp only
        rw [f2, store_other _ _ (by decide), f1, store_same, hna]
        decide)
    (by rw [f3, store_other _ _ (by decide), f2, store_same]; rfl)
    (by rw [f3, store_other _ _ (by decide), f2, store_same]; rfl)
    (by rw [f3, store_other _ _ (by decide), f2, store_same]; rfl)
    (by
      intro j hj
      rw [b3, b2, b1]
      unfold linearChain
      have e : (33419264 + 511) / 512 = 65272 := by norm_num
      rw [e]
      by_cases hj2 : j < 264
      · rw [if_neg (by omega), hblt0 j hj, if_pos hj2]; decide
      · rw [if_pos (by omega)]
        split
        · decide
        · simp only [BLT_FREE]; omega)
  refine ⟨s4, run_cons (step_mknod h1) (run_cons (step_mknod h2)
    (run_cons (step_truncate h3) (run_cons (step_truncate h4) rfl))), ?_, ?_, ?_, ?_⟩
  · rw [b4, store_same]
  · rw [b4, store_same]; decide
  · rw [f4, store_same]
  · rw [f4, store_same]

theorem namesUnique_store {fat : Nat → fatEntry} (h : NamesUnique fat) (k : Nat) (e : fatEntry)
    (hnew : cstr e.filename ≠ [] → ∀ j, j < 64 → j ≠ k → cstr (fat j).filename ≠ cstr e.filename) :
    NamesUnique (store fat k e) := by
  intro i j hi hj hne heq
  by_cases hik : i = k
  · by_cases hjk : j = k
    · rw [hik, hjk]
    · subst hik
      rw [store_same] at hne heq
      rw [store_other _ _ hjk] at heq
      exact absurd heq.symm (hnew hne j hj hjk)
  · rw [store_other _ _ hik] at hne heq
    by_cases hjk : j = k
    · subst hjk
      rw [store_same] at heq
      exact absurd heq (hnew (heq ▸ hne) i hi hik)
    · rw [store_other _ _ hjk] at heq
      exact h i j hi hj hne heq

theorem CPath.length_pos {p : List Nat} (h : CPath p) : 1 ≤ p.length := by
  obtain ⟨h1, _, _⟩ := h
  cases p with
  | nil => simp at h1
  | cons x xs => simp

theorem fuseMknod_names {fs : FS} (h : NamesUnique fs.fat) (env : Env) (path : List Nat)
    (mode : Nat) (hp : CPath path) : NamesUnique (fuseMknod fs env path mode).2.fat := by
  unfold fuseMknod
  split
  · exact h
  · rename_i hidx
    split
    · exact h
    · split
      · exact h
      · rename_i hlen
        have hl : path.length ≤ 32 := by
          have := hp.2.2
          rw [toI32_of_range (by omega) (by omega)] at hlen
          simp only [MAX_NAME_LENGTH] at hlen
          omega
        have hname : cstr (newFileEntry env path mode).filename = path.drop 1 :=
          nameCopy_cstr _ path hp.length_pos hl hp.2.1
        apply namesUnique_store h
        intro _ j hj _
        rw [hname]
        exact getFileIndex_neg fs.fat path (by omega) j hj

theorem fuseUnlink_fat (fs : FS) (env : Env) (path : List Nat) :
    (fuseUnlink fs env path).2.fat =
      if getFileIndex fs.fat path < 0 then fs.fat
      else store fs.fat (getFileIndex fs.fat path).toNat (emptyEntry env) := by
  unfold fuseUnlink
  dsimp only
  split
  · rfl
  · split <;> rfl

theorem cstr_emptyEntry (env : Env) : cstr (emptyEntry env).filename = [] := by
  show cstr (List.replicate MAX_NAME_LENGTH 0) = []
  decide

theorem fuseUnlink_names {fs : FS} (h : NamesUnique fs.fat) (env : Env) (path : List Nat) :
    NamesUnique (fuseUnlink fs env path).2.fat := by
  rw [fuseUnlink_fat]
  split
  · exact h
  · apply namesUnique_store h
    intro hne
    exact absurd (cstr_emptyEntry env) hne

/-- After the replaced file is unlinked no slot holds the new name. -/
theorem rename_target_free {fs : FS} (h : NamesUnique fs.fat) (env : Env) (newpath : List Nat)
    (hne : newpath.drop 1 ≠ []) :
    ∀ j, j < 64 →
      cstr ((if getFileIndex fs.fat newpath ≥ 0 then (fuseUnlink fs env newpath).2
        else fs).fat j).filename ≠ newpath.drop 1 := by
  intro j hj
  split
  · rename_i hge
    rw [fuseUnlink_fat, if_neg (by omega)]
    obtain hr | ⟨-, hlt, hname⟩ := getFileIndex_range fs.fat newpath
    · rw [hr] at hge; exact absurd hge (by decide)
    · by_cases hjk : j = (getFileIndex fs.fat newpath).toNat
      · rw [hjk, store_same, cstr_emptyEntry]
        exact fun h => hne h.symm
      · rw [store_other _ _ hjk]
        intro hj2
        apply hjk
        apply h j _ hj (getFileIndex_lt hge) (by rw [hj2]; exact hne)
        rw [hj2, hname]
  · rename_i hlt
    exact getFileIndex_neg fs.fat newpath (by omega) j hj

theorem fuseRename_names {fs : FS} (h : NamesUnique fs.fat) (env : Env) (path newpath : List Nat)
    (hq : CPath newpath) : NamesUnique (fuseRename fs env path newpath).2.fat := by
  have h1 : NamesUnique (if getFileIndex fs.fat newpath ≥ 0 then (fuseUnlink fs env newpath).2
      else fs).fat := by
    split
    · exact fuseUnlink_names h env newpath
    · exact h
  have h2 := rename_target_free h env newpath
  unfold fuseRename
  dsimp only
  split
  · exact h
  · generalize (if getFileIndex fs.fat newpath ≥ 0 then (fuseUnlink fs env newpath).2
        else fs) = fs1 at h1 h2
    split
    · exact h1
    · rename_i hlen
      have hl : newpath.length ≤ 32 := by
        have := hq.2.2
        rw [toI32_of_range (by omega) (by omega)] at hlen
        simp only [MAX_NAME_LENGTH] at hlen
        omega
      apply namesUnique_store h1
      dsimp only
      rw [nameCopy_cstr _ newpath hq.length_pos hl hq.2.1]
      intro hne j hj _
      exact h2 hne j hj

theorem step_names {fs : FS} (h : NamesUnique fs.fat) (env : Env) (op : Op) (hop : NameOp op) :
    ∃ r s, step fs env op = .ok (r, s) ∧ NamesUnique s.fat := by
  cases op with
  | mknod path mode => exact ⟨_, _, rfl, fuseMknod_names h env path mode hop⟩
  | unlink path => exact ⟨_, _, rfl, fuseUnlink_names h env path⟩
  | rename path newpath => exact ⟨_, _, rfl, fuseRename_names h env path newpath hop.2⟩
  | getattr path => exact absurd hop id
  | chmod path mode => exact absurd hop id
  | chown path uid gid => exact absurd hop id
  | fopen path => exact absurd hop id
  | read path size offset => exact absurd hop id
  | write path data offset => exact absurd hop id
  | truncate path newSize => exact absurd hop id
  | remount => exact absurd hop id

theorem run_names : ∀ (ops : List (Env × Op)) (fs : FS), NamesUnique fs.fat →
    (∀ x ∈ ops, NameOp x.2) → ∃ rs s, run fs ops = .ok (rs, s) ∧ NamesUnique s.fat := by
  intro ops
  induction ops with
  | nil => intro fs h _; exact ⟨[], fs, rfl, h⟩
  | cons x rest ih =>
    intro fs h hops
    obtain ⟨env, op⟩ := x
    obtain ⟨r, s1, hs, h1⟩ := step_names h env op (hops (env, op) (List.mem_cons_self _ _))
    obtain ⟨rs, s, hr, h2⟩ := ih s1 h1 (fun y hy => hops y (List.mem_cons_of_mem _ hy))
    exact ⟨r :: rs, s, run_cons hs hr, h2⟩

/-- Uniqueness of the names `strcmp` reads: every finite sequence of create, unlink and
rename calls (paths being C strings that begin with a slash) on the freshly formatted
volume runs to its end, and afterwards no two FAT slots hold the same name of at least
one character, the name being the bytes of the field before its first zero byte.  A
field that begins with a zero byte and is not all-zero is not covered
(`renames_to_root_collide`). -/
theorem names_unique (fs0 : FS) (env0 : Env) (ops : List (Env × Op))
    (hops : ∀ x ∈ ops, NameOp x.2) :
    ∃ rs s, run (fuseInit fs0 env0 none) ops = .ok (rs, s) ∧ NamesUnique s.fat := by
  apply run_names ops _ _ hops
  intro i j hi hj hne
  rw [(fuseInit_none fs0 env0).1] at hne
  unfold formatFat at hne
  rw [if_pos (by simpa [TOTAL_FAT_ENTRIES] using hi)] at hne
  exact absurd (cstr_emptyEntry env0) hne

theorem names_unique_witness :
    (∀ x ∈ [(sampleEnv, Op.mknod [47, 97] 420), (sampleEnv, Op.mknod [47, 98] 420),
        (sampleEnv, Op.rename [47, 97] [47, 98]), (sampleEnv, Op.unlink [47, 98])],
      NameOp x.2) ∧
    ∃ rs s, run (fuseInit blankFS sampleEnv none)
        [(sampleEnv, Op.mknod [47, 97] 420), (sampleEnv, Op.mknod [47, 98] 420),
          (sampleEnv, Op.rename [47, 97] [47, 98]), (sampleEnv, Op.unlink [47, 98])]
        = .ok (rs, s) ∧ NamesUnique s.fat :=
  have h : ∀ x ∈ [(sampleEnv, Op.mknod [47, 97] 420), (sampleEnv, Op.mknod [47, 98] 420),
        (sampleEnv, Op.rename [47, 97] [47, 98]), (sampleEnv, Op.unlink [47, 98])],
      NameOp x.2 := by
    intro x hx
    simp only [List.mem_cons, List.mem_singleton, List.not_mem_nil, or_false] at hx
    rcases hx with rfl | rfl | rfl | rfl <;> simp [NameOp, CPath]
  ⟨h, names_unique blankFS sampleEnv _ h⟩

/-- C20. Rename onto itself destroys the file: on the sample volume (which satisfies
the invariants, `/a` holding 5 bytes in block 264) `fuseRename("/a", "/a")` returns 0
and the lookup of `/a` still gives slot 0, but the size and block count of the slot are
then 0 and block 264 is FREE: the file was unlinked as the file to replace. -/
theorem rename_self_loses_content :
    getFileIndex sampleVolume.fat [47, 97] = 0 ∧ (sampleVolume.fat 0).size = 5 ∧
    (sampleVolume.fat 0).nrBlocks = 1 ∧ (sampleVolume.fat 0).startBlock = 264 ∧
    toI32 ([47, 97].length : Int) ≤ MAX_NAME_LENGTH ∧
    (fuseRename sampleVolume sampleEnv [47, 97] [47, 97]).1 = 0 ∧
    getFileIndex (fuseRename sampleVolume sampleEnv [47, 97] [47, 97]).2.fat [47, 97] = 0 ∧
    ((fuseRename sampleVolume sampleEnv [47, 97] [47, 97]).2.fat 0).size = 0 ∧
    ((fuseRename sampleVolume sampleEnv [47, 97] [47, 97]).2.fat 0).nrBlocks = 0 ∧
    ((fuseRename sampleVolume sampleEnv [47, 97] [47, 97]).2.fat 0).startBlock = 0 ∧
    (fuseRename sampleVolume sampleEnv [47, 97] [47, 97]).2.blt 264 = BLT_FREE := by
  decide!

/-- C26. First-fit allocation: for every BLT, if some entry is FREE then `findFreeBlock`
reports success (0) with the smallest index whose entry is FREE, which is at least 264
when the entries 0..263 are RESERVED; it returns `-ENOSPC` exactly when no entry is FREE,
and then leaves its argument as it was. -/
theorem first_fit (blt : Nat → Nat) (freeBlock : Option Nat) :
    ((∃ b, b < 65536 ∧ blt b = BLT_FREE) →
      ∃ a, findFreeBlock blt freeBlock = (0, some a) ∧ a < 65536 ∧ blt a = BLT_FREE ∧
        (∀ j, j < a → blt j ≠ BLT_FREE) ∧ ((∀ b, b < 264 → blt b = BLT_RSV) → 264 ≤ a)) ∧
    ((findFreeBlock blt freeBlock).1 = -ENOSPC ↔ ∀ b, b < 65536 → blt b ≠ BLT_FREE) ∧
    ((∀ b, b < 65536 → blt b ≠ BLT_FREE) → findFreeBlock blt freeBlock = (-ENOSPC, freeBlock)) := by
  refine ⟨?_, ⟨?_, ?_⟩, fun hfull => findFreeBlock_full hfull freeBlock⟩
  · rintro ⟨b, hb, hf⟩
    obtain ⟨a, h1, h2, h3, h4⟩ := findFreeBlock_of_free hb hf freeBlock
    refine ⟨a, h1, h2, h3, h4, fun hrsv => ?_⟩
    by_contra hlt
    have := hrsv a (by omega)
    rw [h3] at this
    exact absurd this (by decide)
  · intro h b hb hf
    obtain ⟨a, h1, -⟩ := findFreeBlock_of_free hb hf freeBlock
    rw [h1] at h
    exact absurd h (show ¬ ((0 : Int) = -ENOSPC) by decide)
  · intro hfull
    rw [findFreeBlock_full hfull freeBlock]

/-- C27. Format: when `fuseInit` finds no container and creates one, afterwards every
FAT slot has an all-zero name and mode, times, start block, block count and size 0,
`BLT[b]` is RESERVED for `b` in 0..263 and FREE for `b` in 264..65535, so that the first
allocation returns block 264, and the container holds the images of both tables in its
blocks 0..263. -/
theorem format_fresh (fs0 : FS) (env : Env) (freeBlock : Option Nat) :
    (∀ i, i < 64 →
      isEmptyName ((fuseInit fs0 env none).fat i).filename = true ∧
      ((fuseInit fs0 env none).fat i).mode = 0 ∧
      ((fuseInit fs0 env none).fat i).accessTime = 0 ∧
      ((fuseInit fs0 env none).fat i).modTime = 0 ∧
      ((fuseInit fs0 env none).fat i).changeTime = 0 ∧
      ((fuseInit fs0 env none).fat i).startBlock = 0 ∧
      ((fuseInit fs0 env none).fat i).nrBlocks = 0 ∧
      ((fuseInit fs0 env none).fat i).size = 0) ∧
    (∀ b, b < 264 → (fuseInit fs0 env none).blt b = BLT_RSV) ∧
    (∀ b, 264 ≤ b → b < 65536 → (fuseInit fs0 env none).blt b = BLT_FREE) ∧
    findFreeBlock (fuseInit fs0 env none).blt freeBlock = (0, some 264) ∧
    TablesCurrent (fuseInit fs0 env none) := by
  obtain ⟨e1, e2, -⟩ := fuseInit_none fs0 env
  have hb : ∀ b, b < 65536 → (fuseInit fs0 env none).blt b =
      if b < 264 then BLT_RSV else BLT_FREE := fun b hb => by
    rw [e2]; exact formatBlt_apply fs0.blt hb
  refine ⟨?_, ?_, ?_, ?_, (fuseInit_fresh_sound fs0 env).1⟩
  · intro i hi
    have : (fuseInit fs0 env none).fat i = emptyEntry env := by
      rw [e1]; unfold formatFat; rw [if_pos (by simpa [TOTAL_FAT_ENTRIES] using hi)]
    rw [this]
    exact ⟨(by decide : isEmptyName (List.replicate MAX_NAME_LENGTH 0) = true), rfl, rfl, rfl, rfl,
      rfl, rfl, rfl⟩
  · intro b hlt
    rw [hb b (by omega), if_pos hlt]
  · intro b hge hlt
    rw [hb b hlt, if_neg (by omega)]
  · apply findFreeBlock_first (by norm_num)
    · rw [hb 264 (by norm_num)]; rfl
    · intro j hj
      rw [hb j (by omega), if_pos hj]
      decide

/-- C29. FAT on-disk layout: `writeFat` stores entry `k` in block `k div 8` at byte
offset `64 * (k mod 8)`: the 32 filename bytes at +0, uid at +32, gid at +36, mode at
+40, access, modification and change time at +44, +48 and +52 (4 bytes little-endian
each), start block at +56 and block count at +58 (2 bytes little-endian each) and the
low 4 bytes of the size at +60. -/
theorem fat_layout (fat : Nat → fatEntry) (dev : BlockDevice) (buffer : Bytes) (k : Nat)
    (hk : k < 64) :
    (∀ t, t < 32 → (writeFat fat dev buffer).data (k / 8) (64 * (k % 8) + t)
      = arrBytes (fat k).filename t) ∧
    (∀ t, t < 4 → (writeFat fat dev buffer).data (k / 8) (64 * (k % 8) + (32 + t))
      = leBytes (fat k).uid t) ∧
    (∀ t, t < 4 → (writeFat fat dev buffer).data (k / 8) (64 * (k % 8) + (36 + t))
      = leBytes (fat k).groupId t) ∧
    (∀ t, t < 4 → (writeFat fat dev buffer).data (k / 8) (64 * (k % 8) + (40 + t))
      = leBytes (fat k).mode t) ∧
    (∀ t, t < 4 → (writeFat fat dev buffer).data (k / 8) (64 * (k % 8) + (44 + t))
      = leBytes (toU32 (fat k).accessTime) t) ∧
    (∀ t, t < 4 → (writeFat fat dev buffer).data (k / 8) (64 * (k % 8) + (48 + t))
      = leBytes (toU32 (fat k).modTime) t) ∧
    (∀ t, t < 4 → (writeFat fat dev buffer).data (k / 8) (64 * (k % 8) + (52 + t))
      = leBytes (toU32 (fat k).changeTime) t) ∧
    (∀ t, t < 2 → (writeFat fat dev buffer).data (k / 8) (64 * (k % 8) + (56 + t))
      = leBytes (fat k).startBlock t) ∧
    (∀ t, t < 2 → (writeFat fat dev buffer).data (k / 8) (64 * (k % 8) + (58 + t))
      = leBytes (fat k).nrBlocks t) ∧
    (∀ t, t < 4 → (writeFat fat dev buffer).data (k / 8) (64 * (k % 8) + (60 + t))
      = leBytes (toU64 (fat k).size) t) := by
  have hbyte : ∀ t, t < 64 → (writeFat fat dev buffer).data (k / 8) (64 * (k % 8) + t)
      = fatEntryByte (fat k) t := by
    intro t ht
    obtain ⟨h1, h2, h3⟩ := image_index k t ht
    rw [writeFat_data fat dev buffer (by omega) h3]
    unfold fatImage
    rw [h1, h2]
  refine ⟨?_, ?_, ?_, ?_, ?_, ?_, ?_, ?_, ?_, ?_⟩
  · intro t ht; rw [hbyte t (by omega)]; exact fatEntryByte_name _ ht
  · intro t ht; rw [hbyte _ (by omega)]; exact (fatEntryByte_field (fat k)).1 ht
  · intro t ht; rw [hbyte _ (by omega)]; exact (fatEntryByte_field (fat k)).2.1 ht
  · intro t ht; rw [hbyte _ (by omega)]; exact (fatEntryByte_field (fat k)).2.2.1 ht
  · intro t ht; rw [hbyte _ (by omega)]; exact (fatEntryByte_field (fat k)).2.2.2.1 ht
  · intro t ht; rw [hbyte _ (by omega)]; exact (fatEntryByte_field (fat k)).2.2.2.2.1 ht
  · intro t ht; rw [hbyte _ (by omega)]; exact (fatEntryByte_field (fat k)).2.2.2.2.2.1 ht
  · intro t ht; rw [hbyte _ (by omega)]; exact (fatEntryByte_field (fat k)).2.2.2.2.2.2.1 ht
  · intro t ht; rw [hbyte _ (by omega)]; exact (fatEntryByte_field (fat k)).2.2.2.2.2.2.2.1 ht
  · intro t ht; rw [hbyte _ (by omega)]; exact (fatEntryByte_field (fat k)).2.2.2.2.2.2.2.2 ht

theorem fat_layout_witness :
    9 < 64 ∧
    ((∀ t, t < 32 → (writeFat sampleVolume.fat BlockDevice.create sampleEnv.heap).data (9 / 8) (64 * (9 % 8) + t)
      = arrBytes (sampleVolume.fat 9).filename t) ∧
    (∀ t, t < 4 → (writeFat sampleVolume.fat BlockDevice.create sampleEnv.heap).data (9 / 8) (64 * (9 % 8) + (32 + t))
      = leBytes (sampleVolume.fat 9).uid t) ∧
    (∀ t, t < 4 → (writeFat sampleVolume.fat BlockDevice.create sampleEnv.heap).data (9 / 8) (64 * (9 % 8) + (36 + t))
      = leBytes (sampleVolume.fat 9).groupId t) ∧
    (∀ t, t < 4 → (writeFat sampleVolume.fat BlockDevice.create sampleEnv.heap).data (9 / 8) (64 * (9 % 8) + (40 + t))
      = leBytes (sampleVolume.fat 9).mode t) ∧
    (∀ t, t < 4 → (writeFat sampleVolume.fat BlockDevice.create sampleEnv.heap).data (9 / 8) (64 * (9 % 8) + (44 + t))
      = leBytes (toU32 (sampleVolume.fat 9).accessTime) t) ∧
    (∀ t, t < 4 → (writeFat sampleVolume.fat BlockDevice.create sampleEnv.heap).data (9 / 8) (64 * (9 % 8) + (48 + t))
      = leBytes (toU32 (sampleVolume.fat 9).modTime) t) ∧
    (∀ t, t < 4 → (writeFat sampleVolume.fat BlockDevice.create sampleEnv.heap).data (9 / 8) (64 * (9 % 8) + (52 + t))
      = leBytes (toU32 (sampleVolume.fat 9).changeTime) t) ∧
    (∀ t, t < 2 → (writeFat sampleVolume.fat BlockDevice.create sampleEnv.heap).data (9 / 8) (64 * (9 % 8) + (56 + t))
      = leBytes (sampleVolume.fat 9).startBlock t) ∧
    (∀ t, t < 2 → (writeFat sampleVolume.fat BlockDevice.create sampleEnv.heap).data (9 / 8) (64 * (9 % 8) + (58 + t))
      = leBytes (sampleVolume.fat 9).nrBlocks t) ∧
    (∀ t, t < 4 → (writeFat sampleVolume.fat BlockDevice.create sampleEnv.heap).data (9 / 8) (64 * (9 % 8) + (60 + t))
      = leBytes (toU64 (sampleVolume.fat 9).size) t)) :=
  ⟨by decide, fat_layout sampleVolume.fat BlockDevice.create sampleEnv.heap 9 (by decide)⟩

theorem writeRange_size (img : Nat → Bytes → Bytes) (g : Nat → Nat)
    (hg : ∀ a b, a ≤ b → g a ≤ g b) : ∀ (n : Nat) (st : BlockDevice × Bytes),
      ((List.range (n + 1)).foldl (fun (st : BlockDevice × Bytes) k =>
          (st.1.write (g k) (img k st.2), img k st.2)) st).1.size = max st.1.size (g n + 1) := by
  intro n
  induction n with
  | zero => intro st; rfl
  | succ n ih =>
    intro st
    rw [List.range_succ, List.foldl_append, List.foldl_cons, List.foldl_nil]
    show max _ (g (n + 1) + 1) = _
    rw [ih st]
    have := hg n (n + 1) (Nat.le_succ n)
    omega

theorem writeFat_size_eq (fat : Nat → fatEntry) (dev : BlockDevice) (buffer : Bytes) :
    (writeFat fat dev buffer).size = max dev.size 8 := by
  have h := writeRange_size (fatBlock fat) (fun k => k) (fun a b h => h) 7 (dev, buffer)
  have e : FAT_BLOCKS = 7 + 1 := rfl
  rw [writeFat_eq, e, h]

theorem writeBlt_size_eq (blt : Nat → Nat) (dev : BlockDevice) (buffer : Bytes) :
    (writeBlt blt dev buffer).size = max dev.size 264 := by
  have h := writeRange_size (bltBlock blt) (fun k => k + FAT_BLOCKS)
    (fun a b h => Nat.add_le_add_right h _) 255 (dev, buffer)
  have e : BLT_BLOCKS = 255 + 1 := rfl
  rw [writeBlt_eq, e, h]
  simp only [FAT_BLOCKS]

/-- C30. BLT on-disk layout: `writeBlt` stores `BLT[b]`, for every `b` in 0..65535, as a
16-bit little-endian value at byte offset `2 * (b mod 256)` of block `8 + b div 256`; it
writes the blocks 8..263 and no other: every other block of the container keeps its
content and the container ends where it ended, or after block 263 if it was shorter. -/
theorem blt_layout (blt : Nat → Nat) (dev : BlockDevice) (buffer : Bytes) :
    (∀ b t, b < 65536 → t < 2 →
      (writeBlt blt dev buffer).data (8 + b / 256) (2 * (b % 256) + t) = leBytes (blt b) t) ∧
    (∀ c, c < 8 ∨ 264 ≤ c → c < dev.size → (writeBlt blt dev buffer).data c = dev.data c) ∧
    (writeBlt blt dev buffer).size = max dev.size 264 := by
  refine ⟨?_, fun c hc hlt => writeBlt_frame blt dev buffer hc hlt, writeBlt_size_eq blt dev buffer⟩
  intro b t hb ht
  obtain ⟨h1, h2, h3⟩ := blt_index b t ht
  rw [Nat.add_comm 8, writeBlt_data blt dev buffer (by omega) h3]
  unfold bltImage
  rw [h1, h2]

theorem leValue4_eq (buf : Bytes) (p : Nat) :
    leValue buf p 4 = buf p % 256 + 256 * (buf (p + 1) % 256 + 256 * (buf (p + 1 + 1) % 256
      + 256 * (buf (p + 1 + 1 + 1) % 256 + 256 * 0))) := rfl

theorem leValue2_eq (buf : Bytes) (p : Nat) :
    leValue buf p 2 = buf p % 256 + 256 * (buf (p + 1) % 256 + 256 * 0) := rfl

theorem le4_digits (a b c d : Nat) (ha : a < 256) (hb : b < 256) (hc : c < 256) (hd : d < 256) :
    (a + 256 * (b + 256 * (c + 256 * (d + 256 * 0)))) % 256 = a ∧
    (a + 256 * (b + 256 * (c + 256 * (d + 256 * 0)))) / 256 % 256 = b ∧
    (a + 256 * (b + 256 * (c + 256 * (d + 256 * 0)))) / 65536 % 256 = c ∧
    (a + 256 * (b + 256 * (c + 256 * (d + 256 * 0)))) / 16777216 % 256 = d ∧
    a + 256 * (b + 256 * (c + 256 * (d + 256 * 0))) < 4294967296 := by
  omega

theorem leBytes_leValue4 (buf : Bytes) (p : Nat) (h : ∀ t, t < 4 → buf (p + t) < 256) {t : Nat}
    (ht : t < 4) : leBytes (leValue buf p 4) t = buf (p + t) ∧ leValue buf p 4 < 4294967296 := by
  have h0 := h 0 (by omega)
  have h1 := h 1 (by omega)
  have h2 := h 2 (by omega)
  have h3 := h 3 (by omega)
  rw [Nat.add_zero] at h0
  rw [leValue4_eq, Nat.mod_eq_of_lt h0, Nat.mod_eq_of_lt h1, Nat.mod_eq_of_lt h2,
    Nat.mod_eq_of_lt h3]
  obtain ⟨d0, d1, d2, d3, d4⟩ := le4_digits _ _ _ _ h0 h1 h2 h3
  refine ⟨?_, d4⟩
  unfold leBytes
  interval_cases t
  · rw [pow_zero, Nat.div_one, Nat.add_zero]; exact d0
  · rw [pow_one]; exact d1
  · exact d2
  · exact d3

theorem leBytes_leValue2 (buf : Bytes) (p : Nat) (h : ∀ t, t < 2 → buf (p + t) < 256) {t : Nat}
    (ht : t < 2) : leBytes (leValue buf p 2) t = buf (p + t) ∧ leValue buf p 2 < 65536 := by
  have h0 := h 0 (by omega)
  have h1 := h 1 (by omega)
  rw [Nat.add_zero] at h0
  rw [leValue2_eq, Nat.mod_eq_of_lt h0, Nat.mod_eq_of_lt h1]
  refine ⟨?_, by omega⟩
  unfold leBytes
  interval_cases t
  · simp only [pow_zero, Nat.div_one, Nat.add_zero]; omega
  · simp only [pow_one]; omega

theorem toU64_nat32 (v : Nat) (h : v < 4294967296) : toU64 (v : Int) = v := by
  unfold toU64; omega

/-- Encoding the entry decoded from 64 bytes gives those bytes back. -/
theorem fatEntryByte_decode (buf : Bytes) (ptr : Nat)
    (h : ∀ t, 32 ≤ t → t < 64 → buf (ptr + t) < 256) {t : Nat} (ht : t < 64) :
    fatEntryByte (getFatEntry buf ptr) t = buf (ptr + t) := by
  have h4 : ∀ off, 32 ≤ off → off + 4 ≤ 64 → ∀ s, s < 4 →
      leBytes (leValue buf (ptr + off) 4) s = buf (ptr + (off + s)) ∧
      leValue buf (ptr + off) 4 < 4294967296 := by
    intro off h1 h2 s hs
    have := leBytes_leValue4 buf (ptr + off)
      (fun u hu => by rw [Nat.add_assoc]; exact h (off + u) (by omega) (by omega)) hs
    rw [Nat.add_assoc] at this
    exact this
  have h2 : ∀ off, 32 ≤ off → off + 2 ≤ 64 → ∀ s, s < 2 →
      leBytes (leValue buf (ptr + off) 2) s = buf (ptr + (off + s)) := by
    intro off h1 h2 s hs
    have := (leBytes_leValue2 buf (ptr + off)
      (fun u hu => by rw [Nat.add_assoc]; exact h (off + u) (by omega) (by omega)) hs).1
    rw [Nat.add_assoc] at this
    exact this
  unfold fatEntryByte getFatEntry
  dsimp only
  by_cases c32 : t < 32
  · rw [if_pos c32]
    exact arrBytes_readArr _ _ _ (by simpa [MAX_NAME_LENGTH] using c32)
  rw [if_neg c32]
  by_cases c36 : t < 36
  · rw [if_pos c36, (h4 32 (by omega) (by omega) (t - 32) (by omega)).1]
    congr 2; omega
  rw [if_neg c36]
  by_cases c40 : t < 40
  · rw [if_pos c40, (h4 36 (by omega) (by omega) (t - 36) (by omega)).1]
    congr 2; omega
  rw [if_neg c40]
  by_cases c44 : t < 44
  · rw [if_pos c44, (h4 40 (by omega) (by omega) (t - 40) (by omega)).1]
    congr 2; omega
  rw [if_neg c44]
  by_cases c48 : t < 48
  · rw [if_pos c48, toU32_toI32_nat,
      Nat.mod_eq_of_lt (h4 44 (by omega) (by omega) 0 (by omega)).2,
      (h4 44 (by omega) (by omega) (t - 44) (by omega)).1]
    congr 2; omega
  rw [if_neg c48]
  by_cases c52 : t < 52
  · rw [if_pos c52, toU32_toI32_nat,
      Nat.mod_eq_of_lt (h4 48 (by omega) (by omega) 0 (by omega)).2,
      (h4 48 (by omega) (by omega) (t - 48) (by omega)).1]
    congr 2; omega
  rw [if_neg c52]
  by_cases c56 : t < 56
  · rw [if_pos c56, toU32_toI32_nat,
      Nat.mod_eq_of_lt (h4 52 (by omega) (by omega) 0 (by omega)).2,
      (h4 52 (by omega) (by omega) (t - 52) (by omega)).1]
    congr 2; omega
  rw [if_neg c56]
  by_cases c58 : t < 58
  · rw [if_pos c58, h2 56 (by omega) (by omega) (t - 56) (by omega)]
    congr 2; omega
  rw [if_neg c58]
  by_cases c60 : t < 60
  · rw [if_pos c60, h2 58 (by omega) (by omega) (t - 58) (by omega)]
    congr 2; omega
  rw [if_neg c60, toU64_nat32 _ (h4 60 (by omega) (by omega) 0 (by omega)).2,
    (h4 60 (by omega) (by omega) (t - 60) (by omega)).1]
  congr 2; omega

/-- The image of the table loaded from a FAT region is that region. -/
theorem fatImage_load (fat0 : Nat → fatEntry) (dev : BlockDevice) (buffer : Bytes)
    (hdev : 8 ≤ dev.size) (hbyte : ∀ k j, k < 8 → j < 512 → dev.data k j < 256)
    {k j : Nat} (hk : k < 8) (hj : j < 512) :
    fatImage (readFat fat0 dev buffer) k j = dev.data k j := by
  obtain ⟨h1, h2, h3, h4, h5⟩ := image_index2 k j hk hj
  unfold fatImage
  rw [readFat_apply _ _ _ hdev, if_pos h1, h2, h3,
    fatEntryByte_decode _ _ (fun t _ ht => hbyte k _ hk (by omega)) h4, h5]

/-- The image of the table loaded from a BLT region is that region. -/
theorem bltImage_load (blt0 : Nat → Nat) (dev : BlockDevice) (buffer : Bytes)
    (hdev : 264 ≤ dev.size) (hbyte : ∀ k j, k < 256 → j < 512 → dev.data (k + 8) j < 256)
    {k j : Nat} (hk : k < 256) (hj : j < 512) :
    bltImage (readBlt blt0 dev buffer) k j = dev.data (k + 8) j := by
  obtain ⟨h1, h2, h3, h4, h5⟩ := blt_index2 k j hk hj
  unfold bltImage
  rw [readBlt_apply _ _ _ hdev, if_pos h1, h2, h3,
    (leBytes_leValue2 _ _ (fun t ht => hbyte k _ hk (by omega)) h4).1, h5]

/-- C28. No spurious writes on remount: for every container of at least 264 blocks of
bytes, loading the tables (`fuseInit` on the existing container) and persisting them
(`fuseDestroy`) leaves the blocks 0..263 byte for byte as they were, leaves every other
block as it was and does not extend the container. -/
theorem remount_writes_nothing (fs0 : FS) (envI envD : Env) (dev : BlockDevice)
    (hsize : 264 ≤ dev.size) (hbyte : ∀ b j, b < 264 → j < 512 → dev.data b j < 256) :
    (∀ b j, b < 264 → j < 512 →
      (fuseDestroy (fuseInit fs0 envI (some dev)) envD).blockDevice.data b j = dev.data b j) ∧
    (∀ b, 264 ≤ b → b < dev.size →
      (fuseDestroy (fuseInit fs0 envI (some dev)) envD).blockDevice.data b = dev.data b) ∧
    (fuseDestroy (fuseInit fs0 envI (some dev)) envD).blockDevice.size = dev.size := by
  obtain ⟨e1, e2, e3⟩ := fuseInit_some fs0 envI dev
  have e4 := (fuseDestroy_eq (fuseInit fs0 envI (some dev)) envD).1
  rw [e1, e2, e3] at e4
  obtain ⟨-, hf, hb⟩ := tables_written (readFat fs0.fat dev envI.heap)
    (readBlt fs0.blt dev envI.heap) dev envD.heap envD.heap
  rw [e4]
  refine ⟨?_, ?_, ?_⟩
  · intro b j hb1 hj
    by_cases h8 : b < 8
    · rw [hf b j h8 hj]
      exact fatImage_load _ _ _ (by omega) (fun k j hk hj => hbyte k j (by omega) hj) h8 hj
    · have e : b = (b - 8) + 8 := by omega
      rw [e, hb (b - 8) j (by omega) hj]
      exact bltImage_load _ _ _ hsize (fun k j hk hj => hbyte (k + 8) j (by omega) hj)
        (by omega) hj
  · intro b hge hlt
    have h1 := (writeFat_size (readFat fs0.fat dev envI.heap) dev envD.heap).1
    rw [writeBlt_frame _ _ _ (Or.inr hge) (by omega), writeFat_frame _ _ _ (by omega) hlt]
  · rw [writeBlt_size_eq, writeFat_size_eq]
    omega

theorem remount_writes_nothing_witness :
    264 ≤ (BlockDevice.mk 264 (fun _ _ => 0) []).size ∧
    (∀ b j, b < 264 → j < 512 → (BlockDevice.mk 264 (fun _ _ => 0) []).data b j < 256) ∧
    ((∀ b j, b < 264 → j < 512 →
      (fuseDestroy (fuseInit blankFS sampleEnv (some (BlockDevice.mk 264 (fun _ _ => 0) [])))
        sampleEnv).blockDevice.data b j = (BlockDevice.mk 264 (fun _ _ => 0) []).data b j) ∧
    (∀ b, 264 ≤ b → b < (BlockDevice.mk 264 (fun _ _ => 0) []).size →
      (fuseDestroy (fuseInit blankFS sampleEnv (some (BlockDevice.mk 264 (fun _ _ => 0) [])))
        sampleEnv).blockDevice.data b = (BlockDevice.mk 264 (fun _ _ => 0) []).data b) ∧
    (fuseDestroy (fuseInit blankFS sampleEnv (some (BlockDevice.mk 264 (fun _ _ => 0) [])))
        sampleEnv).blockDevice.size = (BlockDevice.mk 264 (fun _ _ => 0) []).size) :=
  have h1 : 264 ≤ (BlockDevice.mk 264 (fun _ _ => 0) []).size := le_refl _
  have h2 : ∀ b j, b < 264 → j < 512 → (BlockDevice.mk 264 (fun _ _ => 0) []).data b j < 256 :=
    fun _ _ _ _ => (by decide : (0 : Nat) < 256)
  ⟨h1, h2, remount_writes_nothing blankFS sampleEnv sampleEnv _ h1 h2⟩

/-- C23. Truncate to 0 and then to N: on the sample volume (which satisfies the
invariants, `/a` holding one block) the sequence `fuseTruncate("/a", 0)`,
`fuseTruncate("/a", 600)` has no defined result: the first call reads `blockList[-1]`. -/
theorem truncate_zero_then_grow :
    getFileIndex sampleVolume.fat [47, 97] = 0 ∧ (sampleVolume.fat 0).nrBlocks = 1 ∧
    fault (run sampleVolume
      [(sampleEnv, Op.truncate [47, 97] 0), (sampleEnv, Op.truncate [47, 97] 600)])
      = some Fault.outOfBounds := by
  decide!

/-- C24. Truncate to zero blocks: on the sample volume (which satisfies the invariants,
`/a` holding 5 bytes in its one block 264) `fuseTruncate("/a", 0)` does not return 0: the
new block count is 0 and the call reads `blockList[0 - 1]`, outside the array, to find
the BLT entry it marks as the end of the chain. -/
theorem truncate_zero_faults :
    Invariants sampleVolume ∧ getFileIndex sampleVolume.fat [47, 97] = 0 ∧
    (sampleVolume.fat 0).nrBlocks = 1 ∧ (sampleVolume.fat 0).size = 5 ∧
    fault (fuseTruncate sampleVolume sampleEnv [47, 97] 0) = some Fault.outOfBounds ∧
    returned (fuseTruncate sampleVolume sampleEnv [47, 97] 0) = none :=
  ⟨sampleVolume_invariants, by decide!, by decide!, by decide!, by decide!, by decide!⟩

/-- C25. No space on grow: on the freshly formatted volume, after `/a` is created, fewer
than 65,273 blocks are FREE; `fuseTruncate("/a", 33419776)`, which needs 65,273 blocks,
nevertheless returns 0 (not `-ENOSPC`) and leaves the new size, the new block count and
a changed BLT behind. -/
theorem grow_without_space :
    ¬ HasFree (fuseMknod (fuseInit blankFS sampleEnv none) sampleEnv [47, 97] 420).2.blt 65273 ∧
    ∃ s, run (fuseInit blankFS sampleEnv none)
        [(sampleEnv, Op.mknod [47, 97] 420), (sampleEnv, Op.truncate [47, 97] 33419776)]
          = .ok ([0, 0], s) ∧
      (s.fat 0).size = 33419776 ∧ (s.fat 0).nrBlocks = 65273 ∧ (s.fat 0).startBlock = 264 ∧
      s.blt 264 = 265 ∧ (fuseInit blankFS sampleEnv none).blt 264 = BLT_FREE := by
  have hblt0 : ∀ j, j < 65536 → (fuseInit blankFS sampleEnv none).blt j =
      if j < 264 then BLT_RSV else BLT_FREE := fun j hj => formatBlt_apply blankFS.blt hj
  constructor
  · have hb : (fuseMknod (fuseInit blankFS sampleEnv none) sampleEnv [47, 97] 420).2.blt
        = (fuseInit blankFS sampleEnv none).blt := by
      have hp : ValidPath [47, 97] := ⟨rfl, by decide, by decide, by decide⟩
      rw [fuseMknod_empty _ _ _ _ (fun i hi => formatFat_name blankFS.fat sampleEnv hi) hp]
    rw [hb]
    rintro ⟨l, hnd, hlen, hall⟩
    have := @nodup_length_le l 264 65536 hnd (fun b hb => by
      obtain ⟨hlt, hfree⟩ := hall b hb
      refine ⟨?_, hlt⟩
      by_contra hge
      rw [hblt0 b hlt, if_pos (by omega)] at hfree
      exact absurd hfree (by decide))
    omega
  · obtain ⟨s, hrun, -, h0, hblt⟩ := create_truncate_overfull blankFS sampleEnv sampleEnv
      sampleEnv [47, 97] 420 33419776 ⟨rfl, by decide, by decide, by decide⟩ (by norm_num)
      (by norm_num)
    refine ⟨s, hrun, ?_, ?_, ?_, ?_, ?_⟩
    · rw [h0]; rfl
    · rw [h0]; decide
    · rw [h0]
    · rw [hblt 264 (by norm_num)]; decide
    · rw [hblt0 264 (by norm_num)]; decide

theorem chainFrom_take (blt : Nat → Nat) : ∀ (n m s : Nat), m ≤ n →
    (chainFrom blt s n).take m = chainFrom blt s m := by
  intro n
  induction n with
  | zero =>
    intro m s hm
    have : m = 0 := by omega
    subst this
    rfl
  | succ n ih =>
    intro m s hm
    cases m with
    | zero => rfl
    | succ m =>
      rw [chainFrom, chainFrom, List.take_succ_cons, ih m _ (by omega)]

theorem chainFrom_head_mem (blt : Nat → Nat) (s n : Nat) (hn : 1 ≤ n) : s ∈ chainFrom blt s n := by
  cases n with
  | zero => omega
  | succ n => rw [chainFrom]; exact List.mem_cons_self _ _

/-- The chain depends only on the table entries of its blocks but the last. -/
theorem chainFrom_congr (blt blt1 : Nat → Nat) : ∀ (n s : Nat),
    (∀ b ∈ chainFrom blt s (n - 1), blt1 b = blt b) → chainFrom blt1 s n = chainFrom blt s n := by
  intro n
  induction n with
  | zero => intro s _; rfl
  | succ n ih =>
    intro s h
    rw [chainFrom, chainFrom]
    rw [Nat.add_sub_cancel] at h
    cases n with
    | zero => rfl
    | succ n =>
      rw [h s (chainFrom_head_mem blt s (n + 1) (by omega))]
      congr 1
      apply ih
      intro b hb
      apply h
      rw [Nat.add_sub_cancel] at hb
      rw [chainFrom]
      exact List.mem_cons_of_mem _ hb

theorem shrink_facts {n nr : Nat} {size : Int} (hn : 1 ≤ n) (hnr : nr < 65536)
    (hsb : (nr : Int) = (size + 511) / 512) (hlt : (n + 511) / 512 < nr) :
    ¬ ((n : Int) = size) ∧ (n : Int) < size ∧
    (toI64 ((n : Int) + 512 - 1)).tdiv 512 = (((n + 511) / 512 : Nat) : Int) ∧
    (nr : Int) > (((n + 511) / 512 : Nat) : Int) ∧
    toU16 (((n + 511) / 512 : Nat) : Int) = (n + 511) / 512 ∧
    (toI32 (((n + 511) / 512 : Nat) : Int)).toNat = (n + 511) / 512 ∧
    1 ≤ (n + 511) / 512 := by
  have h1 : (n : Int) < size := by omega
  refine ⟨by omega, h1, ?_, by omega, ?_, ?_, by omega⟩
  · rw [toI64_of_range (by omega) (by omega), Int.tdiv_eq_ediv (by omega) (by norm_num)]
    omega
  · unfold toU16; omega
  · rw [toI32_of_range (by omega) (by omega)]; omega

theorem blockAt_get {l : List Nat} {m : Nat} (h1 : 1 ≤ m) (h2 : m ≤ l.length) :
    ∃ b, blockAt l ((m : Int) - 1) = .ok b ∧ l.get? (m - 1) = some b := by
  obtain ⟨b, hb1, hb2⟩ := @blockAt_ok l ((m : Int) - 1) (by omega) (by omega)
  refine ⟨b, hb1, ?_⟩
  have : ((m : Int) - 1).toNat = m - 1 := by omega
  rw [this] at hb2
  exact hb2

/-- The result of a shrinking `fuseTruncate` in terms of the old chain. -/
theorem fuseTruncate_shrink_ex (fs : FS) (env : Env) (path : List Nat) (n : Nat)
    (hex : 0 ≤ getFileIndex fs.fat path) (hn : 1 ≤ n)
    (hnr : (fs.fat (getFileIndex fs.fat path).toNat).nrBlocks < 65536)
    (hsb : ((fs.fat (getFileIndex fs.fat path).toNat).nrBlocks : Int) =
      ((fs.fat (getFileIndex fs.fat path).toNat).size + 511) / 512)
    (hlt : (n + 511) / 512 < (fs.fat (getFileIndex fs.fat path).toNat).nrBlocks) :
    ∃ s last, fuseTruncate fs env path (n : Int) = .ok (0, s) ∧
      (chainOf fs (getFileIndex fs.fat path).toNat).get? ((n + 511) / 512 - 1) = some last ∧
      s.fat = store fs.fat (getFileIndex fs.fat path).toNat
        { fs.fat (getFileIndex fs.fat path).toNat with
          nrBlocks := (n + 511) / 512, size := n
          modTime := env.systemTime, changeTime := env.systemTime } ∧
      s.blt = ((chainOf fs (getFileIndex fs.fat path).toNat).drop ((n + 511) / 512)).foldl
        (fun t b => store t b BLT_FREE) (store fs.blt last BLT_EOF) := by
  obtain ⟨f1, f2, f3, f4, f5, f6, f7⟩ := shrink_facts hn hnr hsb hlt
  have hlen := chainFrom_length fs.blt (fs.fat (getFileIndex fs.fat path).toNat).nrBlocks
    (fs.fat (getFileIndex fs.fat path).toNat).startBlock
  obtain ⟨last, hl1, hl2⟩ := @blockAt_get
    (chainFrom fs.blt (fs.fat (getFileIndex fs.fat path).toNat).startBlock
      (fs.fat (getFileIndex fs.fat path).toNat).nrBlocks) ((n + 511) / 512) f7
    (by rw [hlen]; omega)
  have hneg : ¬ getFileIndex fs.fat path < 0 := by omega
  have h : fuseTruncate fs env path (n : Int) = .ok (0,
      { fat := store fs.fat (getFileIndex fs.fat path).toNat
          { fs.fat (getFileIndex fs.fat path).toNat with
            nrBlocks := (n + 511) / 512, size := n
            modTime := env.systemTime, changeTime := env.systemTime }
        blt := ((chainOf fs (getFileIndex fs.fat path).toNat).drop ((n + 511) / 512)).foldl
          (fun t b => store t b BLT_FREE) (store fs.blt last BLT_EOF)
        blockDevice := writeFat (store fs.fat (getFileIndex fs.fat path).toNat
          { fs.fat (getFileIndex fs.fat path).toNat with
            nrBlocks := (n + 511) / 512, size := n
            modTime := env.systemTime, changeTime := env.systemTime })
          (writeBlt (((chainOf fs (getFileIndex fs.fat path).toNat).drop ((n + 511) / 512)).foldl
            (fun t b => store t b BLT_FREE) (store fs.blt last BLT_EOF)) fs.blockDevice env.heap)
          env.heap }) := by
    have hs : truncateShrink fs env (fs.fat (getFileIndex fs.fat path).toNat)
        (((n + 511) / 512 : Nat) : Int) = .ok
        (((chainOf fs (getFileIndex fs.fat path).toNat).drop ((n + 511) / 512)).foldl
          (fun t b => store t b BLT_FREE) (store fs.blt last BLT_EOF),
         { fs.fat (getFileIndex fs.fat path).toNat with nrBlocks := (n + 511) / 512 },
         writeBlt (((chainOf fs (getFileIndex fs.fat path).toNat).drop ((n + 511) / 512)).foldl
          (fun t b => store t b BLT_FREE) (store fs.blt last BLT_EOF)) fs.blockDevice env.heap) := by
      unfold truncateShrink chainOf
      rw [if_pos f4]
      dsimp only
      rw [hl1]
      dsimp only
      rw [f5, f6]
    unfold fuseTruncate
    dsimp only
    rw [if_neg hneg, if_neg f1, f3, if_pos f2, hs]
  exact ⟨_, last, h, hl2, rfl, rfl⟩

theorem twoBlockFile_typed : twoBlockFile.Typed := by
  constructor <;> simp [twoBlockFile, sampleFile, MAX_NAME_LENGTH] <;> decide

theorem twoBlockVolume_fat (i : Nat) :
    twoBlockVolume.fat i = if i = 0 then twoBlockFile else emptyEntry sampleEnv := rfl

theorem twoBlockVolume_blt (b : Nat) :
    twoBlockVolume.blt b = if b = 265 then BLT_EOF else if b = 264 then 265 else
      if b < 65536 then (if b < 264 then BLT_RSV else BLT_FREE) else 0 := rfl

theorem twoBlockVolume_chain (i : Nat) :
    chainOf twoBlockVolume i = if i = 0 then [264, 265] else [] := by
  unfold chainOf
  rw [twoBlockVolume_fat]
  split <;> rfl

theorem twoBlockVolume_invariants : Invariants twoBlockVolume := by
  constructor
  · intro i _
    rw [twoBlockVolume_fat]
    split
    · exact twoBlockFile_typed
    · exact emptyEntry_typed _ (by decide) (by decide)
  · intro b hb
    rw [twoBlockVolume_blt]
    simp only [BLT_EOF, BLT_RSV, BLT_FREE]
    split_ifs <;> omega
  · intro i j _ _ hi hj _
    rw [twoBlockVolume_fat] at hi hj
    split at hi
    · split at hj
      · omega
      · exact absurd hj (by decide)
    · exact absurd hi (by decide)
  · intro i _
    rw [twoBlockVolume_chain]
    split <;> simp
  · intro i _ b hb
    rw [twoBlockVolume_chain] at hb
    split at hb
    · simp at hb
      subst hb
      rfl
    · simp at hb
  · intro i _ b hb
    rw [twoBlockVolume_chain] at hb
    split at hb
    · simp at hb
      rcases hb with rfl | rfl <;> decide
    · simp at hb
  · intro i j _ _ hij b hb
    rw [twoBlockVolume_chain] at hb ⊢
    split at hb
    · rw [if_neg (by omega)]; simp
    · simp at hb
  · intro b h1 h2 h
    have h0 := h 0 (by omega)
    rw [twoBlockVolume_chain] at h0
    simp at h0
    rw [twoBlockVolume_blt, if_neg h0.2, if_neg h0.1, if_pos h2, if_neg (by omega)]
  · intro b hb
    rw [twoBlockVolume_blt, if_neg (by omega), if_neg (by omega), if_pos (by omega), if_pos hb]
  · intro i _
    rw [twoBlockVolume_fat]
    split <;> decide
  · intro i _
    rw [twoBlockVolume_fat]
    split <;> decide
  · intro i _ hi
    rw [twoBlockVolume_fat] at hi ⊢
    split at hi
    · exact absurd hi (by decide)
    · rw [if_neg (by assumption)]
      simp [emptyEntry]

theorem linkChain_other : ∀ (L : List Nat) (blt : Nat → Nat) (cur b : Nat), b ≠ cur → b ∉ L →
    linkChain blt cur L b = blt b := by
  intro L
  induction L with
  | nil => intro blt cur b _ _; rfl
  | cons a L ih =>
    intro blt cur b hb hL
    rw [List.mem_cons, not_or] at hL
    rw [linkChain, ih _ a b hL.1 hL.2, store_other _ _ hL.1, store_other _ _ hb]

theorem linkChain_chain : ∀ (L : List Nat) (blt : Nat → Nat) (cur : Nat), cur ∉ L → L.Nodup →
    chainFrom (linkChain blt cur L) cur (L.length + 1) = cur :: L := by
  intro L
  induction L with
  | nil => intro blt cur _ _; rfl
  | cons a L ih =>
    intro blt cur hcur hnd
    rw [List.mem_cons, not_or] at hcur
    rw [List.nodup_cons] at hnd
    rw [List.length_cons, chainFrom, linkChain,
      linkChain_other L _ a cur hcur.1 hcur.2, store_other _ _ hcur.1, store_same,
      ih _ a hnd.1 hnd.2]

theorem linkChain_last : ∀ (L : List Nat) (blt : Nat → Nat) (cur : Nat), blt cur = BLT_EOF →
    L.Nodup → linkChain blt cur L (L.getLastD cur) = BLT_EOF := by
  intro L
  induction L with
  | nil => intro blt cur h _; exact h
  | cons a L ih =>
    intro blt cur _ hnd
    rw [List.nodup_cons] at hnd
    rw [linkChain, List.getLastD_cons]
    exact ih _ a (store_same _ _ _) hnd.2

theorem LowestFree.nodup {blt : Nat → Nat} {L : List Nat} (h : LowestFree blt L) : L.Nodup :=
  h.1.imp (fun hab => Nat.ne_of_lt hab)

/-- Taking the lowest FREE block out of the table: the lowest FREE blocks of the rest
follow it. -/
theorem lowestFree_cons {blt blt1 : Nat → Nat} {a : Nat} {L : List Nat} (ha : a < 65536)
    (hfree : blt a = BLT_FREE) (hmin : ∀ j, j < a → blt j ≠ BLT_FREE)
    (h1a : blt1 a ≠ BLT_FREE)
    (hsame : ∀ x, x ≠ a → (blt1 x = BLT_FREE ↔ blt x = BLT_FREE))
    (hL : LowestFree blt1 L) : LowestFree blt (a :: L) := by
  obtain ⟨hs, hf, hlow⟩ := hL
  have hgt : ∀ x ∈ L, a < x := by
    intro x hx
    obtain ⟨_, hx2⟩ := hf x hx
    have hxa : x ≠ a := fun h => h1a (h ▸ hx2)
    have := (hsame x hxa).mp hx2
    by_contra hle
    exact hmin x (by omega) this
  refine ⟨List.pairwise_cons.mpr ⟨hgt, hs⟩, ?_, ?_⟩
  · intro x hx
    rcases List.mem_cons.mp hx with rfl | hx
    · exact ⟨ha, hfree⟩
    · obtain ⟨hx1, hx2⟩ := hf x hx
      exact ⟨hx1, (hsame x (Nat.ne_of_gt (hgt x hx))).mp hx2⟩
  · intro b hb hbf hbL x hx
    rw [List.mem_cons, not_or] at hbL
    rcases List.mem_cons.mp hx with rfl | hx
    · by_contra hle
      exact hmin b (by omega) hbf
    · exact hlow b hb ((hsame b hbL.1).mpr hbf) hbL.2 x hx

/-- The allocation loop appends the lowest FREE blocks, in order. -/
theorem growLoop_spec : ∀ (k : Nat) (blt : Nat → Nat) (cur : Nat) (fb : Option Nat),
    HasFree blt k → blt cur ≠ BLT_FREE → blt 0 ≠ BLT_FREE →
    ∃ L fb1, growLoop k blt cur fb = .ok (linkChain blt cur L, L.getLastD cur, fb1) ∧
      L.length = k ∧ LowestFree blt L := by
  intro k
  induction k with
  | zero =>
    intro blt cur fb _ _ _
    exact ⟨[], fb, rfl, rfl, List.Pairwise.nil, fun x hx => absurd hx (List.not_mem_nil _),
      fun _ _ _ _ x hx => absurd hx (List.not_mem_nil _)⟩
  | succ k ih =>
    intro blt cur fb hfree hcur h0
    obtain ⟨l, hnd, hlen, hall⟩ := hfree
    obtain ⟨b, hb⟩ : ∃ b, b ∈ l := by
      cases l with
      | nil => simp at hlen
      | cons x xs => exact ⟨x, List.mem_cons_self _ _⟩
    obtain ⟨a, ha1, ha2, ha3, ha4⟩ := findFreeBlock_of_free (hall b hb).1 (hall b hb).2 fb
    have hac : a ≠ cur := fun h => hcur (h ▸ ha3)
    have ha0 : a ≠ BLT_FREE := by
      intro h
      rw [h] at ha3
      exact h0 ha3
    have hsame : ∀ x, x ≠ a →
        (store (store blt cur a) a BLT_EOF x = BLT_FREE ↔ blt x = BLT_FREE) := by
      intro x hxa
      rw [store_other _ _ hxa]
      by_cases hxc : x = cur
      · rw [hxc, store_same]
        exact ⟨fun h => absurd h ha0, fun h => absurd h hcur⟩
      · rw [store_other _ _ hxc]
    have h1a : store (store blt cur a) a BLT_EOF a ≠ BLT_FREE := by
      rw [store_same]; decide
    obtain ⟨L, fb1, hg, hL1, hL2⟩ := ih (store (store blt cur a) a BLT_EOF) a (some a)
      (HasFree_alloc ⟨l, hnd, hlen, hall⟩ hcur) h1a
      (by
        by_cases h0a : 0 = a
        · rw [← h0a] at ha3; exact absurd ha3 h0
        · exact fun h => h0 ((hsame 0 h0a).mp h))
    refine ⟨a :: L, fb1, ?_, by rw [List.length_cons, hL1], lowestFree_cons ha2 ha3 ha4 h1a hsame hL2⟩
    rw [growLoop, ha1]
    simp only [store_same]
    rw [hg, linkChain, List.getLastD_cons]

theorem chainFrom_next_mem (blt : Nat → Nat) : ∀ (n s b : Nat), b ∈ chainFrom blt s n →
    blt b ∈ chainFrom blt s (n + 1) := by
  intro n
  induction n with
  | zero => intro s b hb; simp [chainFrom] at hb
  | succ n ih =>
    intro s b hb
    rw [chainFrom, List.mem_cons] at hb
    rw [chainFrom]
    rcases hb with rfl | hb
    · exact List.mem_cons_of_mem _ (chainFrom_head_mem blt _ (n + 1) (by omega))
    · exact List.mem_cons_of_mem _ (ih _ b hb)

theorem chainFrom_add (f : Nat → Nat) : ∀ (n s k last : Nat),
    (chainFrom f s (n + 1)).getLast? = some last →
    chainFrom f s (n + 1 + k) = chainFrom f s n ++ chainFrom f last (k + 1) := by
  intro n
  induction n with
  | zero =>
    intro s k last h
    have : last = s := by simpa [chainFrom] using h.symm
    subst this
    rw [Nat.zero_add, Nat.add_comm]
    rfl
  | succ n ih =>
    intro s k last h
    rw [chainFrom_getLast?_succ] at h
    have e : n + 1 + 1 + k = (n + 1 + k) + 1 := by omega
    rw [e, chainFrom, ih (f s) k last h]
    rfl

/-- The walk to the end of a chain stops at its last block when no earlier block holds
`BLT_EOF`. -/
theorem walkToEnd_last (blt : Nat → Nat) : ∀ (n s fuel last : Nat), n < fuel →
    (chainFrom blt s (n + 1)).getLast? = some last → blt last = BLT_EOF →
    (∀ b ∈ chainFrom blt s n, blt b ≠ BLT_EOF) → walkToEnd blt fuel s = .ok last := by
  intro n
  induction n with
  | zero =>
    intro s fuel last hf h heof _
    have : last = s := by simpa [chainFrom] using h.symm
    subst this
    cases fuel with
    | zero => omega
    | succ fuel => rw [walkToEnd, if_pos heof]
  | succ n ih =>
    intro s fuel last hf h heof hne
    cases fuel with
    | zero => omega
    | succ fuel =>
      rw [walkToEnd, if_neg (hne s (chainFrom_head_mem blt s (n + 1) (by omega)))]
      rw [chainFrom_getLast?_succ] at h
      apply ih (blt s) fuel last (by omega) h heof
      intro b hb
      apply hne
      rw [chainFrom]
      exact List.mem_cons_of_mem _ hb

theorem chainFrom_snoc (f : Nat → Nat) (n s last : Nat)
    (h : (chainFrom f s (n + 1)).getLast? = some last) :
    chainFrom f s (n + 1) = chainFrom f s n ++ [last] := by
  have := chainFrom_add f n s 0 last h
  rw [Nat.add_zero] at this
  rw [this]
  rfl

/-- The chain of a file after blocks are appended behind its tail. -/
theorem chainFrom_linkChain (blt : Nat → Nat) (s n cur : Nat) (L : List Nat)
    (hlast : (chainFrom blt s (n + 1)).getLast? = some cur)
    (hnd : (chainFrom blt s (n + 1)).Nodup) (hL : L.Nodup)
    (hdisj : ∀ b ∈ chainFrom blt s (n + 1), b ∉ L) :
    chainFrom (linkChain blt cur L) s (n + 1 + L.length) = chainFrom blt s (n + 1) ++ L := by
  have hsnoc := chainFrom_snoc blt n s cur hlast
  have hcur : cur ∈ chainFrom blt s (n + 1) := by rw [hsnoc]; simp
  have hsame : ∀ b ∈ chainFrom blt s n, linkChain blt cur L b = blt b := by
    intro b hb
    apply linkChain_other
    · intro hbc
      rw [hsnoc, List.nodup_append] at hnd
      exact hnd.2.2 hb (by rw [hbc]; simp)
    · apply hdisj
      rw [hsnoc]
      exact List.mem_append_left _ hb
  have h1 : chainFrom (linkChain blt cur L) s (n + 1) = chainFrom blt s (n + 1) :=
    chainFrom_congr blt _ (n + 1) s (by rw [Nat.add_sub_cancel]; exact hsame)
  have h2 : chainFrom (linkChain blt cur L) s n = chainFrom blt s n := by
    rw [← chainFrom_take (linkChain blt cur L) (n + 1) n s (by omega), h1,
      chainFrom_take blt (n + 1) n s (by omega)]
  rw [chainFrom_add (linkChain blt cur L) n s L.length cur (by rw [h1]; exact hlast), h2,
    linkChain_chain L blt cur (hdisj cur hcur) hL, hsnoc, List.append_assoc]
  rfl

theorem grow_facts {n nr : Nat} {size : Int} (h0 : 0 ≤ size)
    (hsb : (nr : Int) = (size + 511) / 512) (hgt : nr < (n + 511) / 512)
    (hcap : (n + 511) / 512 ≤ 65272) :
    ¬ ((n : Int) = size) ∧ ¬ ((n : Int) < size) ∧
    (toI64 ((n : Int) + 512 - 1)).tdiv 512 = (((n + 511) / 512 : Nat) : Int) ∧
    (((n + 511) / 512 : Nat) : Int) > (nr : Int) ∧
    toU16 (((n + 511) / 512 : Nat) : Int) = (n + 511) / 512 ∧
    ((((n + 511) / 512 : Nat) : Int) - (nr : Int)).toNat = (n + 511) / 512 - nr ∧
    ¬ ((((n + 511) / 512 : Nat) : Int) - (nr : Int) > 2147483647) ∧
    ((((n + 511) / 512 : Nat) : Int) - ((1 : Nat) : Int)).toNat = (n + 511) / 512 - 1 ∧
    ¬ ((((n + 511) / 512 : Nat) : Int) - ((1 : Nat) : Int) > 2147483647) := by
  have h1 : size < (n : Int) := by omega
  refine ⟨by omega, by omega, ?_, by omega, ?_, by omega, by omega, by omega, by omega⟩
  · rw [toI64_of_range (by omega) (by omega), Int.tdiv_eq_ediv (by omega) (by norm_num)]
    omega
  · unfold toU16; omega

/-- The grow branch on a file that has blocks: the lowest FREE blocks are appended behind
the tail of its chain. -/
theorem truncateGrow_append (fs : FS) (env : Env) (e : fatEntry) (m cur : Nat)
    (hnr : 1 ≤ e.nrBlocks) (hgt : e.nrBlocks < m) (hcap : m ≤ 65272)
    (hfree : HasFree fs.blt (m - e.nrBlocks)) (h0 : fs.blt 0 ≠ BLT_FREE)
    (hwalk : walkToEnd fs.blt TOTAL_BLT_ENTRIES e.startBlock = .ok cur)
    (heof : fs.blt cur = BLT_EOF) :
    ∃ L, truncateGrow fs env e (m : Int) = .ok (linkChain fs.blt cur L,
        { e with nrBlocks := m }, writeBlt (linkChain fs.blt cur L) fs.blockDevice env.heap) ∧
      L.length = m - e.nrBlocks ∧ LowestFree fs.blt L := by
  obtain ⟨L, fb1, hg, hlen, hlow⟩ := growLoop_spec (m - e.nrBlocks) fs.blt cur none hfree
    (by rw [heof]; decide) h0
  refine ⟨L, ?_, hlen, hlow⟩
  have c1 : (m : Int) > (e.nrBlocks : Int) := by omega
  have c2 : ¬ e.nrBlocks = 0 := by omega
  have c3 : ¬ ((m : Int) - (e.nrBlocks : Int) > 2147483647) := by omega
  have c4 : ((m : Int) - (e.nrBlocks : Int)).toNat = m - e.nrBlocks := by omega
  have c5 : toU16 (m : Int) = m := by unfold toU16; omega
  unfold truncateGrow
  rw [if_pos c1]
  dsimp only
  rw [if_neg c2]
  dsimp only
  rw [hwalk]
  dsimp only
  rw [if_neg c3, c4, hg]
  dsimp only
  rw [c5]

/-- The grow branch on a file without blocks: the lowest FREE block becomes the start
block and the next lowest FREE blocks follow it. -/
theorem truncateGrow_new (fs : FS) (env : Env) (e : fatEntry) (m : Nat)
    (hnr : e.nrBlocks = 0) (hm : 1 ≤ m) (hcap : m ≤ 65272)
    (hfree : HasFree fs.blt m) (h0 : fs.blt 0 ≠ BLT_FREE) :
    ∃ a L, truncateGrow fs env e (m : Int) = .ok (linkChain (store fs.blt a BLT_EOF) a L,
        { e with startBlock := a, nrBlocks := m },
        writeBlt (linkChain (store fs.blt a BLT_EOF) a L) fs.blockDevice env.heap) ∧
      L.length = m - 1 ∧ LowestFree fs.blt (a :: L) ∧ a ≠ 0 := by
  obtain ⟨l, hnd, hlen, hall⟩ := hfree
  obtain ⟨b, hb⟩ : ∃ b, b ∈ l := by
    cases l with
    | nil => simp at hlen; omega
    | cons x xs => exact ⟨x, List.mem_cons_self _ _⟩
  obtain ⟨a, ha1, ha2, ha3, ha4⟩ := findFreeBlock_of_free (hall b hb).1 (hall b hb).2
    (some e.startBlock)
  have ha0 : a ≠ 0 := fun h => h0 (h ▸ ha3)
  have hsame : ∀ x, x ≠ a → (store fs.blt a BLT_EOF x = BLT_FREE ↔ fs.blt x = BLT_FREE) := by
    intro x hx
    rw [store_other _ _ hx]
  have h1a : store fs.blt a BLT_EOF a ≠ BLT_FREE := by rw [store_same]; decide
  have hfree1 : HasFree (store fs.blt a BLT_EOF) (m - 1) :=
    HasFree_store (by rw [Nat.sub_add_cancel hm]; exact ⟨l, hnd, hlen, hall⟩) a BLT_EOF
  obtain ⟨L, fb1, hg, hL1, hL2⟩ := growLoop_spec (m - 1) (store fs.blt a BLT_EOF) a none hfree1
    h1a (fun h => h0 ((hsame 0 (Ne.symm ha0)).mp h))
  refine ⟨a, L, ?_, hL1, lowestFree_cons ha2 ha3 ha4 h1a hsame hL2, ha0⟩
  have hwalk : walkToEnd (store fs.blt a BLT_EOF) TOTAL_BLT_ENTRIES a = .ok a := by
    rw [show TOTAL_BLT_ENTRIES = 65535 + 1 from rfl, walkToEnd, if_pos (store_same _ _ _)]
  have c1 : (m : Int) > (e.nrBlocks : Int) := by omega
  have c3 : ¬ ((m : Int) - ((1 : Nat) : Int) > 2147483647) := by omega
  have c4 : ((m : Int) - ((1 : Nat) : Int)).toNat = m - 1 := by omega
  have c5 : toU16 (m : Int) = m := by unfold toU16; omega
  unfold truncateGrow
  rw [if_pos c1]
  dsimp only
  rw [if_pos hnr, ha1]
  dsimp only [Option.getD_some]
  rw [hwalk]
  dsimp only
  rw [if_neg c3, c4, hg]
  dsimp only
  rw [c5]

theorem fuseTruncate_of_grow (fs : FS) (env : Env) (path : List Nat) (n m : Nat)
    (blt1 : Nat → Nat) (e1 : fatEntry) (dev1 : BlockDevice)
    (hex : 0 ≤ getFileIndex fs.fat path)
    (f1 : ¬ ((n : Int) = (fs.fat (getFileIndex fs.fat path).toNat).size))
    (f2 : ¬ ((n : Int) < (fs.fat (getFileIndex fs.fat path).toNat).size))
    (f3 : (toI64 ((n : Int) + 512 - 1)).tdiv 512 = (m : Int))
    (hs : truncateGrow fs env (fs.fat (getFileIndex fs.fat path).toNat) (m : Int)
      = .ok (blt1, e1, dev1)) :
    ∃ s, fuseTruncate fs env path (n : Int) = .ok (0, s) ∧
      s.fat = store fs.fat (getFileIndex fs.fat path).toNat
        { e1 with size := n, modTime := env.systemTime, changeTime := env.systemTime } ∧
      s.blt = blt1 := by
  have hneg : ¬ getFileIndex fs.fat path < 0 := by omega
  have h : fuseTruncate fs env path (n : Int) = .ok (0,
      { fat := store fs.fat (getFileIndex fs.fat path).toNat
          { e1 with size := n, modTime := env.systemTime, changeTime := env.systemTime }
        blt := blt1
        blockDevice := writeFat (store fs.fat (getFileIndex fs.fat path).toNat
          { e1 with size := n, modTime := env.systemTime, changeTime := env.systemTime })
          dev1 env.heap }) := by
    unfold fuseTruncate
    dsimp only
    rw [if_neg hneg, if_neg f1, f3, if_neg f2, hs]
  exact ⟨_, h, rfl, rfl⟩

theorem getLast?_append_tail {c L : List Nat} {cur : Nat} (h : c.getLast? = some cur) :
    (c ++ L).getLast? = some (L.getLastD cur) := by
  cases L with
  | nil => rw [List.append_nil]; exact h
  | cons x xs =>
    rw [List.getLast?_append, List.getLastD_eq_getLast?]
    cases hx : (x :: xs).getLast? with
    | none => simp at hx
    | some v => rfl

theorem getLast?_cons_tail (a : Nat) (L : List Nat) :
    (a :: L).getLast? = some (L.getLastD a) := by
  have := @getLast?_append_tail [a] L a rfl
  simpa using this

/-- The effect of a growing `fuseTruncate` on the chain of the file. -/
theorem truncate_grow_spec (fs : FS) (env : Env) (path : List Nat) (n : Nat)
    (hinv : Invariants fs) (hex : 0 ≤ getFileIndex fs.fat path)
    (hgt : (fs.fat (getFileIndex fs.fat path).toNat).nrBlocks < (n + 511) / 512)
    (hfree : HasFree fs.blt
      ((n + 511) / 512 - (fs.fat (getFileIndex fs.fat path).toNat).nrBlocks)) :
    ∃ s L, fuseTruncate fs env path (n : Int) = .ok (0, s) ∧
      (s.fat (getFileIndex fs.fat path).toNat).size = n ∧
      (s.fat (getFileIndex fs.fat path).toNat).nrBlocks = (n + 511) / 512 ∧
      chainOf s (getFileIndex fs.fat path).toNat =
        chainOf fs (getFileIndex fs.fat path).toNat ++ L ∧
      L.length = (n + 511) / 512 - (fs.fat (getFileIndex fs.fat path).toNat).nrBlocks ∧
      LowestFree fs.blt L ∧
      (chainOf s (getFileIndex fs.fat path).toNat).Nodup ∧
      (∀ b, (chainOf s (getFileIndex fs.fat path).toNat).getLast? = some b →
        s.blt b = BLT_EOF) ∧
      (∀ b, b ∉ L → (chainOf fs (getFileIndex fs.fat path).toNat).getLast? ≠ some b →
        s.blt b = fs.blt b) ∧
      (1 ≤ (fs.fat (getFileIndex fs.fat path).toNat).nrBlocks →
        (s.fat (getFileIndex fs.fat path).toNat).startBlock =
          (fs.fat (getFileIndex fs.fat path).toNat).startBlock) ∧
      (∀ j, j ≠ (getFileIndex fs.fat path).toNat → s.fat j = fs.fat j) := by
  have hi := getFileIndex_lt hex
  have hcap0 := hinv.blocks_le hi hfree
  have hcap : (n + 511) / 512 ≤ 65272 := by omega
  have h0 : fs.blt 0 ≠ BLT_FREE := by rw [hinv.reserved 0 (by norm_num)]; decide
  obtain ⟨f1, f2, f3, -, -, -, -, -, -⟩ := grow_facts (hinv.size_nonneg _ hi)
    (hinv.size_blocks _ hi) hgt hcap
  have hnd := hinv.chain_nodup _ hi
  have hused := hinv.chain_used _ hi
  have hdisj : ∀ L, LowestFree fs.blt L →
      ∀ b ∈ chainOf fs (getFileIndex fs.fat path).toNat, b ∉ L :=
    fun L hL b hb hbL => (hused b hb).2.1 (hL.2.1 b hbL).2
  by_cases hnr : (fs.fat (getFileIndex fs.fat path).toNat).nrBlocks = 0
  · -- the file has no block yet
    obtain ⟨a, L, hs, hlen, hlow, ha0⟩ := truncateGrow_new fs env _ ((n + 511) / 512) hnr
      (by omega) hcap (by rw [hnr, Nat.sub_zero] at hfree; exact hfree) h0
    obtain ⟨s, hres, hfat, hblt⟩ := fuseTruncate_of_grow fs env path n _ _ _ _ hex f1 f2 f3 hs
    have hLnd := hlow.nodup
    rw [List.nodup_cons] at hLnd
    have hold : chainOf fs (getFileIndex fs.fat path).toNat = [] := by
      unfold chainOf; rw [hnr]; rfl
    have hchain : chainOf s (getFileIndex fs.fat path).toNat = a :: L := by
      unfold chainOf
      rw [hfat, store_same, hblt]
      dsimp only
      have e : (n + 511) / 512 = L.length + 1 := by omega
      rw [e]
      exact linkChain_chain L _ a hLnd.1 hLnd.2
    refine ⟨s, a :: L, hres, ?_, ?_, ?_, ?_, hlow, ?_, ?_, ?_, ?_, ?_⟩
    · rw [hfat, store_same]
    · rw [hfat, store_same]
    · rw [hchain, hold, List.nil_append]
    · rw [List.length_cons, hlen, hnr]; omega
    · rw [hchain]; exact hlow.nodup
    · intro b hb
      rw [hchain, getLast?_cons_tail] at hb
      have hb1 := Option.some.inj hb
      rw [← hb1, hblt]
      exact linkChain_last L _ a (store_same _ _ _) hLnd.2
    · intro b hbL _
      rw [List.mem_cons, not_or] at hbL
      rw [hblt, linkChain_other L _ a b hbL.1 hbL.2, store_other _ _ hbL.1]
    · intro h1; omega
    · intro j hj
      rw [hfat, store_other _ _ hj]
  · -- the file has blocks: append behind the tail
    obtain ⟨n1, hn1⟩ : ∃ n1, (fs.fat (getFileIndex fs.fat path).toNat).nrBlocks = n1 + 1 :=
      ⟨(fs.fat (getFileIndex fs.fat path).toNat).nrBlocks - 1, by omega⟩
    have hchain0 : chainOf fs (getFileIndex fs.fat path).toNat =
        chainFrom fs.blt (fs.fat (getFileIndex fs.fat path).toNat).startBlock (n1 + 1) := by
      unfold chainOf; rw [hn1]
    obtain ⟨cur, hcur⟩ : ∃ cur, (chainOf fs (getFileIndex fs.fat path).toNat).getLast? = some cur := by
      rw [hchain0, chainFrom]
      exact ⟨_, List.getLast?_eq_getLast _ (List.cons_ne_nil _ _)⟩
    have heof := hinv.chain_end _ hi cur hcur
    have hne : ∀ b ∈ chainFrom fs.blt (fs.fat (getFileIndex fs.fat path).toNat).startBlock n1,
        fs.blt b ≠ BLT_EOF := by
      intro b hb hbe
      have hmem := chainFrom_next_mem fs.blt _ _ b hb
      rw [hbe, ← hchain0] at hmem
      exact (hused _ hmem).2.2 (hinv.reserved 1 (by norm_num))
    have hwalk := walkToEnd_last fs.blt n1 _ TOTAL_BLT_ENTRIES cur
      (by
        have := (hinv.fat_typed _ hi).nr_lt
        simp only [TOTAL_BLT_ENTRIES]
        omega)
      (by rw [← hchain0]; exact hcur) heof hne
    obtain ⟨L, hs, hlen, hlow⟩ := truncateGrow_append fs env _ ((n + 511) / 512) cur
      (by omega) hgt hcap hfree h0 hwalk heof
    obtain ⟨s, hres, hfat, hblt⟩ := fuseTruncate_of_grow fs env path n _ _ _ _ hex f1 f2 f3 hs
    have hchain : chainOf s (getFileIndex fs.fat path).toNat =
        chainOf fs (getFileIndex fs.fat path).toNat ++ L := by
      have e : (n + 511) / 512 = n1 + 1 + L.length := by omega
      rw [hchain0]
      unfold chainOf
      rw [hfat, store_same, hblt]
      dsimp only
      rw [e]
      exact chainFrom_linkChain fs.blt _ n1 cur L (by rw [← hchain0]; exact hcur)
        (by rw [← hchain0]; exact hnd) hlow.nodup
        (by rw [← hchain0]; exact hdisj L hlow)
    refine ⟨s, L, hres, ?_, ?_, hchain, hlen, hlow, ?_, ?_, ?_, ?_, ?_⟩
    · rw [hfat, store_same]
    · rw [hfat, store_same]
    · rw [hchain, List.nodup_append]
      exact ⟨hnd, hlow.nodup, fun b hb hbL => hdisj L hlow b hb hbL⟩
    · intro b hb
      rw [hchain, getLast?_append_tail hcur] at hb
      have hb1 := Option.some.inj hb
      rw [← hb1, hblt]
      exact linkChain_last L _ cur heof hlow.nodup
    · intro b hbL hbc
      rw [hblt, linkChain_other L _ cur b (fun h => hbc (by rw [h]; exact hcur)) hbL]
    · intro _
      rw [hfat, store_same]
    · intro j hj
      rw [hfat, store_other _ _ hj]

/-- The lookup through `cstr`, which is the lookup of the code on tables whose name
fields each hold a zero byte (`getFileIndexBytewise_eq`): `getFileIndex` returns
either `-ENOENT`, when no slot holds the bytes after the first character as its name, or the smallest
index of a slot whose stored name (read up to its first zero byte) equals them; when
the name is not empty that slot is never one whose name field is all-zero, and for the
path `/`, whose name is empty, the result is the first slot whose name field begins
with a zero byte, so every all-zero slot matches. -/
theorem getFileIndex_spec (fat : Nat → fatEntry) (path : List Nat) :
    ((getFileIndex fat path = -ENOENT ∧ ∀ j, j < 64 → cstr (fat j).filename ≠ path.drop 1) ∨
     (∃ k : Nat, k < 64 ∧ getFileIndex fat path = (k : Int) ∧
        cstr (fat k).filename = path.drop 1 ∧
        (∀ j, j < k → cstr (fat j).filename ≠ path.drop 1) ∧
        (path.drop 1 ≠ [] → isEmptyName (fat k).filename = false))) ∧
    (path.drop 1 = [] → ∀ j, j < 64 → isEmptyName (fat j).filename = true →
      0 ≤ getFileIndex fat path ∧ getFileIndex fat path ≤ (j : Int)) := by
  constructor
  · rcases getFileIndex_range fat path with h | ⟨h0, h1, h2⟩
    · left
      refine ⟨h, getFileIndex_neg fat path ?_⟩
      rw [h]; decide
    · right
      refine ⟨(getFileIndex fat path).toNat, by omega, (Int.toNat_of_nonneg h0).symm, h2, ?_, ?_⟩
      · intro j hj hname
        have hmin : ∀ m : Nat, ∀ j, j < 64 → cstr (fat j).filename = path.drop 1 → j ≤ m →
            getFileIndex fat path ≤ (j : Int) := by
          intro m
          induction m with
          | zero =>
            intro j hj hn hle
            have hj0 : j = 0 := by omega
            subst hj0
            rw [getFileIndex_zero fat path hn]
            rfl
          | succ m ih =>
            intro j hj hn hle
            by_cases hex : ∃ i, i < j ∧ cstr (fat i).filename = path.drop 1
            · obtain ⟨i, hi, hin⟩ := hex
              have := ih i (by omega) hin (by omega)
              omega
            · rw [getFileIndex_first fat path hj hn (fun i hi hc => hex ⟨i, hi, hc⟩)]
        have := hmin j j (by omega) hname (le_refl _)
        omega
      · intro hne
        apply not_empty_of_cstr
        rw [h2]
        exact hne
  · intro hnil j hj hemp
    have hname : cstr (fat j).filename = path.drop 1 := by rw [cstr_of_empty hemp, hnil]
    have hmin : ∀ m : Nat, ∀ j, j < 64 → cstr (fat j).filename = path.drop 1 → j ≤ m →
        getFileIndex fat path ≤ (j : Int) := by
      intro m
      induction m with
      | zero =>
        intro j hj hn hle
        have hj0 : j = 0 := by omega
        subst hj0
        rw [getFileIndex_zero fat path hn]
        rfl
      | succ m ih =>
        intro j hj hn hle
        by_cases hex : ∃ i, i < j ∧ cstr (fat i).filename = path.drop 1
        · obtain ⟨i, hi, hin⟩ := hex
          have := ih i (by omega) hin (by omega)
          omega
        · rw [getFileIndex_first fat path hj hn (fun i hi hc => hex ⟨i, hi, hc⟩)]
    exact ⟨getFileIndex_found fat path hj hname, hmin j j hj hname (le_refl _)⟩

/-- C38. The rename scenario `mknod /x; write /x "XX"; mknod /y; write /y "YYYY";
rename /x /y; read /y 4` gives different results on the two variants.  On `MyOnDiskFS`
the rename returns 0, the read returns 2 with `XX` in the buffer, and `/x` is gone.  On
`MyInMemoryFS` the rename looks the file up under the new path and renames `/y` to
itself: it returns 0, the read returns 4 with `YYYY`, and `/x` still exists. -/
theorem rename_scenario_differs :
    renameScenario sampleEnv = some ([0, 2, 0, 4, 0, 2], [88, 88, 0, 0], false) ∧
    MyInMemoryFS.renameScenario sampleEnv =
      some ([0, 2, 0, 4, 0, 4], [89, 89, 89, 89], true) := by
  constructor
  · decide!
  · decide!

theorem walkToEnd_short (blt : Nat → Nat) : ∀ (k s : Nat),
    (∀ b ∈ chainFrom blt s k, blt b ≠ BLT_EOF) → walkToEnd blt k s = .error .diverges := by
  intro k
  induction k with
  | zero => intro s _; rfl
  | succ k ih =>
    intro s h
    rw [walkToEnd, if_neg (h s (chainFrom_head_mem blt s (k + 1) (by omega)))]
    apply ih
    intro b hb
    apply h
    rw [chainFrom]
    exact List.mem_cons_of_mem _ hb

theorem growLoop_total : ∀ (n : Nat) (blt : Nat → Nat) (cur : Nat) (fb : Option Nat),
    growLoop n blt cur fb ≠ .error .diverges := by
  intro n
  induction n with
  | zero => intro blt cur fb h; simp [growLoop] at h
  | succ n ih =>
    intro blt cur fb h
    rw [growLoop] at h
    split at h
    · simp at h
    · exact ih _ _ _ h

theorem blockAt_fault {l : List Nat} {i : Int} {f : Fault} (h : blockAt l i = .error f) :
    f = .outOfBounds := by
  unfold blockAt at h
  split at h
  · injection h with h; exact h.symm
  · split at h
    · simp at h
    · injection h with h; exact h.symm

theorem truncateShrink_total (fs : FS) (env : Env) (e : fatEntry) (nrBlocks : Int) :
    truncateShrink fs env e nrBlocks ≠ .error .diverges := by
  intro h
  unfold truncateShrink at h
  split at h
  · dsimp only at h
    split at h
    · rename_i f hf
      have := blockAt_fault hf
      injection h with h
      rw [h] at this
      exact absurd this (by decide)
    · simp at h
  · simp at h

theorem truncateGrow_total (fs : FS) (env : Env) (e : fatEntry) (nrBlocks : Int) (last : Nat)
    (hn : e.nrBlocks ≠ 0)
    (hwalk : walkToEnd fs.blt TOTAL_BLT_ENTRIES e.startBlock = .ok last) :
    truncateGrow fs env e nrBlocks ≠ .error .diverges := by
  intro h
  unfold truncateGrow at h
  split at h
  · dsimp only at h
    rw [hwalk] at h
    dsimp only at h
    split at h
    · simp at h
    · split at h
      · rename_i f hf
        injection h with h
        rw [h] at hf
        exact growLoop_total _ _ _ _ hf
      · simp at h
  · simp at h

/-- The walk along a well-formed chain: it ends at the last block, with exactly as many
tests of the loop condition as the chain has blocks. -/
theorem walk_of_invariants {fs : FS} (hinv : Invariants fs) {i : Nat} (hi : i < 64)
    (hn : 1 ≤ (fs.fat i).nrBlocks) :
    ∃ last, (chainOf fs i).getLast? = some last ∧ fs.blt last = BLT_EOF ∧
      (∀ fuel, (fs.fat i).nrBlocks ≤ fuel → walkToEnd fs.blt fuel (fs.fat i).startBlock = .ok last) ∧
      walkToEnd fs.blt ((fs.fat i).nrBlocks - 1) (fs.fat i).startBlock = .error .diverges := by
  obtain ⟨n1, hn1⟩ : ∃ n1, (fs.fat i).nrBlocks = n1 + 1 := ⟨(fs.fat i).nrBlocks - 1, by omega⟩
  have hchain0 : chainOf fs i = chainFrom fs.blt (fs.fat i).startBlock (n1 + 1) := by
    unfold chainOf; rw [hn1]
  obtain ⟨cur, hcur⟩ : ∃ cur, (chainOf fs i).getLast? = some cur := by
    rw [hchain0, chainFrom]
    exact ⟨_, List.getLast?_eq_getLast _ (List.cons_ne_nil _ _)⟩
  have heof := hinv.chain_end _ hi cur hcur
  have hne : ∀ b ∈ chainFrom fs.blt (fs.fat i).startBlock n1, fs.blt b ≠ BLT_EOF := by
    intro b hb hbe
    have hmem := chainFrom_next_mem fs.blt _ _ b hb
    rw [hbe, ← hchain0] at hmem
    exact (hinv.chain_used _ hi _ hmem).2.2 (hinv.reserved 1 (by norm_num))
  refine ⟨cur, hcur, heof, ?_, ?_⟩
  · intro fuel hf
    exact walkToEnd_last fs.blt n1 _ fuel cur (by omega) (by rw [← hchain0]; exact hcur) heof hne
  · rw [hn1, Nat.add_sub_cancel]
    exact walkToEnd_short fs.blt n1 _ hne

theorem truncateShrink_dev (fs : FS) (env : Env) (e : fatEntry) (nrBlocks : Int)
    (x : (Nat → Nat) × fatEntry × BlockDevice) (h : truncateShrink fs env e nrBlocks = .ok x) :
    x.2.2 = if (e.nrBlocks : Int) > nrBlocks then writeBlt x.1 fs.blockDevice env.heap
      else fs.blockDevice := by
  unfold truncateShrink at h
  split at h
  · rename_i hgt
    dsimp only at h
    split at h
    · simp at h
    · injection h with h
      subst h
      rw [if_pos hgt]
  · rename_i hgt
    injection h with h
    subst h
    rw [if_neg hgt]

theorem truncateGrow_dev (fs : FS) (env : Env) (e : fatEntry) (nrBlocks : Int)
    (x : (Nat → Nat) × fatEntry × BlockDevice) (h : truncateGrow fs env e nrBlocks = .ok x) :
    x.2.2 = if nrBlocks > (e.nrBlocks : Int) then writeBlt x.1 fs.blockDevice env.heap
      else fs.blockDevice := by
  unfold truncateGrow at h
  split at h
  · rename_i hgt
    dsimp only at h
    generalize (if e.nrBlocks = 0 then
          (store fs.blt ((findFreeBlock fs.blt (some e.startBlock)).2.getD e.startBlock) BLT_EOF,
            ({ e with startBlock := (findFreeBlock fs.blt (some e.startBlock)).2.getD e.startBlock,
                      nrBlocks := 1 } : fatEntry))
        else (fs.blt, e)) = first at h
    split at h
    · simp at h
    · split at h
      · simp at h
      · split at h
        · simp at h
        · injection h with h
          subst h
          rw [if_pos hgt]
  · rename_i hgt
    injection h with h
    subst h
    rw [if_neg hgt]

/-- The container after a `fuseTruncate` that changes the size: the BLT blocks are
written when the branch taken changed the block count, then the FAT blocks. -/
theorem fuseTruncate_dev (fs : FS) (env : Env) (path : List Nat) (newSize : Int) (r : Int × FS)
    (hex : ¬ getFileIndex fs.fat path < 0)
    (hne : ¬ newSize = (fs.fat (getFileIndex fs.fat path).toNat).size)
    (hr : fuseTruncate fs env path newSize = .ok r) :
    r.2.blockDevice = writeFat r.2.fat
      (if newSize < (fs.fat (getFileIndex fs.fat path).toNat).size then
        (if ((fs.fat (getFileIndex fs.fat path).toNat).nrBlocks : Int) >
            (toI64 (newSize + 512 - 1)).tdiv 512
          then writeBlt r.2.blt fs.blockDevice env.heap else fs.blockDevice)
      else
        (if (toI64 (newSize + 512 - 1)).tdiv 512 >
            ((fs.fat (getFileIndex fs.fat path).toNat).nrBlocks : Int)
          then writeBlt r.2.blt fs.blockDevice env.heap else fs.blockDevice)) env.heap := by
  unfold fuseTruncate at hr
  dsimp only at hr
  rw [if_neg hex, if_neg hne] at hr
  have hb : ∀ x, (if newSize < (fs.fat (getFileIndex fs.fat path).toNat).size then
        truncateShrink fs env (fs.fat (getFileIndex fs.fat path).toNat)
          ((toI64 (newSize + 512 - 1)).tdiv 512)
      else truncateGrow fs env (fs.fat (getFileIndex fs.fat path).toNat)
          ((toI64 (newSize + 512 - 1)).tdiv 512)) = .ok x →
      x.2.2 = (if newSize < (fs.fat (getFileIndex fs.fat path).toNat).size then
        (if ((fs.fat (getFileIndex fs.fat path).toNat).nrBlocks : Int) >
            (toI64 (newSize + 512 - 1)).tdiv 512
          then writeBlt x.1 fs.blockDevice env.heap else fs.blockDevice)
      else
        (if (toI64 (newSize + 512 - 1)).tdiv 512 >
            ((fs.fat (getFileIndex fs.fat path).toNat).nrBlocks : Int)
          then writeBlt x.1 fs.blockDevice env.heap else fs.blockDevice)) := by
    intro x hx
    split at hx
    · rename_i hlt
      rw [if_pos hlt]
      exact truncateShrink_dev fs env _ _ x hx
    · rename_i hlt
      rw [if_neg hlt]
      exact truncateGrow_dev fs env _ _ x hx
  generalize (if newSize < (fs.fat (getFileIndex fs.fat path).toNat).size then
        truncateShrink fs env (fs.fat (getFileIndex fs.fat path).toNat)
          ((toI64 (newSize + 512 - 1)).tdiv 512)
      else truncateGrow fs env (fs.fat (getFileIndex fs.fat path).toNat)
          ((toI64 (newSize + 512 - 1)).tdiv 512)) = branch at hr hb
  split at hr
  · simp at hr
  · rename_i blt e1 dev
    injection hr with hr
    subst hr
    have := hb _ rfl
    dsimp only at this ⊢
    rw [this]

theorem keep_arith {off c L i j size : Nat} (hidx : i = (off + c) / 512) (hL : L ≤ size - c)
    (hc : c ≤ size) (hpos : 512 * i + j < off + c ∨ off + size ≤ 512 * i + j) :
    ¬ ((off + c) % 512 ≤ j ∧ j < (off + c) % 512 + L) := by
  have h1 := Nat.div_add_mod (off + c) 512
  rw [← hidx] at h1
  generalize (off + c) % 512 = r at h1 ⊢
  omega

/-- One iteration of the write loop keeps every byte of the chain that lies outside the
range still to be written, when the block of that byte is inside the container. -/
theorem writeStep_keep (bl : List Nat) (hnd : bl.Nodup) (buf : Bytes) (off c L size b0 : Nat)
    (dev : BlockDevice) (buffer : Bytes) (hL : L ≤ size - c) (hc : c ≤ size)
    (hget : bl.get? ((off + c) / 512) = some b0) :
    ∀ i b j, bl.get? i = some b → b < dev.size → j < 512 →
      (512 * i + j < off + c ∨ off + size ≤ 512 * i + j) →
      (dev.write b0 (memcpy (dev.read b0 buffer).2 ((off + c) % 512) buf c L)).data b j
        = dev.data b j := by
  intro i b j hb hlt hj hpos
  by_cases hbb : b = b0
  · subst hbb
    have hidx := nodup_get?_inj hnd hb hget
    have hout := keep_arith hidx hL hc hpos
    simp only [BlockDevice.write, if_true, memcpy, BlockDevice.read, if_pos hlt, BLOCK_SIZE]
    rw [if_neg hout, if_pos hj]
  · rw [BlockDevice.write_data_other dev _ hbb hlt]

theorem writeLoop_keep (bl : List Nat) (hnd : bl.Nodup) (buf : Bytes) (size off : Nat)
    (hfit : off + size ≤ 512 * bl.length) (hbl : bl.length < 65536) :
    ∀ (n c : Nat) (dev : BlockDevice) (buffer : Bytes), c ≤ size → size - c < n →
      ∃ dev1, writeLoop bl buf size (off : Int) n ((off : Int) + (c : Int)) (c : Int) dev buffer
          = .ok dev1 ∧
        ∀ i b j, bl.get? i = some b → b < dev.size → j < 512 →
          (512 * i + j < off + c ∨ off + size ≤ 512 * i + j) → dev1.data b j = dev.data b j := by
  intro n
  induction n with
  | zero => intro c dev buffer hc hn; exact absurd hn (Nat.not_lt_zero _)
  | succ n ih =>
    intro c dev buffer hc hn
    rw [writeLoop]
    by_cases hlt : c < size
    · obtain ⟨e1, e2, hi0, hi1, e3⟩ := pos_facts hfit hbl hlt
      obtain ⟨hL1, hL2, hL3, hL4, e5, e6, e7⟩ := chunk_facts hfit hbl hlt
      have e4 := writeChunk_nat hfit hbl hlt
      obtain ⟨b0, hb, hget⟩ := blockAt_ok hi0 hi1
      rw [Int.toNat_ofNat] at hget
      have hstep := writeStep_keep bl hnd buf off c
        (min (512 - (off + c) % 512) (size - c)) size b0 dev buffer (min_le_right _ _) hc hget
      rw [e3, if_neg (not_not.mpr hlt)]
      simp only [e1, e2, e4, hb, e5, e6, e7, Int.toNat_ofNat]
      rw [if_neg, if_neg (Nat.pos_iff_ne_zero.mp hL1)]
      · obtain ⟨dev1, hr, hkeep⟩ := ih (c + min (512 - (off + c) % 512) (size - c))
          (dev.write b0 (memcpy (dev.read b0 buffer).2 ((off + c) % 512) buf c
            (min (512 - (off + c) % 512) (size - c))))
          (memcpy (dev.read b0 buffer).2 ((off + c) % 512) buf c
            (min (512 - (off + c) % 512) (size - c))) hL3
          (lt_of_lt_of_le hL4 (Nat.le_of_lt_succ hn))
        refine ⟨dev1, hr, ?_⟩
        intro i b j hbi hblt hj hpos
        have hsz : dev.size ≤ (dev.write b0 (memcpy (dev.read b0 buffer).2 ((off + c) % 512) buf c
            (min (512 - (off + c) % 512) (size - c)))).size := le_max_left _ _
        rw [hkeep i b j hbi (lt_of_lt_of_le hblt hsz) hj (by
          rcases hpos with h | h
          · exact Or.inl (lt_of_lt_of_le h (Nat.add_le_add_left (Nat.le_add_right c _) off))
          · exact Or.inr h)]
        exact hstep i b j hbi hblt hj hpos
      · simp only [BLOCK_SIZE]
        push_cast
        intro h
        rcases h with h | h | h | h
        · exact absurd h (not_lt.mpr (Int.ofNat_nonneg c))
        · exact absurd h (not_lt.mpr (Int.ofNat_nonneg _))
        · have : ((off + c) % 512 + min (512 - (off + c) % 512) (size - c) : Int) ≤ 512 := by
            exact_mod_cast hL2
          push_cast at this
          exact absurd h (not_lt.mpr this)
        · have : ((c + min (512 - (off + c) % 512) (size - c) : Nat) : Int) ≤ size := by
            exact_mod_cast hL3
          push_cast at this
          exact absurd h (not_lt.mpr this)
    · have e3 : toU64 (c : Int) = c := toU64_natCast (by omega)
      rw [e3, if_pos hlt]
      exact ⟨dev, rfl, fun _ _ _ _ _ _ _ => rfl⟩

theorem chain_ge {fs : FS} (hinv : Invariants fs) {i : Nat} (hi : i < 64) {b : Nat}
    (hb : b ∈ chainOf fs i) : 264 ≤ b ∧ b < 65536 := by
  have hc := hinv.chain_used i hi b hb
  refine ⟨?_, hc.1⟩
  by_contra hlt
  exact hc.2.2 (hinv.reserved b (by omega))

theorem free_ge {fs : FS} (hinv : Invariants fs) {b : Nat} (hf : fs.blt b = BLT_FREE) :
    264 ≤ b := by
  by_contra hlt
  have h := hinv.reserved b (by omega)
  rw [hf] at h
  exact absurd h (by decide)

theorem dev_step_frame (blt : Nat → Nat) (dev : BlockDevice) (heap : Bytes) (c : Prop)
    [Decidable c] :
    dev.size ≤ (if c then writeBlt blt dev heap else dev).size ∧
    ∀ b, 264 ≤ b → b < dev.size →
      (if c then writeBlt blt dev heap else dev).data b = dev.data b := by
  split
  · exact ⟨(writeBlt_size blt dev heap).1,
      fun b hb hlt => writeBlt_frame blt dev heap (Or.inr hb) hlt⟩
  · exact ⟨le_refl _, fun _ _ _ => rfl⟩

/-- A `fuseTruncate` that returns writes only table blocks: the container does not
shrink and every block from 264 on that it holds keeps its content. -/
theorem fuseTruncate_frame (fs : FS) (env : Env) (path : List Nat) (newSize : Int) (r : Int × FS)
    (hr : fuseTruncate fs env path newSize = .ok r) :
    fs.blockDevice.size ≤ r.2.blockDevice.size ∧
    ∀ b, 264 ≤ b → b < fs.blockDevice.size → r.2.blockDevice.data b = fs.blockDevice.data b := by
  by_cases hex : getFileIndex fs.fat path < 0
  · unfold fuseTruncate at hr
    dsimp only at hr
    rw [if_pos hex] at hr
    injection hr with hr
    subst hr
    exact ⟨le_refl _, fun _ _ _ => rfl⟩
  · by_cases hne : newSize = (fs.fat (getFileIndex fs.fat path).toNat).size
    · unfold fuseTruncate at hr
      dsimp only at hr
      rw [if_neg hex, if_pos hne] at hr
      injection hr with hr
      subst hr
      exact ⟨le_refl _, fun _ _ _ => rfl⟩
    · have hd := fuseTruncate_dev fs env path newSize r hex hne hr
      have hin : fs.blockDevice.size ≤
            (if newSize < (fs.fat (getFileIndex fs.fat path).toNat).size then
              (if ((fs.fat (getFileIndex fs.fat path).toNat).nrBlocks : Int) >
                  (toI64 (newSize + 512 - 1)).tdiv 512
                then writeBlt r.2.blt fs.blockDevice env.heap else fs.blockDevice)
            else
              (if (toI64 (newSize + 512 - 1)).tdiv 512 >
                  ((fs.fat (getFileIndex fs.fat path).toNat).nrBlocks : Int)
                then writeBlt r.2.blt fs.blockDevice env.heap else fs.blockDevice)).size ∧
          ∀ b, 264 ≤ b → b < fs.blockDevice.size →
            (if newSize < (fs.fat (getFileIndex fs.fat path).toNat).size then
              (if ((fs.fat (getFileIndex fs.fat path).toNat).nrBlocks : Int) >
                  (toI64 (newSize + 512 - 1)).tdiv 512
                then writeBlt r.2.blt fs.blockDevice env.heap else fs.blockDevice)
            else
              (if (toI64 (newSize + 512 - 1)).tdiv 512 >
                  ((fs.fat (getFileIndex fs.fat path).toNat).nrBlocks : Int)
                then writeBlt r.2.blt fs.blockDevice env.heap else fs.blockDevice)).data b
              = fs.blockDevice.data b := by
        split
        · exact dev_step_frame _ _ _ _
        · exact dev_step_frame _ _ _ _
      generalize (if newSize < (fs.fat (getFileIndex fs.fat path).toNat).size then
              (if ((fs.fat (getFileIndex fs.fat path).toNat).nrBlocks : Int) >
                  (toI64 (newSize + 512 - 1)).tdiv 512
                then writeBlt r.2.blt fs.blockDevice env.heap else fs.blockDevice)
            else
              (if (toI64 (newSize + 512 - 1)).tdiv 512 >
                  ((fs.fat (getFileIndex fs.fat path).toNat).nrBlocks : Int)
                then writeBlt r.2.blt fs.blockDevice env.heap else fs.blockDevice)) = D at hd hin
      rw [hd]
      refine ⟨le_trans hin.1 (writeFat_size _ _ _).1, fun b hb hlt => ?_⟩
      rw [writeFat_frame _ _ _ (by omega) (lt_of_lt_of_le hlt hin.1)]
      exact hin.2 b hb hlt

theorem grow_same_facts {m nr : Nat} {size : Int}
    (hsb : (nr : Int) = (size + 511) / 512) (hlt : size < (m : Int)) (hnr : nr < 65536)
    (hge : ¬ nr < (m + 511) / 512) :
    ¬ ((m : Int) = size) ∧ ¬ ((m : Int) < size) ∧
    (toI64 ((m : Int) + 512 - 1)).tdiv 512 = (((m + 511) / 512 : Nat) : Int) ∧
    (m + 511) / 512 = nr := by
  refine ⟨by omega, by omega, ?_, by omega⟩
  rw [toI64_of_range (by omega) (by omega), Int.tdiv_eq_ediv (by omega) (by norm_num)]
  omega

/-- The state after the `fuseTruncate` call inside a growing `fuseWrite`. -/
theorem write_grow_state (fs : FS) (env : Env) (path : List Nat) (m : Nat)
    (hinv : Invariants fs) (hex : 0 ≤ getFileIndex fs.fat path)
    (hlt : (fs.fat (getFileIndex fs.fat path).toNat).size < (m : Int))
    (hfree : HasFree fs.blt
      ((m + 511) / 512 - (fs.fat (getFileIndex fs.fat path).toNat).nrBlocks)) :
    ∃ s L, fuseTruncate fs env path (m : Int) = .ok (0, s) ∧
      (s.fat (getFileIndex fs.fat path).toNat).nrBlocks = (m + 511) / 512 ∧
      chainOf s (getFileIndex fs.fat path).toNat =
        chainOf fs (getFileIndex fs.fat path).toNat ++ L ∧
      (∀ b ∈ L, b < 65536 ∧ fs.blt b = BLT_FREE) ∧
      (chainOf s (getFileIndex fs.fat path).toNat).Nodup ∧
      (∀ b, b ∉ L → (chainOf fs (getFileIndex fs.fat path).toNat).getLast? ≠ some b →
        s.blt b = fs.blt b) ∧
      (∀ j, j ≠ (getFileIndex fs.fat path).toNat → s.fat j = fs.fat j) := by
  have hi := getFileIndex_lt hex
  by_cases hgt : (fs.fat (getFileIndex fs.fat path).toNat).nrBlocks < (m + 511) / 512
  · obtain ⟨s, L, h1, -, h3, h4, -, h6, h7, -, h9, -, h11⟩ :=
      truncate_grow_spec fs env path m hinv hex hgt hfree
    exact ⟨s, L, h1, h3, h4, h6.2.1, h7, h9, h11⟩
  · obtain ⟨f1, f2, f3, f4⟩ := grow_same_facts (hinv.size_blocks _ hi)
      hlt (hinv.fat_typed _ hi).nr_lt hgt
    have hs : truncateGrow fs env (fs.fat (getFileIndex fs.fat path).toNat)
        (((m + 511) / 512 : Nat) : Int) =
        .ok (fs.blt, fs.fat (getFileIndex fs.fat path).toNat, fs.blockDevice) := by
      unfold truncateGrow
      rw [if_neg (by omega)]
    obtain ⟨s, hres, hfat, hblt⟩ := fuseTruncate_of_grow fs env path m _ _ _ _ hex f1 f2 f3 hs
    refine ⟨s, [], hres, ?_, ?_, fun b hb => absurd hb (List.not_mem_nil _), ?_, ?_, ?_⟩
    · rw [hfat, store_same]
      exact f4.symm
    · rw [List.append_nil]
      unfold chainOf
      rw [hfat, store_same, hblt]
    · have : chainOf s (getFileIndex fs.fat path).toNat
          = chainOf fs (getFileIndex fs.fat path).toNat := by
        unfold chainOf
        rw [hfat, store_same, hblt]
      rw [this]
      exact hinv.chain_nodup _ hi
    · intro b _ _
      rw [hblt]
    · intro j hj
      rw [hfat, store_other _ _ hj]

/-- How `fuseWrite` is composed of the truncate call, the write loop and `writeFat`. -/
theorem fuseWrite_eq (fs : FS) (env : Env) (path : List Nat) (buf : Bytes) (n : Nat)
    (offset : Int) (fs1 : FS) (dev2 : BlockDevice)
    (hex : 0 ≤ getFileIndex fs.fat path) (h0 : 0 ≤ offset) (hb : offset + n < 2147483648)
    (hs0 : 0 ≤ (fs.fat (getFileIndex fs.fat path).toNat).size)
    (hs1 : (fs.fat (getFileIndex fs.fat path).toNat).size < 2147483648)
    (hgrow : (fs.fat (getFileIndex fs.fat path).toNat).size < offset + n →
      fuseTruncate fs env path (offset + n) = .ok (0, fs1))
    (hsame : ¬ (fs.fat (getFileIndex fs.fat path).toNat).size < offset + n → fs1 = fs)
    (hne : ¬ (fs1.fat (getFileIndex fs.fat path).toNat).nrBlocks = 0)
    (hw : writeLoop (chainFrom fs1.blt (fs1.fat (getFileIndex fs.fat path).toNat).startBlock
        (fs1.fat (getFileIndex fs.fat path).toNat).nrBlocks) buf n offset (n + 1) offset 0
        fs1.blockDevice env.heap = .ok dev2) :
    ∃ e2 : fatEntry, fuseWrite fs env path buf n offset = .ok ((n : Int),
        { fs1 with fat := store fs1.fat (getFileIndex fs.fat path).toNat e2
                   blockDevice := writeFat (store fs1.fat (getFileIndex fs.fat path).toNat e2)
                     dev2 env.heap }) ∧
      e2.startBlock = (fs1.fat (getFileIndex fs.fat path).toNat).startBlock ∧
      e2.nrBlocks = (fs1.fat (getFileIndex fs.fat path).toNat).nrBlocks := by
  have hneg : ¬ getFileIndex fs.fat path < 0 := not_lt.mpr hex
  have hn0 : (0 : Int) ≤ n := Int.ofNat_nonneg n
  have hx0 : 0 ≤ offset + n := add_nonneg h0 hn0
  have er : toI32 (n : Int) = n := toI32_of_range (by linarith) (by linarith)
  have eo : toI32 offset = offset := toI32_of_range (by linarith) (by linarith)
  have ecomm : (n : Int) + offset = offset + n := add_comm _ _
  have eu3 : toI64 (toU64 (offset + n) : Nat) = offset + n := toI64_toU64 hx0 (by linarith)
  have hcmp : toU64 (fs.fat (getFileIndex fs.fat path).toNat).size < toU64 (offset + n) ↔
      (fs.fat (getFileIndex fs.fat path).toNat).size < offset + n :=
    toU64_lt_iff hs0 (by linarith) hx0 (by linarith)
  unfold fuseWrite
  simp only [ecomm, eu3, er, eo, gt_iff_lt, hcmp]
  rw [if_neg hneg]
  by_cases hg : (fs.fat (getFileIndex fs.fat path).toNat).size < offset + n
  · rw [if_pos hg]
    simp only [hgrow hg, hw, hne, if_false]
    exact ⟨_, rfl, rfl, rfl⟩
  · rw [if_neg hg]
    have := hsame hg
    subst this
    simp only [hw, hne, if_false]
    exact ⟨_, rfl, rfl, rfl⟩

theorem write_fit_grow {off n nr : Nat} (hk : nr = (off + n + 511) / 512) (hcap : nr ≤ 65272) :
    off + n ≤ 512 * nr ∧ nr < 65536 ∧ ((off : Int) + (n : Int) < 2147483648) := by
  omega

theorem write_fit_same {off n nr : Nat} {size : Int} (hsb : (nr : Int) = (size + 511) / 512)
    (hnr : nr ≤ 65272) (hle : ¬ size < (off : Int) + (n : Int)) :
    off + n ≤ 512 * nr ∧ ((off : Int) + (n : Int) < 2147483648) := by
  omega

theorem size_bound {nr : Nat} {size : Int} (hsb : (nr : Int) = (size + 511) / 512)
    (hnr : nr ≤ 65272) : size < 2147483648 := by
  omega

theorem getLast?_mem {l : List Nat} {b : Nat} (h : l.getLast? = some b) : b ∈ l := by
  cases l with
  | nil => simp at h
  | cons x xs =>
    rw [List.getLast?_eq_getLast _ (List.cons_ne_nil _ _)] at h
    rw [← Option.some.inj h]
    exact List.getLast_mem _

/-- The state in which the write loop of `fuseWrite` starts. -/
theorem write_pre (fs : FS) (env : Env) (path : List Nat) (n off : Nat)
    (hinv : Invariants fs) (hex : 0 ≤ getFileIndex fs.fat path)
    (hfree : HasFree fs.blt
      ((off + n + 511) / 512 - (fs.fat (getFileIndex fs.fat path).toNat).nrBlocks)) :
    ∃ fs1 L,
      ((fs.fat (getFileIndex fs.fat path).toNat).size < (off : Int) + (n : Int) →
        fuseTruncate fs env path ((off : Int) + (n : Int)) = .ok (0, fs1)) ∧
      (¬ (fs.fat (getFileIndex fs.fat path).toNat).size < (off : Int) + (n : Int) → fs1 = fs) ∧
      chainOf fs1 (getFileIndex fs.fat path).toNat =
        chainOf fs (getFileIndex fs.fat path).toNat ++ L ∧
      (∀ b ∈ L, b < 65536 ∧ fs.blt b = BLT_FREE) ∧
      (chainOf fs1 (getFileIndex fs.fat path).toNat).Nodup ∧
      (∀ b, b ∉ L → (chainOf fs (getFileIndex fs.fat path).toNat).getLast? ≠ some b →
        fs1.blt b = fs.blt b) ∧
      (∀ j, j ≠ (getFileIndex fs.fat path).toNat → fs1.fat j = fs.fat j) ∧
      off + n ≤ 512 * (fs1.fat (getFileIndex fs.fat path).toNat).nrBlocks ∧
      (fs1.fat (getFileIndex fs.fat path).toNat).nrBlocks < 65536 ∧
      (off : Int) + (n : Int) < 2147483648 ∧
      fs.blockDevice.size ≤ fs1.blockDevice.size ∧
      (∀ b, 264 ≤ b → b < fs.blockDevice.size →
        fs1.blockDevice.data b = fs.blockDevice.data b) := by
  have hi := getFileIndex_lt hex
  have hcnt := hinv.blocks_le hi hfree
  by_cases hg : (fs.fat (getFileIndex fs.fat path).toNat).size < (off : Int) + (n : Int)
  · have hg2 : (fs.fat (getFileIndex fs.fat path).toNat).size < ((off + n : Nat) : Int) := by
      rw [Nat.cast_add]; exact hg
    obtain ⟨s, L, h1, h2, h3, h4, h5, h6, h7⟩ :=
      write_grow_state fs env path (off + n) hinv hex hg2 hfree
    rw [Nat.cast_add] at h1
    have hge : (fs.fat (getFileIndex fs.fat path).toNat).nrBlocks ≤ (off + n + 511) / 512 := by
      have hl1 := chainFrom_length s.blt (s.fat (getFileIndex fs.fat path).toNat).nrBlocks
        (s.fat (getFileIndex fs.fat path).toNat).startBlock
      have hl2 := chainFrom_length fs.blt (fs.fat (getFileIndex fs.fat path).toNat).nrBlocks
        (fs.fat (getFileIndex fs.fat path).toNat).startBlock
      have hl := congrArg List.length h3
      unfold chainOf at hl
      rw [List.length_append, hl1, hl2, h2] at hl
      omega
    obtain ⟨a1, a2, a3⟩ := write_fit_grow h2 (by omega)
    obtain ⟨d1, d2⟩ := fuseTruncate_frame fs env path _ _ h1
    exact ⟨s, L, fun _ => h1, fun h => absurd hg h, h3, h4, h5, h6, h7, a1, a2, a3, d1, d2⟩
  · obtain ⟨a1, a3⟩ := write_fit_same (hinv.size_blocks _ hi) (by omega) hg
    refine ⟨fs, [], fun h => absurd h hg, fun _ => rfl, (List.append_nil _).symm,
      fun b hb => absurd hb (List.not_mem_nil _), hinv.chain_nodup _ hi, fun _ _ _ => rfl,
      fun _ _ => rfl, a1, (hinv.fat_typed _ hi).nr_lt, a3, le_refl _, fun _ _ _ => rfl⟩

theorem block_pos {nr1 nr l off n : Nat} (hl : nr1 = nr + l) (hfit : off + n ≤ 512 * nr1)
    (hpos : nr ≠ 0 ∨ 0 < off + n) : ¬ nr1 = 0 := by
  omega

/-- What a `fuseWrite` changes: the chain of the file grows by FREE blocks; every byte
of the old chain outside the written range keeps its value when its block lies inside
the container; no block from 264 on outside the chain changes; the chains of the other
files stay as they are. -/
theorem fuseWrite_frame (fs : FS) (env : Env) (path : List Nat) (buf : Bytes) (n off : Nat)
    (hinv : Invariants fs) (hex : 0 ≤ getFileIndex fs.fat path)
    (hpos : (fs.fat (getFileIndex fs.fat path).toNat).nrBlocks ≠ 0 ∨ 0 < off + n)
    (hfree : HasFree fs.blt
      ((off + n + 511) / 512 - (fs.fat (getFileIndex fs.fat path).toNat).nrBlocks)) :
    ∃ fs' L, fuseWrite fs env path buf n (off : Int) = .ok ((n : Int), fs') ∧
      chainOf fs' (getFileIndex fs.fat path).toNat =
        chainOf fs (getFileIndex fs.fat path).toNat ++ L ∧
      (∀ b ∈ L, 264 ≤ b ∧ b < 65536 ∧ fs.blt b = BLT_FREE) ∧
      off + n ≤ 512 * (chainOf fs' (getFileIndex fs.fat path).toNat).length ∧
      (∀ i b j, (chainOf fs (getFileIndex fs.fat path).toNat).get? i = some b →
        b < fs.blockDevice.size → j < 512 → (512 * i + j < off ∨ off + n ≤ 512 * i + j) →
        fs'.blockDevice.data b j = fs.blockDevice.data b j) ∧
      (∀ b, 264 ≤ b → b ∉ chainOf fs' (getFileIndex fs.fat path).toNat →
        b < fs.blockDevice.size → fs'.blockDevice.data b = fs.blockDevice.data b) ∧
      (∀ j, j < 64 → j ≠ (getFileIndex fs.fat path).toNat → chainOf fs' j = chainOf fs j) := by
  have hi := getFileIndex_lt hex
  have hcnt := hinv.blocks_le hi hfree
  obtain ⟨fs1, L, hgrow, hsame, hchain, hL, hnd1, hblt, hfat, hfit, hnr1, hb31, hdsz, hdfr⟩ :=
    write_pre fs env path n off hinv hex hfree
  have hlen := chainFrom_length fs1.blt (fs1.fat (getFileIndex fs.fat path).toNat).nrBlocks
    (fs1.fat (getFileIndex fs.fat path).toNat).startBlock
  obtain ⟨dev2, hw, hkeep⟩ := writeLoop_keep
    (chainFrom fs1.blt (fs1.fat (getFileIndex fs.fat path).toNat).startBlock
      (fs1.fat (getFileIndex fs.fat path).toNat).nrBlocks) hnd1 buf n off
    (by rw [hlen]; exact hfit) (by rw [hlen]; exact hnr1) (n + 1) 0 fs1.blockDevice env.heap
    (Nat.zero_le _) (by omega)
  simp only [Nat.cast_zero, add_zero] at hw
  obtain ⟨hsz2, hfr2⟩ := writeLoop_frame _ _ _ _ _ _ _ _ _ _ hw
  have hne1 : ¬ (fs1.fat (getFileIndex fs.fat path).toNat).nrBlocks = 0 := by
    have hl := congrArg List.length hchain
    unfold chainOf at hl
    rw [List.length_append, hlen, chainFrom_length] at hl
    exact block_pos hl hfit hpos
  obtain ⟨e2, hres, he2s, he2n⟩ := fuseWrite_eq fs env path buf n (off : Int) fs1 dev2 hex
    (Int.ofNat_nonneg _) hb31 (hinv.size_nonneg _ hi)
    (size_bound (hinv.size_blocks _ hi) (by omega)) hgrow hsame hne1 hw
  have hch' : chainOf { fs1 with
        fat := store fs1.fat (getFileIndex fs.fat path).toNat e2
        blockDevice := writeFat (store fs1.fat (getFileIndex fs.fat path).toNat e2)
          dev2 env.heap } (getFileIndex fs.fat path).toNat =
      chainOf fs1 (getFileIndex fs.fat path).toNat := by
    unfold chainOf
    dsimp only
    rw [store_same, he2s, he2n]
  refine ⟨_, L, hres, ?_, ?_, ?_, ?_, ?_, ?_⟩
  · rw [hch', hchain]
  · intro b hb
    exact ⟨free_ge hinv (hL b hb).2, hL b hb⟩
  · rw [hch']
    unfold chainOf
    rw [hlen]
    exact hfit
  · intro i b j hget hlt hj hpos
    have hmem : b ∈ chainOf fs (getFileIndex fs.fat path).toNat := List.get?_mem hget
    have h264 := (chain_ge hinv hi hmem).1
    have hget1 : (chainOf fs1 (getFileIndex fs.fat path).toNat).get? i = some b := by
      rw [hchain, List.get?_eq_getElem?]
      rw [List.get?_eq_getElem?] at hget
      have hil : i < (chainOf fs (getFileIndex fs.fat path).toNat).length := by
        by_contra h
        rw [List.getElem?_eq_none (by omega)] at hget
        exact absurd hget (by simp)
      rw [List.getElem?_append_left hil]
      exact hget
    have hlt1 : b < fs1.blockDevice.size := lt_of_lt_of_le hlt hdsz
    show (writeFat _ dev2 env.heap).data b j = fs.blockDevice.data b j
    rw [writeFat_frame _ _ _ (by omega) (lt_of_lt_of_le hlt1 hsz2)]
    rw [hkeep i b j hget1 hlt1 hj hpos, hdfr b h264 hlt]
  · intro b h264 hnot hlt
    rw [hch'] at hnot
    have hlt1 : b < fs1.blockDevice.size := lt_of_lt_of_le hlt hdsz
    show (writeFat _ dev2 env.heap).data b = fs.blockDevice.data b
    rw [writeFat_frame _ _ _ (by omega) (lt_of_lt_of_le hlt1 hsz2), hfr2 b hnot hlt1,
      hdfr b h264 hlt]
  · intro j hj hne
    show chainFrom fs1.blt
        ((store fs1.fat (getFileIndex fs.fat path).toNat e2) j).startBlock
        ((store fs1.fat (getFileIndex fs.fat path).toNat e2) j).nrBlocks = chainOf fs j
    rw [store_other _ _ hne, hfat j hne]
    apply chainFrom_congr
    intro b hb
    have hmem : b ∈ chainOf fs j := by
      unfold chainOf
      rw [← chainFrom_take fs.blt (fs.fat j).nrBlocks ((fs.fat j).nrBlocks - 1)
        (fs.fat j).startBlock (Nat.sub_le _ _)] at hb
      exact List.mem_of_mem_take hb
    apply hblt
    · intro hbL
      exact (hinv.chain_used j hj b hmem).2.1 (hL b hbL).2
    · intro hlast
      exact hinv.chain_excl j _ hj hi hne b hmem (getLast?_mem hlast)

theorem storedVolume_invariants : Invariants storedVolume :=
  { fat_typed := sampleVolume_invariants.fat_typed
    blt_typed := sampleVolume_invariants.blt_typed
    name_unique := sampleVolume_invariants.name_unique
    chain_nodup := sampleVolume_invariants.chain_nodup
    chain_end := sampleVolume_invariants.chain_end
    chain_used := sampleVolume_invariants.chain_used
    chain_excl := sampleVolume_invariants.chain_excl
    unchained_free := sampleVolume_invariants.unchained_free
    reserved := sampleVolume_invariants.reserved
    size_nonneg := sampleVolume_invariants.size_nonneg
    size_blocks := sampleVolume_invariants.size_blocks
    unused_zero := sampleVolume_invariants.unused_zero }

theorem blockAt_lt {l : List Nat} {i : Int} {b : Nat} (h : blockAt l i = .ok b) :
    0 ≤ i ∧ i < (l.length : Int) := by
  unfold blockAt at h
  split at h
  · simp at h
  · rename_i h0
    split at h
    · rename_i c hc
      have hlt : i.toNat < l.length := by
        by_contra hge
        rw [List.get?_eq_none.mpr (by omega)] at hc
        simp at hc
      omega
    · simp at h

theorem fuseRead_ok (fs : FS) (env : Env) (path : List Nat) (buf : Bytes) (size : Nat)
    (offset : Int) (hinv : Invariants fs) (hex : 0 ≤ getFileIndex fs.fat path)
    (hne : (fs.fat (getFileIndex fs.fat path).toNat).nrBlocks ≠ 0)
    (hbuf : size < 9223372036854775808) (h0 : 0 ≤ offset)
    (h1 : offset ≤ (fs.fat (getFileIndex fs.fat path).toNat).size) :
    ∃ out fs', fuseRead fs env path buf size offset =
      .ok (min (size : Int) ((fs.fat (getFileIndex fs.fat path).toNat).size - offset), out, fs') := by
  have hi := getFileIndex_lt hex
  have ht := hinv.fat_typed _ hi
  have hsb := hinv.size_blocks _ hi
  have hnr := ht.nr_lt
  unfold fuseRead
  simp only []
  rw [if_neg (by omega), if_neg hne]
  obtain ⟨out, flag, h⟩ := readLoop_length (fs.fat (getFileIndex fs.fat path).toNat).size
    (chainFrom fs.blt (fs.fat (getFileIndex fs.fat path).toNat).startBlock
      (fs.fat (getFileIndex fs.fat path).toNat).nrBlocks) fs.blockDevice size offset h0
    (by rw [chainFrom_length]; omega) (by rw [chainFrom_length]; exact hnr) hbuf
    (size + 1) 0 buf env.heap (le_refl _) (by omega) (by omega) (by omega)
  rw [add_zero] at h
  rw [toI32_of_range (by omega) (by omega), h]
  cases flag
  · exact ⟨out, _, rfl⟩
  · exact ⟨out, _, rfl⟩

/-- Data I/O stays inside the chain of the file when the file has a block: in every
state that satisfies the invariants, a `fuseRead` on a file with at least one block at
an offset from 0 to the file size, and a `fuseWrite` of `n >= 1` bytes at an offset from
0 on, with enough FREE blocks, return without a fault, so each index into the chain
list was below the block count; every block number the list yields, before the call and
after the write, is a block of the chain of the file and lies from 264 to 65535; and
the write changes no block from 264 on outside that chain. -/
theorem data_io_in_chain (fs : FS) (env : Env) (path : List Nat) (rbuf wbuf : Bytes)
    (size roff n woff : Nat) (hinv : Invariants fs) (hex : 0 ≤ getFileIndex fs.fat path)
    (hne : (fs.fat (getFileIndex fs.fat path).toNat).nrBlocks ≠ 0)
    (hbuf : size < 9223372036854775808)
    (h1 : (roff : Int) ≤ (fs.fat (getFileIndex fs.fat path).toNat).size)
    (hfree : HasFree fs.blt
      ((woff + n + 511) / 512 - (fs.fat (getFileIndex fs.fat path).toNat).nrBlocks)) :
    (∃ out fs', fuseRead fs env path rbuf size (roff : Int) =
      .ok (min (size : Int) ((fs.fat (getFileIndex fs.fat path).toNat).size - roff), out, fs')) ∧
    (∀ i b, blockAt (chainOf fs (getFileIndex fs.fat path).toNat) i = .ok b →
      0 ≤ i ∧ i < ((fs.fat (getFileIndex fs.fat path).toNat).nrBlocks : Int) ∧
      b ∈ chainOf fs (getFileIndex fs.fat path).toNat ∧ 264 ≤ b ∧ b < 65536) ∧
    (∃ fs', fuseWrite fs env path wbuf n (woff : Int) = .ok ((n : Int), fs') ∧
      (∀ i b, blockAt (chainOf fs' (getFileIndex fs.fat path).toNat) i = .ok b →
        0 ≤ i ∧ i < ((fs'.fat (getFileIndex fs.fat path).toNat).nrBlocks : Int) ∧
        b ∈ chainOf fs' (getFileIndex fs.fat path).toNat ∧ 264 ≤ b ∧ b < 65536) ∧
      (∀ b, 264 ≤ b → b ∉ chainOf fs' (getFileIndex fs.fat path).toNat →
        b < fs.blockDevice.size → fs'.blockDevice.data b = fs.blockDevice.data b)) := by
  have hi := getFileIndex_lt hex
  refine ⟨fuseRead_ok fs env path rbuf size roff hinv hex hne hbuf (Int.ofNat_nonneg _) h1, ?_, ?_⟩
  · intro i b hb
    have hlt := blockAt_lt hb
    have hmem := blockAt_mem hb
    have hlen : (chainOf fs (getFileIndex fs.fat path).toNat).length
        = (fs.fat (getFileIndex fs.fat path).toNat).nrBlocks := chainFrom_length _ _ _
    rw [hlen] at hlt
    exact ⟨hlt.1, hlt.2, hmem, chain_ge hinv hi hmem⟩
  · obtain ⟨fs', L, hres, hchain, hL, -, -, hframe, -⟩ :=
      fuseWrite_frame fs env path wbuf n woff hinv hex (Or.inl hne) hfree
    refine ⟨fs', hres, ?_, hframe⟩
    intro i b hb
    have hlt := blockAt_lt hb
    have hmem := blockAt_mem hb
    have hlen : (chainOf fs' (getFileIndex fs.fat path).toNat).length
        = (fs'.fat (getFileIndex fs.fat path).toNat).nrBlocks := chainFrom_length _ _ _
    rw [hlen] at hlt
    refine ⟨hlt.1, hlt.2, hmem, ?_⟩
    rw [hchain, List.mem_append] at hmem
    rcases hmem with h | h
    · exact chain_ge hinv hi h
    · exact ⟨(hL b h).1, (hL b h).2.1⟩

theorem data_io_in_chain_witness :
    Invariants storedVolume ∧ 0 ≤ getFileIndex storedVolume.fat [47, 97] ∧
    ((2 : Nat) : Int) ≤ (storedVolume.fat (getFileIndex storedVolume.fat [47, 97]).toNat).size ∧
    (∃ out fs', fuseRead storedVolume sampleEnv [47, 97] (fun _ => 0) 10 ((2 : Nat) : Int) =
      .ok (min ((10 : Nat) : Int)
        ((storedVolume.fat (getFileIndex storedVolume.fat [47, 97]).toNat).size - ((2 : Nat) : Int)),
        out, fs')) ∧
    ∃ fs', fuseWrite storedVolume sampleEnv [47, 97] (arrBytes [104]) 1 ((600 : Nat) : Int)
      = .ok (((1 : Nat) : Int), fs') :=
  have h1 : 0 ≤ getFileIndex storedVolume.fat [47, 97] := by decide
  have h2 : ((2 : Nat) : Int) ≤
      (storedVolume.fat (getFileIndex storedVolume.fat [47, 97]).toNat).size := by decide
  have h3 : HasFree storedVolume.blt
      ((600 + 1 + 511) / 512 -
        (storedVolume.fat (getFileIndex storedVolume.fat [47, 97]).toNat).nrBlocks) :=
    ⟨[265], by simp, by decide!, by
      intro b hb
      simp only [List.mem_singleton] at hb
      subst hb
      exact ⟨by decide, rfl⟩⟩
  have h := data_io_in_chain storedVolume sampleEnv [47, 97] (fun _ => 0) (arrBytes [104])
    10 2 1 600 storedVolume_invariants h1 (by decide) (by decide) h2 h3
  ⟨storedVolume_invariants, h1, h2, h.1,
    match h.2.2 with
    | ⟨fs', hw, _⟩ => ⟨fs', hw⟩⟩

theorem emptyFileVolume_fat (i : Nat) :
    emptyFileVolume.fat i = if i = 0 then emptyFile else emptyEntry sampleEnv := rfl

theorem emptyFileVolume_blt (b : Nat) :
    emptyFileVolume.blt b =
      if b < 65536 then (if b < 264 then BLT_RSV else BLT_FREE) else 0 := rfl

theorem emptyFile_typed : emptyFile.Typed := by
  constructor <;> simp [emptyFile, sampleFile, MAX_NAME_LENGTH] <;> decide

theorem emptyFileVolume_chain (i : Nat) : chainOf emptyFileVolume i = [] := by
  unfold chainOf
  rw [emptyFileVolume_fat]
  split <;> rfl

theorem emptyFileVolume_invariants : Invariants emptyFileVolume := by
  constructor
  · intro i _
    rw [emptyFileVolume_fat]
    split
    · exact emptyFile_typed
    · exact emptyEntry_typed _ (by decide) (by decide)
  · intro b hb
    rw [emptyFileVolume_blt]
    simp only [BLT_RSV, BLT_FREE]
    split_ifs <;> omega
  · intro i j _ _ hi hj _
    rw [emptyFileVolume_fat] at hi hj
    split at hi
    · split at hj
      · omega
      · exact absurd hj (by decide)
    · exact absurd hi (by decide)
  · intro i _
    rw [emptyFileVolume_chain]
    simp
  · intro i _ b hb
    rw [emptyFileVolume_chain] at hb
    simp at hb
  · intro i _ b hb
    rw [emptyFileVolume_chain] at hb
    simp at hb
  · intro i j _ _ hij b hb
    rw [emptyFileVolume_chain] at hb
    simp at hb
  · intro b h1 h2 h
    rw [emptyFileVolume_blt, if_pos h2, if_neg (by omega)]
  · intro b hb
    rw [emptyFileVolume_blt, if_pos (by omega), if_pos hb]
  · intro i _
    rw [emptyFileVolume_fat]
    split <;> decide
  · intro i _
    rw [emptyFileVolume_fat]
    split <;> decide
  · intro i _ hi
    rw [emptyFileVolume_fat] at hi ⊢
    split at hi
    · exact absurd hi (by decide)
    · rw [if_neg (by assumption)]
      simp [emptyEntry]

/-- C3. Write of nothing to an empty file: on a volume satisfying the
invariants whose file `/a` has no block and size 0 (the state `fuseMknod` leaves), a
write of `n = 0` bytes at offset 0 has no defined result, where the claim has it return
`n`: `fuseWrite` stores `blockList[0] = startBlock` into an array of `nrBlocks = 0`
elements.  The same holds for the call sequence create, write on the newly formatted
volume. -/
theorem write_nothing_to_empty_file :
    Invariants emptyFileVolume ∧ getFileIndex emptyFileVolume.fat [47, 97] = 0 ∧
    (emptyFileVolume.fat 0).nrBlocks = 0 ∧ (emptyFileVolume.fat 0).size = 0 ∧
    HasFree emptyFileVolume.blt 0 ∧
    fault (fuseWrite emptyFileVolume sampleEnv [47, 97] (fun _ => 7) 0 0)
      = some Fault.outOfBounds ∧
    returned (fuseWrite emptyFileVolume sampleEnv [47, 97] (fun _ => 7) 0 0) = none ∧
    fault (run (fuseInit blankFS sampleEnv none)
      [(sampleEnv, .mknod [47, 97] 0o100644), (sampleEnv, .write [47, 97] [] 0)])
      = some Fault.outOfBounds :=
  ⟨emptyFileVolume_invariants, by decide!, by decide!, by decide!,
    ⟨[], List.nodup_nil, le_refl _, fun _ h => absurd h (List.not_mem_nil _)⟩,
    by decide!, by decide!, by decide!⟩

/-- C4. Read of an empty file: on a volume satisfying the invariants whose
file `/a` has no block and size 0, `fuseRead` with `size = 10` and `offset = 0`
(so `0 ≤ offset ≤ file.size`) has no defined result, where the claim has it return
`min(10, 0 - 0) = 0`: `fuseRead` stores `blockList[0] = startBlock` into an array of
`nrBlocks = 0` elements.  The same holds for the call sequence create, read on the newly
formatted volume. -/
theorem read_empty_file :
    Invariants emptyFileVolume ∧ getFileIndex emptyFileVolume.fat [47, 97] = 0 ∧
    (emptyFileVolume.fat 0).nrBlocks = 0 ∧ (emptyFileVolume.fat 0).size = 0 ∧
    fault (fuseRead emptyFileVolume sampleEnv [47, 97] (fun _ => 0) 10 0)
      = some Fault.outOfBounds ∧
    (∀ r, fuseRead emptyFileVolume sampleEnv [47, 97] (fun _ => 0) 10 0 ≠ .ok r) ∧
    fault (run (fuseInit blankFS sampleEnv none)
      [(sampleEnv, .mknod [47, 97] 0o100644), (sampleEnv, .read [47, 97] 10 0)])
      = some Fault.outOfBounds :=
  ⟨emptyFileVolume_invariants, by decide!, by decide!, by decide!, by decide!,
    fun r h => by
      have h1 : fault (fuseRead emptyFileVolume sampleEnv [47, 97] (fun _ => 0) 10 0)
          = some Fault.outOfBounds := by decide!
      rw [h] at h1
      exact absurd h1 (by simp [fault]),
    by decide!⟩

/-- C39. Data-block I/O outside the chain: in every state, for every file that is
found and whose block count is 0 (its chain is empty), every `fuseRead`, whatever the
buffer, the size and the offset, indexes the block list at position 0, which is not
below the block count: the store `blockList[0] = startBlock` falls outside the array of
0 elements and the call has no defined result.  On a volume that satisfies the
invariants this is every read of an empty file, where `0 ≤ offset ≤ file.size` holds
for `offset = 0`. -/
theorem empty_chain_indexed (fs : FS) (env : Env) (path : List Nat)
    (hex : 0 ≤ getFileIndex fs.fat path)
    (hnr : (fs.fat (getFileIndex fs.fat path).toNat).nrBlocks = 0) :
    chainOf fs (getFileIndex fs.fat path).toNat = [] ∧
    ∀ buf size offset, fuseRead fs env path buf size offset = .error .outOfBounds := by
  have hneg : ¬ getFileIndex fs.fat path < 0 := not_lt.mpr hex
  refine ⟨?_, ?_⟩
  · unfold chainOf
    rw [hnr]
    rfl
  · intro buf size offset
    unfold fuseRead
    simp only [if_neg hneg, if_pos hnr]

theorem empty_chain_indexed_witness :
    Invariants emptyFileVolume ∧ 0 ≤ getFileIndex emptyFileVolume.fat [47, 97] ∧
    (emptyFileVolume.fat (getFileIndex emptyFileVolume.fat [47, 97]).toNat).nrBlocks = 0 ∧
    (emptyFileVolume.fat (getFileIndex emptyFileVolume.fat [47, 97]).toNat).size = 0 ∧
    (chainOf emptyFileVolume (getFileIndex emptyFileVolume.fat [47, 97]).toNat = [] ∧
    ∀ buf size offset,
      fuseRead emptyFileVolume sampleEnv [47, 97] buf size offset = .error .outOfBounds) :=
  ⟨emptyFileVolume_invariants, by decide!, by decide!, by decide!,
    empty_chain_indexed emptyFileVolume sampleEnv [47, 97] (by decide!) (by decide!)⟩

theorem strcmpFrom_append : ∀ (f r name : List Nat), 0 ∈ f →
    strcmpFrom (f ++ r) name = strcmpFrom f name
  | [], _, _, h => absurd h (List.not_mem_nil _)
  | _ :: _, _, [], _ => rfl
  | c :: cs, r, d :: ds, h => by
    simp only [List.cons_append, strcmpFrom]
    by_cases h1 : c = d
    · rw [if_pos h1, if_pos h1]
      by_cases h2 : c = 0
      · rw [if_pos h2, if_pos h2]
      · rw [if_neg h2, if_neg h2]
        have h0 : 0 ∈ cs := by
          rcases List.mem_cons.mp h with h0 | h0
          · exact absurd h0.symm h2
          · exact h0
        exact strcmpFrom_append cs r ds h0
    · rw [if_neg h1, if_neg h1]

theorem cstr_cons (c : Nat) (cs : List Nat) :
    cstr (c :: cs) = if c = 0 then [] else c :: cstr cs := by
  unfold cstr
  by_cases h : c = 0
  · simp [h]
  · simp [h]

theorem strcmpFrom_cstr : ∀ (f name : List Nat), 0 ∈ f → (∀ c ∈ name, c ≠ 0) →
    strcmpFrom f name = .ok (decide (cstr f = name))
  | [], _, h, _ => absurd h (List.not_mem_nil _)
  | c :: cs, [], _, _ => by
    rw [strcmpFrom, cstr_cons]
    by_cases h : c = 0
    · simp [h]
    · simp [h]
  | c :: cs, d :: ds, h, hn => by
    have hd : d ≠ 0 := hn d (List.mem_cons_self _ _)
    rw [strcmpFrom, cstr_cons]
    by_cases h1 : c = d
    · have h2 : c ≠ 0 := by rw [h1]; exact hd
      have h0 : 0 ∈ cs := by
        rcases List.mem_cons.mp h with h0 | h0
        · exact absurd h0.symm h2
        · exact h0
      rw [if_pos h1, if_neg h2, if_neg h2,
        strcmpFrom_cstr cs ds h0 (fun x hx => hn x (List.mem_cons_of_mem _ hx))]
      simp [h1]
    · rw [if_neg h1]
      by_cases h2 : c = 0
      · simp [h2]
      · simp [h2, h1]

theorem cstr_append : ∀ (f r : List Nat), 0 ∈ f → cstr (f ++ r) = cstr f
  | [], _, h => absurd h (List.not_mem_nil _)
  | c :: cs, r, h => by
    rw [List.cons_append, cstr_cons, cstr_cons]
    by_cases h2 : c = 0
    · rw [if_pos h2, if_pos h2]
    · rw [if_neg h2, if_neg h2]
      have h0 : 0 ∈ cs := by
        rcases List.mem_cons.mp h with h0 | h0
        · exact absurd h0.symm h2
        · exact h0
      rw [cstr_append cs r h0]

theorem bytesFromName_eq (e : fatEntry) : ∃ r, e.bytesFromName = e.filename ++ r := by
  unfold fatEntry.bytesFromName
  simp only [List.append_assoc]
  exact ⟨_, rfl⟩

theorem mem_bytesFromName {e : fatEntry} (h : 0 ∈ e.filename) : 0 ∈ e.bytesFromName := by
  obtain ⟨r, hr⟩ := bytesFromName_eq e
  rw [hr]
  exact List.mem_append_left _ h

theorem cstr_bytesFromName {e : fatEntry} (h : 0 ∈ e.filename) :
    cstr e.bytesFromName = cstr e.filename := by
  obtain ⟨r, hr⟩ := bytesFromName_eq e
  rw [hr]
  exact cstr_append _ _ h

theorem strcmp_bytesFromName {e : fatEntry} (name : List Nat) (h : 0 ∈ e.filename)
    (hn : ∀ c ∈ name, c ≠ 0) :
    strcmpFrom e.bytesFromName name = .ok (decide (cstr e.filename = name)) := by
  obtain ⟨r, hr⟩ := bytesFromName_eq e
  rw [hr, strcmpFrom_append _ _ _ h]
  exact strcmpFrom_cstr _ _ h hn

theorem getFileIndexBytewiseFrom_eq (fat : Nat → fatEntry) (name : List Nat)
    (hn : ∀ c ∈ name, c ≠ 0) : ∀ n i, (∀ k, i ≤ k → k < i + n → 0 ∈ (fat k).filename) →
    getFileIndexBytewiseFrom fat name n i = .ok (getFileIndexFrom fat name n i) := by
  intro n
  induction n with
  | zero => intro i _; rfl
  | succ n ih =>
    intro i h
    rw [getFileIndexBytewiseFrom, getFileIndexFrom,
      strcmp_bytesFromName name (h i (le_refl _) (by omega)) hn]
    by_cases hc : cstr (fat i).filename = name
    · simp only [hc, decide_True, if_true]
    · simp only [hc, decide_False, if_false]
      exact ih (i + 1) (fun k h1 h2 => h k (by omega) (by omega))

/-- On a table whose name fields each hold a zero byte, the byte-by-byte lookup of a path
without NUL characters has a result, and the result is `getFileIndex`. -/
theorem getFileIndexBytewise_eq (fat : Nat → fatEntry) (path : List Nat)
    (hnul : NulTerminated fat) (hp : ∀ c ∈ path, c ≠ 0) :
    getFileIndexBytewise fat path = .ok (getFileIndex fat path) := by
  unfold getFileIndexBytewise getFileIndex
  exact getFileIndexBytewiseFrom_eq fat _ (fun c hc => hp c (List.mem_of_mem_drop hc)) 64 0
    (fun k _ hk => hnul k (by omega))

theorem fuseMknodBytewise_eq (fs : FS) (env : Env) (path : List Nat) (mode : Nat)
    (hnul : NulTerminated fs.fat) (hp : ∀ c ∈ path, c ≠ 0) :
    fuseMknodBytewise fs env path mode = .ok (fuseMknod fs env path mode) := by
  unfold fuseMknodBytewise fuseMknod
  rw [getFileIndexBytewise_eq fs.fat path hnul hp]
  dsimp only
  split
  · rfl
  · split
    · rfl
    · split <;> rfl

theorem fuseUnlinkBytewise_eq (fs : FS) (env : Env) (path : List Nat)
    (hnul : NulTerminated fs.fat) (hp : ∀ c ∈ path, c ≠ 0) :
    fuseUnlinkBytewise fs env path = .ok (fuseUnlink fs env path) := by
  unfold fuseUnlinkBytewise fuseUnlink
  rw [getFileIndexBytewise_eq fs.fat path hnul hp]
  dsimp only
  split <;> rfl

theorem readdirFrom_eq (fat : Nat → fatEntry) : ∀ n i,
    (∀ k, i ≤ k → k < i + n → 0 ∈ (fat k).filename) →
    readdirFrom fat n i =
      .ok (((List.range' i n).filter (fun k => !isEmptyName (fat k).filename)).map
        (fun k => cstr (fat k).filename)) := by
  intro n
  induction n with
  | zero => intro i _; rfl
  | succ n ih =>
    intro i h
    have h0 := h i (le_refl _) (by omega)
    rw [readdirFrom, List.range'_succ, List.filter_cons,
      ih (i + 1) (fun k h1 h2 => h k (by omega) (by omega))]
    by_cases he : isEmptyName (fat i).filename = true
    · simp [he]
    · simp [he, mem_bytesFromName h0, cstr_bytesFromName h0]

theorem sampleVolume_nul : NulTerminated sampleVolume.fat := by
  unfold NulTerminated
  decide!

/-- C14 (counterexample). A name field without a zero byte: slot 0 of `unterminatedVolume`
holds the 32 bytes `a...a`, which are the name of the path `/a...a` (32 times `a`), so
the name is stored in a FAT slot; yet `strcmp` reads on into `uid`, the lookup misses in
every slot, and `fuseMknod` returns `-ENAMETOOLONG`, not `-EEXIST`. -/
theorem mknod_unterminated_name :
    (unterminatedVolume.fat 0).filename = (47 :: List.replicate 32 97).drop 1 ∧
    (∃ i, i < 64 ∧
      cstr (unterminatedVolume.fat i).filename = (47 :: List.replicate 32 97).drop 1) ∧
    getFileIndexBytewise unterminatedVolume.fat (47 :: List.replicate 32 97) = .ok (-ENOENT) ∧
    returned (fuseMknodBytewise unterminatedVolume sampleEnv (47 :: List.replicate 32 97) 0o100644)
      = some (-ENAMETOOLONG) :=
  ⟨by decide!, ⟨0, by decide, by decide!⟩, by decide!, by decide!⟩

/-- C14 (amended). Create over an existing name: on a table whose name fields each hold
a zero byte, when some FAT slot holds the name of the path (a C string), `fuseMknod`
returns `-EEXIST` and the FAT, the BLT and the container are unchanged; this is the
result of the call with the lookup spelled out byte by byte as well. -/
theorem fuseMknod_exists (fs : FS) (env : Env) (path : List Nat) (mode : Nat)
    (hnul : NulTerminated fs.fat) (hp : ∀ c ∈ path, c ≠ 0)
    (h : ∃ i, i < 64 ∧ cstr (fs.fat i).filename = path.drop 1) :
    fuseMknod fs env path mode = (-EEXIST, fs) ∧
    fuseMknodBytewise fs env path mode = .ok (-EEXIST, fs) := by
  obtain ⟨i, hi, hname⟩ := h
  have := getFileIndex_found fs.fat path hi hname
  have hm : fuseMknod fs env path mode = (-EEXIST, fs) := by
    unfold fuseMknod
    rw [if_pos (by omega)]
  exact ⟨hm, by rw [fuseMknodBytewise_eq fs env path mode hnul hp, hm]⟩

theorem fuseMknod_exists_witness :
    NulTerminated sampleVolume.fat ∧ (∀ c ∈ [47, 97], c ≠ 0) ∧
    (∃ i, i < 64 ∧ cstr (sampleVolume.fat i).filename = [47, 97].drop 1) ∧
    fuseMknod sampleVolume sampleEnv [47, 97] 420 = (-EEXIST, sampleVolume) ∧
    fuseMknodBytewise sampleVolume sampleEnv [47, 97] 420 = .ok (-EEXIST, sampleVolume) :=
  have h : ∃ i, i < 64 ∧ cstr (sampleVolume.fat i).filename = [47, 97].drop 1 :=
    ⟨0, by decide, by decide!⟩
  ⟨sampleVolume_nul, by decide, h,
    fuseMknod_exists sampleVolume sampleEnv [47, 97] 420 sampleVolume_nul (by decide) h⟩

/-- C19 (counterexample). A name field without a zero byte: the name of the path
`/a...a` followed by the bytes `E8 03` (34 bytes) is in no FAT slot of
`unterminatedVolume`, neither as the 32 bytes of a field nor as the string before the
first zero byte of one; yet `strcmp` reads slot 0 on into `uid = 1000` (`E8 03 00 00`) and
matches, and `fuseUnlink` returns 0 and empties slot 0 instead of returning `-ENOENT`. -/
theorem unlink_unterminated_name :
    (∀ i, i < 64 → cstr (unterminatedVolume.fat i).filename
      ≠ (47 :: (List.replicate 32 97 ++ [232, 3])).drop 1) ∧
    (∀ i, i < 64 → (unterminatedVolume.fat i).filename
      ≠ (47 :: (List.replicate 32 97 ++ [232, 3])).drop 1) ∧
    47 :: (List.replicate 32 97 ++ [232, 3]) ≠ [47] ∧
    getFileIndexBytewise unterminatedVolume.fat (47 :: (List.replicate 32 97 ++ [232, 3]))
      = .ok 0 ∧
    returned (fuseUnlinkBytewise unterminatedVolume sampleEnv
      (47 :: (List.replicate 32 97 ++ [232, 3]))) = some 0 ∧
    isEmptyName (unterminatedVolume.fat 0).filename = false ∧
    isEmptyName ((stateAfter unterminatedVolume (fuseUnlinkBytewise unterminatedVolume sampleEnv
      (47 :: (List.replicate 32 97 ++ [232, 3])))).fat 0).filename = true :=
  ⟨by decide!, by decide!, by decide, by decide!, by decide!, by decide!, by decide!⟩

/-- C19 (amended). Missing file: on a table whose name fields each hold a zero byte, for
every path other than `/` (a C string) whose name is in no FAT slot, the lookup returns
`-ENOENT`, also when spelled out byte by byte, and each of `fuseUnlink`, `fuseRename`
(as the old path), `fuseGetattr`, `fuseChmod`, `fuseChown`, `fuseOpen`, `fuseRead`,
`fuseWrite` and `fuseTruncate` returns `-ENOENT` and leaves the FAT, the BLT and the
container (and the caller's buffers) as they were. -/
theorem missing_file (fs : FS) (env : Env) (path : List Nat)
    (hnul : NulTerminated fs.fat) (hp : ∀ c ∈ path, c ≠ 0)
    (hmiss : ∀ i, i < 64 → cstr (fs.fat i).filename ≠ path.drop 1) (hroot : path ≠ [47]) :
    getFileIndexBytewise fs.fat path = .ok (-ENOENT) ∧
    fuseUnlinkBytewise fs env path = .ok (-ENOENT, fs) ∧
    fuseUnlink fs env path = (-ENOENT, fs) ∧
    (∀ newpath, fuseRename fs env path newpath = (-ENOENT, fs)) ∧
    (∀ st, fuseGetattr fs env path st = (-ENOENT, st, fs)) ∧
    (∀ mode, fuseChmod fs env path mode = (-ENOENT, fs)) ∧
    (∀ uid gid, fuseChown fs env path uid gid = (-ENOENT, fs)) ∧
    (∀ fh, fuseOpen fs env path fh = (-ENOENT, fh, fs)) ∧
    (∀ buf size offset, fuseRead fs env path buf size offset = .ok (-ENOENT, buf, fs)) ∧
    (∀ buf size offset, fuseWrite fs env path buf size offset = .ok (-ENOENT, fs)) ∧
    (∀ newSize, fuseTruncate fs env path newSize = .ok (-ENOENT, fs)) := by
  have h := getFileIndex_missing fs.fat path hmiss
  have hneg : (-ENOENT : Int) < 0 := by decide
  have hu : fuseUnlink fs env path = (-ENOENT, fs) := by
    unfold fuseUnlink; simp only [h, if_pos hneg]
  refine ⟨?_, ?_, hu, ?_, ?_, ?_, ?_, ?_, ?_, ?_, ?_⟩
  · rw [getFileIndexBytewise_eq fs.fat path hnul hp, h]
  · rw [fuseUnlinkBytewise_eq fs env path hnul hp, hu]
  · intro newpath; unfold fuseRename; simp only [h, if_pos hneg]
  · intro st; unfold fuseGetattr; simp only [h, if_pos hneg, if_neg hroot]
  · intro mode; unfold fuseChmod; simp only [h, if_pos hneg]
  · intro uid gid; unfold fuseChown; simp only [h, if_pos hneg]
  · intro fh; unfold fuseOpen; simp only [h, if_pos hneg]
  · intro buf size offset; unfold fuseRead; simp only [h, if_pos hneg]
  · intro buf size offset; unfold fuseWrite; simp only [h, if_pos hneg]
  · intro newSize; unfold fuseTruncate; simp only [h, if_pos hneg]

theorem missing_file_witness :
    NulTerminated sampleVolume.fat ∧ (∀ c ∈ [47, 98], c ≠ 0) ∧
    (∀ i, i < 64 → cstr (sampleVolume.fat i).filename ≠ [47, 98].drop 1) ∧ [47, 98] ≠ [47] ∧
    (getFileIndexBytewise sampleVolume.fat [47, 98] = .ok (-ENOENT) ∧
    fuseUnlinkBytewise sampleVolume sampleEnv [47, 98] = .ok (-ENOENT, sampleVolume) ∧
    fuseUnlink sampleVolume sampleEnv [47, 98] = (-ENOENT, sampleVolume) ∧
    (∀ newpath, fuseRename sampleVolume sampleEnv [47, 98] newpath = (-ENOENT, sampleVolume)) ∧
    (∀ st, fuseGetattr sampleVolume sampleEnv [47, 98] st = (-ENOENT, st, sampleVolume)) ∧
    (∀ mode, fuseChmod sampleVolume sampleEnv [47, 98] mode = (-ENOENT, sampleVolume)) ∧
    (∀ uid gid, fuseChown sampleVolume sampleEnv [47, 98] uid gid = (-ENOENT, sampleVolume)) ∧
    (∀ fh, fuseOpen sampleVolume sampleEnv [47, 98] fh = (-ENOENT, fh, sampleVolume)) ∧
    (∀ buf size offset,
      fuseRead sampleVolume sampleEnv [47, 98] buf size offset = .ok (-ENOENT, buf, sampleVolume)) ∧
    (∀ buf size offset,
      fuseWrite sampleVolume sampleEnv [47, 98] buf size offset = .ok (-ENOENT, sampleVolume)) ∧
    (∀ newSize, fuseTruncate sampleVolume sampleEnv [47, 98] newSize
      = .ok (-ENOENT, sampleVolume))) :=
  have h : ∀ i, i < 64 → cstr (sampleVolume.fat i).filename ≠ [47, 98].drop 1 := by
    intro i _
    rw [sampleVolume_fat]
    split <;> decide
  ⟨sampleVolume_nul, by decide, h, by decide,
    missing_file sampleVolume sampleEnv [47, 98] sampleVolume_nul (by decide) h (by decide)⟩

theorem fuseReaddir_listing (fs : FS) (hnul : NulTerminated fs.fat) :
    fuseReaddir fs [47] = .ok (0, [[46], [46, 46]] ++
      ((List.range 64).filter (fun k => !isEmptyName (fs.fat k).filename)).map
        (fun k => cstr (fs.fat k).filename)) := by
  unfold fuseReaddir
  rw [if_pos rfl, readdirFrom_eq fs.fat TOTAL_FAT_ENTRIES 0
    (fun k _ hk => hnul k (by simpa [TOTAL_FAT_ENTRIES] using hk)), List.range_eq_range']
  rfl

/-- C32 (counterexample). A name field without a zero byte: slot 0 of
`unterminatedVolume` holds the 32 bytes `a...a`; `fuseReaddir` on `/` returns 0 and hands
to `filler`, behind `.` and `..`, a string of 34 bytes, the field run on into `uid`,
which is not the name held by the 32-byte field. -/
theorem readdir_unterminated_name :
    (unterminatedVolume.fat 0).filename = List.replicate 32 97 ∧
    isEmptyName (unterminatedVolume.fat 0).filename = false ∧
    fuseReaddir unterminatedVolume [47]
      = .ok (0, [[46], [46, 46], List.replicate 32 97 ++ [232, 3]]) :=
  ⟨by decide!, by decide!, by decide!⟩

/-- C32 (amended). Directory listing: on a table whose name fields each hold a zero
byte, for every path other than `/`, `fuseReaddir` returns `-ENOTDIR` (after it has
emitted `.` and `..`); for `/` it returns 0 and hands to `filler` exactly `.`, `..` and
then, in ascending slot order and once each, the name of every FAT slot whose 32-byte
name field is not all-zero, and no name of an empty slot. -/
theorem fuseReaddir_spec (fs : FS) (path : List Nat) (hnul : NulTerminated fs.fat) :
    (path ≠ [47] → fuseReaddir fs path = .ok (-ENOTDIR, [[46], [46, 46]])) ∧
    fuseReaddir fs [47] = .ok (0, [[46], [46, 46]] ++
      ((List.range 64).filter (fun k => !isEmptyName (fs.fat k).filename)).map
        (fun k => cstr (fs.fat k).filename)) := by
  constructor
  · intro h
    unfold fuseReaddir
    rw [if_neg h]
  · exact fuseReaddir_listing fs hnul

theorem fuseReaddir_spec_witness :
    NulTerminated sampleVolume.fat ∧
    ([47, 97] ≠ [47] → fuseReaddir sampleVolume [47, 97] = .ok (-ENOTDIR, [[46], [46, 46]])) ∧
    fuseReaddir sampleVolume [47] = .ok (0, [[46], [46, 46]] ++
      ((List.range 64).filter (fun k => !isEmptyName (sampleVolume.fat k).filename)).map
        (fun k => cstr (sampleVolume.fat k).filename)) ∧
    ((List.range 64).filter (fun k => !isEmptyName (sampleVolume.fat k).filename)).map
        (fun k => cstr (sampleVolume.fat k).filename) = [[97]] :=
  ⟨sampleVolume_nul, (fuseReaddir_spec sampleVolume [47, 97] sampleVolume_nul).1,
    (fuseReaddir_spec sampleVolume [47, 97] sampleVolume_nul).2, by decide!⟩

theorem nul_of_cstr_length : ∀ a : List Nat, (cstr a).length < a.length → 0 ∈ a
  | [], h => absurd h (by simp [cstr])
  | c :: cs, h => by
    rw [cstr_cons] at h
    by_cases h0 : c = 0
    · rw [h0]; exact List.mem_cons_self _ _
    · rw [if_neg h0] at h
      simp only [List.length_cons] at h
      exact List.mem_cons_of_mem _ (nul_of_cstr_length cs (by omega))

theorem nameCopy_length (old path : List Nat) : (nameCopy old path).length = 32 := by
  simp [nameCopy, readArr, MAX_NAME_LENGTH]

theorem nameCopy_nul (old path : List Nat) (h1 : 1 ≤ path.length) (h32 : path.length ≤ 32)
    (hn : ∀ c ∈ path, c ≠ 0) : 0 ∈ nameCopy old path := by
  apply nul_of_cstr_length
  rw [nameCopy_cstr old path h1 h32 hn, nameCopy_length, List.length_drop]
  omega

theorem emptyEntry_nul (env : Env) : 0 ∈ (emptyEntry env).filename := by
  show 0 ∈ List.replicate MAX_NAME_LENGTH 0
  decide

theorem nulTerminated_store {fat : Nat → fatEntry} (h : NulTerminated fat) (k : Nat)
    (e : fatEntry) (he : 0 ∈ e.filename) : NulTerminated (store fat k e) := by
  intro i hi
  by_cases hik : i = k
  · rw [hik, store_same]; exact he
  · rw [store_other _ _ hik]; exact h i hi

theorem fuseMknod_nul {fs : FS} (h : NulTerminated fs.fat) (env : Env) (path : List Nat)
    (mode : Nat) (hp : CPath path) : NulTerminated (fuseMknod fs env path mode).2.fat := by
  unfold fuseMknod
  split
  · exact h
  · split
    · exact h
    · split
      · exact h
      · rename_i hlen
        have hl : path.length ≤ 32 := by
          have := hp.2.2
          rw [toI32_of_range (by omega) (by omega)] at hlen
          simp only [MAX_NAME_LENGTH] at hlen
          omega
        exact nulTerminated_store h _ _ (nameCopy_nul _ path hp.length_pos hl hp.2.1)

theorem fuseUnlink_nul {fs : FS} (h : NulTerminated fs.fat) (env : Env) (path : List Nat) :
    NulTerminated (fuseUnlink fs env path).2.fat := by
  rw [fuseUnlink_fat]
  split
  · exact h
  · exact nulTerminated_store h _ _ (emptyEntry_nul env)

theorem fuseRename_nul {fs : FS} (h : NulTerminated fs.fat) (env : Env) (path newpath : List Nat)
    (hq : CPath newpath) : NulTerminated (fuseRename fs env path newpath).2.fat := by
  have h1 : NulTerminated (if getFileIndex fs.fat newpath ≥ 0 then (fuseUnlink fs env newpath).2
      else fs).fat := by
    split
    · exact fuseUnlink_nul h env newpath
    · exact h
  unfold fuseRename
  dsimp only
  split
  · exact h
  · generalize (if getFileIndex fs.fat newpath ≥ 0 then (fuseUnlink fs env newpath).2
        else fs) = fs1 at h1
    split
    · exact h1
    · rename_i hlen
      have hl : newpath.length ≤ 32 := by
        have := hq.2.2
        rw [toI32_of_range (by omega) (by omega)] at hlen
        simp only [MAX_NAME_LENGTH] at hlen
        omega
      exact nulTerminated_store h1 _ _ (nameCopy_nul _ newpath hq.length_pos hl hq.2.1)

theorem step_nul {fs : FS} (h : NulTerminated fs.fat) (env : Env) (op : Op) (hop : NameOp op) :
    ∃ r s, step fs env op = .ok (r, s) ∧ NulTerminated s.fat := by
  cases op with
  | mknod path mode => exact ⟨_, _, rfl, fuseMknod_nul h env path mode hop⟩
  | unlink path => exact ⟨_, _, rfl, fuseUnlink_nul h env path⟩
  | rename path newpath => exact ⟨_, _, rfl, fuseRename_nul h env path newpath hop.2⟩
  | getattr path => exact absurd hop id
  | chmod path mode => exact absurd hop id
  | chown path uid gid => exact absurd hop id
  | fopen path => exact absurd hop id
  | read path size offset => exact absurd hop id
  | write path data offset => exact absurd hop id
  | truncate path newSize => exact absurd hop id
  | remount => exact absurd hop id

theorem run_nul : ∀ (ops : List (Env × Op)) (fs : FS), NulTerminated fs.fat →
    (∀ x ∈ ops, NameOp x.2) → ∃ rs s, run fs ops = .ok (rs, s) ∧ NulTerminated s.fat := by
  intro ops
  induction ops with
  | nil => intro fs h _; exact ⟨[], fs, rfl, h⟩
  | cons x rest ih =>
    intro fs h hops
    obtain ⟨env, op⟩ := x
    obtain ⟨r, s1, hs, h1⟩ := step_nul h env op (hops (env, op) (List.mem_cons_self _ _))
    obtain ⟨rs, s, hr, h2⟩ := ih s1 h1 (fun y hy => hops y (List.mem_cons_of_mem _ hy))
    exact ⟨r :: rs, s, run_cons hs hr, h2⟩

/-- Name fields stay terminated: every finite sequence of create, unlink and rename calls
(paths being C strings that begin with a slash) on the freshly formatted volume runs to
its end, and afterwards every name field of the FAT holds a zero byte. -/
theorem names_terminated (fs0 : FS) (env0 : Env) (ops : List (Env × Op))
    (hops : ∀ x ∈ ops, NameOp x.2) :
    ∃ rs s, run (fuseInit fs0 env0 none) ops = .ok (rs, s) ∧ NulTerminated s.fat := by
  apply run_nul ops _ _ hops
  intro i hi
  rw [(fuseInit_none fs0 env0).1]
  unfold formatFat
  rw [if_pos (by simpa [TOTAL_FAT_ENTRIES] using hi)]
  exact emptyEntry_nul env0

theorem sampleVolume_names : NamesUnique sampleVolume.fat := by
  have hne : ∀ i, i ≠ 0 → cstr (sampleVolume.fat i).filename = [] := by
    intro i hi
    rw [sampleVolume_fat, if_neg hi]
    exact cstr_emptyEntry _
  intro i j _ _ hi hij
  by_cases hi0 : i = 0
  · by_cases hj0 : j = 0
    · rw [hi0, hj0]
    · rw [hne j hj0] at hij
      exact absurd hij hi
  · exact absurd (hne i hi0) hi

/-- Rename to a non-empty name: on a table with unique names whose name fields each hold
a zero byte, a rename of an existing file `old` to a path `new` of a slash and 1 to 31
non-NUL characters returns 0; afterwards the stored name of the slot, read up to its
first zero byte, is the name of `new`, whatever the lengths of the two names;
`getFileIndex new` returns the slot and no other slot carries that name; when the names
differ `getFileIndex old` is `-ENOENT`; `fuseReaddir` lists the slot under the new name
and no slot under the old one. -/
theorem fuseRename_name (fs : FS) (env : Env) (old new : List Nat)
    (hu : NamesUnique fs.fat) (hnul : NulTerminated fs.fat)
    (hex : 0 ≤ getFileIndex fs.fat old) (hold : old.drop 1 ≠ [])
    (hnz : ∀ c ∈ new, c ≠ 0) (h2 : 2 ≤ new.length) (h32 : new.length ≤ 32) :
    (fuseRename fs env old new).1 = 0 ∧
    cstr ((fuseRename fs env old new).2.fat (getFileIndex fs.fat old).toNat).filename
      = new.drop 1 ∧
    getFileIndex (fuseRename fs env old new).2.fat new = getFileIndex fs.fat old ∧
    (∀ k, k < 64 → k ≠ (getFileIndex fs.fat old).toNat →
      cstr ((fuseRename fs env old new).2.fat k).filename ≠ new.drop 1) ∧
    (old.drop 1 ≠ new.drop 1 →
      getFileIndex (fuseRename fs env old new).2.fat old = -ENOENT) ∧
    ∃ names, fuseReaddir (fuseRename fs env old new).2 [47]
        = .ok (0, [[46], [46, 46]] ++ names) ∧
      new.drop 1 ∈ names ∧ (old.drop 1 ≠ new.drop 1 → old.drop 1 ∉ names) := by
  have hneg : ¬ getFileIndex fs.fat old < 0 := not_lt.mpr hex
  have hi := getFileIndex_lt hex
  have hnew : new.drop 1 ≠ [] := by
    intro h
    have := congrArg List.length h
    rw [List.length_drop, List.length_nil] at this
    omega
  have hlen : ¬ toI32 new.length > MAX_NAME_LENGTH := by
    rw [toI32_of_range (by omega) (by omega)]
    simp only [MAX_NAME_LENGTH]
    omega
  have hfree := rename_target_free hu env new hnew
  have hfat1 : ∀ k, (if getFileIndex fs.fat new ≥ 0 then (fuseUnlink fs env new).2
      else fs).fat k = fs.fat k ∨ (if getFileIndex fs.fat new ≥ 0 then (fuseUnlink fs env new).2
      else fs).fat k = emptyEntry env := by
    intro k
    split
    · rw [fuseUnlink_fat]
      split
      · exact Or.inl rfl
      · by_cases hk : k = (getFileIndex fs.fat new).toNat
        · rw [hk, store_same]; exact Or.inr rfl
        · rw [store_other _ _ hk]; exact Or.inl rfl
    · exact Or.inl rfl
  have hret : (fuseRename fs env old new).1 = 0 := by
    unfold fuseRename
    dsimp only
    rw [if_neg hneg, if_neg hlen]
  have hfat : (fuseRename fs env old new).2.fat =
      store (if getFileIndex fs.fat new ≥ 0 then (fuseUnlink fs env new).2 else fs).fat
        (getFileIndex fs.fat old).toNat
        { (if getFileIndex fs.fat new ≥ 0 then (fuseUnlink fs env new).2 else fs).fat
            (getFileIndex fs.fat old).toNat with
          filename := nameCopy ((if getFileIndex fs.fat new ≥ 0 then (fuseUnlink fs env new).2
            else fs).fat (getFileIndex fs.fat old).toNat).filename new
          modTime := env.systemTime, changeTime := env.systemTime } := by
    unfold fuseRename
    dsimp only
    rw [if_neg hneg, if_neg hlen]
  generalize (if getFileIndex fs.fat new ≥ 0 then (fuseUnlink fs env new).2 else fs) = fs1
    at hfree hfat1 hfat
  have hname : cstr ((fuseRename fs env old new).2.fat (getFileIndex fs.fat old).toNat).filename
      = new.drop 1 := by
    rw [hfat, store_same]
    exact nameCopy_cstr _ new (by omega) h32 hnz
  have hother : ∀ k, k < 64 → k ≠ (getFileIndex fs.fat old).toNat →
      cstr ((fuseRename fs env old new).2.fat k).filename ≠ new.drop 1 := by
    intro k hk hne
    rw [hfat, store_other _ _ hne]
    exact hfree k hk
  have holdname : cstr (fs.fat (getFileIndex fs.fat old).toNat).filename = old.drop 1 := by
    rcases getFileIndex_range fs.fat old with h | ⟨-, -, h⟩
    · rw [h] at hex; exact absurd hex (by decide)
    · exact h
  have hgone : old.drop 1 ≠ new.drop 1 → ∀ k, k < 64 →
      cstr ((fuseRename fs env old new).2.fat k).filename ≠ old.drop 1 := by
    intro hdiff k hk
    by_cases hki : k = (getFileIndex fs.fat old).toNat
    · rw [hki, hname]
      exact fun h => hdiff h.symm
    · rw [hfat, store_other _ _ hki]
      rcases hfat1 k with h | h
      · rw [h]
        intro hc
        apply hki
        exact (hu _ _ hi hk (by rw [holdname]; exact hold) (by rw [holdname, hc])).symm
      · rw [h, cstr_emptyEntry]
        exact fun h => hold h.symm
  have hnul2 : NulTerminated (fuseRename fs env old new).2.fat := by
    rw [hfat]
    apply nulTerminated_store
    · intro k hk
      rcases hfat1 k with h | h
      · rw [h]; exact hnul k hk
      · rw [h]; exact emptyEntry_nul env
    · exact nameCopy_nul _ new (by omega) h32 hnz
  refine ⟨hret, hname, ?_, hother, ?_, ?_⟩
  · rw [getFileIndex_first _ new hi hname (fun j hj => hother j (by omega) (by omega))]
    exact Int.toNat_of_nonneg hex
  · intro hdiff
    exact getFileIndex_missing _ old (hgone hdiff)
  · refine ⟨_, fuseReaddir_listing _ hnul2, ?_, ?_⟩
    · rw [List.mem_map]
      refine ⟨(getFileIndex fs.fat old).toNat, ?_, hname⟩
      rw [List.mem_filter, List.mem_range]
      refine ⟨hi, ?_⟩
      have := not_empty_of_cstr (a := ((fuseRename fs env old new).2.fat
        (getFileIndex fs.fat old).toNat).filename) (by rw [hname]; exact hnew)
      simp [this]
    · intro hdiff h
      rw [List.mem_map] at h
      obtain ⟨k, hk, hc⟩ := h
      rw [List.mem_filter, List.mem_range] at hk
      exact hgone hdiff k hk.1 hc

theorem fuseRename_name_witness :
    NamesUnique sampleVolume.fat ∧ 0 ≤ getFileIndex sampleVolume.fat [47, 97] ∧
    (fuseRename sampleVolume sampleEnv [47, 97] [47, 98]).1 = 0 ∧
    getFileIndex (fuseRename sampleVolume sampleEnv [47, 97] [47, 98]).2.fat [47, 98] =
      getFileIndex sampleVolume.fat [47, 97] ∧
    getFileIndex (fuseRename sampleVolume sampleEnv [47, 97] [47, 98]).2.fat [47, 97] = -ENOENT :=
  have h := fuseRename_name sampleVolume sampleEnv [47, 97] [47, 98] sampleVolume_names
    sampleVolume_nul (by decide) (by decide) (by decide) (by decide) (by decide)
  ⟨sampleVolume_names, by decide, h.1, h.2.2.1, h.2.2.2.2.1 (by decide)⟩

theorem run_of_returns {fs : FS} {ops : List (Env × Op)} {rs : List Int}
    (h : runReturns fs ops = some rs) : run fs ops = .ok (rs, runState fs ops) := by
  unfold runReturns at h
  unfold runState
  cases hr : run fs ops with
  | error f => rw [hr] at h; exact absurd h (by simp)
  | ok r =>
    rw [hr] at h
    simp only [Option.some.injEq] at h
    rw [← h]

/-- C12. Name uniqueness is not preserved: the calls `mknod /a`, `mknod /ad`, `mknod /bd`,
`rename /ad /`, `unlink /a`, `rename /bd /` on the freshly formatted volume (all paths
begin with a slash) return 0 each, and afterwards the slots 1 and 2 both hold the name
field `00 64 00 ... 00`, which is not all-zero: two FAT slots with a non-empty name field
hold the same name, and invariant 1 (`Invariants.name_unique`) fails.  A rename to `/`
copies the single NUL of the empty name over the first byte of the field. -/
theorem renames_to_root_collide :
    (∀ x ∈ [(sampleEnv, Op.mknod [47, 97] 420), (sampleEnv, Op.mknod [47, 97, 100] 420),
        (sampleEnv, Op.mknod [47, 98, 100] 420), (sampleEnv, Op.rename [47, 97, 100] [47]),
        (sampleEnv, Op.unlink [47, 97]), (sampleEnv, Op.rename [47, 98, 100] [47])],
      NameOp x.2) ∧
    ∃ s, run (fuseInit blankFS sampleEnv none)
        [(sampleEnv, Op.mknod [47, 97] 420), (sampleEnv, Op.mknod [47, 97, 100] 420),
          (sampleEnv, Op.mknod [47, 98, 100] 420), (sampleEnv, Op.rename [47, 97, 100] [47]),
          (sampleEnv, Op.unlink [47, 97]), (sampleEnv, Op.rename [47, 98, 100] [47])]
        = .ok ([0, 0, 0, 0, 0, 0], s) ∧
      (s.fat 1).filename = 0 :: 100 :: List.replicate 30 0 ∧
      (s.fat 2).filename = 0 :: 100 :: List.replicate 30 0 ∧
      isEmptyName (s.fat 1).filename = false ∧ isEmptyName (s.fat 2).filename = false ∧
      cstr (s.fat 1).filename = cstr (s.fat 2).filename ∧
      ¬ (∀ i j, i < 64 → j < 64 → isEmptyName (s.fat i).filename = false →
        isEmptyName (s.fat j).filename = false →
        cstr (s.fat i).filename = cstr (s.fat j).filename → i = j) := by
  constructor
  · intro x hx
    simp only [List.mem_cons, List.mem_singleton, List.not_mem_nil, or_false] at hx
    rcases hx with rfl | rfl | rfl | rfl | rfl | rfl <;> simp [NameOp, CPath]
  · refine ⟨_, run_of_returns (by decide!), by decide!, by decide!, by decide!, by decide!,
      by decide!, ?_⟩
    intro h
    exact absurd (h 1 2 (by decide) (by decide) (by decide!) (by decide!) (by decide!))
      (by decide)

/-- C35. Lookup matches an empty slot: on the freshly formatted volume, whose 64 slots
are all-zero, `getFileIndex` of the path `/` (the name after the slash is empty) does
not return `-ENOENT` but 0, the index of an empty slot; so `fuseChmod` on `/` returns 0
and sets the mode of the empty slot 0.  The same holds on the table of `blankFS`. -/
theorem lookup_root_matches_empty_slot :
    getFileIndex blankFS.fat [47] = 0 ∧ isEmptyName (blankFS.fat 0).filename = true ∧
    getFileIndex blankFS.fat [47] ≠ -ENOENT ∧
    isEmptyName ((fuseInit blankFS sampleEnv none).fat 0).filename = true ∧
    getFileIndex (fuseInit blankFS sampleEnv none).fat [47] = 0 ∧
    getFileIndexBytewise (fuseInit blankFS sampleEnv none).fat [47] = .ok 0 ∧
    (fuseChmod (fuseInit blankFS sampleEnv none) sampleEnv [47] 0o100777).1 = 0 ∧
    ((fuseChmod (fuseInit blankFS sampleEnv none) sampleEnv [47] 0o100777).2.fat 0).mode
      = 0o100777 ∧
    isEmptyName
      ((fuseChmod (fuseInit blankFS sampleEnv none) sampleEnv [47] 0o100777).2.fat 0).filename
      = true :=
  ⟨by decide, by decide, by decide, by decide!, by decide!, by decide!, by decide!, by decide!,
    by decide!⟩

/-- C36. Rename to `/`: after `mknod /a`, `mknod /ab`, `unlink /a` on the freshly
formatted volume the file `ab` is in slot 1; `fuseRename("/ab", "/")` returns 0 and the
stored name of slot 1, read up to its first zero byte, is the (empty) name of the new
path, yet `getFileIndex("/")` returns slot 0, an all-zero slot, not the slot of the
file.  On the sample volume, `fuseRename("/a", "/")` returns 0 and leaves the name field
of the file all-zero, so `fuseReaddir` emits `.` and `..` only while the slot keeps its
block. -/
theorem rename_to_root_misses_slot :
    getFileIndex (runState (fuseInit blankFS sampleEnv none)
      [(sampleEnv, Op.mknod [47, 97] 420), (sampleEnv, Op.mknod [47, 97, 98] 420),
        (sampleEnv, Op.unlink [47, 97])]).fat [47, 97, 98] = 1 ∧
    (∃ s, run (fuseInit blankFS sampleEnv none)
        [(sampleEnv, Op.mknod [47, 97] 420), (sampleEnv, Op.mknod [47, 97, 98] 420),
          (sampleEnv, Op.unlink [47, 97]), (sampleEnv, Op.rename [47, 97, 98] [47])]
        = .ok ([0, 0, 0, 0], s) ∧
      (s.fat 1).filename = 0 :: 98 :: List.replicate 30 0 ∧
      cstr (s.fat 1).filename = [47].drop 1 ∧
      isEmptyName (s.fat 0).filename = true ∧
      getFileIndex s.fat [47] = 0 ∧ getFileIndex s.fat [47] ≠ 1 ∧
      getFileIndex s.fat [47, 97, 98] = -ENOENT) ∧
    getFileIndex sampleVolume.fat [47, 97] = 0 ∧
    (fuseRename sampleVolume sampleEnv [47, 97] [47]).1 = 0 ∧
    isEmptyName ((fuseRename sampleVolume sampleEnv [47, 97] [47]).2.fat 0).filename = true ∧
    ((fuseRename sampleVolume sampleEnv [47, 97] [47]).2.fat 0).nrBlocks = 1 ∧
    fuseReaddir (fuseRename sampleVolume sampleEnv [47, 97] [47]).2 [47]
      = .ok (0, [[46], [46, 46]]) :=
  ⟨by decide!, ⟨_, run_of_returns (by decide!), by decide!, by decide!, by decide!, by decide!,
    by decide!, by decide!⟩, by decide!, by decide!, by decide!, by decide!, by decide!⟩

/-- C40. The call need not terminate: on the sample volume, which satisfies the
invariants and whose file `/a` has `n = 1` block, the tail walk ends at block 264 after
`n - 1 = 0` steps, but `fuseTruncate("/a", 2^40 + 512)` has no result: the allocation
loop `for (int i = 0; i < nrBlocks - fat[index].nrBlocks; i++)` has the bound `2^31`,
which the `int` counter cannot reach.  The same holds in the state reached by
`mknod /a; truncate /a 5` on a freshly formatted volume. -/
theorem grow_counter_overflows :
    Invariants sampleVolume ∧ getFileIndex sampleVolume.fat [47, 97] = 0 ∧
    (sampleVolume.fat 0).nrBlocks = 1 ∧
    walkToEnd sampleVolume.blt TOTAL_BLT_ENTRIES (sampleVolume.fat 0).startBlock = .ok 264 ∧
    walkToEnd sampleVolume.blt 1 (sampleVolume.fat 0).startBlock = .ok 264 ∧
    (toI64 (1099511628288 + 512 - 1)).tdiv 512 - 1 = 2147483648 ∧
    fault (fuseTruncate sampleVolume sampleEnv [47, 97] 1099511628288)
      = some Fault.overflow ∧
    returned (fuseTruncate sampleVolume sampleEnv [47, 97] 1099511628288) = none ∧
    fault (fuseTruncate unwrittenVolume sampleEnv [47, 97] 1099511628288)
      = some Fault.overflow :=
  ⟨sampleVolume_invariants, by decide!, by decide!, by decide!, by decide!, by decide!,
    by decide!, by decide!, by decide!⟩

theorem writeSeq_append (a b : List (Nat × Bytes)) (dev : BlockDevice) :
    writeSeq (a ++ b) dev = writeSeq b (writeSeq a dev) := by
  unfold writeSeq
  rw [List.foldl_append]

theorem writeSeq_nil (dev : BlockDevice) : writeSeq [] dev = dev := rfl

theorem writeSeq_cons (w : Nat × Bytes) (W : List (Nat × Bytes)) (dev : BlockDevice) :
    writeSeq (w :: W) dev = writeSeq W (dev.write w.1 w.2) := rfl

theorem writeSeq_log : ∀ (W : List (Nat × Bytes)) (dev : BlockDevice),
    (writeSeq W dev).log = dev.log ++ W
  | [], dev => by rw [writeSeq_nil, List.append_nil]
  | w :: W, dev => by
    rw [writeSeq_cons, writeSeq_log W]
    show (dev.log ++ [(w.1, w.2)]) ++ W = dev.log ++ w :: W
    rw [List.append_assoc]
    rfl

theorem writesBetween_writeSeq (W : List (Nat × Bytes)) (dev : BlockDevice) :
    writesBetween dev (writeSeq W dev) = W := by
  unfold writesBetween
  rw [writeSeq_log, List.drop_left]

theorem writeSeq_size_le : ∀ (W : List (Nat × Bytes)) (dev : BlockDevice),
    dev.size ≤ (writeSeq W dev).size
  | [], _ => le_refl _
  | w :: W, dev => by
    rw [writeSeq_cons]
    exact le_trans (le_max_left _ _) (writeSeq_size_le W (dev.write w.1 w.2))

/-- The content of a block after a non-empty sequence of writes to other blocks: what
the container held there, or zero bytes when the block lay behind its end. -/
theorem writeSeq_other : ∀ (W : List (Nat × Bytes)) (dev : BlockDevice) (b : Nat),
    (∀ w ∈ W, w.1 ≠ b) → W ≠ [] →
    (writeSeq W dev).data b = fun j => if b < dev.size then dev.data b j else 0
  | [], _, _, _, h => absurd rfl h
  | w :: W, dev, b, hne, _ => by
    have hw : b ≠ w.1 := fun h => hne w (List.mem_cons_self _ _) h.symm
    have h1 : (dev.write w.1 w.2).data b = fun j => if b < dev.size then dev.data b j else 0 := by
      funext j
      show (if b = w.1 then w.2 j else if b < dev.size then dev.data b j else 0) = _
      rw [if_neg hw]
    rw [writeSeq_cons]
    by_cases hW : W = []
    · rw [hW, writeSeq_nil, h1]
    · rw [writeSeq_other W _ b (fun x hx => hne x (List.mem_cons_of_mem _ hx)) hW, h1]
      funext j
      have hs : dev.size ≤ (dev.write w.1 w.2).size := le_max_left _ _
      by_cases hb : b < dev.size
      · simp only [if_pos (lt_of_lt_of_le hb hs), if_pos hb]
      · simp only [if_neg hb, ite_self]

/-- In a sequence made of writes to blocks from 8 on followed by writes to blocks below
8, each of the former comes before each of the latter. -/
theorem order_of_append (a c : List Nat) (ha : ∀ x ∈ a, 8 ≤ x) (hc : ∀ x ∈ c, x < 8) :
    ∀ i j b f, (a ++ c).get? i = some b → (a ++ c).get? j = some f → 8 ≤ b → f < 8 → i < j := by
  intro i j b f hi hj hb hf
  rw [List.get?_eq_getElem?] at hi hj
  by_contra hle
  have hia : i < a.length := by
    by_contra h
    rw [List.getElem?_append_right (by omega)] at hi
    have := hc b (List.getElem?_mem hi)
    omega
  have hja : ¬ j < a.length := by
    intro h
    rw [List.getElem?_append_left h] at hj
    have := ha f (List.getElem?_mem hj)
    omega
  omega

theorem bltBeforeFat_parts (dev : BlockDevice) (A F : List (Nat × Bytes))
    (hA : ∀ w ∈ A, 8 ≤ w.1) (hF : ∀ w ∈ F, w.1 < 8) :
    BltBeforeFat dev (writeSeq (A ++ F) dev) := by
  unfold BltBeforeFat
  rw [writesBetween_writeSeq]
  refine ⟨rfl, ?_, ?_⟩
  · rw [List.map_append]
    apply order_of_append
    · intro x hx
      obtain ⟨w, hw, rfl⟩ := List.mem_map.mp hx
      exact hA w hw
    · intro x hx
      obtain ⟨w, hw, rfl⟩ := List.mem_map.mp hx
      exact hF w hw
  · rintro k ⟨w, hw, hw8⟩ b hb1 hb2
    rw [List.take_append_eq_append_take] at hw ⊢
    have hwF : w ∈ F.take (k - A.length) := by
      rcases List.mem_append.mp hw with h | h
      · have := hA w (List.mem_of_mem_take h)
        omega
      · exact h
    have hk : A.length ≤ k := by
      by_contra h
      rw [Nat.sub_eq_zero_of_le (by omega), List.take_zero] at hwF
      exact absurd hwF (List.not_mem_nil _)
    rw [List.take_of_length_le hk, writeSeq_append, writeSeq_append,
      writeSeq_other _ _ b (fun x hx => by have := hF x (List.mem_of_mem_take hx); omega)
        (List.ne_nil_of_mem hwF),
      writeSeq_other _ _ b (fun x hx => by have := hF x hx; omega)
        (List.ne_nil_of_mem (List.mem_of_mem_take hwF))]

theorem writeAll_seq (img : Nat → Bytes → Bytes) (g : Nat → Nat) :
    ∀ (L : List Nat) (buf : Bytes), ∃ W : List (Nat × Bytes), W.map Prod.fst = L.map g ∧
      ∀ d : BlockDevice, (L.foldl (fun (st : BlockDevice × Bytes) k =>
        (st.1.write (g k) (img k st.2), img k st.2)) (d, buf)).1 = writeSeq W d := by
  intro L
  induction L with
  | nil => intro buf; exact ⟨[], rfl, fun d => rfl⟩
  | cons k L ih =>
    intro buf
    obtain ⟨W, h1, h2⟩ := ih (img k buf)
    refine ⟨(g k, img k buf) :: W, ?_, ?_⟩
    · rw [List.map_cons, List.map_cons, h1]
    · intro d
      rw [List.foldl_cons, h2, writeSeq_cons]

theorem writeFat_seq (fat : Nat → fatEntry) (buffer : Bytes) :
    ∃ F : List (Nat × Bytes), F.map Prod.fst = List.range 8 ∧
      ∀ d, writeFat fat d buffer = writeSeq F d := by
  obtain ⟨W, h1, h2⟩ := writeAll_seq (fatBlock fat) (fun k => k) (List.range FAT_BLOCKS) buffer
  refine ⟨W, ?_, fun d => by rw [writeFat_eq]; exact h2 d⟩
  rw [h1]
  simp [FAT_BLOCKS]

theorem writeBlt_seq (blt : Nat → Nat) (buffer : Bytes) :
    ∃ A : List (Nat × Bytes), A.map Prod.fst = (List.range 256).map (fun k => k + 8) ∧
      ∀ d, writeBlt blt d buffer = writeSeq A d := by
  obtain ⟨W, h1, h2⟩ := writeAll_seq (bltBlock blt) (fun k => k + FAT_BLOCKS)
    (List.range BLT_BLOCKS) buffer
  refine ⟨W, ?_, fun d => by rw [writeBlt_eq]; exact h2 d⟩
  rw [h1]
  simp [FAT_BLOCKS, BLT_BLOCKS]

theorem mem_fst {W : List (Nat × Bytes)} {w : Nat × Bytes} (h : w ∈ W) :
    w.1 ∈ W.map Prod.fst := List.mem_map.mpr ⟨w, h, rfl⟩

/-- A call that writes the BLT and then the FAT: the writes are the blocks 8..263 in
ascending order followed by the blocks 0..7, and they put the BLT before the FAT. -/
theorem bltBeforeFat_both (fat : Nat → fatEntry) (blt : Nat → Nat) (dev : BlockDevice)
    (heap : Bytes) :
    BltBeforeFat dev (writeFat fat (writeBlt blt dev heap) heap) ∧
    (writesBetween dev (writeFat fat (writeBlt blt dev heap) heap)).map Prod.fst =
      (List.range 256).map (fun k => k + 8) ++ List.range 8 := by
  obtain ⟨F, hF1, hF2⟩ := writeFat_seq fat heap
  obtain ⟨A, hA1, hA2⟩ := writeBlt_seq blt heap
  rw [hF2, hA2, ← writeSeq_append]
  refine ⟨bltBeforeFat_parts dev A F ?_ ?_, ?_⟩
  · intro w hw
    have := mem_fst hw
    rw [hA1, List.mem_map] at this
    obtain ⟨k, -, hk⟩ := this
    omega
  · intro w hw
    have := mem_fst hw
    rw [hF1] at this
    exact List.mem_range.mp this
  · rw [writesBetween_writeSeq, List.map_append, hA1, hF1]

/-- A call that writes the FAT only: the writes are the blocks 0..7. -/
theorem bltBeforeFat_fat (fat : Nat → fatEntry) (dev : BlockDevice) (heap : Bytes) :
    BltBeforeFat dev (writeFat fat dev heap) ∧
    (writesBetween dev (writeFat fat dev heap)).map Prod.fst = List.range 8 := by
  obtain ⟨F, hF1, hF2⟩ := writeFat_seq fat heap
  rw [hF2]
  have h := bltBeforeFat_parts dev [] F (fun w hw => absurd hw (List.not_mem_nil _))
    (fun w hw => by
      have := mem_fst hw
      rw [hF1] at this
      exact List.mem_range.mp this)
  rw [List.nil_append] at h
  exact ⟨h, by rw [writesBetween_writeSeq, hF1]⟩

theorem bltBeforeFat_refl (dev : BlockDevice) : BltBeforeFat dev dev :=
  bltBeforeFat_parts dev [] [] (fun _ hw => absurd hw (List.not_mem_nil _))
    (fun _ hw => absurd hw (List.not_mem_nil _))

theorem fuseUnlink_dev (fs : FS) (env : Env) (path : List Nat)
    (hex : ¬ getFileIndex fs.fat path < 0) :
    (fuseUnlink fs env path).2.blockDevice =
      writeFat (fuseUnlink fs env path).2.fat
        (if (fs.fat (getFileIndex fs.fat path).toNat).nrBlocks > 0 then
          writeBlt (fuseUnlink fs env path).2.blt fs.blockDevice env.heap
        else fs.blockDevice) env.heap := by
  by_cases hnr : (fs.fat (getFileIndex fs.fat path).toNat).nrBlocks > 0
  · simp only [fuseUnlink, if_neg hex, if_pos hnr]
  · simp only [fuseUnlink, if_neg hex, if_neg hnr]

/-- C37. Persistence order: in every call of `fuseUnlink` and every call of
`fuseTruncate` that returns, shrinking or growing, the block writes the call issues on
the container put the BLT before the FAT: each write to a BLT block (8 to 263) is issued
before each write to a FAT block (0 to 7), the container the call leaves is the one it
found with these writes applied in this order, and at every point of the call from the
first FAT write on the BLT region of the container is the one the call leaves, so the
FAT on disk is never newer than the BLT on disk.  A call that writes both tables
(`fuseUnlink` of a file with blocks, `fuseTruncate` that changes the block count) writes
the blocks 8, ..., 263 and then 0, ..., 7. -/
theorem blt_before_fat (fs : FS) (env : Env) (path : List Nat) (newSize : Int) :
    BltBeforeFat fs.blockDevice (fuseUnlink fs env path).2.blockDevice ∧
    (0 ≤ getFileIndex fs.fat path → (fs.fat (getFileIndex fs.fat path).toNat).nrBlocks > 0 →
      (writesBetween fs.blockDevice (fuseUnlink fs env path).2.blockDevice).map Prod.fst =
        (List.range 256).map (fun k => k + 8) ++ List.range 8) ∧
    (∀ r, fuseTruncate fs env path newSize = .ok r →
      BltBeforeFat fs.blockDevice r.2.blockDevice ∧
      (0 ≤ getFileIndex fs.fat path →
        (newSize < (fs.fat (getFileIndex fs.fat path).toNat).size ∧
            ((fs.fat (getFileIndex fs.fat path).toNat).nrBlocks : Int) >
              (toI64 (newSize + 512 - 1)).tdiv 512) ∨
          ((fs.fat (getFileIndex fs.fat path).toNat).size < newSize ∧
            (toI64 (newSize + 512 - 1)).tdiv 512 >
              ((fs.fat (getFileIndex fs.fat path).toNat).nrBlocks : Int)) →
        (writesBetween fs.blockDevice r.2.blockDevice).map Prod.fst =
          (List.range 256).map (fun k => k + 8) ++ List.range 8)) := by
  refine ⟨?_, ?_, ?_⟩
  · by_cases hex : getFileIndex fs.fat path < 0
    · have : (fuseUnlink fs env path).2.blockDevice = fs.blockDevice := by
        simp only [fuseUnlink, if_pos hex]
      rw [this]
      exact bltBeforeFat_refl _
    · rw [fuseUnlink_dev fs env path hex]
      split
      · exact (bltBeforeFat_both _ _ _ _).1
      · exact (bltBeforeFat_fat _ _ _).1
  · intro hex hnr
    rw [fuseUnlink_dev fs env path (not_lt.mpr hex), if_pos hnr]
    exact (bltBeforeFat_both _ _ _ _).2
  · intro r hr
    by_cases hex : getFileIndex fs.fat path < 0
    · have hr2 : r = (getFileIndex fs.fat path, fs) := by
        unfold fuseTruncate at hr
        dsimp only at hr
        rw [if_pos hex] at hr
        exact (Except.ok.inj hr).symm
      rw [hr2]
      exact ⟨bltBeforeFat_refl _, fun h => absurd hex (not_lt.mpr h)⟩
    · by_cases hne : newSize = (fs.fat (getFileIndex fs.fat path).toNat).size
      · have hr2 : r = (0, fs) := by
          unfold fuseTruncate at hr
          dsimp only at hr
          rw [if_neg hex, if_pos hne] at hr
          exact (Except.ok.inj hr).symm
        rw [hr2]
        refine ⟨bltBeforeFat_refl _, fun _ h => ?_⟩
        rcases h with h | h
        · exact absurd hne (ne_of_lt h.1)
        · exact absurd hne.symm (ne_of_lt h.1)
      · rw [fuseTruncate_dev fs env path newSize r hex hne hr]
        constructor
        · split
          · split
            · exact (bltBeforeFat_both _ _ _ _).1
            · exact (bltBeforeFat_fat _ _ _).1
          · split
            · exact (bltBeforeFat_both _ _ _ _).1
            · exact (bltBeforeFat_fat _ _ _).1
        · intro _ h
          rcases h with h | h
          · rw [if_pos h.1, if_pos h.2]
            exact (bltBeforeFat_both _ _ _ _).2
          · rw [if_neg (not_lt.mpr (le_of_lt h.1)), if_pos h.2]
            exact (bltBeforeFat_both _ _ _ _).2

theorem ceil_i64 {n : Nat} (h : (n : Int) < 4611686018427387904) :
    (toI64 ((n : Int) + 512 - 1)).tdiv 512 = (((n + 511) / 512 : Nat) : Int) := by
  rw [toI64_of_range (by omega) (by omega), Int.tdiv_eq_ediv (by omega) (by norm_num)]
  omega

theorem need_arith (n nr : Nat) :
    (((n : Int) + 511) / 512 - (nr : Int)).toNat = (n + 511) / 512 - nr := by
  omega

/-- Termination with a result: on a volume that satisfies the invariants, every
`fuseTruncate` of an existing file to a new size of at least one byte (below `2^62`), with
enough FREE blocks for the blocks it adds, returns 0. -/
theorem fuseTruncate_returns (fs : FS) (env : Env) (path : List Nat) (n : Nat)
    (hinv : Invariants fs) (hex : 0 ≤ getFileIndex fs.fat path) (hn : 1 ≤ n)
    (hbig : (n : Int) < 4611686018427387904)
    (hfree : HasFree fs.blt
      ((n + 511) / 512 - (fs.fat (getFileIndex fs.fat path).toNat).nrBlocks)) :
    ∃ s, fuseTruncate fs env path (n : Int) = .ok (0, s) := by
  have hi := getFileIndex_lt hex
  have hneg : ¬ getFileIndex fs.fat path < 0 := not_lt.mpr hex
  have hnr := (hinv.fat_typed _ hi).nr_lt
  have hsb := hinv.size_blocks _ hi
  have hs0 := hinv.size_nonneg _ hi
  by_cases heq : (n : Int) = (fs.fat (getFileIndex fs.fat path).toNat).size
  · refine ⟨fs, ?_⟩
    unfold fuseTruncate
    dsimp only
    rw [if_neg hneg, if_pos heq]
  · by_cases hlt : (n : Int) < (fs.fat (getFileIndex fs.fat path).toNat).size
    · by_cases hblk : (n + 511) / 512 < (fs.fat (getFileIndex fs.fat path).toNat).nrBlocks
      · obtain ⟨s, -, hs, -⟩ := fuseTruncate_shrink_ex fs env path n hex hn hnr hsb hblk
        exact ⟨s, hs⟩
      · have hle : ¬ ((fs.fat (getFileIndex fs.fat path).toNat).nrBlocks : Int) >
            (((n + 511) / 512 : Nat) : Int) := by
          intro h
          exact hblk (by exact_mod_cast h)
        have hs : truncateShrink fs env (fs.fat (getFileIndex fs.fat path).toNat)
            (((n + 511) / 512 : Nat) : Int) =
            .ok (fs.blt, fs.fat (getFileIndex fs.fat path).toNat, fs.blockDevice) := by
          unfold truncateShrink
          rw [if_neg hle]
        have h : fuseTruncate fs env path (n : Int) = .ok (0,
            { fat := store fs.fat (getFileIndex fs.fat path).toNat
                { fs.fat (getFileIndex fs.fat path).toNat with
                  size := n, modTime := env.systemTime, changeTime := env.systemTime }
              blt := fs.blt
              blockDevice := writeFat (store fs.fat (getFileIndex fs.fat path).toNat
                { fs.fat (getFileIndex fs.fat path).toNat with
                  size := n, modTime := env.systemTime, changeTime := env.systemTime })
                fs.blockDevice env.heap }) := by
          unfold fuseTruncate
          dsimp only
          rw [if_neg hneg, if_neg heq, ceil_i64 hbig, if_pos hlt, hs]
        exact ⟨_, h⟩
    · have hgt : (fs.fat (getFileIndex fs.fat path).toNat).size < (n : Int) :=
        lt_of_le_of_ne (not_lt.mp hlt) (fun h => heq h.symm)
      obtain ⟨blt1, e1, dev1, h, -⟩ := fuseTruncate_grow fs env path (n : Int) hex hs0 hgt hbig hnr
        (hinv.chain_end _ hi) (by rw [need_arith]; exact hfree)
      exact ⟨_, h⟩

theorem fuseTruncate_returns_example :
    ∃ s, fuseTruncate twoBlockVolume sampleEnv [47, 97] ((300 : Nat) : Int) = .ok (0, s) :=
  fuseTruncate_returns twoBlockVolume sampleEnv [47, 97] 300 twoBlockVolume_invariants
    (by decide!) (by decide) (by decide)
    ⟨[], List.nodup_nil, Nat.zero_le _, fun b hb => absurd hb (List.not_mem_nil _)⟩

/-- The tail walk by itself: in every state that satisfies the invariants, for every file
with `n >= 1` blocks, the loop of `fuseTruncate` that follows the BLT successors from the
start block until it meets `BLT_EOF` ends at the last block of the chain; `n` tests of
the loop condition, that is `n - 1` steps, are enough and `n - 1` tests are not. -/
theorem tail_walk_terminates (fs : FS) (hinv : Invariants fs) (i : Nat) (hi : i < 64)
    (hn : 1 ≤ (fs.fat i).nrBlocks) :
    ∃ last, (chainOf fs i).getLast? = some last ∧
      walkToEnd fs.blt TOTAL_BLT_ENTRIES (fs.fat i).startBlock = .ok last ∧
      walkToEnd fs.blt (fs.fat i).nrBlocks (fs.fat i).startBlock = .ok last ∧
      walkToEnd fs.blt ((fs.fat i).nrBlocks - 1) (fs.fat i).startBlock = .error .diverges := by
  obtain ⟨last, h1, -, h3, h4⟩ := walk_of_invariants hinv hi hn
  have hnr := (hinv.fat_typed _ hi).nr_lt
  have hw := h3 TOTAL_BLT_ENTRIES (by simp only [TOTAL_BLT_ENTRIES]; omega)
  exact ⟨last, h1, hw, h3 _ (le_refl _), h4⟩

theorem tail_walk_terminates_witness :
    Invariants twoBlockVolume ∧ 1 ≤ (twoBlockVolume.fat 0).nrBlocks ∧
    ∃ last, (chainOf twoBlockVolume 0).getLast? = some last ∧
      walkToEnd twoBlockVolume.blt TOTAL_BLT_ENTRIES (twoBlockVolume.fat 0).startBlock
        = .ok last ∧
      walkToEnd twoBlockVolume.blt (twoBlockVolume.fat 0).nrBlocks
        (twoBlockVolume.fat 0).startBlock = .ok last ∧
      walkToEnd twoBlockVolume.blt ((twoBlockVolume.fat 0).nrBlocks - 1)
        (twoBlockVolume.fat 0).startBlock = .error .diverges :=
  ⟨twoBlockVolume_invariants, by decide!,
    tail_walk_terminates twoBlockVolume twoBlockVolume_invariants 0 (by decide) (by decide!)⟩

end MyOnDiskFS
